import Mathlib

/-!
The A* search `astar.Find`: an embedding of `algorithm.go`, of the problem spaces of
`algorithm_test.go` and of the grid adjacency of `cmd/astar/display.go`.

Modelling conventions.

* Labels are Go `int`s, embedded as `Int`.
* Costs and estimates are `float64` in the source.  In `Find` and the functions it
  calls they are embedded as exact integers (`Int`) with exact sums;
  `math.MaxFloat64` is the integer `2^1024 - 2^971`.  `Find64` and the functions it
  calls repeat the definitions that add or compare costs, with the rounding, the
  infinities and the `NaN` of `float64`; the theorem `Find64_eq_Find` shows that the
  two agree where every sum is exact.
* A Go `map[int]float64` is embedded as the list of its entries.  The order in
  which a `range` loop enumerates a map is unspecified and may differ from one
  loop to the next, so `Find` takes an enumeration `ord`: the `n`-th expansion
  ranges over `ord n entries`.
* A `*point` is embedded as the label of the point: `Find` makes exactly one
  point per label and stores it in `known`, so the label is the identity of the
  pointer and the registry `known` is the heap memory holding the points.
* The two unbounded loops (`for open.Len() > 0` in `Find`, `for ok` in `route`)
  take a fuel argument; `none` means the fuel ran out, `some []` is Go's `nil`.
* The functions of the namespace `heap` are those of Go's standard package
  `container/heap`, which `Find` calls on its `minheap`.
-/

namespace Astar

/-- The constant `math.MaxFloat64`, which is the integer `(2^53 - 1) * 2^971`. -/
def MaxFloat64 : Int :=
  179769313486231570814527423731704356798070567525844996598917476803157260780028538760589558632766878171540458953514382464234321326889464182768467546703537516986049910576551282076245490090389328944075868508455133942304583236903222948165808559332123348274797826204144723168738177180919299881250404026184124858368

/-- The problem space `astar.Interface`.  `Adjacent` returns the entries of the
map together with a flag that is `true` when the returned `error` is not `nil`.
The `float64` costs and estimates are held as `Int` (for `Find64`: with the codes of
the namespace `F64` for the infinities and `NaN`). -/
structure Interface where
  Adjacent : Int → List (Int × Int) × Bool
  Estimate : Int → Int → Int

/-- The struct `point`, its `float64` fields `cost` and `estimate` held as `Int`. -/
structure point where
  label : Int
  index : Int
  cost : Int
  estimate : Int
deriving DecidableEq, Repr

/-- The local state of `Find`: the open set (`minheap`, a slice of pointers, here
labels), the registry `known`, the `predecessor` map, and a ghost trace `pops`
of the labels popped so far (not in the source). -/
structure Search where
  openset : List Int
  known : Int → Option point
  predecessor : Int → Option Int
  pops : List Int

/-- Assignment `m[k] = v` on a map. -/
def mapSet {β : Type} (m : Int → Option β) (k : Int) (v : β) : Int → Option β :=
  fun x => if x = k then some v else m x

/-- Assignment `p.index = i` through the pointer with label `l`. -/
def setIndex (known : Int → Option point) (l : Int) (i : Int) : Int → Option point :=
  fun x => if x = l then (known l).map (fun p => { p with index := i }) else known x

/-- Assignments `p.cost = c` and `p.estimate = e` through the pointer with label `l`. -/
def setCost (known : Int → Option point) (l : Int) (c e : Int) : Int → Option point :=
  fun x => if x = l then (known l).map (fun p => { p with cost := c, estimate := e }) else known x

/-- Field read `p.estimate` through the pointer with label `l`. -/
def estimateOf (known : Int → Option point) (l : Int) : Int :=
  match known l with
  | some p => p.estimate
  | none => 0

/-- Field read `p.cost` through the pointer with label `l`. -/
def costOf (known : Int → Option point) (l : Int) : Int :=
  match known l with
  | some p => p.cost
  | none => 0

/-- Field read `p.index` through the pointer with label `l`. -/
def indexOf (known : Int → Option point) (l : Int) : Int :=
  match known l with
  | some p => p.index
  | none => 0

namespace minheap

/-- Method `minheap.Len`. -/
def Len (s : Search) : Nat := s.openset.length

/-- Method `minheap.Less`: `h[i].estimate < h[j].estimate`, on estimates that are
numbers; `Less64` is the method with the `float64` comparison, `NaN` included. -/
def Less (s : Search) (i j : Nat) : Bool :=
  decide (estimateOf s.known (s.openset.getD i 0) < estimateOf s.known (s.openset.getD j 0))

/-- Method `minheap.Swap`: exchange the two slots, then write the two back-pointers. -/
def Swap (s : Search) (i j : Nat) : Search :=
  let li := s.openset.getD i 0
  let lj := s.openset.getD j 0
  let o := (s.openset.set i lj).set j li
  { s with openset := o, known := setIndex (setIndex s.known lj i) li j }

/-- Method `minheap.Push`: `p.index = len(*h)`, then append. -/
def Push (s : Search) (l : Int) : Search :=
  { s with openset := s.openset ++ [l], known := setIndex s.known l s.openset.length }

/-- Method `minheap.Pop`: remove the last slot, set its `index` to `-1`, return it. -/
def Pop (s : Search) : Search × Int :=
  let n := s.openset.length - 1
  let l := s.openset.getD n 0
  ({ s with openset := s.openset.take n, known := setIndex s.known l (-1) }, l)

end minheap

namespace heap

/-- The loop of `container/heap.up`; it runs at most `j + 1` times since `j`
strictly decreases, which is the fuel given by `up`. -/
def upLoop : Nat → Search → Nat → Search
  | 0, s, _ => s
  | fuel + 1, s, j =>
    if (j - 1) / 2 = j ∨ ¬ minheap.Less s j ((j - 1) / 2) then s
    else upLoop fuel (minheap.Swap s ((j - 1) / 2) j) ((j - 1) / 2)

/-- Function `container/heap.up`. -/
def up (s : Search) (j : Nat) : Search := upLoop (j + 1) s j

/-- The child `j` that `container/heap.down` compares with slot `i`: the right
child `j2 = j1 + 1` when it is below `n` and less than the left child `j1 = 2*i + 1`. -/
def child (s : Search) (i n : Nat) : Nat :=
  if 2 * i + 1 + 1 < n ∧ minheap.Less s (2 * i + 1 + 1) (2 * i + 1) then 2 * i + 1 + 1
  else 2 * i + 1

/-- The loop of `container/heap.down`, returning the heap and the final `i`; it
runs at most `n` times since `i` strictly increases below `n`.  The source also
leaves the loop when `j1 < 0`, which only happens after an `int` overflow of
`2*i + 1` and is not modelled. -/
def downLoop : Nat → Search → Nat → Nat → Search × Nat
  | 0, s, i, _ => (s, i)
  | fuel + 1, s, i, n =>
    if n ≤ 2 * i + 1 then (s, i)
    else if ¬ minheap.Less s (child s i n) i then (s, i)
    else downLoop fuel (minheap.Swap s i (child s i n)) (child s i n) n

/-- Function `container/heap.down`: returns the heap and `i > i0`. -/
def down (s : Search) (i0 n : Nat) : Search × Bool :=
  let r := downLoop n s i0 n
  (r.1, decide (i0 < r.2))

/-- Function `container/heap.Init`: `down(h, i, n)` for `i` from `n/2 - 1` down to `0`. -/
def Init (s : Search) : Search :=
  (List.range (minheap.Len s / 2)).reverse.foldl (fun t i => (down t i (minheap.Len s)).1) s

/-- Function `container/heap.Push`. -/
def Push (s : Search) (l : Int) : Search :=
  let s1 := minheap.Push s l
  up s1 (minheap.Len s1 - 1)

/-- Function `container/heap.Pop`. -/
def Pop (s : Search) : Search × Int :=
  let n := minheap.Len s - 1
  let s1 := minheap.Swap s 0 n
  let s2 := (down s1 0 n).1
  minheap.Pop s2

/-- Function `container/heap.Fix`. -/
def Fix (s : Search) (i : Nat) : Search :=
  let r := down s i (minheap.Len s)
  if r.2 then r.1 else up r.1 i

end heap

/-- The first loop of `route`: follow `predecessor` from the goal, appending. -/
def unwind (predecessor : Int → Option Int) : Nat → List Int → Option Int → Option (List Int)
  | _, backwards, none => some backwards
  | 0, _, some _ => none
  | fuel + 1, backwards, some label =>
    unwind predecessor fuel (backwards ++ [label]) (predecessor label)

/-- The second loop of `route`: `forwards[i] = backwards[len - 1 - i]`. -/
def forwards (backwards : List Int) : List Int :=
  (List.range backwards.length).map (fun i => backwards.getD (backwards.length - 1 - i) 0)

/-- Function `route`. -/
def route (fuel : Nat) (goal : Int) (predecessor : Int → Option Int) : Option (List Int) :=
  (unwind predecessor fuel [goal] (predecessor goal)).map forwards

/-- The lookup `p, ok := known[k]` of `Find` with the creation of the point when
`!ok`: `p = &point{label: k, index: -1, cost: math.MaxFloat64}; known[k] = p`. -/
def register (s : Search) (k : Int) : Search :=
  match s.known k with
  | some _ => s
  | none => { s with known := mapSet s.known k ⟨k, -1, MaxFloat64, 0⟩ }

/-- The three assignments of `Find` when `cost < p.cost`: `predecessor[k] =
current.label`, `p.cost = cost`, `p.estimate = p.cost + problem.Estimate(k, goal)`,
the sum taken exactly; `improve64` has the `float64` sum. -/
def improve (P : Interface) (goal current : Int) (s : Search) (k : Int) (cost : Int) : Search :=
  { s with
    predecessor := mapSet s.predecessor k current
    known := setCost s.known k cost (cost + P.Estimate k goal) }

/-- The body of `for k, v := range adjacent` in `Find`, for the entry `kv`;
`current` is the label of the point being expanded.  The sum `v + current.cost` is
taken exactly; `relax64` has the `float64` sum and comparison. -/
def relax (P : Interface) (goal current : Int) (s : Search) (kv : Int × Int) : Search :=
  let s1 := register s kv.1
  let cost := kv.2 + costOf s1.known current
  if cost < costOf s1.known kv.1 then
    let s2 := improve P goal current s1 kv.1 cost
    if indexOf s2.known kv.1 = -1 then heap.Push s2 kv.1
    else heap.Fix s2 (indexOf s2.known kv.1).toNat
  else s1

/-- One iteration of `for open.Len() > 0` in `Find` that does not return:
the state after popping `current ≠ goal` and relaxing its neighbours. -/
def expand (ord : Nat → List (Int × Int) → List (Int × Int)) (P : Interface) (goal : Int)
    (s : Search) : Search :=
  let r := heap.Pop s
  let s1 : Search := { r.1 with pops := r.1.pops ++ [r.2] }
  (ord s.pops.length (P.Adjacent r.2).1).foldl (relax P goal r.2) s1

/-- The loop `for open.Len() > 0` of `Find` with the two `return`s. -/
def loop (ord : Nat → List (Int × Int) → List (Int × Int)) (P : Interface) (goal : Int)
    (rfuel : Nat) : Nat → Search → Option (List Int)
  | 0, _ => none
  | fuel + 1, s =>
    if 0 < minheap.Len s then
      if (heap.Pop s).2 = goal then route rfuel goal (heap.Pop s).1.predecessor
      else loop ord P goal rfuel fuel (expand ord P goal s)
    else some []

/-- The state of `Find` when it enters the loop: `open` made empty and passed to
`heap.Init`, `known[start] = startPoint` with `startPoint` the point of label `start`,
`index` 0 (the zero value), cost 0 and estimate `Estimate(start, goal)`, an empty
`predecessor`, then `heap.Push(&open, startPoint)`. -/
def start (P : Interface) (start goal : Int) : Search :=
  heap.Push
    { heap.Init { openset := [], known := fun _ => none, predecessor := fun _ => none,
                  pops := [] } with
      known := mapSet (fun _ => none) start ⟨start, 0, 0, P.Estimate start goal⟩ }
    start

/-- Function `Find`. -/
def Find (ord : Nat → List (Int × Int) → List (Int × Int)) (fuel : Nat) (P : Interface)
    (start goal : Int) : Option (List Int) :=
  loop ord P goal fuel fuel (Astar.start P start goal)

/-! ### The same program with `float64` arithmetic

The definitions above add and compare costs as exact integers.  The definitions
of this section repeat those that add or compare costs, with the arithmetic of
`float64`.  A `float64` value is held as an `Int`: a finite value that is a whole
number as itself, `+Inf` as `2^1024`, `-Inf` as `-2^1024`, and `NaN` as any integer
outside these two.  Values with a fractional part are not modelled. -/

namespace F64

/-- The code of `+Inf`: the integer `2^1024`, the first power of two that is not a
finite `float64`. -/
def inf : Int :=
  179769313486231590772930519078902473361797697894230657273430081157732675805500963132708477322407536021120113879871393357658789768814416622492847430639474124377767893424865485276302219601246094119453082952085005768838150682342462881473913110540827237163350510684586298239947245938479716304835356329624224137216

/-- The code used for a `NaN` that an operation produces. -/
def nan : Int := inf + 1

/-- The value is a `NaN`. -/
def isNaN (a : Int) : Bool := decide (a < -inf) || decide (inf < a)

/-- The number of low bits of `a` that do not fit in the 53 bits of a `float64`
significand. -/
def excess : Nat → Nat → Nat
  | 0, _ => 0
  | fuel + 1, a => if a < 2 ^ 53 then 0 else excess fuel (a / 2) + 1

/-- Rounding of a natural number to 53 significant bits, to nearest, ties to the
even significand. -/
def roundNat (a : Nat) : Nat :=
  let e := excess a a
  if e = 0 then a
  else
    let q := a / 2 ^ e
    let r := a % 2 ^ e
    if 2 ^ (e - 1) < r ∨ (r = 2 ^ (e - 1) ∧ q % 2 = 1) then (q + 1) * 2 ^ e else q * 2 ^ e

/-- Rounding of an exact whole-number result to `float64`: to nearest, ties to
even, and to an infinity when the rounded magnitude reaches `2^1024`. -/
def round (x : Int) : Int :=
  let m : Int := (roundNat x.natAbs : Nat)
  let y := if inf ≤ m then inf else m
  if x < 0 then -y else y

/-- The `float64` sum `a + b`. -/
def add (a b : Int) : Int :=
  if isNaN a || isNaN b then nan
  else if a = inf then (if b = -inf then nan else inf)
  else if a = -inf then (if b = inf then nan else -inf)
  else if b = inf ∨ b = -inf then b
  else round (a + b)

/-- The `float64` comparison `a < b`, false when either side is a `NaN`. -/
def lt (a b : Int) : Bool := !isNaN a && !isNaN b && decide (a < b)

/-- The `float64` comparison `a <= b`, false when either side is a `NaN`. -/
def le (a b : Int) : Bool := !isNaN a && !isNaN b && decide (a ≤ b)

end F64

namespace minheap

/-- Method `minheap.Less` with the `float64` comparison. -/
def Less64 (s : Search) (i j : Nat) : Bool :=
  F64.lt (estimateOf s.known (s.openset.getD i 0)) (estimateOf s.known (s.openset.getD j 0))

end minheap

namespace heap

/-- The loop of `container/heap.up`, on `minheap.Less64`. -/
def upLoop64 : Nat → Search → Nat → Search
  | 0, s, _ => s
  | fuel + 1, s, j =>
    if (j - 1) / 2 = j ∨ ¬ minheap.Less64 s j ((j - 1) / 2) then s
    else upLoop64 fuel (minheap.Swap s ((j - 1) / 2) j) ((j - 1) / 2)

/-- Function `container/heap.up`, on `minheap.Less64`. -/
def up64 (s : Search) (j : Nat) : Search := upLoop64 (j + 1) s j

/-- The child that `container/heap.down` compares with slot `i`, on `minheap.Less64`. -/
def child64 (s : Search) (i n : Nat) : Nat :=
  if 2 * i + 1 + 1 < n ∧ minheap.Less64 s (2 * i + 1 + 1) (2 * i + 1) then 2 * i + 1 + 1
  else 2 * i + 1

/-- The loop of `container/heap.down`, on `minheap.Less64`. -/
def downLoop64 : Nat → Search → Nat → Nat → Search × Nat
  | 0, s, i, _ => (s, i)
  | fuel + 1, s, i, n =>
    if n ≤ 2 * i + 1 then (s, i)
    else if ¬ minheap.Less64 s (child64 s i n) i then (s, i)
    else downLoop64 fuel (minheap.Swap s i (child64 s i n)) (child64 s i n) n

/-- Function `container/heap.down`, on `minheap.Less64`. -/
def down64 (s : Search) (i0 n : Nat) : Search × Bool :=
  let r := downLoop64 n s i0 n
  (r.1, decide (i0 < r.2))

/-- Function `container/heap.Init`, on `minheap.Less64`. -/
def Init64 (s : Search) : Search :=
  (List.range (minheap.Len s / 2)).reverse.foldl (fun t i => (down64 t i (minheap.Len s)).1) s

/-- Function `container/heap.Push`, on `minheap.Less64`. -/
def Push64 (s : Search) (l : Int) : Search :=
  let s1 := minheap.Push s l
  up64 s1 (minheap.Len s1 - 1)

/-- Function `container/heap.Pop`, on `minheap.Less64`. -/
def Pop64 (s : Search) : Search × Int :=
  let n := minheap.Len s - 1
  let s1 := minheap.Swap s 0 n
  let s2 := (down64 s1 0 n).1
  minheap.Pop s2

/-- Function `container/heap.Fix`, on `minheap.Less64`. -/
def Fix64 (s : Search) (i : Nat) : Search :=
  let r := down64 s i (minheap.Len s)
  if r.2 then r.1 else up64 r.1 i

end heap

/-- The three assignments of `Find` when `cost < p.cost`, the estimate being the
`float64` sum `p.cost + problem.Estimate(k, goal)`. -/
def improve64 (P : Interface) (goal current : Int) (s : Search) (k : Int) (cost : Int) :
    Search :=
  { s with
    predecessor := mapSet s.predecessor k current
    known := setCost s.known k cost (F64.add cost (P.Estimate k goal)) }

/-- The body of `for k, v := range adjacent` in `Find`, with the `float64` sum
`v + current.cost` and the `float64` comparison `cost < p.cost`. -/
def relax64 (P : Interface) (goal current : Int) (s : Search) (kv : Int × Int) : Search :=
  let s1 := register s kv.1
  let cost := F64.add kv.2 (costOf s1.known current)
  if F64.lt cost (costOf s1.known kv.1) then
    let s2 := improve64 P goal current s1 kv.1 cost
    if indexOf s2.known kv.1 = -1 then heap.Push64 s2 kv.1
    else heap.Fix64 s2 (indexOf s2.known kv.1).toNat
  else s1

/-- One iteration of `for open.Len() > 0` in `Find` that does not return, with
`float64` arithmetic. -/
def expand64 (ord : Nat → List (Int × Int) → List (Int × Int)) (P : Interface) (goal : Int)
    (s : Search) : Search :=
  let r := heap.Pop64 s
  let s1 : Search := { r.1 with pops := r.1.pops ++ [r.2] }
  (ord s.pops.length (P.Adjacent r.2).1).foldl (relax64 P goal r.2) s1

/-- The loop `for open.Len() > 0` of `Find` with the two `return`s, with `float64`
arithmetic. -/
def loop64 (ord : Nat → List (Int × Int) → List (Int × Int)) (P : Interface) (goal : Int)
    (rfuel : Nat) : Nat → Search → Option (List Int)
  | 0, _ => none
  | fuel + 1, s =>
    if 0 < minheap.Len s then
      if (heap.Pop64 s).2 = goal then route rfuel goal (heap.Pop64 s).1.predecessor
      else loop64 ord P goal rfuel fuel (expand64 ord P goal s)
    else some []

/-- The state of `Find` when it enters the loop, with `float64` arithmetic. -/
def start64 (P : Interface) (start goal : Int) : Search :=
  heap.Push64
    { heap.Init64 { openset := [], known := fun _ => none, predecessor := fun _ => none,
                    pops := [] } with
      known := mapSet (fun _ => none) start ⟨start, 0, 0, P.Estimate start goal⟩ }
    start

/-- Function `Find` with `float64` arithmetic. -/
def Find64 (ord : Nat → List (Int × Int) → List (Int × Int)) (fuel : Nat) (P : Interface)
    (start goal : Int) : Option (List Int) :=
  loop64 ord P goal fuel fuel (start64 P start goal)

/-! ### The problem spaces of `algorithm_test.go` -/

/-- The test type `square` with `size` and `points`. -/
structure square where
  size : Int
  points : Int → Int → Int

namespace square

/-- Method `square.coordinates`. -/
def coordinates (s : square) (label : Int) : Int × Int :=
  let r := Int.tdiv label s.size
  (r, label - r * s.size)

/-- Method `square.contains`. -/
def contains (s : square) (x : Int) : Bool := decide (0 ≤ x) && decide (x < s.size)

/-- Method `square.label`. -/
def label (s : square) (r c : Int) : Int := c + r * s.size

/-- Method `square.put`. -/
def put (s : square) (label : Int) (value : Int) : square :=
  let rc := s.coordinates label
  { s with points := fun r c => if r = rc.1 ∧ c = rc.2 then value else s.points r c }

/-- Method `square.Adjacent`, entries in the order in which the two loops insert them. -/
def Adjacent (s : square) (label : Int) : List (Int × Int) :=
  let rc := s.coordinates label
  ([-1, 0, 1] : List Int).flatMap fun dr =>
    let nr := rc.1 + dr
    if ¬ s.contains nr then []
    else
      ([-1, 0, 1] : List Int).flatMap fun dc =>
        let nc := rc.2 + dc
        if ¬ s.contains nc then []
        else if rc.1 = nr ∧ rc.2 = nc then []
        else [(s.label nr nc, s.points nr nc)]

/-- Method `square.Estimate`: the Manhattan distance. -/
def Estimate (s : square) (src dst : Int) : Int :=
  let f := s.coordinates src
  let t := s.coordinates dst
  |t.1 - f.1| + |t.2 - f.2|

/-- The `square` as an `Interface` (the test's `Adjacent` returns no error). -/
def problem (s : square) : Interface :=
  { Adjacent := fun l => (s.Adjacent l, false), Estimate := s.Estimate }

end square

/-- Function `newSquare`: all points have value `0`. -/
def newSquare (size : Int) : square := { size := size, points := fun _ _ => 0 }

/-! ### The test type `graph` of `algorithm_test.go` -/

/-- The assignment `m[k] = v` on a Go map held as a list of entries: the entry of
an existing key is overwritten, a new key gets a new entry. -/
def mapPut {β : Type} (m : List (Int × β)) (k : Int) (v : β) : List (Int × β) :=
  if (m.lookup k).isSome then m.map (fun e => if e.1 = k then (k, v) else e)
  else m ++ [(k, v)]

/-- The constant `directed`. -/
def directed : Int := 0

/-- The constant `undirected`. -/
def undirected : Int := 1

/-- The test type `graph` with `kind` and `adjacency`. -/
structure graph where
  kind : Int
  adjacency : List (Int × List (Int × Int))

/-- Function `newGraph` (its error result is always `nil`). -/
def newGraph (kind : Int) : graph := { kind := kind, adjacency := [] }

namespace graph

/-- Method `graph.edge`: the vertex map of `i` is created if missing and gets
`vertex[j] = cost`; the vertex map of `j` is created if missing and, in an
undirected graph, gets `vertex[i] = cost`. -/
def edge (g : graph) (i j cost : Int) : graph :=
  let a1 := mapPut g.adjacency i (mapPut ((g.adjacency.lookup i).getD []) j cost)
  let vj := (a1.lookup j).getD []
  { g with adjacency := mapPut a1 j (if g.kind = undirected then mapPut vj i cost else vj) }

/-- Method `graph.Adjacent`: `g.adjacency[i]`, the nil map for a missing vertex. -/
def Adjacent (g : graph) (i : Int) : List (Int × Int) := (g.adjacency.lookup i).getD []

/-- Method `graph.Estimate`: constantly 1. -/
def Estimate (_g : graph) (_i _j : Int) : Int := 1

/-- The `graph` as an `Interface` (the test's `Adjacent` returns no error). -/
def problem (g : graph) : Interface :=
  { Adjacent := fun i => (g.Adjacent i, false), Estimate := g.Estimate }

end graph

/-! ### The grid of the demo program, `cmd/astar/display.go` -/

namespace demo

/-- The type `Display`, with the one field that the adjacency reads. -/
structure Display where
  side : Int

/-- Method `Display.indexToColumnRow`: `i % d.side, i / d.side`. -/
def Display.indexToColumnRow (d : Display) (i : Int) : Int × Int :=
  (Int.tmod i d.side, Int.tdiv i d.side)

/-- Method `Display.columnRowToIndex`: `r*d.side + c`. -/
def Display.columnRowToIndex (d : Display) (c r : Int) : Int := r * d.side + c

/-- The type `Search` of the demo, with the one field that `adjacent` reads. -/
structure Search where
  display : Display

/-- The body of the inner loop of `Search.adjacent`, for the row `rx` and the column
`cx`: the two `continue` tests of the inner loop in the order of the source (the
second is `rx == 0 && cx == 0`), then `adj[ix] = 0.0`. -/
def Search.cell (s : Search) (rx : Int) (adj : List (Int × Int)) (cx : Int) :
    List (Int × Int) :=
  if cx < 0 ∨ cx ≥ s.display.side then adj
  else if rx = 0 ∧ cx = 0 then adj
  else mapPut adj (s.display.columnRowToIndex cx rx) 0

/-- The body of the outer loop of `Search.adjacent`, for the row `rx`, the cell being
in the column `c`: the `continue` test on the row, then the inner loop over `cx`
from `c - 1` to `c + 1`. -/
def Search.row (s : Search) (c : Int) (adj : List (Int × Int)) (rx : Int) :
    List (Int × Int) :=
  if rx < 0 ∨ rx ≥ s.display.side then adj
  else ([c - 1, c, c + 1] : List Int).foldl (s.cell rx) adj

/-- Method `Search.adjacent`: from the empty map, the outer loop over `rx` from
`r - 1` to `r + 1`, with `c, r` the column and row of the cell `i`. -/
def Search.adjacent (s : Search) (i : Int) : List (Int × Int) :=
  let cr := s.display.indexToColumnRow i
  ([cr.2 - 1, cr.2, cr.2 + 1] : List Int).foldl (s.row cr.1) []

end demo


/-! ### Notions used in the statements -/

/-- The label `l` has a point in the registry. -/
def IsKnown (known : Int → Option point) (l : Int) : Prop := (known l).isSome = true

instance (known : Int → Option point) (l : Int) : Decidable (IsKnown known l) := by
  unfold IsKnown; infer_instance

/-- The open set has no label twice, every point in slot `i` has `index = i`, and
every known point outside the open set has `index = -1`. -/
structure IdxInv (s : Search) : Prop where
  inj : ∀ (i j : Nat) (l : Int), s.openset[i]? = some l → s.openset[j]? = some l → i = j
  back : ∀ (i : Nat) (l : Int), s.openset[i]? = some l → IsKnown s.known l ∧ indexOf s.known l = (i : Int)
  closed : ∀ l : Int, IsKnown s.known l → l ∉ s.openset → indexOf s.known l = -1

/-- The state `t` holds the same points as `s` with the same costs and estimates,
the same labels in the open set, and the same predecessor map and trace: only the
order of the slots and the `index` fields may differ. -/
structure SameData (s t : Search) : Prop where
  len : t.openset.length = s.openset.length
  mem : ∀ l : Int, l ∈ t.openset ↔ l ∈ s.openset
  known : ∀ l : Int, IsKnown t.known l ↔ IsKnown s.known l
  cost : ∀ l : Int, costOf t.known l = costOf s.known l
  est : ∀ l : Int, estimateOf t.known l = estimateOf s.known l
  pred : t.predecessor = s.predecessor
  pops : t.pops = s.pops

/-- What `minheap.Push` changes. -/
structure Pushed (s t : Search) (l : Int) : Prop where
  len : t.openset.length = s.openset.length + 1
  mem : ∀ a : Int, a ∈ t.openset ↔ (a ∈ s.openset ∨ a = l)
  known : ∀ a : Int, IsKnown t.known a ↔ IsKnown s.known a
  cost : ∀ a : Int, costOf t.known a = costOf s.known a
  est : ∀ a : Int, estimateOf t.known a = estimateOf s.known a
  pred : t.predecessor = s.predecessor
  pops : t.pops = s.pops

/-- What `minheap.Pop` changes: the label `l` of the last slot leaves the open set. -/
structure Popped (s t : Search) (l : Int) : Prop where
  len : t.openset.length + 1 = s.openset.length
  was : l ∈ s.openset
  mem : ∀ a : Int, a ∈ t.openset ↔ (a ∈ s.openset ∧ a ≠ l)
  known : ∀ a : Int, IsKnown t.known a ↔ IsKnown s.known a
  cost : ∀ a : Int, costOf t.known a = costOf s.known a
  est : ∀ a : Int, estimateOf t.known a = estimateOf s.known a
  pred : t.predecessor = s.predecessor
  pops : t.pops = s.pops

/-- The estimate (`f`) of the point in slot `x` of the open set. -/
def est (s : Search) (x : Nat) : Int := estimateOf s.known (s.openset.getD x 0)

/-- Heap order on the first `n` slots: every slot has an estimate at least that of
its parent slot `(x - 1) / 2`. -/
def HeapOrd (s : Search) (n : Nat) : Prop :=
  ∀ x, 0 < x → x < n → est s ((x - 1) / 2) ≤ est s x

/-- Heap order on the first `n` slots except between `j` and its parent, the
children of `j` being no less than the parent of `j`: the loop invariant of `up`. -/
def UpInv (s : Search) (n j : Nat) : Prop :=
  (∀ x, 0 < x → x < n → x ≠ j → est s ((x - 1) / 2) ≤ est s x) ∧
  (∀ x, 0 < x → x < n → (x - 1) / 2 = j → 0 < j → est s ((j - 1) / 2) ≤ est s x)

/-- Heap order on the first `n` slots except between `i` and its children, the
children of `i` being no less than the parent of `i`: the loop invariant of `down`. -/
def DownInv (s : Search) (n i : Nat) : Prop :=
  (∀ x, 0 < x → x < n → (x - 1) / 2 ≠ i → est s ((x - 1) / 2) ≤ est s x) ∧
  (∀ x, 0 < x → x < n → (x - 1) / 2 = i → 0 < i → est s ((i - 1) / 2) ≤ est s x)

/-! ### Graphs, paths and costs -/

/-- The label `b` is a key of the map returned by `Adjacent(a)`. -/
def IsEdge (P : Interface) (a b : Int) : Prop := b ∈ (P.Adjacent a).1.map Prod.fst

instance (P : Interface) (a b : Int) : Decidable (IsEdge P a b) := by
  unfold IsEdge; infer_instance

/-- The map read `Adjacent(a)[b]`, which is `0` when the key is absent. -/
def edgeCost (P : Interface) (a b : Int) : Int := ((P.Adjacent a).1.lookup b).getD 0

/-- A sequence of labels in which every step is an edge. -/
def IsPath (P : Interface) (p : List Int) : Prop := List.Chain' (IsEdge P) p

/-- Deciding `IsPath` step by step, so that it evaluates on a concrete sequence. -/
def decidePath (P : Interface) : (p : List Int) → Decidable (IsPath P p)
  | [] => isTrue List.chain'_nil
  | [a] => isTrue (List.chain'_singleton a)
  | a :: b :: rest =>
    if h1 : IsEdge P a b then
      match decidePath P (b :: rest) with
      | isTrue h2 => isTrue (List.chain'_cons.2 ⟨h1, h2⟩)
      | isFalse h2 => isFalse (fun h => h2 (List.chain'_cons.1 h).2)
    else isFalse (fun h => h1 (List.chain'_cons.1 h).1)

instance (P : Interface) (p : List Int) : Decidable (IsPath P p) := decidePath P p

/-- The summed edge cost of a sequence of labels. -/
def pathCost (P : Interface) : List Int → Int
  | a :: b :: rest => edgeCost P a b + pathCost P (b :: rest)
  | _ => 0

/-- The sequence `p` is a path of the graph from `a` to `b`. -/
def PathFromTo (P : Interface) (a b : Int) (p : List Int) : Prop :=
  IsPath P p ∧ p.head? = some a ∧ p.getLast? = some b

instance (P : Interface) (a b : Int) (p : List Int) : Decidable (PathFromTo P a b p) := by
  unfold PathFromTo; infer_instance

/-- The label `b` can be reached from `a` along the edges reported by `Adjacent`. -/
def Reachable (P : Interface) (a b : Int) : Prop := ∃ p, PathFromTo P a b p

/-- The finite vertex set `V` is closed under `Adjacent`: a finite graph. -/
def FiniteGraph (P : Interface) (V : Finset Int) : Prop :=
  ∀ a ∈ V, ∀ e ∈ (P.Adjacent a).1, e.1 ∈ V

instance (P : Interface) (V : Finset Int) : Decidable (FiniteGraph P V) := by
  unfold FiniteGraph; infer_instance

/-- Every edge cost of the graph on `V` is non-negative. -/
def NonNegative (P : Interface) (V : Finset Int) : Prop :=
  ∀ a ∈ V, ∀ e ∈ (P.Adjacent a).1, 0 ≤ e.2

instance (P : Interface) (V : Finset Int) : Decidable (NonNegative P V) := by
  unfold NonNegative; infer_instance

/-- Every map returned by `Adjacent` on `V` has each key once, as a Go map does. -/
def UniqueKeys (P : Interface) (V : Finset Int) : Prop :=
  ∀ a ∈ V, ((P.Adjacent a).1.map Prod.fst).Nodup

instance (P : Interface) (V : Finset Int) : Decidable (UniqueKeys P V) := by
  unfold UniqueKeys; infer_instance

/-- The heuristic is consistent on `V`: `Estimate(u, goal) ≤ cost(u, v) + Estimate(v, goal)`
on every edge. -/
def Consistent (P : Interface) (V : Finset Int) (goal : Int) : Prop :=
  ∀ u ∈ V, ∀ e ∈ (P.Adjacent u).1, P.Estimate u goal ≤ e.2 + P.Estimate e.1 goal

instance (P : Interface) (V : Finset Int) (goal : Int) : Decidable (Consistent P V goal) := by
  unfold Consistent; infer_instance

/-- The heuristic is admissible on `V`: never above the cost of a path to the goal. -/
def Admissible (P : Interface) (V : Finset Int) (goal : Int) : Prop :=
  ∀ u ∈ V, ∀ p, PathFromTo P u goal p → P.Estimate u goal ≤ pathCost P p

/-- Every `range` loop enumerates all entries of its map, each once, in some order. -/
def Enumeration (ord : Nat → List (Int × Int) → List (Int × Int)) : Prop :=
  ∀ n l, (ord n l).Perm l

/-! ### Invariants of `Find` -/

/-- The cost of a label as the search sees it: `p.cost` for a known point, and
`math.MaxFloat64`, the cost a point is created with, for a label not yet seen. -/
def vcost (s : Search) (l : Int) : Int :=
  if IsKnown s.known l then costOf s.known l else MaxFloat64

/-- The termination measure of the loop of `Find` on the finite graph `V`. -/
def potential (V : Finset Int) (s : Search) : Int :=
  2 * (∑ l in V, vcost s l) + s.openset.length

/-- The invariant of `Find` that holds at every point of the execution. -/
structure WF (P : Interface) (V : Finset Int) (start goal : Int) (s : Search) : Prop where
  idx : IdxInv s
  heap : HeapOrd s s.openset.length
  knownIn : ∀ l : Int, IsKnown s.known l → l ∈ V
  startKnown : IsKnown s.known start
  startCost : costOf s.known start = 0
  costNonneg : ∀ l : Int, IsKnown s.known l → 0 ≤ costOf s.known l
  costLe : ∀ l : Int, IsKnown s.known l → costOf s.known l ≤ MaxFloat64
  fgh : ∀ l ∈ s.openset, estimateOf s.known l = costOf s.known l + P.Estimate l goal
  openLt : ∀ l ∈ s.openset, costOf s.known l < MaxFloat64
  predInv : ∀ k u : Int, s.predecessor k = some u →
    k ≠ start ∧ IsKnown s.known u ∧ IsKnown s.known k ∧ costOf s.known k < MaxFloat64 ∧
      ∃ c, (k, c) ∈ (P.Adjacent u).1 ∧ costOf s.known u + c ≤ costOf s.known k
  hasPred : ∀ k : Int, IsKnown s.known k → costOf s.known k < MaxFloat64 →
    k = start ∨ (s.predecessor k).isSome = true
  acyclic : ∀ k : Int, Acc (fun a b => s.predecessor b = some a) k
  reach : ∀ l : Int, IsKnown s.known l → Reachable P start l

/-- What the relaxations made while `current` is expanded may change, from the
state `s` to the state `t`. -/
structure Step (P : Interface) (V : Finset Int) (current : Int) (s t : Search) : Prop where
  knownMono : ∀ l : Int, IsKnown s.known l → IsKnown t.known l
  costLe : ∀ l : Int, IsKnown s.known l → costOf t.known l ≤ costOf s.known l
  costCur : costOf t.known current = costOf s.known current
  memMono : ∀ l ∈ s.openset, l ∈ t.openset
  tri : ∀ l : Int, IsKnown t.known l → l ∈ t.openset ∨
    (costOf t.known l = MaxFloat64 ∧ ¬ IsKnown s.known l) ∨
    (IsKnown s.known l ∧ costOf t.known l = costOf s.known l ∧ l ∉ s.openset)
  fresh : ∀ l : Int, IsKnown t.known l → IsKnown s.known l ∨ ∃ v, (l, v) ∈ (P.Adjacent current).1
  pops : t.pops = s.pops
  pot : potential V t ≤ potential V s

/-- The invariant of `Find` at the head of its loop: every point that left the
open set with a cost below `math.MaxFloat64` is not the goal and has had all its
edges relaxed. -/
def Settled (P : Interface) (goal : Int) (s : Search) : Prop :=
  ∀ u : Int, IsKnown s.known u → u ∉ s.openset → costOf s.known u < MaxFloat64 →
    u ≠ goal ∧ ∀ e ∈ (P.Adjacent u).1, IsKnown s.known e.1 ∧
      costOf s.known e.1 ≤ costOf s.known u + e.2

/-- The state `t` is the state `s` after the point `k` got the lower cost `c` and
the estimate `e` through `current`, and was pushed onto the open set or fixed in it. -/
structure Improved (s t : Search) (k current : Int) (c e : Int) : Prop where
  known : ∀ l : Int, IsKnown t.known l ↔ IsKnown s.known l
  cost : ∀ l : Int, costOf t.known l = if l = k then c else costOf s.known l
  est : ∀ l : Int, estimateOf t.known l = if l = k then e else estimateOf s.known l
  pred : t.predecessor = mapSet s.predecessor k current
  pops : t.pops = s.pops
  mem : ∀ l : Int, l ∈ t.openset ↔ (l ∈ s.openset ∨ l = k)
  len : (k ∈ s.openset ∧ t.openset.length = s.openset.length) ∨
    (k ∉ s.openset ∧ t.openset.length = s.openset.length + 1)
  idx : IdxInv t
  heap : HeapOrd t t.openset.length

/-- The loop of `Find` returns at the state `s`: the open set is empty, or the
point that `heap.Pop` returns is the goal. -/
def Halts (goal : Int) (s : Search) : Prop :=
  s.openset.length = 0 ∨ (heap.Pop s).2 = goal

instance (goal : Int) (s : Search) : Decidable (Halts goal s) := by
  unfold Halts; infer_instance

/-! ### Concrete problems used as examples -/

/-- The enumeration that ranges over every map in the order of its entry list. -/
def inOrder : Nat → List (Int × Int) → List (Int × Int) := fun _ l => l

/-- The enumeration that ranges over every map in the reverse order of its entry list. -/
def reversed : Nat → List (Int × Int) → List (Int × Int) := fun _ l => l.reverse

/-- A graph with the single edge `0 → 1` of cost `math.MaxFloat64` and the
heuristic `0`. -/
def wall : Interface :=
  { Adjacent := fun a => if a = 0 then ([(1, MaxFloat64)], false) else ([], false)
    Estimate := fun _ _ => 0 }

/-- A graph with the edges `0 → 1` (cost 1), `0 → 2` (cost 4), `1 → 2` (cost 1) and
`2 → 3` (cost 1), and the heuristic `0`. -/
def diamond : Interface :=
  { Adjacent := fun a =>
      if a = 0 then ([(1, 1), (2, 4)], false)
      else if a = 1 then ([(2, 1)], false)
      else if a = 2 then ([(3, 1)], false)
      else ([], false)
    Estimate := fun _ _ => 0 }

/-- A problem whose `Adjacent(0)` returns the map `{1: 1}` together with a non-nil
error. -/
def faulty : Interface :=
  { Adjacent := fun a => if a = 0 then ([(1, 1)], true) else ([], false)
    Estimate := fun _ _ => 0 }

/-- A problem whose `Adjacent(0)` returns a nil map together with a non-nil error,
and whose `Adjacent(1)` returns the map `{2: 1}`. -/
def failing : Interface :=
  { Adjacent := fun a => if a = 0 then ([], true) else if a = 1 then ([(2, 1)], false)
      else ([], false)
    Estimate := fun _ _ => 0 }

/-- The problem `P` with `Adjacent(u)` replaced by the empty map and no error. -/
def withoutNeighbours (P : Interface) (u : Int) : Interface :=
  { Adjacent := fun a => if a = u then ([], false) else P.Adjacent a
    Estimate := P.Estimate }

/-- The 4x4 test grid after `put(10)`, `put(11)`, `put(9)` and `put(8)` with the
value `math.MaxFloat64`: the whole third row is blocked. -/
def barrier : square :=
  ((((newSquare 4).put 10 MaxFloat64).put 11 MaxFloat64).put 9 MaxFloat64).put 8 MaxFloat64

/-! ### The outcomes of `Find` over all enumeration orders -/

/-- The part of the state of `Find` that does not depend on the order of the heap
slots: the cost of every label (`math.MaxFloat64` when not yet seen), the
predecessor map and the membership in the open set. -/
structure Summary where
  cost : Int → Int
  pred : Int → Option Int
  inOpen : Int → Bool

/-- The summary `σ` describes the state `s`. -/
def Matches (s : Search) (σ : Summary) : Prop :=
  (∀ l : Int, vcost s l = σ.cost l) ∧ (∀ l : Int, s.predecessor l = σ.pred l) ∧
    (∀ l : Int, l ∈ s.openset ↔ σ.inOpen l = true)

/-- The summary of the state in which `Find` enters its loop. -/
def initSummary (start : Int) : Summary :=
  { cost := fun l => if l = start then 0 else MaxFloat64
    pred := fun _ => none
    inOpen := fun l => decide (l = start) }

/-- The effect of one relaxation (the body of the `range` loop) on the summary. -/
def relaxSummary (current : Int) (σ : Summary) (kv : Int × Int) : Summary :=
  if kv.2 + σ.cost current < σ.cost kv.1 then
    { cost := fun l => if l = kv.1 then kv.2 + σ.cost current else σ.cost l
      pred := fun l => if l = kv.1 then some current else σ.pred l
      inOpen := fun l => if l = kv.1 then true else σ.inOpen l }
  else σ

/-- The effect of popping `current` on the summary. -/
def popSummary (current : Int) (σ : Summary) : Summary :=
  { σ with inOpen := fun l => if l = current then false else σ.inOpen l }

/-- The effect on the summary of one expansion, of the point `current`. -/
def expandSummary (P : Interface) (current : Int) (σ : Summary) : Summary :=
  (P.Adjacent current).1.foldl (relaxSummary current) (popSummary current σ)

/-- The labels of `vs` that `heap.Pop` may return at a state with summary `σ`:
the open labels whose estimate `cost + Estimate` is least. -/
def candidates (P : Interface) (goal : Int) (vs : List Int) (σ : Summary) : List Int :=
  (vs.filter fun l => σ.inOpen l).filter fun l =>
    (vs.filter fun a => σ.inOpen a).all fun a =>
      decide (σ.cost l + P.Estimate l goal ≤ σ.cost a + P.Estimate a goal)

/-- The results that the loop of `Find` may return from a state with summary `σ` on
a graph with the vertices `vs`, over all the ways in which `heap.Pop` may choose
among the open points of least estimate. -/
def outcomes (P : Interface) (goal : Int) (vs : List Int) (rfuel : Nat) :
    Nat → Summary → List (Option (List Int))
  | 0, _ => [none]
  | fuel + 1, σ =>
    if (vs.filter fun l => σ.inOpen l) = [] then [some []]
    else
      (candidates P goal vs σ).flatMap fun current =>
        if current = goal then [route rfuel goal σ.pred]
        else outcomes P goal vs rfuel fuel (expandSummary P current σ)

/-- The 4x4 test grid whose cells all have the value `c` (`newSquare(4)` followed
by `put(label, c)` for every label). -/
def uniform (c : Int) : square := { size := 4, points := fun _ _ => c }

/-- The labels of the 4x4 test grid. -/
def cells : List Int := [0, 1, 2, 3, 4, 5, 6, 7, 8, 9, 10, 11, 12, 13, 14, 15]

/-! ### The states that `Find` goes through -/

/-- The state of `Find` at the head of its loop after `m` iterations. -/
def headState (ord : Nat → List (Int × Int) → List (Int × Int)) (P : Interface)
    (start goal : Int) (m : Nat) : Search :=
  (expand ord P goal)^[m] (Astar.start P start goal)

/-- The loop of `Find` runs through at least `m` iterations: it does not return at
the head of any of the first `m`. -/
def Runs (ord : Nat → List (Int × Int) → List (Int × Int)) (P : Interface)
    (start goal : Int) (m : Nat) : Prop :=
  ∀ j, j < m → ¬ Halts goal (headState ord P start goal j)

instance (ord : Nat → List (Int × Int) → List (Int × Int)) (P : Interface) (start goal : Int)
    (m : Nat) : Decidable (Runs ord P start goal m) := by
  unfold Runs; infer_instance

/-- The state right after the `heap.Pop` of the iteration that starts at `s` (with the
popped label added to the trace). -/
def popState (s : Search) : Search :=
  { (heap.Pop s).1 with pops := (heap.Pop s).1.pops ++ [(heap.Pop s).2] }

/-- The state inside the iteration that starts at `s`, after the `heap.Pop` and the
first `i` rounds of the `range` loop over the neighbours. -/
def midState (ord : Nat → List (Int × Int) → List (Int × Int)) (P : Interface) (goal : Int)
    (s : Search) (i : Nat) : Search :=
  ((ord s.pops.length (P.Adjacent (heap.Pop s).2).1).take i).foldl
    (relax P goal (heap.Pop s).2) (popState s)

/-- The state on which a round of the `range` loop that finds a lower cost calls
`heap.Push` or `heap.Fix`: the point of the entry looked up or created, then its
predecessor, cost and estimate assigned. -/
def relaxArg (P : Interface) (goal current : Int) (s : Search) (kv : Int × Int) : Search :=
  improve P goal current (register s kv.1) kv.1
    (kv.2 + costOf (register s kv.1).known current)

/-- The invariant of the heap and the registry that holds on every problem: the
back-pointers, the heap order, and for every known point either a cost below
`math.MaxFloat64` with `estimate = cost + Estimate(label, goal)`, or the cost
`math.MaxFloat64` and the estimate 0 it was created with. -/
structure Basic (P : Interface) (start goal : Int) (s : Search) : Prop where
  idx : IdxInv s
  heap : HeapOrd s s.openset.length
  costLe : ∀ l : Int, IsKnown s.known l → costOf s.known l ≤ MaxFloat64
  fgh : ∀ l : Int, IsKnown s.known l → costOf s.known l < MaxFloat64 →
    estimateOf s.known l = costOf s.known l + P.Estimate l goal
  unrelaxed : ∀ l : Int, IsKnown s.known l → costOf s.known l = MaxFloat64 →
    estimateOf s.known l = 0
  openLt : ∀ l ∈ s.openset, costOf s.known l < MaxFloat64
  predLt : ∀ k u : Int, s.predecessor k = some u →
    IsKnown s.known k ∧ costOf s.known k < MaxFloat64
  hasPred : ∀ k : Int, IsKnown s.known k → costOf s.known k < MaxFloat64 →
    k = start ∨ (s.predecessor k).isSome = true

/-- Every edge cost that `Adjacent` reports, for any label, is non-negative. -/
def AllNonNegative (P : Interface) : Prop :=
  ∀ a : Int, ∀ e ∈ (P.Adjacent a).1, 0 ≤ e.2

/-- The invariant of the predecessor map on a problem with non-negative edge costs:
the start has cost 0, costs are non-negative, a predecessor entry `k -> u` has
`k` other than the start, `u` known and `cost u ≤ cost k`, and the map is acyclic. -/
structure Tree (start : Int) (s : Search) : Prop where
  startKnown : IsKnown s.known start
  startCost : costOf s.known start = 0
  costNonneg : ∀ l : Int, IsKnown s.known l → 0 ≤ costOf s.known l
  predMono : ∀ k u : Int, s.predecessor k = some u →
    k ≠ start ∧ IsKnown s.known u ∧ costOf s.known u ≤ costOf s.known k
  acyclic : ∀ k : Int, Acc (fun a b => s.predecessor b = some a) k

/-- The label reached from `k` by following `n` predecessor entries, if there are
that many. -/
def follow (pred : Int → Option Int) : Nat → Int → Option Int
  | 0, k => some k
  | n + 1, k => (pred k).bind (follow pred n)

/-! ### More concrete problems -/

/-- A graph with the edges `0 → 1` (cost 1), `0 → 2` (cost 4), `1 → 2` (cost 1) and
`2 → 3` (cost 10), and the heuristic that is 10 at the label 1 and 0 at every other
label: towards the goal 3 it is admissible (the remaining cost from 1 is 11) and not
consistent (`10 > 1 + 0` on the edge `1 → 2`). -/
def reopen : Interface :=
  { Adjacent := fun a =>
      if a = 0 then ([(1, 1), (2, 4)], false)
      else if a = 1 then ([(2, 1)], false)
      else if a = 2 then ([(3, 10)], false)
      else ([], false)
    Estimate := fun u _ => if u = 1 then 10 else 0 }

/-- The graph of `TestGraphRoute` at its first assertion: undirected, with the
edges 0-1, 1-2, 2-3, 1-4 and 4-3, all of cost 1. -/
def network : graph :=
  (((((newGraph undirected).edge 0 1 1).edge 1 2 1).edge 2 3 1).edge 1 4 1).edge 4 3 1

/-- The graph of `TestGraphRoute` at its second assertion, after `g.edge(1, 2, 5)`. -/
def networkBranch : graph := network.edge 1 2 5

/-- The graph of `TestGraphRoute` at its third assertion, after `g.edge(1, 2, 1)`
and `g.edge(2, 3, 5)`. -/
def networkGoal : graph := (networkBranch.edge 1 2 1).edge 2 3 5

/-- The vertices of the graph of `TestGraphRoute`. -/
def vertices : List Int := [0, 1, 2, 3, 4]

/-! ### Edges that `Find` can take, and the domain on which `float64` sums are exact -/

/-- The map returned by `Adjacent(a)` has an entry for `b` with a cost below
`math.MaxFloat64`. -/
def IsPassable (P : Interface) (a b : Int) : Prop :=
  ∃ e ∈ (P.Adjacent a).1, e.1 = b ∧ e.2 < MaxFloat64

instance (P : Interface) (a b : Int) : Decidable (IsPassable P a b) := by
  unfold IsPassable; infer_instance

/-- The sequence `p` is a path from `a` to `b` every step of which is an edge of
cost below `math.MaxFloat64`. -/
def PassableFromTo (P : Interface) (a b : Int) (p : List Int) : Prop :=
  List.Chain' (IsPassable P) p ∧ p.head? = some a ∧ p.getLast? = some b

/-- Deciding a chain of passable edges step by step, so that it evaluates on a
concrete sequence. -/
def decidePassable (P : Interface) : (p : List Int) → Decidable (List.Chain' (IsPassable P) p)
  | [] => isTrue List.chain'_nil
  | [a] => isTrue (List.chain'_singleton a)
  | a :: b :: rest =>
    if h1 : IsPassable P a b then
      match decidePassable P (b :: rest) with
      | isTrue h2 => isTrue (List.chain'_cons.2 ⟨h1, h2⟩)
      | isFalse h2 => isFalse (fun h => h2 (List.chain'_cons.1 h).2)
    else isFalse (fun h => h1 (List.chain'_cons.1 h).1)

instance (P : Interface) (a b : Int) (p : List Int) : Decidable (PassableFromTo P a b p) :=
  @instDecidableAnd _ _ (decidePassable P p) inferInstance

/-- On the graph on `V`, towards `goal`: every edge cost is at most `M` or at least
`math.MaxFloat64` (a blocked edge, which `Find` never takes), every estimate is
between `-H` and `H`, and `M * |V| + H` is below `2^53`, so that every sum of whole
numbers that `Find` keeps is a whole number below `2^53` in magnitude, which
`float64` holds exactly. -/
def Exact (P : Interface) (V : Finset Int) (goal : Int) (M H : Int) : Prop :=
  0 ≤ M ∧ (∀ a ∈ V, ∀ e ∈ (P.Adjacent a).1, e.2 ≤ M ∨ MaxFloat64 ≤ e.2) ∧
    (∀ u ∈ V, -H ≤ P.Estimate u goal ∧ P.Estimate u goal ≤ H) ∧
    M * (V.card : Int) + H < 9007199254740992

instance (P : Interface) (V : Finset Int) (goal : Int) (M H : Int) :
    Decidable (Exact P V goal M H) := by
  unfold Exact; infer_instance

/-- The number of vertices whose point has a cost below `math.MaxFloat64`: the start
and the points relaxed so far. -/
def relaxedCount (V : Finset Int) (s : Search) : Nat :=
  (V.filter fun l => IsKnown s.known l ∧ costOf s.known l < MaxFloat64).card

/-- The bounds on the state of `Find` on the domain `Exact`: a cost below
`math.MaxFloat64` is at most `M` times the number of other relaxed vertices, and
every estimate is at most `M * |V| + H` in magnitude. -/
structure Bounded (V : Finset Int) (M H : Int) (s : Search) : Prop where
  cost : ∀ l : Int, IsKnown s.known l → costOf s.known l < MaxFloat64 →
    costOf s.known l + M ≤ M * (relaxedCount V s : Int)
  est : ∀ l : Int, -(M * (V.card : Int) + H) ≤ estimateOf s.known l ∧
    estimateOf s.known l ≤ M * (V.card : Int) + H

/-- No estimate held in the registry is a `NaN`. -/
def NoNaN (s : Search) : Prop := ∀ l : Int, F64.isNaN (estimateOf s.known l) = false

/-- A graph with the edges `0 → 1` (cost 3), `0 → 2` (cost `2^53 + 4`) and `1 → 2`
(cost `2^53`), and the heuristic 0.  The path 0, 1, 2 costs `2^53 + 3`, which is not
a `float64`: the sum `2^53 + 3` is rounded to `2^53 + 4`. -/
def rounding : Interface :=
  { Adjacent := fun a =>
      if a = 0 then ([(1, 3), (2, 9007199254740996)], false)
      else if a = 1 then ([(2, 9007199254740992)], false)
      else ([], false)
    Estimate := fun _ _ => 0 }

/-- The graph `rounding` with the heuristic 5 at the label 0 and 0 elsewhere:
admissible towards 2, and not consistent on the edge `0 → 1` of cost 3. -/
def roundingInconsistent : Interface :=
  { Adjacent := rounding.Adjacent
    Estimate := fun u _ => if u = 0 then 5 else 0 }

/-- A graph with the edges `0 → 1` of cost `2^1024 - 2^972` and `1 → 2` of cost
`2^970 + 2^969`, and the heuristic 0.  The path 0, 1, 2 costs less than
`math.MaxFloat64`, and the `float64` sum of the two costs is `math.MaxFloat64`. -/
def overflowing : Interface :=
  { Adjacent := fun a =>
      if a = 0 then ([(1, 179769313486231550856124328384506240234343437157459335924404872448581845754556114388470639943126220321960804027157371570809852884964511743044087662767600909594331927728237078876188760579532563768698654064825262115771015791463983014857704008123419459386245141723703148097529108423358883457665451722744025579520)], false)
      else if a = 1 then ([(2, 14968802321510398587422795347776289245505884453265931561269104318279089189017230493387184741194767758170068351331443714329793284912951952455543788487136235652400042547133142573881532910832722403869900175584079429949981078413406527916666414513360331181303406801568170312317688714227580074459136)], false)
      else ([], false)
    Estimate := fun _ _ => 0 }

/-- A graph with the edges `0 → 1`, `0 → 2` and `0 → 3` of cost 1, whose `Estimate`
returns a `NaN` for the label 1, 5 for the label 2, 3 for the label 3 and 0
otherwise. -/
def nanEstimate : Interface :=
  { Adjacent := fun a => if a = 0 then ([(1, 1), (2, 1), (3, 1)], false) else ([], false)
    Estimate := fun u _ => if u = 1 then F64.nan else if u = 2 then 5 else if u = 3 then 3 else 0 }

/-! ### The states of `Find` with `float64` arithmetic, and its heap order -/

/-- The loop of `Find` with `float64` arithmetic returns at the state `s`. -/
def Halts64 (goal : Int) (s : Search) : Prop :=
  s.openset.length = 0 ∨ (heap.Pop64 s).2 = goal

instance (goal : Int) (s : Search) : Decidable (Halts64 goal s) := by
  unfold Halts64; infer_instance

/-- The state of `Find` with `float64` arithmetic at the head of its loop after `m`
iterations. -/
def headState64 (ord : Nat → List (Int × Int) → List (Int × Int)) (P : Interface)
    (start goal : Int) (m : Nat) : Search :=
  (expand64 ord P goal)^[m] (start64 P start goal)

/-- The loop of `Find` with `float64` arithmetic runs through at least `m`
iterations. -/
def Runs64 (ord : Nat → List (Int × Int) → List (Int × Int)) (P : Interface)
    (start goal : Int) (m : Nat) : Prop :=
  ∀ j, j < m → ¬ Halts64 goal (headState64 ord P start goal j)

instance (ord : Nat → List (Int × Int) → List (Int × Int)) (P : Interface) (start goal : Int)
    (m : Nat) : Decidable (Runs64 ord P start goal m) := by
  unfold Runs64; infer_instance

/-- The state right after the `heap.Pop` of the iteration that starts at `s`, with
`float64` arithmetic. -/
def popState64 (s : Search) : Search :=
  { (heap.Pop64 s).1 with pops := (heap.Pop64 s).1.pops ++ [(heap.Pop64 s).2] }

/-- The state inside the iteration that starts at `s`, after the `heap.Pop` and the
first `i` rounds of the `range` loop, with `float64` arithmetic. -/
def midState64 (ord : Nat → List (Int × Int) → List (Int × Int)) (P : Interface) (goal : Int)
    (s : Search) (i : Nat) : Search :=
  ((ord s.pops.length (P.Adjacent (heap.Pop64 s).2).1).take i).foldl
    (relax64 P goal (heap.Pop64 s).2) (popState64 s)

/-- Heap order on the first `n` slots with the `float64` comparison: the estimate of
the parent slot `(x - 1) / 2` is `<=` the estimate of the slot `x`. -/
def HeapOrd64 (s : Search) (n : Nat) : Prop :=
  ∀ x, 0 < x → x < n → F64.le (est s ((x - 1) / 2)) (est s x) = true

/-- On the set `S` of labels, which is closed under `Adjacent`, the problem never
makes `Find` compute a `NaN` estimate: `Estimate` towards `goal` never returns a
`NaN`, and either it returns finite values only, or no edge cost is negative or a
`NaN`. -/
def NaNFree (P : Interface) (S : Set Int) (goal : Int) : Prop :=
  (∀ a ∈ S, ∀ e ∈ (P.Adjacent a).1, e.1 ∈ S) ∧
    (∀ u ∈ S, F64.isNaN (P.Estimate u goal) = false) ∧
    ((∀ u ∈ S, -F64.inf < P.Estimate u goal ∧ P.Estimate u goal < F64.inf) ∨
      (∀ a ∈ S, ∀ e ∈ (P.Adjacent a).1, 0 ≤ e.2 ∧ e.2 ≤ F64.inf))

/-- The invariant of the heap with `float64` arithmetic on a problem that is
`NaNFree` on `S`: the back-pointers, the heap order, no `NaN` estimate, every known
label in `S`, and, unless `Estimate` returns finite values only, costs that are
numbers from 0 up. -/
structure Basic64 (P : Interface) (S : Set Int) (goal : Int) (s : Search) : Prop where
  idx : IdxInv s
  heap : HeapOrd s s.openset.length
  nonan : NoNaN s
  knownIn : ∀ l : Int, IsKnown s.known l → l ∈ S
  cost : (∀ u ∈ S, -F64.inf < P.Estimate u goal ∧ P.Estimate u goal < F64.inf) ∨
    (∀ l : Int, 0 ≤ costOf s.known l ∧ costOf s.known l < F64.inf)

/-- The invariant of `Find` with `float64` arithmetic that needs no heap order, on
the finite graph `V`: the back-pointers, every known label in `V`, costs between 0
and `math.MaxFloat64`, a cost below `math.MaxFloat64` for every point of the open
set, and, for every point with such a cost, a path to it from `start` along edges of
cost below `math.MaxFloat64`. -/
structure Lite (P : Interface) (V : Finset Int) (start : Int) (s : Search) : Prop where
  idx : IdxInv s
  knownIn : ∀ l : Int, IsKnown s.known l → l ∈ V
  costNonneg : ∀ l : Int, IsKnown s.known l → 0 ≤ costOf s.known l
  costLe : ∀ l : Int, IsKnown s.known l → costOf s.known l ≤ MaxFloat64
  openLt : ∀ l ∈ s.openset, costOf s.known l < MaxFloat64
  passable : ∀ l : Int, IsKnown s.known l → costOf s.known l < MaxFloat64 →
    ∃ p, PassableFromTo P start l p

/-- A graph with the edges `0 → 1`, `0 → 2` of cost 1, `1 → 3` of cost 1, `2 → 3` of
cost 4, and the blocked edge `0 → 3` of cost `math.MaxFloat64`, with the heuristic 0. -/
def detour : Interface :=
  { Adjacent := fun a =>
      if a = 0 then ([(1, 1), (2, 1), (3, MaxFloat64)], false)
      else if a = 1 then ([(3, 1)], false)
      else if a = 2 then ([(3, 4)], false)
      else ([], false)
    Estimate := fun _ _ => 0 }


/-! ### Reading fields through the registry -/

theorem isKnown_setIndex (k : Int → Option point) (l : Int) (i : Int) (x : Int) :
    IsKnown (setIndex k l i) x ↔ IsKnown k x := by
  unfold IsKnown setIndex
  by_cases h : x = l
  · subst h; cases k x <;> simp
  · simp [h]

theorem estimateOf_setIndex (k : Int → Option point) (l : Int) (i : Int) (x : Int) :
    estimateOf (setIndex k l i) x = estimateOf k x := by
  unfold estimateOf setIndex
  by_cases h : x = l
  · subst h; cases k x <;> simp
  · simp [h]

theorem costOf_setIndex (k : Int → Option point) (l : Int) (i : Int) (x : Int) :
    costOf (setIndex k l i) x = costOf k x := by
  unfold costOf setIndex
  by_cases h : x = l
  · subst h; cases k x <;> simp
  · simp [h]

theorem indexOf_setIndex_self (k : Int → Option point) (l : Int) (i : Int)
    (h : IsKnown k l) : indexOf (setIndex k l i) l = i := by
  unfold IsKnown at h
  unfold indexOf setIndex
  cases hk : k l with
  | none => simp [hk] at h
  | some p => simp

theorem indexOf_setIndex_ne (k : Int → Option point) (l : Int) (i : Int) (x : Int)
    (h : x ≠ l) : indexOf (setIndex k l i) x = indexOf k x := by
  unfold indexOf setIndex
  simp [h]

theorem isKnown_setCost (k : Int → Option point) (l : Int) (c e : Int) (x : Int) :
    IsKnown (setCost k l c e) x ↔ IsKnown k x := by
  unfold IsKnown setCost
  by_cases h : x = l
  · subst h; cases k x <;> simp
  · simp [h]

theorem indexOf_setCost (k : Int → Option point) (l : Int) (c e : Int) (x : Int) :
    indexOf (setCost k l c e) x = indexOf k x := by
  unfold indexOf setCost
  by_cases h : x = l
  · subst h; cases k x <;> simp
  · simp [h]

theorem costOf_setCost_self (k : Int → Option point) (l : Int) (c e : Int)
    (h : IsKnown k l) : costOf (setCost k l c e) l = c := by
  unfold IsKnown at h
  unfold costOf setCost
  cases hk : k l with
  | none => simp [hk] at h
  | some p => simp

theorem costOf_setCost_ne (k : Int → Option point) (l : Int) (c e : Int) (x : Int)
    (h : x ≠ l) : costOf (setCost k l c e) x = costOf k x := by
  unfold costOf setCost
  simp [h]

theorem estimateOf_setCost_self (k : Int → Option point) (l : Int) (c e : Int)
    (h : IsKnown k l) : estimateOf (setCost k l c e) l = e := by
  unfold IsKnown at h
  unfold estimateOf setCost
  cases hk : k l with
  | none => simp [hk] at h
  | some p => simp

theorem estimateOf_setCost_ne (k : Int → Option point) (l : Int) (c e : Int) (x : Int)
    (h : x ≠ l) : estimateOf (setCost k l c e) x = estimateOf k x := by
  unfold estimateOf setCost
  simp [h]

theorem isKnown_mapSet (k : Int → Option point) (l : Int) (p : point) (x : Int) :
    IsKnown (mapSet k l p) x ↔ (x = l ∨ IsKnown k x) := by
  unfold IsKnown mapSet
  by_cases h : x = l <;> simp [h]

theorem costOf_mapSet_self (k : Int → Option point) (l : Int) (p : point) :
    costOf (mapSet k l p) l = p.cost := by
  simp [costOf, mapSet]

theorem costOf_mapSet_ne (k : Int → Option point) (l : Int) (p : point) (x : Int)
    (h : x ≠ l) : costOf (mapSet k l p) x = costOf k x := by
  simp [costOf, mapSet, h]

theorem indexOf_mapSet_self (k : Int → Option point) (l : Int) (p : point) :
    indexOf (mapSet k l p) l = p.index := by
  simp [indexOf, mapSet]

theorem indexOf_mapSet_ne (k : Int → Option point) (l : Int) (p : point) (x : Int)
    (h : x ≠ l) : indexOf (mapSet k l p) x = indexOf k x := by
  simp [indexOf, mapSet, h]

theorem estimateOf_mapSet_self (k : Int → Option point) (l : Int) (p : point) :
    estimateOf (mapSet k l p) l = p.estimate := by
  simp [estimateOf, mapSet]

theorem estimateOf_mapSet_ne (k : Int → Option point) (l : Int) (p : point) (x : Int)
    (h : x ≠ l) : estimateOf (mapSet k l p) x = estimateOf k x := by
  simp [estimateOf, mapSet, h]

/-! ### The slots of the open set -/

theorem getD_of_getElem? {l : List Int} {i : Nat} {a : Int} (h : l[i]? = some a) :
    l.getD i 0 = a := by
  simp [List.getD_eq_getElem?_getD, h]

/-- The slots of the open set after `Swap`, for two positions inside the heap. -/
theorem openset_Swap (s : Search) (i j : Nat) (hi : i < s.openset.length)
    (hj : j < s.openset.length) (x : Nat) :
    (minheap.Swap s i j).openset[x]? =
      if x = j then s.openset[i]? else if x = i then s.openset[j]? else s.openset[x]? := by
  unfold minheap.Swap
  simp only [List.getElem?_set, List.length_set]
  rw [List.getD_eq_getElem _ _ hi, List.getD_eq_getElem _ _ hj]
  by_cases h1 : x = j
  · subst h1; simp [hj, hi]
  · by_cases h2 : x = i
    · subst h2; simp [hi, hj, h1, Ne.symm h1]
    · simp [h1, h2, Ne.symm h1, Ne.symm h2]

theorem length_Swap (s : Search) (i j : Nat) :
    (minheap.Swap s i j).openset.length = s.openset.length := by
  simp [minheap.Swap]

theorem predecessor_Swap (s : Search) (i j : Nat) :
    (minheap.Swap s i j).predecessor = s.predecessor := rfl

theorem pops_Swap (s : Search) (i j : Nat) : (minheap.Swap s i j).pops = s.pops := rfl

theorem isKnown_Swap (s : Search) (i j : Nat) (x : Int) :
    IsKnown (minheap.Swap s i j).known x ↔ IsKnown s.known x := by
  simp [minheap.Swap, isKnown_setIndex]

theorem costOf_Swap (s : Search) (i j : Nat) (x : Int) :
    costOf (minheap.Swap s i j).known x = costOf s.known x := by
  simp [minheap.Swap, costOf_setIndex]

theorem estimateOf_Swap (s : Search) (i j : Nat) (x : Int) :
    estimateOf (minheap.Swap s i j).known x = estimateOf s.known x := by
  simp [minheap.Swap, estimateOf_setIndex]

theorem mem_Swap (s : Search) (i j : Nat) (hi : i < s.openset.length)
    (hj : j < s.openset.length) (l : Int) :
    l ∈ (minheap.Swap s i j).openset ↔ l ∈ s.openset := by
  simp only [List.mem_iff_getElem?, openset_Swap s i j hi hj]
  constructor
  · rintro ⟨x, hx⟩
    by_cases h1 : x = j
    · subst h1; exact ⟨i, by simpa using hx⟩
    · by_cases h2 : x = i
      · subst h2; exact ⟨j, by simpa [h1] using hx⟩
      · exact ⟨x, by simpa [h1, h2] using hx⟩
  · rintro ⟨x, hx⟩
    by_cases h1 : x = i
    · subst h1; exact ⟨j, by simpa using hx⟩
    · by_cases h2 : x = j
      · subst h2; exact ⟨i, by simpa [Ne.symm h1] using hx⟩
      · exact ⟨x, by simpa [h1, h2] using hx⟩

/-! ### The back-pointer invariant -/

theorem idxInv_Swap {s : Search} (h : IdxInv s) (i j : Nat) (hi : i < s.openset.length)
    (hj : j < s.openset.length) : IdxInv (minheap.Swap s i j) := by
  obtain ⟨a, ha⟩ : ∃ a, s.openset[i]? = some a := ⟨_, List.getElem?_eq_getElem hi⟩
  obtain ⟨b, hb⟩ : ∃ b, s.openset[j]? = some b := ⟨_, List.getElem?_eq_getElem hj⟩
  have hka := (h.back i a ha).1
  have hkb := (h.back j b hb).1
  have hkn : (minheap.Swap s i j).known = setIndex (setIndex s.known b i) a j := by
    simp [minheap.Swap, ha, hb]
  have hidx : ∀ (x : Nat) (l : Int), (minheap.Swap s i j).openset[x]? = some l →
      indexOf (minheap.Swap s i j).known l = (x : Int) := by
    intro x l hx
    rw [openset_Swap s i j hi hj] at hx
    rw [hkn]
    by_cases h1 : x = j
    · simp only [h1, if_true] at hx
      have : l = a := by rw [ha] at hx; exact (Option.some.inj hx).symm
      subst this
      rw [h1]
      exact indexOf_setIndex_self _ _ _ ((isKnown_setIndex _ _ _ _).2 hka)
    · by_cases h2 : x = i
      · rw [if_neg h1, if_pos h2] at hx
        have : l = b := by rw [hb] at hx; exact (Option.some.inj hx).symm
        subst this
        have hne : l ≠ a := by
          intro hla
          rw [hla] at hb
          exact h1 (by rw [h2]; exact h.inj i j a ha hb)
        rw [indexOf_setIndex_ne _ _ _ _ hne, h2]
        exact indexOf_setIndex_self _ _ _ hkb
      · rw [if_neg h1, if_neg h2] at hx
        have hna : l ≠ a := by
          intro hla
          rw [hla] at hx
          exact h2 (h.inj x i a hx ha)
        have hnb : l ≠ b := by
          intro hlb
          rw [hlb] at hx
          exact h1 (h.inj x j b hx hb)
        rw [indexOf_setIndex_ne _ _ _ _ hna, indexOf_setIndex_ne _ _ _ _ hnb]
        exact (h.back x l hx).2
  refine ⟨?_, ?_, ?_⟩
  · intro x y l hx hy
    have e1 := hidx x l hx
    have e2 := hidx y l hy
    rw [e1] at e2
    exact_mod_cast e2
  · intro x l hx
    refine ⟨?_, hidx x l hx⟩
    rw [isKnown_Swap]
    have hm : l ∈ s.openset := (mem_Swap s i j hi hj l).1 (List.getElem?_mem hx)
    obtain ⟨y, hy⟩ := List.mem_iff_getElem?.1 hm
    exact (h.back y l hy).1
  · intro l hl hm
    rw [isKnown_Swap] at hl
    rw [mem_Swap s i j hi hj] at hm
    have hna : l ≠ a := fun e => hm (e ▸ List.getElem?_mem ha)
    have hnb : l ≠ b := fun e => hm (e ▸ List.getElem?_mem hb)
    rw [hkn, indexOf_setIndex_ne _ _ _ _ hna, indexOf_setIndex_ne _ _ _ _ hnb]
    exact h.closed l hl hm


/-! ### What the heap operations leave unchanged -/

theorem sameData_refl (s : Search) : SameData s s :=
  ⟨rfl, fun _ => Iff.rfl, fun _ => Iff.rfl, fun _ => rfl, fun _ => rfl, rfl, rfl⟩

theorem sameData_trans {s t u : Search} (h1 : SameData s t) (h2 : SameData t u) :
    SameData s u :=
  ⟨h2.len.trans h1.len, fun l => (h2.mem l).trans (h1.mem l),
    fun l => (h2.known l).trans (h1.known l), fun l => (h2.cost l).trans (h1.cost l),
    fun l => (h2.est l).trans (h1.est l), h2.pred.trans h1.pred, h2.pops.trans h1.pops⟩

theorem sameData_Swap (s : Search) (i j : Nat) (hi : i < s.openset.length)
    (hj : j < s.openset.length) : SameData s (minheap.Swap s i j) :=
  ⟨length_Swap s i j, mem_Swap s i j hi hj, isKnown_Swap s i j, costOf_Swap s i j,
    estimateOf_Swap s i j, rfl, rfl⟩

theorem parent_le (j : Nat) : (j - 1) / 2 ≤ j := by omega

theorem upLoop_spec (fuel : Nat) (s : Search) (j : Nat) (hj : j < s.openset.length)
    (h : IdxInv s) :
    SameData s (heap.upLoop fuel s j) ∧ IdxInv (heap.upLoop fuel s j) := by
  induction fuel generalizing s j with
  | zero => exact ⟨sameData_refl s, h⟩
  | succ n ih =>
    by_cases hc : (j - 1) / 2 = j ∨ ¬ minheap.Less s j ((j - 1) / 2)
    · simp only [heap.upLoop, if_pos hc]
      exact ⟨sameData_refl s, h⟩
    · simp only [heap.upLoop, if_neg hc]
      have hi : (j - 1) / 2 < s.openset.length := lt_of_le_of_lt (parent_le j) hj
      have hs := sameData_Swap s ((j - 1) / 2) j hi hj
      have := ih (minheap.Swap s ((j - 1) / 2) j) ((j - 1) / 2) (by rw [hs.len]; exact hi)
        (idxInv_Swap h _ _ hi hj)
      exact ⟨sameData_trans hs this.1, this.2⟩

theorem up_spec (s : Search) (j : Nat) (hj : j < s.openset.length) (h : IdxInv s) :
    SameData s (heap.up s j) ∧ IdxInv (heap.up s j) :=
  upLoop_spec (j + 1) s j hj h

theorem child_lt (s : Search) (i n : Nat) (h : ¬ n ≤ 2 * i + 1) : heap.child s i n < n := by
  unfold heap.child
  split
  · rename_i hc; exact hc.1
  · omega

theorem child_cases (s : Search) (i n : Nat) :
    heap.child s i n = 2 * i + 1 ∨ heap.child s i n = 2 * i + 2 := by
  unfold heap.child
  split
  · right; rfl
  · left; rfl

theorem downLoop_spec (fuel : Nat) (s : Search) (i n : Nat) (hn : n ≤ s.openset.length)
    (hi : i < s.openset.length) (h : IdxInv s) :
    SameData s (heap.downLoop fuel s i n).1 ∧ IdxInv (heap.downLoop fuel s i n).1 := by
  induction fuel generalizing s i with
  | zero => exact ⟨sameData_refl s, h⟩
  | succ m ih =>
    by_cases h1 : n ≤ 2 * i + 1
    · simp only [heap.downLoop, if_pos h1]
      exact ⟨sameData_refl s, h⟩
    · by_cases h2 : ¬ minheap.Less s (heap.child s i n) i
      · simp only [heap.downLoop, if_neg h1, if_pos h2]
        exact ⟨sameData_refl s, h⟩
      · simp only [heap.downLoop, if_neg h1, if_neg h2]
        have hj : heap.child s i n < s.openset.length :=
          lt_of_lt_of_le (child_lt s i n h1) hn
        have hs := sameData_Swap s i _ hi hj
        have := ih (minheap.Swap s i _) _ (by rw [hs.len]; exact hn) (by rw [hs.len]; exact hj)
          (idxInv_Swap h _ _ hi hj)
        exact ⟨sameData_trans hs this.1, this.2⟩

theorem down_spec (s : Search) (i n : Nat) (hn : n ≤ s.openset.length)
    (hi : i < s.openset.length) (h : IdxInv s) :
    SameData s (heap.down s i n).1 ∧ IdxInv (heap.down s i n).1 :=
  downLoop_spec n s i n hn hi h

/-! ### `minheap.Push` and `minheap.Pop` -/

theorem openset_minheapPush (s : Search) (l : Int) :
    (minheap.Push s l).openset = s.openset ++ [l] := rfl

theorem known_minheapPush (s : Search) (l : Int) :
    (minheap.Push s l).known = setIndex s.known l s.openset.length := rfl

/-- Pushing a known point that is not in the open set keeps the back-pointers. -/
theorem idxInv_minheapPush {s : Search} (h : IdxInv s) (l : Int) (hk : IsKnown s.known l)
    (hl : l ∉ s.openset) : IdxInv (minheap.Push s l) := by
  have hget : ∀ (x : Nat) (a : Int), (minheap.Push s l).openset[x]? = some a →
      (x < s.openset.length ∧ s.openset[x]? = some a) ∨ (x = s.openset.length ∧ a = l) := by
    intro x a hx
    rw [openset_minheapPush, List.getElem?_append] at hx
    by_cases hlt : x < s.openset.length
    · left; rw [if_pos hlt] at hx; exact ⟨hlt, hx⟩
    · right
      rw [if_neg hlt] at hx
      have h0 : x - s.openset.length = 0 := by
        by_contra hne
        have : ([l] : List Int)[x - s.openset.length]? = none := by
          apply List.getElem?_eq_none; simp; omega
        rw [this] at hx; exact Option.noConfusion hx
      rw [h0] at hx
      simp at hx
      exact ⟨by omega, hx.symm⟩
  have hidx : ∀ (x : Nat) (a : Int), (minheap.Push s l).openset[x]? = some a →
      indexOf (minheap.Push s l).known a = (x : Int) := by
    intro x a hx
    rw [known_minheapPush]
    rcases hget x a hx with ⟨_, h1⟩ | ⟨h1, h2⟩
    · have hne : a ≠ l := fun e => hl (e ▸ List.getElem?_mem h1)
      rw [indexOf_setIndex_ne _ _ _ _ hne]
      exact (h.back x a h1).2
    · rw [h2, h1]; exact indexOf_setIndex_self _ _ _ hk
  refine ⟨?_, ?_, ?_⟩
  · intro x y a hx hy
    have e1 := hidx x a hx
    have e2 := hidx y a hy
    rw [e1] at e2
    exact_mod_cast e2
  · intro x a hx
    refine ⟨?_, hidx x a hx⟩
    rw [known_minheapPush, isKnown_setIndex]
    rcases hget x a hx with ⟨_, h1⟩ | ⟨_, h2⟩
    · exact (h.back x a h1).1
    · rw [h2]; exact hk
  · intro a ha hm
    rw [known_minheapPush, isKnown_setIndex] at ha
    rw [openset_minheapPush, List.mem_append, List.mem_singleton, not_or] at hm
    rw [known_minheapPush, indexOf_setIndex_ne _ _ _ _ hm.2]
    exact h.closed a ha hm.1

theorem pushed_minheapPush (s : Search) (l : Int) : Pushed s (minheap.Push s l) l :=
  ⟨by simp [minheap.Push], by simp [minheap.Push],
    fun a => by rw [known_minheapPush, isKnown_setIndex],
    fun a => by rw [known_minheapPush, costOf_setIndex],
    fun a => by rw [known_minheapPush, estimateOf_setIndex], rfl, rfl⟩

theorem pushed_trans {s t u : Search} {l : Int} (h1 : Pushed s t l) (h2 : SameData t u) :
    Pushed s u l :=
  ⟨h2.len.trans h1.len, fun a => (h2.mem a).trans (h1.mem a),
    fun a => (h2.known a).trans (h1.known a), fun a => (h2.cost a).trans (h1.cost a),
    fun a => (h2.est a).trans (h1.est a), h2.pred.trans h1.pred, h2.pops.trans h1.pops⟩

/-- The function `heap.Push` on a known point outside the open set. -/
theorem heapPush_spec (s : Search) (l : Int) (h : IdxInv s) (hk : IsKnown s.known l)
    (hl : l ∉ s.openset) : Pushed s (heap.Push s l) l ∧ IdxInv (heap.Push s l) := by
  have hp := pushed_minheapPush s l
  have hi := idxInv_minheapPush h l hk hl
  have hu := up_spec (minheap.Push s l) (minheap.Len (minheap.Push s l) - 1)
    (by unfold minheap.Len; rw [hp.len]; omega) hi
  exact ⟨pushed_trans hp hu.1, hu.2⟩

theorem minheapPop_spec (s : Search) (h : IdxInv s) (hpos : 0 < s.openset.length) :
    Popped s (minheap.Pop s).1 (minheap.Pop s).2 ∧ IdxInv (minheap.Pop s).1 ∧
      s.openset[s.openset.length - 1]? = some (minheap.Pop s).2 := by
  have hlast : s.openset.length - 1 < s.openset.length := by omega
  obtain ⟨l, hl⟩ : ∃ l, s.openset[s.openset.length - 1]? = some l :=
    ⟨_, List.getElem?_eq_getElem hlast⟩
  have h2 : (minheap.Pop s).2 = l := by simp [minheap.Pop, hl]
  have ho : (minheap.Pop s).1.openset = s.openset.take (s.openset.length - 1) := rfl
  have hkn : (minheap.Pop s).1.known = setIndex s.known l (-1) := by
    simp [minheap.Pop, hl]
  have hget : ∀ (x : Nat) (a : Int), (minheap.Pop s).1.openset[x]? = some a ↔
      (x < s.openset.length - 1 ∧ s.openset[x]? = some a) := by
    intro x a
    rw [ho, List.getElem?_take]
    by_cases hx : x < s.openset.length - 1 <;> simp [hx]
  have hmem : ∀ a : Int, a ∈ (minheap.Pop s).1.openset ↔ (a ∈ s.openset ∧ a ≠ l) := by
    intro a
    constructor
    · intro ha
      obtain ⟨x, hx⟩ := List.mem_iff_getElem?.1 ha
      obtain ⟨hx1, hx2⟩ := (hget x a).1 hx
      refine ⟨List.getElem?_mem hx2, fun e => ?_⟩
      rw [e] at hx2
      have := h.inj _ _ _ hx2 hl
      omega
    · rintro ⟨ha, hne⟩
      obtain ⟨x, hx⟩ := List.mem_iff_getElem?.1 ha
      have hxl : x < s.openset.length := by
        by_contra hc
        rw [List.getElem?_eq_none (by omega)] at hx
        exact Option.noConfusion hx
      have : x ≠ s.openset.length - 1 := by
        intro e; rw [e, hl] at hx; exact hne (Option.some.inj hx).symm
      exact List.getElem?_mem ((hget x a).2 ⟨by omega, hx⟩)
  rw [h2]
  refine ⟨⟨?_, List.getElem?_mem hl, hmem, ?_, ?_, ?_, rfl, rfl⟩, ⟨?_, ?_, ?_⟩, hl⟩
  · rw [ho, List.length_take]; omega
  · intro a; rw [hkn, isKnown_setIndex]
  · intro a; rw [hkn, costOf_setIndex]
  · intro a; rw [hkn, estimateOf_setIndex]
  · intro x y a hx hy
    exact h.inj x y a ((hget x a).1 hx).2 ((hget y a).1 hy).2
  · intro x a hx
    have hx' := (hget x a).1 hx
    have hne : a ≠ l := ((hmem a).1 (List.getElem?_mem hx)).2
    rw [hkn, isKnown_setIndex, indexOf_setIndex_ne _ _ _ _ hne]
    exact h.back x a hx'.2
  · intro a ha hm
    rw [hkn, isKnown_setIndex] at ha
    rw [hkn]
    by_cases hal : a = l
    · rw [hal]; rw [hal] at ha; exact indexOf_setIndex_self _ _ _ ha
    · rw [indexOf_setIndex_ne _ _ _ _ hal]
      exact h.closed a ha (fun hin => hm ((hmem a).2 ⟨hin, hal⟩))

theorem popped_of_sameData {s t u : Search} {l : Int} (h1 : SameData s t) (h2 : Popped t u l) :
    Popped s u l :=
  ⟨by rw [h2.len, h1.len], (h1.mem l).1 h2.was,
    fun a => by rw [h2.mem a, h1.mem a],
    fun a => (h2.known a).trans (h1.known a), fun a => (h2.cost a).trans (h1.cost a),
    fun a => (h2.est a).trans (h1.est a), h2.pred.trans h1.pred, h2.pops.trans h1.pops⟩


/-! ### The heap order -/

theorem Less_iff (s : Search) (i j : Nat) : minheap.Less s i j = true ↔ est s i < est s j := by
  simp [minheap.Less, est]

theorem est_Swap (s : Search) (i j : Nat) (hi : i < s.openset.length)
    (hj : j < s.openset.length) (x : Nat) :
    est (minheap.Swap s i j) x =
      if x = j then est s i else if x = i then est s j else est s x := by
  unfold est
  rw [estimateOf_Swap]
  simp only [List.getD_eq_getElem?_getD, openset_Swap s i j hi hj]
  by_cases h1 : x = j
  · simp [h1]
  · by_cases h2 : x = i
    · subst h2; simp [h1]
    · simp [h1, h2]

theorem upLoop_heapOrd (fuel : Nat) (s : Search) (j : Nat) (hf : j < fuel)
    (hj : j < s.openset.length) (h : UpInv s s.openset.length j) :
    HeapOrd (heap.upLoop fuel s j) s.openset.length := by
  induction fuel generalizing s j with
  | zero => omega
  | succ m ih =>
    by_cases hc : (j - 1) / 2 = j ∨ ¬ minheap.Less s j ((j - 1) / 2)
    · simp only [heap.upLoop, if_pos hc]
      intro x hx hxn
      by_cases hxj : x = j
      · subst hxj
        rcases hc with hc | hc
        · omega
        · rw [Less_iff] at hc; omega
      · exact h.1 x hx hxn hxj
    · simp only [heap.upLoop, if_neg hc]
      rw [not_or, not_not, Less_iff] at hc
      obtain ⟨hne, hlt⟩ := hc
      have hi : (j - 1) / 2 < s.openset.length := lt_of_le_of_lt (parent_le j) hj
      have hpj : (j - 1) / 2 < j := lt_of_le_of_ne (parent_le j) hne
      have hlen := length_Swap s ((j - 1) / 2) j
      have hest := est_Swap s ((j - 1) / 2) j hi hj
      have := ih (minheap.Swap s ((j - 1) / 2) j) ((j - 1) / 2) (by omega)
        (by rw [hlen]; exact hi) ?_
      · rw [hlen] at this; exact this
      · rw [hlen]
        constructor
        · intro x hx hxn hxi
          rw [hest x, hest ((x - 1) / 2)]
          by_cases h1 : x = j
          · subst h1
            simp only [if_true, if_neg (ne_of_lt hpj), if_true]
            omega
          · rw [if_neg h1, if_neg hxi]
            by_cases h2 : (x - 1) / 2 = j
            · rw [if_pos h2]
              exact h.2 x hx hxn h2 (by omega)
            · rw [if_neg h2]
              by_cases h3 : (x - 1) / 2 = (j - 1) / 2
              · rw [if_pos h3]
                have := h.1 x hx hxn h1
                rw [h3] at this
                omega
              · rw [if_neg h3]
                exact h.1 x hx hxn h1
        · intro x hx hxn hxp hpos
          have hpp : (((j - 1) / 2 - 1) / 2) < (j - 1) / 2 := by omega
          rw [hest x, hest (((j - 1) / 2 - 1) / 2)]
          rw [if_neg (by omega), if_neg (by omega)]
          have hpar := h.1 ((j - 1) / 2) hpos hi (by omega)
          by_cases h1 : x = j
          · rw [if_pos h1]; exact hpar
          · rw [if_neg h1, if_neg (by omega)]
            have := h.1 x hx hxn h1
            rw [hxp] at this
            omega

theorem downLoop_fixed (fuel : Nat) (s : Search) (i n : Nat) (hn : n ≤ s.openset.length)
    (hi : i < s.openset.length) (x : Nat) (hx : n ≤ x) :
    (heap.downLoop fuel s i n).1.openset[x]? = s.openset[x]? := by
  induction fuel generalizing s i with
  | zero => rfl
  | succ m ih =>
    by_cases h1 : n ≤ 2 * i + 1
    · simp only [heap.downLoop, if_pos h1]
    · by_cases h2 : ¬ minheap.Less s (heap.child s i n) i
      · simp only [heap.downLoop, if_neg h1, if_pos h2]
      · simp only [heap.downLoop, if_neg h1, if_neg h2]
        have hj := child_lt s i n h1
        have hlen := length_Swap s i (heap.child s i n)
        rw [ih _ _ (by rw [hlen]; exact hn) (by rw [hlen]; omega),
          openset_Swap s i _ hi (by omega)]
        have : i < heap.child s i n := by rcases child_cases s i n with h | h <;> omega
        rw [if_neg (by omega), if_neg (by omega)]

theorem downLoop_heapOrd (fuel : Nat) (s : Search) (i n : Nat) (hf : n ≤ fuel + i)
    (hn : n ≤ s.openset.length) (hi : i < s.openset.length) (h : DownInv s n i) :
    HeapOrd (heap.downLoop fuel s i n).1 n := by
  induction fuel generalizing s i with
  | zero =>
    intro x hx hxn
    exact h.1 x hx hxn (by omega)
  | succ m ih =>
    by_cases h1 : n ≤ 2 * i + 1
    · simp only [heap.downLoop, if_pos h1]
      intro x hx hxn
      exact h.1 x hx hxn (by omega)
    · have hcl := child_lt s i n h1
      by_cases h2 : ¬ minheap.Less s (heap.child s i n) i
      · simp only [heap.downLoop, if_neg h1, if_pos h2]
        rw [Less_iff] at h2
        intro x hx hxn
        by_cases hxp : (x - 1) / 2 = i
        · rw [hxp]
          have hx12 : x = 2 * i + 1 ∨ x = 2 * i + 1 + 1 := by omega
          unfold heap.child at h2
          by_cases hc : 2 * i + 1 + 1 < n ∧ minheap.Less s (2 * i + 1 + 1) (2 * i + 1) = true
          · rw [if_pos hc] at h2
            have hc2 := (Less_iff _ _ _).1 hc.2
            rcases hx12 with e | e <;> subst e <;> omega
          · rw [if_neg hc] at h2
            rcases hx12 with e | e
            · subst e; omega
            · subst e
              rw [not_and, Less_iff] at hc
              have := hc (by omega)
              omega
        · exact h.1 x hx hxn hxp
      · simp only [heap.downLoop, if_neg h1, if_neg h2]
        rw [not_not, Less_iff] at h2
        have hj : heap.child s i n < s.openset.length := by omega
        have hij : i < heap.child s i n := by rcases child_cases s i n with e | e <;> omega
        have hlen := length_Swap s i (heap.child s i n)
        have hest := est_Swap s i (heap.child s i n) hi hj
        have hsmall : ∀ x, x < n → (x - 1) / 2 = i → 0 < x →
            est s (heap.child s i n) ≤ est s x := by
          intro x hxn hxp hx
          have hx12 : x = 2 * i + 1 ∨ x = 2 * i + 1 + 1 := by omega
          unfold heap.child
          by_cases hc : 2 * i + 1 + 1 < n ∧ minheap.Less s (2 * i + 1 + 1) (2 * i + 1) = true
          · rw [if_pos hc]
            have hc2 := (Less_iff _ _ _).1 hc.2
            rcases hx12 with e | e <;> subst e <;> omega
          · rw [if_neg hc]
            rcases hx12 with e | e
            · subst e; omega
            · subst e
              rw [not_and, Less_iff] at hc
              have := hc (by omega)
              omega
        have hpc : (heap.child s i n - 1) / 2 = i := by
          rcases child_cases s i n with e | e <;> omega
        apply ih (minheap.Swap s i (heap.child s i n)) (heap.child s i n) (by omega)
          (by rw [hlen]; exact hn) (by rw [hlen]; exact hj)
        constructor
        · intro x hx hxn hxp
          rw [hest x, hest ((x - 1) / 2), if_neg hxp]
          by_cases h3 : x = heap.child s i n
          · rw [if_pos h3, h3, hpc, if_pos rfl]; omega
          · rw [if_neg h3]
            by_cases h4 : x = i
            · rw [if_pos h4]
              have hi0 : 0 < i := by omega
              rw [if_neg (by omega)]
              have := h.2 (heap.child s i n) (by omega) hcl hpc hi0
              rw [h4]; exact this
            · rw [if_neg h4]
              by_cases h5 : (x - 1) / 2 = i
              · rw [if_pos h5]
                exact hsmall x hxn h5 hx
              · rw [if_neg h5]
                exact h.1 x hx hxn h5
        · intro x hx hxn hxp _
          rw [hest x, hest ((heap.child s i n - 1) / 2), hpc]
          rw [if_neg (by omega), if_pos rfl, if_neg (by omega), if_neg (by omega)]
          have := h.1 x hx hxn (by omega)
          rw [hxp] at this
          exact this

/-- With heap order, the root has the least estimate. -/
theorem heapOrd_root_le {s : Search} {n : Nat} (h : HeapOrd s n) (x : Nat) (hx : x < n) :
    est s 0 ≤ est s x := by
  induction x using Nat.strong_induction_on with
  | _ x ih =>
    by_cases h0 : x = 0
    · rw [h0]
    · have h1 := h x (by omega) hx
      have h2 := ih ((x - 1) / 2) (by omega) (by omega)
      omega


/-! ### `heap.Push`, `heap.Pop` and `heap.Fix` -/

theorem est_minheapPush (s : Search) (l : Int) (x : Nat) (hx : x < s.openset.length) :
    est (minheap.Push s l) x = est s x := by
  unfold est
  rw [known_minheapPush, estimateOf_setIndex, openset_minheapPush]
  simp [List.getD_eq_getElem?_getD, List.getElem?_append, hx]

theorem heapPush_heapOrd (s : Search) (l : Int) (h : HeapOrd s s.openset.length) :
    HeapOrd (heap.Push s l) (s.openset.length + 1) := by
  have hlen : (minheap.Push s l).openset.length = s.openset.length + 1 := by
    simp [minheap.Push]
  have hup : UpInv (minheap.Push s l) (minheap.Push s l).openset.length s.openset.length := by
    rw [hlen]
    constructor
    · intro x hx hxn hne
      rw [est_minheapPush s l x (by omega), est_minheapPush s l _ (by omega)]
      exact h x hx (by omega)
    · intro x hx hxn hp _
      omega
  have := upLoop_heapOrd (s.openset.length + 1) (minheap.Push s l) s.openset.length
    (by omega) (by omega) hup
  rw [hlen] at this
  unfold heap.Push heap.up minheap.Len
  simp only [hlen, Nat.add_sub_cancel]
  exact this

theorem est_minheapPop (s : Search) (x : Nat) (hx : x < s.openset.length - 1) :
    est (minheap.Pop s).1 x = est s x := by
  unfold est
  have hkn : (minheap.Pop s).1.known =
      setIndex s.known (s.openset.getD (s.openset.length - 1) 0) (-1) := rfl
  have ho : (minheap.Pop s).1.openset = s.openset.take (s.openset.length - 1) := rfl
  rw [hkn, estimateOf_setIndex, ho]
  simp [List.getD_eq_getElem?_getD, List.getElem?_take, hx]
  rw [List.getElem?_eq_getElem (by omega)]
  rfl

/-- The function `heap.Pop` on a non-empty open set returns the label of the root
slot, removes it from the open set and keeps the back-pointers. -/
theorem heapPop_spec (s : Search) (h : IdxInv s) (hpos : 0 < s.openset.length) :
    Popped s (heap.Pop s).1 (heap.Pop s).2 ∧ IdxInv (heap.Pop s).1 ∧
      s.openset[0]? = some (heap.Pop s).2 := by
  have hn : s.openset.length - 1 < s.openset.length := by omega
  have hsw := sameData_Swap s 0 (s.openset.length - 1) hpos hn
  have hisw := idxInv_Swap h 0 (s.openset.length - 1) hpos hn
  have hlen := length_Swap s 0 (s.openset.length - 1)
  have hd := down_spec (minheap.Swap s 0 (s.openset.length - 1)) 0 (s.openset.length - 1)
    (by rw [hlen]; omega) (by rw [hlen]; exact hpos) hisw
  have hp := minheapPop_spec _ hd.2 (by rw [hd.1.len, hlen]; exact hpos)
  have hlast := hp.2.2
  rw [hd.1.len, hlen] at hlast
  have hfix := downLoop_fixed (s.openset.length - 1) (minheap.Swap s 0 (s.openset.length - 1)) 0
    (s.openset.length - 1) (by rw [hlen]; omega) (by rw [hlen]; exact hpos)
    (s.openset.length - 1) (le_refl _)
  have hroot : s.openset[0]? = some (heap.Pop s).2 := by
    have e : (heap.down (minheap.Swap s 0 (s.openset.length - 1)) 0
        (s.openset.length - 1)).1.openset[s.openset.length - 1]? = s.openset[0]? := by
      unfold heap.down
      simp only
      rw [hfix, openset_Swap s 0 _ hpos hn, if_pos rfl]
    rw [← e]
    exact hlast
  exact ⟨popped_of_sameData (sameData_trans hsw hd.1) hp.1, hp.2.1, hroot⟩

/-- With heap order, `heap.Pop` keeps the heap order and returns a point whose
estimate is no greater than that of any point of the open set. -/
theorem heapPop_heapOrd (s : Search) (h : IdxInv s) (hpos : 0 < s.openset.length)
    (ho : HeapOrd s s.openset.length) :
    HeapOrd (heap.Pop s).1 (s.openset.length - 1) ∧
      ∀ a ∈ s.openset, estimateOf s.known (heap.Pop s).2 ≤ estimateOf s.known a := by
  have hn : s.openset.length - 1 < s.openset.length := by omega
  have hlen := length_Swap s 0 (s.openset.length - 1)
  have hest := est_Swap s 0 (s.openset.length - 1) hpos hn
  constructor
  · have hdi : DownInv (minheap.Swap s 0 (s.openset.length - 1)) (s.openset.length - 1) 0 := by
      constructor
      · intro x hx hxn hp
        have e1 : x ≠ s.openset.length - 1 := by omega
        have e2 : x ≠ 0 := by omega
        have e3 : (x - 1) / 2 ≠ s.openset.length - 1 := by omega
        rw [hest x, hest ((x - 1) / 2)]
        simp only [if_neg e1, if_neg e2, if_neg e3, if_neg hp]
        exact ho x hx (by omega)
      · intro x _ _ _ h0
        omega
    have hd := downLoop_heapOrd (s.openset.length - 1) (minheap.Swap s 0 (s.openset.length - 1))
      0 (s.openset.length - 1) (by omega) (by rw [hlen]; omega) (by rw [hlen]; exact hpos) hdi
    have hds := down_spec (minheap.Swap s 0 (s.openset.length - 1)) 0 (s.openset.length - 1)
      (by rw [hlen]; omega) (by rw [hlen]; exact hpos) (idxInv_Swap h 0 _ hpos hn)
    intro x hx hxn
    have hl2 : (heap.down (minheap.Swap s 0 (s.openset.length - 1)) 0
        (s.openset.length - 1)).1.openset.length = s.openset.length := by
      rw [hds.1.len, hlen]
    unfold heap.Pop minheap.Len
    simp only
    rw [est_minheapPop _ x (by rw [hl2]; exact hxn),
      est_minheapPop _ ((x - 1) / 2) (by rw [hl2]; omega)]
    exact hd x hx hxn
  · intro a ha
    obtain ⟨x, hx⟩ := List.mem_iff_getElem?.1 ha
    have hxl : x < s.openset.length := by
      by_contra hc
      rw [List.getElem?_eq_none (by omega)] at hx
      exact Option.noConfusion hx
    have hroot := (heapPop_spec s h hpos).2.2
    have := heapOrd_root_le ho x hxl
    unfold est at this
    rw [getD_of_getElem? hroot, getD_of_getElem? hx] at this
    exact this

/-- The function `heap.Fix` at a slot of the open set keeps the points and the
back-pointers. -/
theorem heapFix_spec (s : Search) (i : Nat) (h : IdxInv s) (hi : i < s.openset.length) :
    SameData s (heap.Fix s i) ∧ IdxInv (heap.Fix s i) := by
  have hd := down_spec s i (minheap.Len s) (le_refl _) hi h
  unfold heap.Fix
  simp only
  split
  · exact hd
  · have hu := up_spec (heap.down s i (minheap.Len s)).1 i (by rw [hd.1.len]; exact hi) hd.2
    exact ⟨sameData_trans hd.1 hu.1, hu.2⟩

/-- When the estimate in slot `i` was lowered in a heap, `heap.Fix` restores the
heap order (`down` does not move the slot, `up` does the work). -/
theorem heapFix_heapOrd (s : Search) (i : Nat) (hi : i < s.openset.length)
    (h : UpInv s s.openset.length i) : HeapOrd (heap.Fix s i) s.openset.length := by
  have hstay : heap.downLoop s.openset.length s i s.openset.length = (s, i) := by
    obtain ⟨m, hm⟩ : ∃ m, s.openset.length = m + 1 := ⟨s.openset.length - 1, by omega⟩
    rw [hm]
    by_cases h1 : m + 1 ≤ 2 * i + 1
    · simp only [heap.downLoop, if_pos h1]
    · have hcl := child_lt s i (m + 1) h1
      have h2 : ¬ minheap.Less s (heap.child s i (m + 1)) i = true := by
        rw [Less_iff]
        have := h.1 (heap.child s i (m + 1))
          (by rcases child_cases s i (m + 1) with e | e <;> omega) (by omega)
          (by rcases child_cases s i (m + 1) with e | e <;> omega)
        have hpc : (heap.child s i (m + 1) - 1) / 2 = i := by
          rcases child_cases s i (m + 1) with e | e <;> omega
        rw [hpc] at this
        omega
      simp only [heap.downLoop, if_neg h1, if_pos h2]
  unfold heap.Fix heap.down minheap.Len
  simp only [hstay, lt_irrefl, decide_False, Bool.false_eq_true, if_false]
  exact upLoop_heapOrd (i + 1) s i (by omega) hi h


/-! ### The registry lookup `register` -/

theorem MaxFloat64_pos : 0 < MaxFloat64 := by decide

/-- The literal in `MaxFloat64` is `2^1024 - 2^971 = (2^53 - 1) * 2^971`. -/
theorem MaxFloat64_eq : MaxFloat64 = 2 ^ 1024 - 2 ^ 971 ∧ MaxFloat64 = (2 ^ 53 - 1) * 2 ^ 971 := by
  constructor <;> norm_num [MaxFloat64]

theorem register_cases (s : Search) (k : Int) :
    (IsKnown s.known k ∧ register s k = s) ∨
    (¬ IsKnown s.known k ∧
      register s k = { s with known := mapSet s.known k ⟨k, -1, MaxFloat64, 0⟩ }) := by
  unfold register IsKnown
  cases h : s.known k with
  | none => right; simp
  | some p => left; simp

theorem openset_register (s : Search) (k : Int) : (register s k).openset = s.openset := by
  rcases register_cases s k with ⟨_, h⟩ | ⟨_, h⟩ <;> rw [h]

theorem predecessor_register (s : Search) (k : Int) :
    (register s k).predecessor = s.predecessor := by
  rcases register_cases s k with ⟨_, h⟩ | ⟨_, h⟩ <;> rw [h]

theorem pops_register (s : Search) (k : Int) : (register s k).pops = s.pops := by
  rcases register_cases s k with ⟨_, h⟩ | ⟨_, h⟩ <;> rw [h]

theorem isKnown_register (s : Search) (k l : Int) :
    IsKnown (register s k).known l ↔ (IsKnown s.known l ∨ l = k) := by
  rcases register_cases s k with ⟨hk, h⟩ | ⟨hk, h⟩
  · rw [h]
    constructor
    · exact Or.inl
    · rintro (h1 | h1)
      · exact h1
      · rw [h1]; exact hk
  · rw [h]
    simp only
    rw [isKnown_mapSet]
    tauto

theorem known_register_of_known (s : Search) (k l : Int) (hl : IsKnown s.known l) :
    (register s k).known l = s.known l := by
  rcases register_cases s k with ⟨hk, h⟩ | ⟨hk, h⟩
  · rw [h]
  · rw [h]
    have : l ≠ k := fun e => hk (e ▸ hl)
    simp [mapSet, this]

theorem costOf_register_of_known (s : Search) (k l : Int) (hl : IsKnown s.known l) :
    costOf (register s k).known l = costOf s.known l := by
  unfold costOf; rw [known_register_of_known s k l hl]

theorem estimateOf_register_of_known (s : Search) (k l : Int) (hl : IsKnown s.known l) :
    estimateOf (register s k).known l = estimateOf s.known l := by
  unfold estimateOf; rw [known_register_of_known s k l hl]

theorem indexOf_register_of_known (s : Search) (k l : Int) (hl : IsKnown s.known l) :
    indexOf (register s k).known l = indexOf s.known l := by
  unfold indexOf; rw [known_register_of_known s k l hl]

theorem register_new (s : Search) (k : Int) (hk : ¬ IsKnown s.known k) :
    costOf (register s k).known k = MaxFloat64 ∧ indexOf (register s k).known k = -1 := by
  rcases register_cases s k with ⟨hk', _⟩ | ⟨_, h⟩
  · exact absurd hk' hk
  · rw [h]
    exact ⟨costOf_mapSet_self _ _ _, indexOf_mapSet_self _ _ _⟩

theorem vcost_register (s : Search) (k l : Int) : vcost (register s k) l = vcost s l := by
  unfold vcost
  by_cases hl : IsKnown s.known l
  · rw [if_pos hl, if_pos ((isKnown_register s k l).2 (Or.inl hl)),
      costOf_register_of_known s k l hl]
  · by_cases hlk : l = k
    · subst hlk
      rw [if_neg hl, if_pos ((isKnown_register s l l).2 (Or.inr rfl)), (register_new s l hl).1]
    · rw [if_neg hl, if_neg]
      rw [isKnown_register]
      tauto

theorem potential_congr (V : Finset Int) (s t : Search) (h : ∀ l, vcost t l = vcost s l)
    (hlen : t.openset.length = s.openset.length) : potential V t = potential V s := by
  unfold potential
  rw [hlen]
  congr 2
  exact Finset.sum_congr rfl (fun l _ => h l)

theorem mem_known_of_idx {s : Search} (h : IdxInv s) {l : Int} (hl : l ∈ s.openset) :
    IsKnown s.known l := by
  obtain ⟨x, hx⟩ := List.mem_iff_getElem?.1 hl
  exact (h.back x l hx).1

theorem est_eq_of_lt (s : Search) (x : Nat) (hx : x < s.openset.length) :
    est s x = estimateOf s.known s.openset[x] := by
  unfold est
  rw [List.getD_eq_getElem _ _ hx]

/-- The lookup `register` keeps the invariant. -/
theorem wf_register {P : Interface} {V : Finset Int} {start goal : Int} {s : Search}
    (h : WF P V start goal s) (k : Int) (hk : k ∈ V) (hr : Reachable P start k) :
    WF P V start goal (register s k) := by
  have hkn := known_register_of_known s k
  have hc := costOf_register_of_known s k
  have he := estimateOf_register_of_known s k
  have hi := indexOf_register_of_known s k
  have ho := openset_register s k
  have hmem : ∀ l, l ∈ s.openset → IsKnown s.known l := fun l hl => mem_known_of_idx h.idx hl
  refine ⟨⟨?_, ?_, ?_⟩, ?_, ?_, ?_, ?_, ?_, ?_, ?_, ?_, ?_, ?_, ?_, ?_⟩
  · intro i j l hi' hj'
    rw [ho] at hi' hj'
    exact h.idx.inj i j l hi' hj'
  · intro i l hi'
    rw [ho] at hi'
    have := h.idx.back i l hi'
    exact ⟨(isKnown_register s k l).2 (Or.inl this.1), by rw [hi l this.1]; exact this.2⟩
  · intro l hl hm
    rw [ho] at hm
    by_cases hl' : IsKnown s.known l
    · rw [hi l hl']; exact h.idx.closed l hl' hm
    · have : l = k := by
        rcases (isKnown_register s k l).1 hl with h1 | h1
        · exact absurd h1 hl'
        · exact h1
      subst this
      exact (register_new s l hl').2
  · rw [ho]
    intro x hx hxn
    have e1 : est (Astar.register s k) x = est s x := by
      unfold est
      rw [ho, List.getD_eq_getElem _ _ hxn]
      exact he _ (hmem _ (List.getElem_mem _))
    have e2 : est (Astar.register s k) ((x - 1) / 2) = est s ((x - 1) / 2) := by
      unfold est
      rw [ho, List.getD_eq_getElem _ _ (show (x - 1) / 2 < s.openset.length by omega)]
      exact he _ (hmem _ (List.getElem_mem _))
    rw [e1, e2]
    exact h.heap x hx hxn
  · intro l hl
    rcases (isKnown_register s k l).1 hl with h1 | h1
    · exact h.knownIn l h1
    · rw [h1]; exact hk
  · exact (isKnown_register s k start).2 (Or.inl h.startKnown)
  · rw [hc _ h.startKnown]; exact h.startCost
  · intro l hl
    by_cases hl' : IsKnown s.known l
    · rw [hc l hl']; exact h.costNonneg l hl'
    · have : l = k := by
        rcases (isKnown_register s k l).1 hl with h1 | h1
        · exact absurd h1 hl'
        · exact h1
      subst this
      rw [(register_new s l hl').1]
      exact le_of_lt MaxFloat64_pos
  · intro l hl
    by_cases hl' : IsKnown s.known l
    · rw [hc l hl']; exact h.costLe l hl'
    · have : l = k := by
        rcases (isKnown_register s k l).1 hl with h1 | h1
        · exact absurd h1 hl'
        · exact h1
      subst this
      rw [(register_new s l hl').1]
  · intro l hl
    rw [ho] at hl
    rw [he l (hmem l hl), hc l (hmem l hl)]
    exact h.fgh l hl
  · intro l hl
    rw [ho] at hl
    rw [hc l (hmem l hl)]
    exact h.openLt l hl
  · intro a u hp
    rw [predecessor_register] at hp
    obtain ⟨h1, h2, h3, h4, c, h5, h6⟩ := h.predInv a u hp
    refine ⟨h1, (isKnown_register s k u).2 (Or.inl h2), (isKnown_register s k a).2 (Or.inl h3),
      by rw [hc a h3]; exact h4, c, h5, by rw [hc a h3, hc u h2]; exact h6⟩
  · intro a ha hlt
    rw [predecessor_register]
    by_cases ha' : IsKnown s.known a
    · rw [hc a ha'] at hlt
      exact h.hasPred a ha' hlt
    · have : a = k := by
        rcases (isKnown_register s k a).1 ha with h1 | h1
        · exact absurd h1 ha'
        · exact h1
      subst this
      rw [(register_new s a ha').1] at hlt
      exact absurd hlt (lt_irrefl _)
  · rw [predecessor_register]; exact h.acyclic
  · intro l hl
    rcases (isKnown_register s k l).1 hl with h1 | h1
    · exact h.reach l h1
    · rw [h1]; exact hr


/-! ### The assignments `improve` followed by `heap.Push` or `heap.Fix` -/

theorem acc_mapSet (pred : Int → Option Int) (g : Int → Int) (k cur : Int)
    (hmono : ∀ x u, pred x = some u → g u ≤ g x) (hlt : g cur < g k)
    (hacc : ∀ x, Acc (fun a b => pred b = some a) x) :
    ∀ x, Acc (fun a b => mapSet pred k cur b = some a) x := by
  have hbelow : ∀ y, g y < g k → Acc (fun a b => mapSet pred k cur b = some a) y := by
    intro y
    induction hacc y with
    | intro y _ ih =>
      intro hy
      refine Acc.intro y (fun a ha => ?_)
      have hyk : y ≠ k := fun e => by rw [e] at hy; exact lt_irrefl _ hy
      have ha' : pred y = some a := by simpa [mapSet, hyk] using ha
      exact ih a ha' (lt_of_le_of_lt (hmono y a ha') hy)
  intro x
  induction hacc x with
  | intro x _ ih =>
    refine Acc.intro x (fun a ha => ?_)
    by_cases hxk : x = k
    · have : a = cur := by
        have := ha
        simp only [mapSet, hxk, if_true] at this
        exact (Option.some.inj this).symm
      rw [this]
      exact hbelow cur hlt
    · have ha' : pred x = some a := by simpa [mapSet, hxk] using ha
      exact ih a ha'

/-- The assignments of a relaxation, followed by `heap.Push` or `heap.Fix`, on a
state with back-pointers and heap order in which the relaxed point, when it is in the
open set, has `estimate = cost + Estimate`. -/
theorem improved_of_improve (P : Interface) (goal cur : Int) (s : Search)
    (k : Int) (c : Int) (hidx : IdxInv s) (hheap : HeapOrd s s.openset.length)
    (hfgh : k ∈ s.openset → estimateOf s.known k = costOf s.known k + P.Estimate k goal)
    (hk : IsKnown s.known k) (hc : c < costOf s.known k) :
    Improved s
      (if indexOf (improve P goal cur s k c).known k = -1 then
        heap.Push (improve P goal cur s k c) k
      else heap.Fix (improve P goal cur s k c) (indexOf (improve P goal cur s k c).known k).toNat)
      k cur c (c + P.Estimate k goal) := by
  have hkn2 : (improve P goal cur s k c).known = setCost s.known k c (c + P.Estimate k goal) := rfl
  have ho2 : (improve P goal cur s k c).openset = s.openset := rfl
  have hK : ∀ l, IsKnown (improve P goal cur s k c).known l ↔ IsKnown s.known l := by
    intro l; rw [hkn2, isKnown_setCost]
  have hI : ∀ l, indexOf (improve P goal cur s k c).known l = indexOf s.known l := by
    intro l; rw [hkn2, indexOf_setCost]
  have hC : ∀ l, costOf (improve P goal cur s k c).known l = if l = k then c else costOf s.known l := by
    intro l
    rw [hkn2]
    by_cases hl : l = k
    · rw [if_pos hl, hl]; exact costOf_setCost_self _ _ _ _ hk
    · rw [if_neg hl]; exact costOf_setCost_ne _ _ _ _ _ hl
  have hE : ∀ l, estimateOf (improve P goal cur s k c).known l =
      if l = k then c + P.Estimate k goal else estimateOf s.known l := by
    intro l
    rw [hkn2]
    by_cases hl : l = k
    · rw [if_pos hl, hl]; exact estimateOf_setCost_self _ _ _ _ hk
    · rw [if_neg hl]; exact estimateOf_setCost_ne _ _ _ _ _ hl
  have hidx2 : IdxInv (improve P goal cur s k c) := by
    refine ⟨?_, ?_, ?_⟩
    · intro i j l hi hj; rw [ho2] at hi hj; exact hidx.inj i j l hi hj
    · intro i l hi
      rw [ho2] at hi
      rw [hK, hI]
      exact hidx.back i l hi
    · intro l hl hm
      rw [ho2] at hm
      rw [hK] at hl
      rw [hI]
      exact hidx.closed l hl hm
  by_cases hneg : indexOf (improve P goal cur s k c).known k = -1
  · rw [if_pos hneg]
    have hnot : k ∉ s.openset := by
      intro hm
      obtain ⟨x, hx⟩ := List.mem_iff_getElem?.1 hm
      have := (hidx.back x k hx).2
      rw [hI] at hneg
      rw [hneg] at this
      omega
    have hp := heapPush_spec (improve P goal cur s k c) k hidx2 ((hK k).2 hk)
      (by rw [ho2]; exact hnot)
    have hord2 : HeapOrd (improve P goal cur s k c) (improve P goal cur s k c).openset.length := by
      rw [ho2]
      intro x hx hxn
      have e1 : ∀ y, y < s.openset.length → est (improve P goal cur s k c) y = est s y := by
        intro y hy
        unfold est
        rw [ho2, hE, if_neg]
        intro e
        rw [List.getD_eq_getElem _ _ hy] at e
        exact hnot (e ▸ List.getElem_mem _)
      rw [e1 x hxn, e1 _ (by omega)]
      exact hheap x hx hxn
    have hh := heapPush_heapOrd (improve P goal cur s k c) k hord2
    refine ⟨fun l => (hp.1.known l).trans (hK l), fun l => (hp.1.cost l).trans (hC l),
      fun l => (hp.1.est l).trans (hE l), hp.1.pred, hp.1.pops, ?_, ?_, hp.2, ?_⟩
    · intro l; rw [hp.1.mem l, ho2]
    · right; exact ⟨hnot, by rw [hp.1.len, ho2]⟩
    · rw [hp.1.len]; exact hh
  · rw [if_neg hneg]
    have hin : k ∈ s.openset := by
      by_contra hm
      exact hneg (by rw [hI]; exact hidx.closed k hk hm)
    obtain ⟨x, hx⟩ := List.mem_iff_getElem?.1 hin
    have hxl : x < s.openset.length := by
      by_contra hcon
      rw [List.getElem?_eq_none (by omega)] at hx
      exact Option.noConfusion hx
    have hix : (indexOf (improve P goal cur s k c).known k).toNat = x := by
      rw [hI, (hidx.back x k hx).2]; simp
    rw [hix]
    have hf := heapFix_spec (improve P goal cur s k c) x hidx2 (by rw [ho2]; exact hxl)
    have e1 : ∀ y, y < s.openset.length → est (improve P goal cur s k c) y =
        if y = x then c + P.Estimate k goal else est s y := by
      intro y hy
      unfold est
      rw [ho2, hE]
      have hy' : s.openset[y]? = some (s.openset.getD y 0) := by
        rw [List.getD_eq_getElem _ _ hy]; exact List.getElem?_eq_getElem hy
      by_cases hyx : y = x
      · rw [if_pos hyx, if_pos]
        rw [hyx, getD_of_getElem? hx]
      · rw [if_neg hyx, if_neg]
        intro e
        rw [e] at hy'
        exact hyx (hidx.inj y x k hy' hx)
    have hlow : c + P.Estimate k goal < est s x := by
      have : est s x = estimateOf s.known k := by
        unfold est; rw [getD_of_getElem? hx]
      rw [this, hfgh hin]
      omega
    have hup : UpInv (improve P goal cur s k c) (improve P goal cur s k c).openset.length x := by
      rw [ho2]
      constructor
      · intro y hy hyn hyx
        rw [e1 y hyn, e1 _ (show (y - 1) / 2 < s.openset.length by omega), if_neg hyx]
        have := hheap y hy hyn
        by_cases hp : (y - 1) / 2 = x
        · rw [if_pos hp]; rw [hp] at this; omega
        · rw [if_neg hp]; exact this
      · intro y hy hyn hyp hx0
        rw [e1 y hyn, e1 _ (show (x - 1) / 2 < s.openset.length by omega),
          if_neg (show y ≠ x by omega), if_neg (show (x - 1) / 2 ≠ x by omega)]
        have h1 := hheap y hy hyn
        have h2 := hheap x hx0 hxl
        rw [hyp] at h1
        omega
    have hh := heapFix_heapOrd (improve P goal cur s k c) x (by rw [ho2]; exact hxl) hup
    refine ⟨fun l => (hf.1.known l).trans (hK l), fun l => (hf.1.cost l).trans (hC l),
      fun l => (hf.1.est l).trans (hE l), hf.1.pred, hf.1.pops, ?_, ?_, hf.2, ?_⟩
    · intro l
      rw [hf.1.mem l, ho2]
      constructor
      · exact Or.inl
      · rintro (h1 | h1)
        · exact h1
        · rw [h1]; exact hin
    · left; exact ⟨hin, by rw [hf.1.len, ho2]⟩
    · rw [hf.1.len]; exact hh

theorem improved_of_relax (P : Interface) (V : Finset Int) (start goal cur : Int) (s : Search)
    (k : Int) (c : Int) (h : WF P V start goal s) (hk : IsKnown s.known k)
    (hc : c < costOf s.known k) :
    Improved s
      (if indexOf (improve P goal cur s k c).known k = -1 then
        heap.Push (improve P goal cur s k c) k
      else heap.Fix (improve P goal cur s k c) (indexOf (improve P goal cur s k c).known k).toNat)
      k cur c (c + P.Estimate k goal) :=
  improved_of_improve P goal cur s k c h.idx h.heap (fun hin => h.fgh k hin) hk hc


/-! ### One relaxation keeps the invariant -/

theorem reachable_step {P : Interface} {a b c : Int} (h : Reachable P a b) (he : IsEdge P b c) :
    Reachable P a c := by
  obtain ⟨p, hp, hh, hl⟩ := h
  refine ⟨p ++ [c], ?_, ?_, ?_⟩
  · unfold IsPath
    rw [List.chain'_append]
    refine ⟨hp, List.chain'_singleton c, ?_⟩
    intro x hx y hy
    rw [hl] at hx
    simp only [List.head?_cons, Option.mem_def, Option.some.injEq] at hx hy
    rw [← hx, ← hy]
    exact he
  · cases p with
    | nil => simp at hh
    | cons x xs => simpa using hh
  · simp

theorem wf_pred_cost_le {P : Interface} {V : Finset Int} {start goal : Int} {s : Search}
    (h : WF P V start goal s) (hnn : NonNegative P V) (x u : Int)
    (hp : s.predecessor x = some u) : costOf s.known u ≤ costOf s.known x := by
  obtain ⟨_, h2, _, _, c, h5, h6⟩ := h.predInv x u hp
  have := hnn u (h.knownIn u h2) (x, c) h5
  simp only at this
  omega

theorem wf_improved {P : Interface} {V : Finset Int} {start goal : Int} {s t : Search}
    {k cur v : Int} (h : WF P V start goal s) (hnn : NonNegative P V)
    (hcur : IsKnown s.known cur) (hk : IsKnown s.known k) (hkv : (k, v) ∈ (P.Adjacent cur).1)
    (hlt : v + costOf s.known cur < costOf s.known k)
    (hi : Improved s t k cur (v + costOf s.known cur)
      (v + costOf s.known cur + P.Estimate k goal)) :
    WF P V start goal t := by
  have hv : 0 ≤ v := hnn cur (h.knownIn cur hcur) (k, v) hkv
  have hcurk : cur ≠ k := by
    intro e; rw [e] at hlt; omega
  have hks : k ≠ start := by
    intro e
    rw [e, h.startCost] at hlt
    have := h.costNonneg cur hcur
    omega
  have hcle : ∀ l, costOf t.known l ≤ costOf s.known l := by
    intro l
    rw [hi.cost l]
    by_cases hl : l = k
    · rw [if_pos hl, hl]; omega
    · rw [if_neg hl]
  refine ⟨hi.idx, hi.heap, ?_, ?_, ?_, ?_, ?_, ?_, ?_, ?_, ?_, ?_, ?_⟩
  · intro l hl; exact h.knownIn l ((hi.known l).1 hl)
  · exact (hi.known start).2 h.startKnown
  · rw [hi.cost start, if_neg (Ne.symm hks)]; exact h.startCost
  · intro l hl
    rw [hi.cost l]
    by_cases hlk : l = k
    · rw [if_pos hlk]
      have := h.costNonneg cur hcur
      omega
    · rw [if_neg hlk]; exact h.costNonneg l ((hi.known l).1 hl)
  · intro l hl
    exact le_trans (hcle l) (h.costLe l ((hi.known l).1 hl))
  · intro l hl
    rw [hi.est l, hi.cost l]
    by_cases hlk : l = k
    · rw [if_pos hlk, if_pos hlk, hlk]
    · rw [if_neg hlk, if_neg hlk]
      rcases (hi.mem l).1 hl with h1 | h1
      · exact h.fgh l h1
      · exact absurd h1 hlk
  · intro l hl
    rcases (hi.mem l).1 hl with h1 | h1
    · exact lt_of_le_of_lt (hcle l) (h.openLt l h1)
    · rw [h1, hi.cost k, if_pos rfl]
      have := h.costLe k hk
      omega
  · intro a u hp
    rw [hi.pred] at hp
    by_cases hak : a = k
    · have hu : u = cur := by
        simp only [mapSet, hak, if_true] at hp
        exact (Option.some.inj hp).symm
      rw [hak, hu]
      refine ⟨hks, (hi.known cur).2 hcur, (hi.known k).2 hk, ?_, v, hkv, ?_⟩
      · rw [hi.cost k, if_pos rfl]
        have := h.costLe k hk
        omega
      · rw [hi.cost k, if_pos rfl, hi.cost cur, if_neg hcurk]
        omega
    · have hp' : s.predecessor a = some u := by simpa [mapSet, hak] using hp
      obtain ⟨h1, h2, h3, h4, c, h5, h6⟩ := h.predInv a u hp'
      refine ⟨h1, (hi.known u).2 h2, (hi.known a).2 h3, ?_, c, h5, ?_⟩
      · rw [hi.cost a, if_neg hak]; exact h4
      · have := hcle u
        rw [hi.cost a, if_neg hak]
        omega
  · intro a ha hlt'
    rw [hi.pred]
    by_cases hak : a = k
    · right; simp [mapSet, hak]
    · rw [hi.cost a, if_neg hak] at hlt'
      rcases h.hasPred a ((hi.known a).1 ha) hlt' with h1 | h1
      · left; exact h1
      · right; simpa [mapSet, hak] using h1
  · rw [hi.pred]
    exact acc_mapSet s.predecessor (costOf s.known) k cur
      (fun x u hp => wf_pred_cost_le h hnn x u hp) (by omega) h.acyclic
  · intro l hl; exact h.reach l ((hi.known l).1 hl)

theorem vcost_improved {s t : Search} {k cur c e : Int} (hi : Improved s t k cur c e)
    (hk : IsKnown s.known k) (l : Int) :
    vcost t l = if l = k then c else vcost s l := by
  unfold vcost
  by_cases hl : IsKnown s.known l
  · rw [if_pos ((hi.known l).2 hl), hi.cost l, if_pos hl]
  · have hlk : l ≠ k := fun e' => hl (e' ▸ hk)
    rw [if_neg (fun h' => hl ((hi.known l).1 h')), if_neg hl, if_neg hlk]

theorem potential_improved {V : Finset Int} {s t : Search} {k cur c e : Int}
    (hi : Improved s t k cur c e) (hk : IsKnown s.known k) (hkV : k ∈ V)
    (hc : c < costOf s.known k) : potential V t ≤ potential V s := by
  have hvk : vcost s k = costOf s.known k := by unfold vcost; rw [if_pos hk]
  have hsum : (∑ l in V, vcost t l) < ∑ l in V, vcost s l := by
    apply Finset.sum_lt_sum
    · intro l _
      rw [vcost_improved hi hk l]
      by_cases hl : l = k
      · rw [if_pos hl, hl, hvk]; omega
      · rw [if_neg hl]
    · exact ⟨k, hkV, by rw [vcost_improved hi hk k, if_pos rfl, hvk]; exact hc⟩
  unfold potential
  rcases hi.len with ⟨_, h1⟩ | ⟨_, h1⟩ <;> rw [h1] <;> push_cast <;> omega

theorem step_refl (P : Interface) (V : Finset Int) (cur : Int) (s : Search) :
    Step P V cur s s :=
  ⟨fun _ h => h, fun _ _ => le_refl _, rfl, fun _ h => h,
    fun l hl => by
      by_cases hm : l ∈ s.openset
      · exact Or.inl hm
      · exact Or.inr (Or.inr ⟨hl, rfl, hm⟩),
    fun _ h => Or.inl h, rfl, le_refl _⟩

theorem step_trans {P : Interface} {V : Finset Int} {cur : Int} {s t u : Search}
    (h1 : Step P V cur s t) (h2 : Step P V cur t u) : Step P V cur s u := by
  refine ⟨fun l h => h2.knownMono l (h1.knownMono l h),
    fun l h => le_trans (h2.costLe l (h1.knownMono l h)) (h1.costLe l h),
    h2.costCur.trans h1.costCur, fun l h => h2.memMono l (h1.memMono l h), ?_, ?_,
    h2.pops.trans h1.pops, le_trans h2.pot h1.pot⟩
  · intro l hl
    rcases h2.tri l hl with a | ⟨a, b⟩ | ⟨a, b, c⟩
    · exact Or.inl a
    · exact Or.inr (Or.inl ⟨a, fun hs => b (h1.knownMono l hs)⟩)
    · rcases h1.tri l a with a' | ⟨a', b'⟩ | ⟨a', b', c'⟩
      · exact absurd a' c
      · exact Or.inr (Or.inl ⟨b.trans a', b'⟩)
      · exact Or.inr (Or.inr ⟨a', b.trans b', c'⟩)
  · intro l hl
    rcases h2.fresh l hl with a | a
    · exact h1.fresh l a
    · exact Or.inr a

/-- One relaxation keeps the invariant, changes the state as `Step` allows and
leaves the cost of the entry's key at most the cost through `current`. -/
theorem relax_spec {P : Interface} {V : Finset Int} {start goal : Int} {s : Search}
    (hfg : FiniteGraph P V) (hnn : NonNegative P V) (h : WF P V start goal s) (cur : Int)
    (hcur : IsKnown s.known cur) (kv : Int × Int) (hkv : kv ∈ (P.Adjacent cur).1) :
    WF P V start goal (relax P goal cur s kv) ∧ Step P V cur s (relax P goal cur s kv) ∧
      IsKnown (relax P goal cur s kv).known kv.1 ∧
      costOf (relax P goal cur s kv).known kv.1 ≤
        costOf (relax P goal cur s kv).known cur + kv.2 := by
  obtain ⟨k, v⟩ := kv
  have hcurV := h.knownIn cur hcur
  have hkV : k ∈ V := hfg cur hcurV (k, v) hkv
  have hv : 0 ≤ v := hnn cur hcurV (k, v) hkv
  have h1 := wf_register h k hkV (reachable_step (h.reach cur hcur)
    (List.mem_map.2 ⟨(k, v), hkv, rfl⟩))
  have hk1 : IsKnown (register s k).known k := (isKnown_register s k k).2 (Or.inr rfl)
  have hcur1 : IsKnown (register s k).known cur := (isKnown_register s k cur).2 (Or.inl hcur)
  have hccur : costOf (register s k).known cur = costOf s.known cur :=
    costOf_register_of_known s k cur hcur
  have hstep1 : Step P V cur s (register s k) := by
    refine ⟨fun l hl => (isKnown_register s k l).2 (Or.inl hl),
      fun l hl => le_of_eq (costOf_register_of_known s k l hl), hccur,
      fun l hl => by rw [openset_register]; exact hl, ?_, ?_, pops_register s k,
      le_of_eq (potential_congr V _ _ (vcost_register s k) (by rw [openset_register]))⟩
    · intro l hl
      rw [openset_register]
      by_cases hm : l ∈ s.openset
      · exact Or.inl hm
      · by_cases hl' : IsKnown s.known l
        · exact Or.inr (Or.inr ⟨hl', costOf_register_of_known s k l hl', hm⟩)
        · have : l = k := by
            rcases (isKnown_register s k l).1 hl with a | a
            · exact absurd a hl'
            · exact a
          rw [this] at hl' ⊢
          exact Or.inr (Or.inl ⟨(register_new s k hl').1, hl'⟩)
    · intro l hl
      rcases (isKnown_register s k l).1 hl with a | a
      · exact Or.inl a
      · exact Or.inr ⟨v, a ▸ hkv⟩
  by_cases hlt : v + costOf (register s k).known cur < costOf (register s k).known k
  · have hi := improved_of_relax P V start goal cur (register s k) k
      (v + costOf (register s k).known cur) h1 hk1 hlt
    have hrel : relax P goal cur s (k, v) =
        (if indexOf (improve P goal cur (register s k) k
            (v + costOf (register s k).known cur)).known k = -1 then
          heap.Push (improve P goal cur (register s k) k (v + costOf (register s k).known cur)) k
        else heap.Fix (improve P goal cur (register s k) k (v + costOf (register s k).known cur))
          (indexOf (improve P goal cur (register s k) k
            (v + costOf (register s k).known cur)).known k).toNat) := by
      unfold relax
      simp only [if_pos hlt]
    rw [hrel]
    have hcurk : cur ≠ k := by
      intro e; rw [e] at hlt; omega
    have hwf := wf_improved h1 hnn hcur1 hk1 hkv hlt hi
    refine ⟨hwf, step_trans hstep1 ?_, (hi.known k).2 hk1, ?_⟩
    · refine ⟨fun l hl => (hi.known l).2 hl, ?_, ?_, fun l hl => (hi.mem l).2 (Or.inl hl), ?_,
        fun l hl => Or.inl ((hi.known l).1 hl), hi.pops,
        potential_improved hi hk1 hkV hlt⟩
      · intro l _
        rw [hi.cost l]
        by_cases hl : l = k
        · rw [if_pos hl, hl]; omega
        · rw [if_neg hl]
      · rw [hi.cost cur, if_neg hcurk]
      · intro l hl
        by_cases hm : l ∈ (register s k).openset
        · exact Or.inl ((hi.mem l).2 (Or.inl hm))
        · by_cases hlk : l = k
          · exact Or.inl ((hi.mem l).2 (Or.inr hlk))
          · refine Or.inr (Or.inr ⟨(hi.known l).1 hl, ?_, hm⟩)
            rw [hi.cost l, if_neg hlk]
    · rw [hi.cost k, if_pos rfl, hi.cost cur, if_neg hcurk]
      omega
  · have hrel : relax P goal cur s (k, v) = register s k := by
      unfold relax
      simp only [if_neg hlt]
    rw [hrel]
    refine ⟨h1, hstep1, hk1, ?_⟩
    simp only
    omega


/-! ### The relaxation loop and one expansion -/

theorem fold_spec {P : Interface} {V : Finset Int} {start goal : Int}
    (hfg : FiniteGraph P V) (hnn : NonNegative P V) (cur : Int) (L : List (Int × Int))
    (hL : ∀ kv ∈ L, kv ∈ (P.Adjacent cur).1) (s : Search) (h : WF P V start goal s)
    (hcur : IsKnown s.known cur) :
    WF P V start goal (L.foldl (relax P goal cur) s) ∧
      Step P V cur s (L.foldl (relax P goal cur) s) ∧
      ∀ kv ∈ L, IsKnown (L.foldl (relax P goal cur) s).known kv.1 ∧
        costOf (L.foldl (relax P goal cur) s).known kv.1 ≤
          costOf (L.foldl (relax P goal cur) s).known cur + kv.2 := by
  induction L generalizing s with
  | nil => exact ⟨h, step_refl P V cur s, fun kv hkv => absurd hkv (List.not_mem_nil kv)⟩
  | cons e L ih =>
    have h1 := relax_spec hfg hnn h cur hcur e (hL e (List.mem_cons_self e L))
    have h2 := ih (fun kv hkv => hL kv (List.mem_cons_of_mem e hkv)) (relax P goal cur s e)
      h1.1 (h1.2.1.knownMono cur hcur)
    rw [List.foldl_cons]
    refine ⟨h2.1, step_trans h1.2.1 h2.2.1, ?_⟩
    intro kv hkv
    rcases List.mem_cons.1 hkv with e1 | e1
    · rw [e1]
      refine ⟨h2.2.1.knownMono e.1 h1.2.2.1, ?_⟩
      have a := h2.2.1.costLe e.1 h1.2.2.1
      have b := h2.2.1.costCur
      have c := h1.2.2.2
      omega
    · exact h2.2.2 kv e1

theorem idxInv_congr {s t : Search} (h : IdxInv s) (ho : t.openset = s.openset)
    (hk : t.known = s.known) : IdxInv t :=
  ⟨by rw [ho]; exact h.inj, by rw [ho, hk]; exact h.back, by rw [ho, hk]; exact h.closed⟩

theorem heapOrd_congr {s t : Search} {n : Nat} (h : HeapOrd s n) (ho : t.openset = s.openset)
    (hk : t.known = s.known) : HeapOrd t n := by
  intro x hx hxn
  have := h x hx hxn
  unfold est at this ⊢
  rw [ho, hk]
  exact this

theorem vcost_nonneg {P : Interface} {V : Finset Int} {start goal : Int} {s : Search}
    (h : WF P V start goal s) (l : Int) : 0 ≤ vcost s l := by
  unfold vcost
  split
  · rename_i hl; exact h.costNonneg l hl
  · exact le_of_lt MaxFloat64_pos

theorem potential_nonneg {P : Interface} {V : Finset Int} {start goal : Int} {s : Search}
    (h : WF P V start goal s) : 0 ≤ potential V s := by
  unfold potential
  have : 0 ≤ ∑ l in V, vcost s l := Finset.sum_nonneg (fun l _ => vcost_nonneg h l)
  omega

/-- The state after `heap.Pop` (with the trace extended) satisfies the invariant,
the popped point is known, has the least estimate, and the measure drops by one. -/
theorem pop_spec {P : Interface} {V : Finset Int} {start goal : Int} {s : Search}
    (h : WF P V start goal s) (hpos : 0 < s.openset.length) (t : Search)
    (ho : t.openset = (heap.Pop s).1.openset) (hk : t.known = (heap.Pop s).1.known)
    (hp : t.predecessor = (heap.Pop s).1.predecessor) :
    WF P V start goal t ∧ Popped s (heap.Pop s).1 (heap.Pop s).2 ∧
      IsKnown t.known (heap.Pop s).2 ∧ potential V t + 1 = potential V s := by
  have hpop := heapPop_spec s h.idx hpos
  have hord := heapPop_heapOrd s h.idx hpos h.heap
  have hpp := hpop.1
  have hK : ∀ l, IsKnown t.known l ↔ IsKnown s.known l := by
    intro l; rw [hk]; exact hpp.known l
  have hC : ∀ l, costOf t.known l = costOf s.known l := by
    intro l; rw [hk]; exact hpp.cost l
  have hE : ∀ l, estimateOf t.known l = estimateOf s.known l := by
    intro l; rw [hk]; exact hpp.est l
  have hM : ∀ l, l ∈ t.openset → l ∈ s.openset := by
    intro l hl; rw [ho] at hl; exact ((hpp.mem l).1 hl).1
  have hP : t.predecessor = s.predecessor := hp.trans hpp.pred
  have hlen : t.openset.length + 1 = s.openset.length := by rw [ho]; exact hpp.len
  refine ⟨⟨idxInv_congr hpop.2.1 ho hk, ?_, ?_, ?_, ?_, ?_, ?_, ?_, ?_, ?_, ?_, ?_, ?_⟩, hpp, ?_, ?_⟩
  · have : t.openset.length = s.openset.length - 1 := by omega
    rw [this]
    exact heapOrd_congr hord.1 ho hk
  · intro l hl; exact h.knownIn l ((hK l).1 hl)
  · exact (hK start).2 h.startKnown
  · rw [hC]; exact h.startCost
  · intro l hl; rw [hC]; exact h.costNonneg l ((hK l).1 hl)
  · intro l hl; rw [hC]; exact h.costLe l ((hK l).1 hl)
  · intro l hl; rw [hE, hC]; exact h.fgh l (hM l hl)
  · intro l hl; rw [hC]; exact h.openLt l (hM l hl)
  · intro a u hpa
    rw [hP] at hpa
    obtain ⟨h1, h2, h3, h4, c, h5, h6⟩ := h.predInv a u hpa
    exact ⟨h1, (hK u).2 h2, (hK a).2 h3, by rw [hC]; exact h4, c, h5, by rw [hC, hC]; exact h6⟩
  · intro a ha hlt
    rw [hP]
    rw [hC] at hlt
    exact h.hasPred a ((hK a).1 ha) hlt
  · rw [hP]; exact h.acyclic
  · intro l hl; exact h.reach l ((hK l).1 hl)
  · exact (hK _).2 (mem_known_of_idx h.idx hpp.was)
  · unfold potential
    have : (∑ l in V, vcost t l) = ∑ l in V, vcost s l := by
      apply Finset.sum_congr rfl
      intro l _
      unfold vcost
      by_cases hl : IsKnown s.known l
      · rw [if_pos hl, if_pos ((hK l).2 hl), hC]
      · rw [if_neg hl, if_neg (fun h' => hl ((hK l).1 h'))]
    rw [this, ← hlen]
    push_cast
    ring

theorem expand_core {P : Interface} {V : Finset Int} {start goal : Int} {s : Search}
    (hfg : FiniteGraph P V) (hnn : NonNegative P V) (h : WF P V start goal s)
    (hs : Settled P goal s) (hpos : 0 < s.openset.length) (hne : (heap.Pop s).2 ≠ goal)
    (t : Search) (ho : t.openset = (heap.Pop s).1.openset)
    (hk : t.known = (heap.Pop s).1.known) (hp' : t.predecessor = (heap.Pop s).1.predecessor)
    (L : List (Int × Int)) (hmemL : ∀ kv, kv ∈ L ↔ kv ∈ (P.Adjacent (heap.Pop s).2).1) :
    WF P V start goal (L.foldl (relax P goal (heap.Pop s).2) t) ∧
      Settled P goal (L.foldl (relax P goal (heap.Pop s).2) t) ∧
      potential V (L.foldl (relax P goal (heap.Pop s).2) t) < potential V s ∧
      (L.foldl (relax P goal (heap.Pop s).2) t).pops = t.pops := by
  have hp := pop_spec h hpos t ho hk hp'
  have hf := fold_spec hfg hnn (heap.Pop s).2 L (fun kv hkv => (hmemL kv).1 hkv) t hp.1 hp.2.2.1
  refine ⟨hf.1, ?_, ?_, hf.2.1.pops⟩
  · intro u hu hm hlt
    rcases hf.2.1.tri u hu with a | ⟨a, _⟩ | ⟨a, b, c⟩
    · exact absurd a hm
    · rw [a] at hlt; exact absurd hlt (lt_irrefl _)
    · have hpp := hp.2.1
      have hks : IsKnown s.known u := (hpp.known u).1 (hk ▸ a)
      have hcs : costOf t.known u = costOf s.known u := by rw [hk]; exact hpp.cost u
      by_cases huc : u = (heap.Pop s).2
      · rw [huc]
        refine ⟨hne, fun e he => ?_⟩
        exact hf.2.2 e ((hmemL e).2 he)
      · have hns : u ∉ s.openset := fun hin => c (by rw [ho]; exact (hpp.mem u).2 ⟨hin, huc⟩)
        have hold := hs u hks hns (by rw [← hcs, ← b]; exact hlt)
        refine ⟨hold.1, fun e he => ?_⟩
        have hke := (hold.2 e he).1
        have hke' : IsKnown t.known e.1 := by rw [hk]; exact (hpp.known e.1).2 hke
        refine ⟨hf.2.1.knownMono e.1 hke', ?_⟩
        have h1 := hf.2.1.costLe e.1 hke'
        have h2 := (hold.2 e he).2
        have h3 : costOf t.known e.1 = costOf s.known e.1 := by rw [hk]; exact hpp.cost e.1
        omega
  · have := hf.2.1.pot
    have := hp.2.2.2
    omega

/-- One expansion of a point other than the goal keeps both invariants and
lowers the measure. -/
theorem expand_spec {P : Interface} {V : Finset Int} {start goal : Int} {s : Search}
    {ord : Nat → List (Int × Int) → List (Int × Int)} (hord : Enumeration ord)
    (hfg : FiniteGraph P V) (hnn : NonNegative P V) (h : WF P V start goal s)
    (hs : Settled P goal s) (hpos : 0 < s.openset.length) (hne : (heap.Pop s).2 ≠ goal) :
    WF P V start goal (expand ord P goal s) ∧ Settled P goal (expand ord P goal s) ∧
      potential V (expand ord P goal s) < potential V s ∧
      (expand ord P goal s).pops = s.pops ++ [(heap.Pop s).2] := by
  have hc := expand_core hfg hnn h hs hpos hne
    { (heap.Pop s).1 with pops := (heap.Pop s).1.pops ++ [(heap.Pop s).2] } rfl rfl rfl
    (ord s.pops.length (P.Adjacent (heap.Pop s).2).1) (fun _ => (hord _ _).mem_iff)
  refine ⟨hc.1, hc.2.1, hc.2.2.1, ?_⟩
  have hp := (heapPop_spec s h.idx hpos).1.pops
  have := hc.2.2.2
  simp only at this
  rw [hp] at this
  have hexp : expand ord P goal s =
      (ord s.pops.length (P.Adjacent (heap.Pop s).2).1).foldl (relax P goal (heap.Pop s).2)
        { (heap.Pop s).1 with pops := (heap.Pop s).1.pops ++ [(heap.Pop s).2] } := rfl
  rw [hexp]
  simp only [hp]
  exact this


/-! ### The state at the head of the loop, and the loop -/

theorem start_eq (P : Interface) (st goal : Int) :
    Astar.start P st goal =
      { openset := [st]
        known := setIndex (mapSet (fun _ => none) st ⟨st, 0, 0, P.Estimate st goal⟩) st 0
        predecessor := fun _ => none
        pops := [] } := by
  simp [Astar.start, heap.Init, heap.Push, heap.up, heap.upLoop, minheap.Push, minheap.Len]

theorem start_known (P : Interface) (st goal : Int) (l : Int) :
    IsKnown (Astar.start P st goal).known l ↔ l = st := by
  rw [start_eq]
  simp only
  rw [isKnown_setIndex, isKnown_mapSet]
  simp [IsKnown]

theorem reachable_refl (P : Interface) (a : Int) : Reachable P a a :=
  ⟨[a], List.chain'_singleton a, rfl, rfl⟩

theorem start_spec (P : Interface) (V : Finset Int) (st goal : Int) (hst : st ∈ V) :
    WF P V st goal (Astar.start P st goal) ∧ Settled P goal (Astar.start P st goal) := by
  have hK := start_known P st goal
  have hks : IsKnown (mapSet (fun _ => none) st (⟨st, 0, 0, P.Estimate st goal⟩ : point)) st :=
    (isKnown_mapSet _ _ _ _).2 (Or.inl rfl)
  have hO : (Astar.start P st goal).openset = [st] := by rw [start_eq]
  have hC : costOf (Astar.start P st goal).known st = 0 := by
    rw [start_eq]; simp only; rw [costOf_setIndex, costOf_mapSet_self]
  have hE : estimateOf (Astar.start P st goal).known st = P.Estimate st goal := by
    rw [start_eq]; simp only; rw [estimateOf_setIndex, estimateOf_mapSet_self]
  have hI : indexOf (Astar.start P st goal).known st = 0 := by
    rw [start_eq]; simp only; exact indexOf_setIndex_self _ _ _ hks
  have hPr : (Astar.start P st goal).predecessor = fun _ => none := by rw [start_eq]
  have hget : ∀ (i : Nat) (l : Int), (Astar.start P st goal).openset[i]? = some l →
      i = 0 ∧ l = st := by
    intro i l hi
    rw [hO] at hi
    cases i with
    | zero => simp at hi; exact ⟨rfl, hi.symm⟩
    | succ n => simp at hi
  constructor
  · refine ⟨⟨?_, ?_, ?_⟩, ?_, ?_, ?_, ?_, ?_, ?_, ?_, ?_, ?_, ?_, ?_, ?_⟩
    · intro i j l hi hj
      rw [(hget i l hi).1, (hget j l hj).1]
    · intro i l hi
      obtain ⟨h1, h2⟩ := hget i l hi
      rw [h1, h2]
      exact ⟨(hK st).2 rfl, by rw [hI]; rfl⟩
    · intro l hl hm
      rw [(hK l).1 hl, hO] at hm
      exact absurd (List.mem_singleton_self st) hm
    · rw [hO]
      intro x hx hxn
      simp at hxn
      omega
    · intro l hl; rw [(hK l).1 hl]; exact hst
    · exact (hK st).2 rfl
    · exact hC
    · intro l hl; rw [(hK l).1 hl, hC]
    · intro l hl; rw [(hK l).1 hl, hC]; exact le_of_lt MaxFloat64_pos
    · intro l hl
      rw [hO, List.mem_singleton] at hl
      rw [hl, hE, hC]; ring
    · intro l hl
      rw [hO, List.mem_singleton] at hl
      rw [hl, hC]; exact MaxFloat64_pos
    · intro k u hp
      rw [hPr] at hp
      exact Option.noConfusion hp
    · intro k hk _
      exact Or.inl ((hK k).1 hk)
    · intro k
      refine Acc.intro k (fun a ha => ?_)
      rw [hPr] at ha
      exact Option.noConfusion ha
    · intro l hl
      rw [(hK l).1 hl]
      exact reachable_refl P st
  · intro u hu hm _
    rw [(hK u).1 hu, hO] at hm
    exact absurd (List.mem_singleton_self st) hm

theorem loop_halts {P : Interface} {goal : Int}
    {ord : Nat → List (Int × Int) → List (Int × Int)} {s : Search} (hH : Halts goal s)
    (rfuel f : Nat) :
    loop ord P goal rfuel (f + 1) s =
      if 0 < minheap.Len s then route rfuel goal (heap.Pop s).1.predecessor else some [] := by
  by_cases hl : 0 < minheap.Len s
  · rcases hH with h0 | h0
    · unfold minheap.Len at hl; omega
    · simp only [loop, if_pos hl, if_pos h0]
  · simp only [loop, if_neg hl]

/-- With the invariants, the loop of `Find` reaches after `m` expansions a state
at which it returns, and `m` is bounded by the measure. -/
theorem loop_spec {P : Interface} {V : Finset Int} {start goal : Int}
    {ord : Nat → List (Int × Int) → List (Int × Int)} (hord : Enumeration ord)
    (hfg : FiniteGraph P V) (hnn : NonNegative P V) (n : Nat) (s : Search)
    (h : WF P V start goal s) (hs : Settled P goal s) (hn : potential V s ≤ n) :
    ∃ m : Nat, m ≤ n ∧
      WF P V start goal ((expand ord P goal)^[m] s) ∧
      Settled P goal ((expand ord P goal)^[m] s) ∧
      Halts goal ((expand ord P goal)^[m] s) ∧
      (∀ j, j < m → ¬ Halts goal ((expand ord P goal)^[j] s)) ∧
      ((expand ord P goal)^[m] s).pops.length = s.pops.length + m ∧
      ∀ rfuel fuel, m < fuel → loop ord P goal rfuel fuel s =
        if 0 < minheap.Len ((expand ord P goal)^[m] s) then
          route rfuel goal (heap.Pop ((expand ord P goal)^[m] s)).1.predecessor
        else some [] := by
  induction n generalizing s with
  | zero =>
    have hH : Halts goal s := by
      by_contra hc
      unfold Halts at hc
      rw [not_or] at hc
      have := expand_spec hord hfg hnn h hs (by omega) hc.2
      have := potential_nonneg this.1
      omega
    refine ⟨0, le_refl _, h, hs, hH, fun j hj => by omega, rfl, ?_⟩
    intro rfuel fuel hf
    obtain ⟨f, rfl⟩ : ∃ f, fuel = f + 1 := ⟨fuel - 1, by omega⟩
    exact loop_halts hH rfuel f
  | succ n ih =>
    by_cases hH : Halts goal s
    · refine ⟨0, Nat.zero_le _, h, hs, hH, fun j hj => by omega, rfl, ?_⟩
      intro rfuel fuel hf
      obtain ⟨f, rfl⟩ : ∃ f, fuel = f + 1 := ⟨fuel - 1, by omega⟩
      exact loop_halts hH rfuel f
    · have hc := hH
      unfold Halts at hc
      rw [not_or] at hc
      have he := expand_spec hord hfg hnn h hs (by omega) hc.2
      obtain ⟨m, hm, h1, h2, h3, h4, h6, h5⟩ := ih (expand ord P goal s) he.1 he.2.1
        (by have := he.2.2.1; push_cast at hn; omega)
      refine ⟨m + 1, by omega, ?_, ?_, ?_, ?_, ?_, ?_⟩
      · rw [Function.iterate_succ_apply]; exact h1
      · rw [Function.iterate_succ_apply]; exact h2
      · rw [Function.iterate_succ_apply]; exact h3
      · intro j hj
        cases j with
        | zero => exact hH
        | succ j => rw [Function.iterate_succ_apply]; exact h4 j (by omega)
      · rw [Function.iterate_succ_apply, h6, he.2.2.2]
        simp
        omega
      · intro rfuel fuel hf
        obtain ⟨f, rfl⟩ : ∃ f, fuel = f + 1 := ⟨fuel - 1, by omega⟩
        rw [Function.iterate_succ_apply, ← h5 rfuel f (by omega)]
        have hl : 0 < minheap.Len s := by unfold minheap.Len; omega
        simp only [loop, if_pos hl, if_neg hc.2]


/-! ### The reconstruction `route` -/

theorem forwards_eq_reverse (l : List Int) : forwards l = l.reverse := by
  apply List.ext_getElem
  · simp [forwards]
  · intro n h1 h2
    have hn : n < l.length := by simpa [forwards] using h1
    rw [List.getElem_reverse]
    unfold forwards
    rw [List.getElem_map, List.getElem_range, List.getD_eq_getElem _ _ (by omega)]

theorem unwind_spec (pred : Int → Option Int) (x : Int)
    (hacc : Acc (fun a b => pred b = some a) x) :
    ∀ bw : List Int, ∃ (n : Nat) (r : List Int),
      (∀ fuel, n ≤ fuel → unwind pred fuel bw (pred x) = some (bw ++ r)) ∧
      List.Chain' (fun b a => pred b = some a) (x :: r) ∧
      ∃ z, (x :: r).getLast? = some z ∧ pred z = none := by
  induction hacc with
  | intro x _ ih =>
    intro bw
    cases hp : pred x with
    | none =>
      refine ⟨0, [], ?_, List.chain'_singleton x, x, rfl, hp⟩
      intro fuel _
      cases fuel <;> simp [unwind]
    | some y =>
      obtain ⟨n, r, h1, h2, z, h3, h4⟩ := ih y hp (bw ++ [y])
      refine ⟨n + 1, y :: r, ?_, List.chain'_cons.2 ⟨hp, h2⟩, z, ?_, h4⟩
      · intro fuel hf
        obtain ⟨f, rfl⟩ : ∃ f, fuel = f + 1 := ⟨fuel - 1, by omega⟩
        simp only [unwind]
        rw [h1 f (by omega)]
        simp
      · rw [List.getLast?_cons_cons]; exact h3

/-- On an acyclic predecessor map `route` returns, with enough fuel, the chain of
predecessors from a label without predecessor to the goal. -/
theorem route_spec (pred : Int → Option Int) (goal : Int)
    (hacc : Acc (fun a b => pred b = some a) goal) :
    ∃ (n : Nat) (r : List Int),
      (∀ fuel, n ≤ fuel → route fuel goal pred = some r) ∧ r ≠ [] ∧
      r.getLast? = some goal ∧ List.Chain' (fun a b => pred b = some a) r ∧
      ∃ z, r.head? = some z ∧ pred z = none := by
  obtain ⟨n, c, h1, h2, z, h3, h4⟩ := unwind_spec pred goal hacc [goal]
  refine ⟨n, (goal :: c).reverse, ?_, by simp, ?_, ?_, z, ?_, h4⟩
  · intro fuel hf
    unfold route
    rw [h1 fuel hf]
    simp [forwards_eq_reverse]
  · rw [List.getLast?_reverse]; rfl
  · rw [List.chain'_reverse]; exact h2
  · rw [List.head?_reverse]; exact h3

/-! ### Paths and their costs -/

theorem lookup_mem (l : List (Int × Int)) (k c : Int) (h : l.lookup k = some c) : (k, c) ∈ l := by
  induction l with
  | nil => simp at h
  | cons e l ih =>
    obtain ⟨a, b⟩ := e
    rw [List.lookup_cons] at h
    by_cases hk : k = a
    · subst hk
      simp at h
      rw [h]; exact List.mem_cons_self _ _
    · have : (k == a) = false := by simpa using hk
      rw [this] at h
      exact List.mem_cons_of_mem _ (ih h)

theorem lookup_isSome_of_mem (l : List (Int × Int)) (k : Int) (h : k ∈ l.map Prod.fst) :
    ∃ c, l.lookup k = some c := by
  induction l with
  | nil => simp at h
  | cons e l ih =>
    obtain ⟨a, b⟩ := e
    rw [List.lookup_cons]
    by_cases hk : k = a
    · subst hk; exact ⟨b, by simp⟩
    · have hb : (k == a) = false := by simpa using hk
      rw [hb]
      apply ih
      simpa [hk] using h

theorem lookup_of_nodup (l : List (Int × Int)) (k c : Int) (hn : (l.map Prod.fst).Nodup)
    (h : (k, c) ∈ l) : l.lookup k = some c := by
  induction l with
  | nil => simp at h
  | cons e l ih =>
    obtain ⟨a, b⟩ := e
    rw [List.lookup_cons]
    simp only [List.map_cons, List.nodup_cons] at hn
    rcases List.mem_cons.1 h with h1 | h1
    · have ha : k = a := (Prod.mk.inj h1).1
      have hb : c = b := (Prod.mk.inj h1).2
      subst ha; subst hb
      simp
    · have hk : k ≠ a := by
        intro e'
        subst e'
        exact hn.1 (List.mem_map.2 ⟨(k, c), h1, rfl⟩)
      have hb : (k == a) = false := by simpa using hk
      rw [hb]
      exact ih hn.2 h1

/-- An edge has an entry that carries the cost read by `edgeCost`. -/
theorem edge_entry (P : Interface) (a b : Int) (h : IsEdge P a b) :
    (b, edgeCost P a b) ∈ (P.Adjacent a).1 := by
  obtain ⟨c, hc⟩ := lookup_isSome_of_mem _ b h
  unfold edgeCost
  rw [hc]
  exact lookup_mem _ _ _ hc

theorem edgeCost_of_unique (P : Interface) (V : Finset Int) (hu : UniqueKeys P V) (a b c : Int)
    (ha : a ∈ V) (h : (b, c) ∈ (P.Adjacent a).1) : edgeCost P a b = c := by
  unfold edgeCost
  rw [lookup_of_nodup _ b c (hu a ha) h]
  rfl

theorem pathCost_cons_cons (P : Interface) (a b : Int) (rest : List Int) :
    pathCost P (a :: b :: rest) = edgeCost P a b + pathCost P (b :: rest) := rfl

theorem path_tail {P : Interface} {a b goal : Int} {rest : List Int}
    (h : PathFromTo P a goal (a :: b :: rest)) :
    IsEdge P a b ∧ PathFromTo P b goal (b :: rest) := by
  obtain ⟨h1, _, h3⟩ := h
  unfold IsPath at h1
  rw [List.chain'_cons] at h1
  exact ⟨h1.1, h1.2, rfl, by rw [List.getLast?_cons_cons] at h3; exact h3⟩

theorem pathCost_nonneg {P : Interface} {V : Finset Int} (hfg : FiniteGraph P V)
    (hnn : NonNegative P V) (q : List Int) :
    ∀ u goal, u ∈ V → PathFromTo P u goal q → 0 ≤ pathCost P q := by
  induction q with
  | nil => intro u goal _ _; exact le_refl _
  | cons a q ih =>
    intro u goal hu hq
    have hau : a = u := by
      have := hq.2.1; simp at this; exact this
    subst hau
    cases q with
    | nil => exact le_refl _
    | cons b rest =>
      obtain ⟨he, ht⟩ := path_tail hq
      have hent := edge_entry P a b he
      have h1 := hnn a hu _ hent
      have h2 := ih b goal (hfg a hu _ hent) ht
      rw [pathCost_cons_cons]
      simp only at h1
      omega

theorem consistent_path {P : Interface} {V : Finset Int} {goal : Int} (hfg : FiniteGraph P V)
    (hc : Consistent P V goal) (q : List Int) :
    ∀ u, u ∈ V → PathFromTo P u goal q → P.Estimate u goal ≤ pathCost P q + P.Estimate goal goal := by
  induction q with
  | nil => intro u _ hq; have := hq.2.1; simp at this
  | cons a q ih =>
    intro u hu hq
    have hau : a = u := by
      have := hq.2.1; simp at this; exact this
    subst hau
    cases q with
    | nil =>
      have : a = goal := by
        have := hq.2.2; simp at this; exact this
      rw [this]; simp [pathCost]
    | cons b rest =>
      obtain ⟨he, ht⟩ := path_tail hq
      have hent := edge_entry P a b he
      have h1 := hc a hu _ hent
      have h2 := ih b (hfg a hu _ hent) ht
      rw [pathCost_cons_cons]
      simp only at h1
      omega

/-- The frontier lemma behind optimality and completeness: along a path `q` to the
goal from a known point `u`, either the cost through the path reaches
`math.MaxFloat64`, or the open set holds a point `w` of the path whose cost plus
the cost of the rest `q'` of the path is at most the cost through the path. -/
theorem path_frontier {P : Interface} {V : Finset Int} {start goal : Int} {f : Search}
    (hfg : FiniteGraph P V) (hnn : NonNegative P V)
    (h : WF P V start goal f) (hs : Settled P goal f) (q : List Int) :
    ∀ u, PathFromTo P u goal q → IsKnown f.known u →
      MaxFloat64 ≤ costOf f.known u + pathCost P q ∨
      ∃ w ∈ f.openset, ∃ q', PathFromTo P w goal q' ∧
        costOf f.known w + pathCost P q' ≤ costOf f.known u + pathCost P q := by
  induction q with
  | nil => intro u hq _; have := hq.2.1; simp at this
  | cons a q ih =>
    intro u hq hu
    have hau : a = u := by
      have := hq.2.1; simp at this; exact this
    subst hau
    have haV := h.knownIn a hu
    have hpc := pathCost_nonneg hfg hnn _ a goal haV hq
    by_cases hopen : a ∈ f.openset
    · right
      exact ⟨a, hopen, _, hq, le_refl _⟩
    · by_cases hlt : costOf f.known a < MaxFloat64
      · have hset := hs a hu hopen hlt
        cases q with
        | nil =>
          have : a = goal := by
            have := hq.2.2; simp at this; exact this
          exact absurd this hset.1
        | cons b rest =>
          obtain ⟨he, ht⟩ := path_tail hq
          have hent := edge_entry P a b he
          have hb := hset.2 _ hent
          simp only at hb
          rw [pathCost_cons_cons]
          rcases ih b ht hb.1 with h1 | ⟨w, hw, q', hq', h1⟩
          · left; omega
          · right; exact ⟨w, hw, q', hq', by omega⟩
      · left; omega

/-- The predecessor chain is a path of the graph. -/
theorem chain_isPath {P : Interface} {V : Finset Int} {start goal : Int} {f : Search}
    (h : WF P V start goal f) (r : List Int)
    (hr : List.Chain' (fun a b => f.predecessor b = some a) r) : IsPath P r := by
  unfold IsPath
  refine List.Chain'.imp ?_ hr
  intro a b hab
  obtain ⟨_, _, _, _, c, h5, _⟩ := h.predInv b a hab
  exact List.mem_map.2 ⟨(b, c), h5, rfl⟩

/-- The summed edge cost of a predecessor chain is at most the difference of the
costs (`g`) of its ends. -/
theorem chain_cost {P : Interface} {V : Finset Int} {start goal : Int} {f : Search}
    (h : WF P V start goal f) (hu : UniqueKeys P V) (r : List Int) :
    ∀ x z, r.head? = some x → r.getLast? = some z →
      List.Chain' (fun a b => f.predecessor b = some a) r →
      pathCost P r + costOf f.known x ≤ costOf f.known z := by
  induction r with
  | nil => intro x z hx; simp at hx
  | cons a r ih =>
    intro x z hx hz hr
    have hax : a = x := by simpa using hx
    subst hax
    cases r with
    | nil =>
      have : a = z := by simpa using hz
      subst this
      simp [pathCost]
    | cons b rest =>
      rw [List.chain'_cons] at hr
      obtain ⟨_, h2, _, _, c, h5, h6⟩ := h.predInv b a hr.1
      have hec := edgeCost_of_unique P V hu a b c (h.knownIn a h2) h5
      have := ih b z rfl (by rw [List.getLast?_cons_cons] at hz; exact hz) hr.2
      rw [pathCost_cons_cons, hec]
      omega


/-! ### More fuel does not change a result -/

theorem unwind_mono (pred : Int → Option Int) (fuel : Nat) :
    ∀ (bw : List Int) (o : Option Int) (r : List Int) (fuel' : Nat), fuel ≤ fuel' →
      unwind pred fuel bw o = some r → unwind pred fuel' bw o = some r := by
  induction fuel with
  | zero =>
    intro bw o r fuel' _ h
    cases o with
    | none => cases fuel' <;> simpa [unwind] using h
    | some l => simp [unwind] at h
  | succ n ih =>
    intro bw o r fuel' hf h
    cases o with
    | none => cases fuel' <;> simpa [unwind] using h
    | some l =>
      obtain ⟨f, rfl⟩ : ∃ f, fuel' = f + 1 := ⟨fuel' - 1, by omega⟩
      simp only [unwind] at h ⊢
      exact ih _ _ r f (by omega) h

theorem route_mono (pred : Int → Option Int) (goal : Int) (fuel fuel' : Nat) (r : List Int)
    (hf : fuel ≤ fuel') (h : route fuel goal pred = some r) : route fuel' goal pred = some r := by
  unfold route at h ⊢
  cases hu : unwind pred fuel [goal] (pred goal) with
  | none => rw [hu] at h; simp at h
  | some b =>
    rw [hu] at h
    rw [unwind_mono pred fuel _ _ b fuel' hf hu]
    exact h

theorem loop_mono (ord : Nat → List (Int × Int) → List (Int × Int)) (P : Interface) (goal : Int)
    (rfuel rfuel' : Nat) (hr : rfuel ≤ rfuel') (fuel : Nat) :
    ∀ (s : Search) (r : List Int) (fuel' : Nat), fuel ≤ fuel' →
      loop ord P goal rfuel fuel s = some r → loop ord P goal rfuel' fuel' s = some r := by
  induction fuel with
  | zero => intro s r fuel' _ h; simp [loop] at h
  | succ n ih =>
    intro s r fuel' hf h
    obtain ⟨f, rfl⟩ : ∃ f, fuel' = f + 1 := ⟨fuel' - 1, by omega⟩
    simp only [loop] at h ⊢
    by_cases hl : 0 < minheap.Len s
    · rw [if_pos hl] at h ⊢
      by_cases hg : (heap.Pop s).2 = goal
      · rw [if_pos hg] at h ⊢
        exact route_mono _ _ _ _ _ hr h
      · rw [if_neg hg] at h ⊢
        exact ih _ r f (by omega) h
    · rw [if_neg hl] at h ⊢
      exact h

/-- A result of `Find` is the same with any larger fuel. -/
theorem Find_mono (ord : Nat → List (Int × Int) → List (Int × Int)) (P : Interface)
    (start goal : Int) (fuel fuel' : Nat) (r : List Int) (hf : fuel ≤ fuel')
    (h : Find ord fuel P start goal = some r) : Find ord fuel' P start goal = some r :=
  loop_mono ord P goal fuel fuel' hf fuel _ r fuel' hf h

/-- Two results of `Find` on the same input are equal. -/
theorem Find_unique (ord : Nat → List (Int × Int) → List (Int × Int)) (P : Interface)
    (start goal : Int) (fuel fuel' : Nat) (r r' : List Int)
    (h : Find ord fuel P start goal = some r) (h' : Find ord fuel' P start goal = some r') :
    r = r' := by
  have h1 := Find_mono ord P start goal fuel (max fuel fuel') r (le_max_left _ _) h
  have h2 := Find_mono ord P start goal fuel' (max fuel fuel') r' (le_max_right _ _) h'
  rw [h1] at h2
  exact Option.some.inj h2

/-! ### The result of `Find` -/

/-- On a finite graph with non-negative edge costs `Find` returns: after `m`
expansions its loop is in a state `f` satisfying the invariants at which either the
open set is empty and the result is `nil`, or the goal is at the root of the heap
with the least estimate and the result is the predecessor chain from the start to
the goal. -/
theorem Find_spec {P : Interface} {V : Finset Int} {start goal : Int}
    {ord : Nat → List (Int × Int) → List (Int × Int)} (hord : Enumeration ord)
    (hfg : FiniteGraph P V) (hnn : NonNegative P V) (hst : start ∈ V) :
    ∃ (m : Nat) (r : List Int) (N : Nat),
      WF P V start goal ((expand ord P goal)^[m] (Astar.start P start goal)) ∧
      Settled P goal ((expand ord P goal)^[m] (Astar.start P start goal)) ∧
      Halts goal ((expand ord P goal)^[m] (Astar.start P start goal)) ∧
      (∀ j, j < m → ¬ Halts goal ((expand ord P goal)^[j] (Astar.start P start goal))) ∧
      ((expand ord P goal)^[m] (Astar.start P start goal)).pops.length = m ∧
      (∀ fuel, N ≤ fuel → Find ord fuel P start goal = some r) ∧
      ((((expand ord P goal)^[m] (Astar.start P start goal)).openset = [] ∧ r = []) ∨
        (goal ∈ ((expand ord P goal)^[m] (Astar.start P start goal)).openset ∧
          (∀ a ∈ ((expand ord P goal)^[m] (Astar.start P start goal)).openset,
            estimateOf ((expand ord P goal)^[m] (Astar.start P start goal)).known goal ≤
              estimateOf ((expand ord P goal)^[m] (Astar.start P start goal)).known a) ∧
          r ≠ [] ∧ r.head? = some start ∧ r.getLast? = some goal ∧
          List.Chain' (fun a b =>
            ((expand ord P goal)^[m] (Astar.start P start goal)).predecessor b = some a) r)) := by
  obtain ⟨hw0, hs0⟩ := start_spec P V start goal hst
  obtain ⟨m, _, hw, hs, hH, hmin, hpops, hloop⟩ := loop_spec hord hfg hnn
    (potential V (Astar.start P start goal)).toNat (Astar.start P start goal) hw0 hs0
    (by have := potential_nonneg hw0; omega)
  have hp0 : (Astar.start P start goal).pops.length = 0 := by rw [start_eq]; rfl
  rw [hp0, Nat.zero_add] at hpops
  generalize hf : (expand ord P goal)^[m] (Astar.start P start goal) = f at hw hs hH hpops hloop
  by_cases hl : 0 < minheap.Len f
  · have hpos : 0 < f.openset.length := hl
    have hg : (heap.Pop f).2 = goal := by
      rcases hH with h0 | h0
      · omega
      · exact h0
    have hpop := heapPop_spec f hw.idx hpos
    have hord' := heapPop_heapOrd f hw.idx hpos hw.heap
    rw [hg] at hpop hord'
    have hgo : goal ∈ f.openset := List.getElem?_mem hpop.2.2
    obtain ⟨n, r, hr1, hr2, hr3, hr4, z, hz1, hz2⟩ := route_spec f.predecessor goal (hw.acyclic goal)
    have hzs : z = start := by
      have hzk : IsKnown f.known z ∧ costOf f.known z < MaxFloat64 := by
        cases r with
        | nil => exact absurd rfl hr2
        | cons a rest =>
          have haz : a = z := by simpa using hz1
          subst haz
          cases rest with
          | nil =>
            have : a = goal := by simpa using hr3
            rw [this]
            exact ⟨mem_known_of_idx hw.idx hgo, hw.openLt goal hgo⟩
          | cons b rest' =>
            rw [List.chain'_cons] at hr4
            obtain ⟨_, h2, _, h4, c, h5, h6⟩ := hw.predInv b a hr4.1
            have := hnn a (hw.knownIn a h2) _ h5
            simp only at this
            exact ⟨h2, by omega⟩
      rcases hw.hasPred z hzk.1 hzk.2 with h1 | h1
      · exact h1
      · rw [hz2] at h1; simp at h1
    refine ⟨m, r, max (m + 1) n, ?_⟩
    rw [hf]
    refine ⟨hw, hs, hH, hmin, hpops, ?_, Or.inr ⟨hgo, hord'.2, hr2, by rw [hz1, hzs], hr3, hr4⟩⟩
    intro fuel hfuel
    unfold Find
    rw [hloop fuel fuel (by omega), if_pos hl, hpop.1.pred]
    exact hr1 fuel (by omega)
  · refine ⟨m, [], m + 1, ?_⟩
    rw [hf]
    refine ⟨hw, hs, hH, hmin, hpops, ?_, Or.inl ⟨?_, rfl⟩⟩
    · intro fuel hfuel
      unfold Find
      rw [hloop fuel fuel (by omega), if_neg hl]
    · unfold minheap.Len at hl
      exact List.length_eq_zero.1 (by omega)


/-! ### The claims about `Find` -/

theorem chain_getElem {R : Int → Int → Prop} (r : List Int) (h : List.Chain' R r) :
    ∀ (i : Nat) (a b : Int), r[i]? = some a → r[i + 1]? = some b → R a b := by
  induction r with
  | nil => intro i a b ha; simp at ha
  | cons x r ih =>
    intro i a b ha hb
    cases r with
    | nil => simp at hb
    | cons y rest =>
      rw [List.chain'_cons] at h
      cases i with
      | zero =>
        simp at ha hb
        rw [← ha, ← hb]; exact h.1
      | succ j =>
        exact ih h.2 j a b (by simpa using ha) (by simpa using hb)

theorem inOrder_enumeration : Enumeration inOrder := fun _ l => List.Perm.refl l

theorem relax_congr (P Q : Interface) (hE : P.Estimate = Q.Estimate) (goal cur : Int)
    (s : Search) (kv : Int × Int) : relax P goal cur s kv = relax Q goal cur s kv := by
  unfold relax improve
  rw [hE]

theorem expand_congr (ord : Nat → List (Int × Int) → List (Int × Int)) (P Q : Interface)
    (hA : ∀ u, (P.Adjacent u).1 = (Q.Adjacent u).1) (hE : P.Estimate = Q.Estimate) (goal : Int)
    (s : Search) : expand ord P goal s = expand ord Q goal s := by
  unfold expand
  simp only
  rw [hA]
  congr 1
  funext t kv
  exact relax_congr P Q hE goal _ t kv

theorem loop_congr (ord : Nat → List (Int × Int) → List (Int × Int)) (P Q : Interface)
    (hA : ∀ u, (P.Adjacent u).1 = (Q.Adjacent u).1) (hE : P.Estimate = Q.Estimate) (goal : Int)
    (rfuel fuel : Nat) : ∀ s, loop ord P goal rfuel fuel s = loop ord Q goal rfuel fuel s := by
  induction fuel with
  | zero => intro s; rfl
  | succ n ih =>
    intro s
    simp only [loop]
    rw [expand_congr ord P Q hA hE goal s, ih]

/-- The result of `Find` depends on the problem only through the maps returned
by `Adjacent` and through `Estimate`: the error returned by `Adjacent` is discarded. -/
theorem Find_congr (ord : Nat → List (Int × Int) → List (Int × Int)) (P Q : Interface)
    (hA : ∀ u, (P.Adjacent u).1 = (Q.Adjacent u).1) (hE : P.Estimate = Q.Estimate)
    (fuel : Nat) (start goal : Int) :
    Find ord fuel P start goal = Find ord fuel Q start goal := by
  unfold Find Astar.start
  rw [hE]
  exact loop_congr ord P Q hA hE goal fuel fuel _

/-- C2: for every finite graph with non-negative edge costs and every heuristic,
a non-empty route returned by `Find` starts at the start, ends at the goal, and
every two consecutive labels of it form an edge of the graph. -/
theorem Find_route_valid {P : Interface} {V : Finset Int} {start goal : Int}
    {ord : Nat → List (Int × Int) → List (Int × Int)} (hord : Enumeration ord)
    (hfg : FiniteGraph P V) (hnn : NonNegative P V) (hst : start ∈ V) (fuel : Nat)
    (r : List Int) (hr : Find ord fuel P start goal = some r) (hne : r ≠ []) :
    r.head? = some start ∧ r.getLast? = some goal ∧
      ∀ (i : Nat) (a b : Int), r[i]? = some a → r[i + 1]? = some b → IsEdge P a b := by
  obtain ⟨m, r', N, hw, _, _, _, _, hF, hres⟩ := @Find_spec P V start goal ord hord hfg hnn hst
  have hrr : r = r' := Find_unique ord P start goal fuel N r r' hr (hF N (le_refl _))
  subst hrr
  rcases hres with ⟨_, h0⟩ | ⟨_, _, _, hh, hl, hch⟩
  · exact absurd h0 hne
  · exact ⟨hh, hl, chain_getElem r (chain_isPath hw r hch)⟩

/-- Witness for C2 on the graph `diamond`, from 0 to 3. -/
theorem Find_route_valid_witness :
    Find inOrder 10 diamond 0 3 = some [0, 1, 2, 3] ∧
      ([0, 1, 2, 3] : List Int).head? = some 0 ∧ ([0, 1, 2, 3] : List Int).getLast? = some 3 ∧
      ∀ (i : Nat) (a b : Int), ([0, 1, 2, 3] : List Int)[i]? = some a →
        ([0, 1, 2, 3] : List Int)[i + 1]? = some b → IsEdge diamond a b :=
  ⟨by decide, Find_route_valid (V := {0, 1, 2, 3}) inOrder_enumeration (by decide) (by decide)
    (by decide) 10 [0, 1, 2, 3] (by decide) (by decide)⟩


/-- C5: for every finite graph with non-negative edge costs, every heuristic and
every start and goal, the loop of `Find` returns after finitely many pops (`m`
expansions, each after one pop) and the call returns a result. -/
theorem Find_terminates {P : Interface} {V : Finset Int} {start goal : Int}
    {ord : Nat → List (Int × Int) → List (Int × Int)} (hord : Enumeration ord)
    (hfg : FiniteGraph P V) (hnn : NonNegative P V) (hst : start ∈ V) :
    ∃ (m N : Nat) (r : List Int),
      Halts goal ((expand ord P goal)^[m] (Astar.start P start goal)) ∧
      (∀ j, j < m → ¬ Halts goal ((expand ord P goal)^[j] (Astar.start P start goal))) ∧
      ((expand ord P goal)^[m] (Astar.start P start goal)).pops.length = m ∧
      ∀ fuel, N ≤ fuel → Find ord fuel P start goal = some r := by
  obtain ⟨m, r, N, _, _, hH, hmin, hpops, hF, _⟩ := @Find_spec P V start goal ord hord hfg hnn hst
  exact ⟨m, N, r, hH, hmin, hpops, hF⟩

/-- Witness for C5 on the graph `diamond`, from 0 to 3. -/
theorem Find_terminates_witness :
    Enumeration inOrder ∧ FiniteGraph diamond {0, 1, 2, 3} ∧ NonNegative diamond {0, 1, 2, 3} ∧
      ∃ (m N : Nat) (r : List Int),
        Halts 3 ((expand inOrder diamond 3)^[m] (Astar.start diamond 0 3)) ∧
        (∀ j, j < m → ¬ Halts 3 ((expand inOrder diamond 3)^[j] (Astar.start diamond 0 3))) ∧
        ((expand inOrder diamond 3)^[m] (Astar.start diamond 0 3)).pops.length = m ∧
        ∀ fuel, N ≤ fuel → Find inOrder fuel diamond 0 3 = some r :=
  ⟨inOrder_enumeration, by decide, by decide,
    Find_terminates (V := {0, 1, 2, 3}) inOrder_enumeration (by decide) (by decide) (by decide)⟩

/-- C6: for every problem, whatever `Adjacent` and `Estimate` return, and every
label `x`, `Find(problem, x, x)` returns the single-element sequence `[x]`. -/
theorem Find_start_is_goal (ord : Nat → List (Int × Int) → List (Int × Int)) (P : Interface)
    (x : Int) (fuel : Nat) : Find ord (fuel + 1) P x x = some [x] := by
  unfold Find
  rw [start_eq]
  have hpop : ∀ s : Search, s.openset = [x] → (heap.Pop s).2 = x ∧
      (heap.Pop s).1.predecessor = s.predecessor := by
    intro s hs
    simp [heap.Pop, heap.down, heap.downLoop, minheap.Swap, minheap.Pop, minheap.Len, hs]
  obtain ⟨h1, h2⟩ := hpop
    { openset := [x]
      known := setIndex (mapSet (fun _ => none) x ⟨x, 0, 0, P.Estimate x x⟩) x 0
      predecessor := fun _ => none
      pops := [] } rfl
  simp only [loop, minheap.Len, List.length_singleton, Nat.lt_one_iff, if_true, h1, h2]
  simp [route, unwind, forwards]


/-- C7 (amended): `Find` discards the error returned by `Adjacent` and ranges over
the map returned with it.  If the map that `Adjacent(u)` returns (with or without an
error) is nil or empty, then the result of `Find` equals the result on the same
problem with `Adjacent(u)` returning an empty map and no error, and an expansion of
`u` changes nothing after the pop: no point is created, given a predecessor or
pushed. -/
theorem Find_error_discarded (ord : Nat → List (Int × Int) → List (Int × Int))
    (hord : Enumeration ord) (P : Interface) (u : Int) (hmap : (P.Adjacent u).1 = []) :
    (∀ fuel start goal,
      Find ord fuel P start goal = Find ord fuel (withoutNeighbours P u) start goal) ∧
    (∀ goal s, (heap.Pop s).2 = u →
      (expand ord P goal s).openset = (heap.Pop s).1.openset ∧
      (expand ord P goal s).known = (heap.Pop s).1.known ∧
      (expand ord P goal s).predecessor = (heap.Pop s).1.predecessor) := by
  constructor
  · intro fuel start goal
    apply Find_congr
    · intro a
      unfold withoutNeighbours
      by_cases ha : a = u
      · simp [ha, hmap]
      · simp [ha]
    · rfl
  · intro goal s hs
    have hnil : ord s.pops.length (P.Adjacent (heap.Pop s).2).1 = [] := by
      rw [hs, hmap]
      exact (hord _ []).eq_nil
    unfold expand
    simp only [hnil, List.foldl_nil, and_self]

/-- Witness for C7 on the problem `failing`, whose `Adjacent(0)` returns a nil map
and a non-nil error. -/
theorem Find_error_discarded_witness :
    Enumeration inOrder ∧ (failing.Adjacent 0).2 = true ∧ (failing.Adjacent 0).1 = [] ∧
      ((∀ fuel start goal,
        Find inOrder fuel failing start goal =
          Find inOrder fuel (withoutNeighbours failing 0) start goal) ∧
      (∀ goal s, (heap.Pop s).2 = 0 →
        (expand inOrder failing goal s).openset = (heap.Pop s).1.openset ∧
        (expand inOrder failing goal s).known = (heap.Pop s).1.known ∧
        (expand inOrder failing goal s).predecessor = (heap.Pop s).1.predecessor)) :=
  ⟨inOrder_enumeration, by decide, by decide,
    Find_error_discarded inOrder inOrder_enumeration failing 0 (by decide)⟩

/-- Counterexample to C7 as stated: `Adjacent(0)` of the problem `faulty` returns a
non-nil error together with the map `{1: 1}`; `Find` relaxes the neighbour 1 all the
same and returns the route 0, 1, while with an empty map for 0 it returns `nil`. -/
theorem Find_relaxes_despite_error :
    (faulty.Adjacent 0).2 = true ∧ Find inOrder 5 faulty 0 1 = some [0, 1] ∧
      Find inOrder 5 (withoutNeighbours faulty 0) 0 1 = some [] ∧
      (expand inOrder faulty 1 (Astar.start faulty 0 1)).predecessor 1 = some 0 := by
  refine ⟨by decide, by decide, by decide, by decide⟩

/-- C8: for every finite graph with non-negative edge costs (maps with unique
keys), the route returned by `Find` has no two consecutive labels `a`, `b` with
`Adjacent(a)[b]` equal to `math.MaxFloat64`; in particular every label of the route
other than the start has an incoming edge of a cost other than `math.MaxFloat64`. -/
theorem Find_avoids_MaxFloat64 {P : Interface} {V : Finset Int} {start goal : Int}
    {ord : Nat → List (Int × Int) → List (Int × Int)} (hord : Enumeration ord)
    (hfg : FiniteGraph P V) (hnn : NonNegative P V) (huk : UniqueKeys P V) (hst : start ∈ V)
    (fuel : Nat) (r : List Int) (hr : Find ord fuel P start goal = some r) :
    (∀ (i : Nat) (a b : Int), r[i]? = some a → r[i + 1]? = some b →
      edgeCost P a b ≠ MaxFloat64) ∧
    (∀ l ∈ r, l ≠ start → ∃ a, IsEdge P a l ∧ edgeCost P a l ≠ MaxFloat64) := by
  obtain ⟨m, r', N, hw, _, _, _, _, hF, hres⟩ := @Find_spec P V start goal ord hord hfg hnn hst
  have hrr : r = r' := Find_unique ord P start goal fuel N r r' hr (hF N (le_refl _))
  subst hrr
  generalize (expand ord P goal)^[m] (Astar.start P start goal) = f at hw hres
  rcases hres with ⟨_, h0⟩ | ⟨_, _, _, hh, _, hch⟩
  · subst h0
    exact ⟨fun i a b ha => by simp at ha, fun l hl => absurd hl (List.not_mem_nil l)⟩
  · have hpair : ∀ (i : Nat) (a b : Int), r[i]? = some a → r[i + 1]? = some b →
        IsEdge P a b ∧ edgeCost P a b ≠ MaxFloat64 := by
      intro i a b ha hb
      have hp := chain_getElem r hch i a b ha hb
      obtain ⟨_, h2, _, h4, c, h5, h6⟩ := hw.predInv b a hp
      have hec := edgeCost_of_unique P V huk a b c (hw.knownIn a h2) h5
      have hc0 := hw.costNonneg a h2
      refine ⟨List.mem_map.2 ⟨(b, c), h5, rfl⟩, ?_⟩
      rw [hec]
      omega
    refine ⟨fun i a b ha hb => (hpair i a b ha hb).2, ?_⟩
    intro l hl hls
    obtain ⟨j, hj⟩ := List.mem_iff_getElem?.1 hl
    cases j with
    | zero =>
      have : r[0]? = r.head? := by cases r <;> simp
      rw [this, hh] at hj
      exact absurd (Option.some.inj hj).symm hls
    | succ i =>
      have hi : i < r.length := by
        by_contra hc
        rw [List.getElem?_eq_none (by omega)] at hj
        exact Option.noConfusion hj
      exact ⟨r[i], hpair i r[i] l (List.getElem?_eq_getElem hi) hj⟩

set_option maxRecDepth 100000 in
/-- Witness for C8 on the test's 4x4 grid with cell 10 blocked, from 0 to 15. -/
theorem Find_avoids_MaxFloat64_witness :
    Find inOrder 100 ((newSquare 4).put 10 MaxFloat64).problem 0 15 = some [0, 5, 6, 11, 15] ∧
      ((∀ (i : Nat) (a b : Int), ([0, 5, 6, 11, 15] : List Int)[i]? = some a →
        ([0, 5, 6, 11, 15] : List Int)[i + 1]? = some b →
        edgeCost ((newSquare 4).put 10 MaxFloat64).problem a b ≠ MaxFloat64) ∧
      (∀ l ∈ ([0, 5, 6, 11, 15] : List Int), l ≠ 0 →
        ∃ a, IsEdge ((newSquare 4).put 10 MaxFloat64).problem a l ∧
          edgeCost ((newSquare 4).put 10 MaxFloat64).problem a l ≠ MaxFloat64)) :=
  ⟨by decide, @Find_avoids_MaxFloat64 ((newSquare 4).put 10 MaxFloat64).problem (Finset.Icc 0 15)
    0 15 inOrder inOrder_enumeration (by decide) (by decide) (by decide) (by decide) 100
    [0, 5, 6, 11, 15] (by decide)⟩


/-! ### The summary of a state follows the search whatever the enumeration order -/

theorem relaxSummary_of_lt (cur : Int) (σ : Summary) (kv : Int × Int)
    (h : kv.2 + σ.cost cur < σ.cost kv.1) :
    relaxSummary cur σ kv =
      { cost := fun l => if l = kv.1 then kv.2 + σ.cost cur else σ.cost l
        pred := fun l => if l = kv.1 then some cur else σ.pred l
        inOpen := fun l => if l = kv.1 then true else σ.inOpen l } := by
  unfold relaxSummary; rw [if_pos h]

theorem relaxSummary_of_not (cur : Int) (σ : Summary) (kv : Int × Int)
    (h : ¬ kv.2 + σ.cost cur < σ.cost kv.1) : relaxSummary cur σ kv = σ := by
  unfold relaxSummary; rw [if_neg h]

theorem relaxSummary_cost_ne (cur : Int) (σ : Summary) (kv : Int × Int) (l : Int)
    (h : l ≠ kv.1) : (relaxSummary cur σ kv).cost l = σ.cost l := by
  unfold relaxSummary
  split
  · simp [h]
  · rfl

theorem relaxSummary_cost_cur (cur : Int) (σ : Summary) (kv : Int × Int) (hv : 0 ≤ kv.2) :
    (relaxSummary cur σ kv).cost cur = σ.cost cur := by
  by_cases hk : cur = kv.1
  · rw [relaxSummary_of_not]
    rw [← hk]; omega
  · exact relaxSummary_cost_ne cur σ kv cur hk

theorem summary_ext (a b : Summary) (h1 : ∀ l, a.cost l = b.cost l)
    (h2 : ∀ l, a.pred l = b.pred l) (h3 : ∀ l, a.inOpen l = b.inOpen l) : a = b := by
  cases a; cases b
  simp only [Summary.mk.injEq]
  exact ⟨funext h1, funext h2, funext h3⟩

theorem relaxSummary_cost (cur : Int) (σ : Summary) (kv : Int × Int) (l : Int) :
    (relaxSummary cur σ kv).cost l =
      if l = kv.1 ∧ kv.2 + σ.cost cur < σ.cost kv.1 then kv.2 + σ.cost cur else σ.cost l := by
  unfold relaxSummary
  by_cases h : kv.2 + σ.cost cur < σ.cost kv.1 <;> by_cases hl : l = kv.1 <;> simp [h, hl]

theorem relaxSummary_pred (cur : Int) (σ : Summary) (kv : Int × Int) (l : Int) :
    (relaxSummary cur σ kv).pred l =
      if l = kv.1 ∧ kv.2 + σ.cost cur < σ.cost kv.1 then some cur else σ.pred l := by
  unfold relaxSummary
  by_cases h : kv.2 + σ.cost cur < σ.cost kv.1 <;> by_cases hl : l = kv.1 <;> simp [h, hl]

theorem relaxSummary_inOpen (cur : Int) (σ : Summary) (kv : Int × Int) (l : Int) :
    (relaxSummary cur σ kv).inOpen l =
      if l = kv.1 ∧ kv.2 + σ.cost cur < σ.cost kv.1 then true else σ.inOpen l := by
  unfold relaxSummary
  by_cases h : kv.2 + σ.cost cur < σ.cost kv.1 <;> by_cases hl : l = kv.1 <;> simp [h, hl]

theorem relaxSummary_comm (cur : Int) (σ : Summary) (e1 e2 : Int × Int) (hne : e1.1 ≠ e2.1)
    (h1 : 0 ≤ e1.2) (h2 : 0 ≤ e2.2) :
    relaxSummary cur (relaxSummary cur σ e1) e2 = relaxSummary cur (relaxSummary cur σ e2) e1 := by
  have c1 : (relaxSummary cur σ e1).cost cur = σ.cost cur := relaxSummary_cost_cur cur σ e1 h1
  have c2 : (relaxSummary cur σ e2).cost cur = σ.cost cur := relaxSummary_cost_cur cur σ e2 h2
  have k1 : (relaxSummary cur σ e2).cost e1.1 = σ.cost e1.1 :=
    relaxSummary_cost_ne cur σ e2 e1.1 hne
  have k2 : (relaxSummary cur σ e1).cost e2.1 = σ.cost e2.1 :=
    relaxSummary_cost_ne cur σ e1 e2.1 (Ne.symm hne)
  have hx : ∀ l : Int, ¬ (l = e1.1 ∧ l = e2.1) := fun l h => hne (h.1.symm.trans h.2)
  apply summary_ext
  · intro l
    rw [relaxSummary_cost cur (relaxSummary cur σ e1) e2 l,
      relaxSummary_cost cur (relaxSummary cur σ e2) e1 l, c1, c2, k1, k2,
      relaxSummary_cost cur σ e1 l, relaxSummary_cost cur σ e2 l]
    by_cases x1 : l = e1.1 <;> by_cases x2 : l = e2.1
    · exact absurd ⟨x1, x2⟩ (hx l)
    · simp [x1, x2, hne]
    · simp [x1, x2, Ne.symm hne]
    · simp [x1, x2]
  · intro l
    rw [relaxSummary_pred cur (relaxSummary cur σ e1) e2 l,
      relaxSummary_pred cur (relaxSummary cur σ e2) e1 l, c1, c2, k1, k2,
      relaxSummary_pred cur σ e1 l, relaxSummary_pred cur σ e2 l]
    by_cases x1 : l = e1.1 <;> by_cases x2 : l = e2.1
    · exact absurd ⟨x1, x2⟩ (hx l)
    · simp [x1, x2, hne]
    · simp [x1, x2, Ne.symm hne]
    · simp [x1, x2]
  · intro l
    rw [relaxSummary_inOpen cur (relaxSummary cur σ e1) e2 l,
      relaxSummary_inOpen cur (relaxSummary cur σ e2) e1 l, c1, c2, k1, k2,
      relaxSummary_inOpen cur σ e1 l, relaxSummary_inOpen cur σ e2 l]
    by_cases x1 : l = e1.1 <;> by_cases x2 : l = e2.1
    · exact absurd ⟨x1, x2⟩ (hx l)
    · simp [x1, x2, hne]
    · simp [x1, x2, Ne.symm hne]
    · simp [x1, x2]

/-- The summary after a `range` loop does not depend on the enumeration order. -/
theorem foldSummary_perm (cur : Int) (L L' : List (Int × Int)) (hp : L'.Perm L)
    (hk : (L.map Prod.fst).Nodup) (hv : ∀ e ∈ L, 0 ≤ e.2) (σ : Summary) :
    L'.foldl (relaxSummary cur) σ = L.foldl (relaxSummary cur) σ := by
  apply List.Perm.foldl_eq' hp
  intro x hx y hy z
  have hx' := hp.mem_iff.1 hx
  have hy' := hp.mem_iff.1 hy
  by_cases hxy : x = y
  · rw [hxy]
  · exact relaxSummary_comm cur z x y
      (fun e => hxy (List.inj_on_of_nodup_map hk hx' hy' e)) (hv x hx') (hv y hy')

theorem vcost_of_known {s : Search} {l : Int} (h : IsKnown s.known l) :
    vcost s l = costOf s.known l := by
  unfold vcost; rw [if_pos h]

/-- One relaxation changes the summary as `relaxSummary` says. -/
theorem relax_matches {P : Interface} {V : Finset Int} {start goal : Int} {s : Search}
    {σ : Summary} (hfg : FiniteGraph P V) (h : WF P V start goal s)
    (cur : Int) (hcur : IsKnown s.known cur) (kv : Int × Int)
    (hkv : kv ∈ (P.Adjacent cur).1) (hm : Matches s σ) :
    Matches (relax P goal cur s kv) (relaxSummary cur σ kv) := by
  obtain ⟨k, v⟩ := kv
  have hcurV := h.knownIn cur hcur
  have hkV : k ∈ V := hfg cur hcurV (k, v) hkv
  have h1 := wf_register h k hkV (reachable_step (h.reach cur hcur)
    (List.mem_map.2 ⟨(k, v), hkv, rfl⟩))
  have hk1 : IsKnown (register s k).known k := (isKnown_register s k k).2 (Or.inr rfl)
  have hccur : costOf (register s k).known cur = σ.cost cur := by
    rw [costOf_register_of_known s k cur hcur, ← hm.1 cur, vcost_of_known hcur]
  have hck : costOf (register s k).known k = σ.cost k := by
    rw [← vcost_of_known hk1, vcost_register, hm.1 k]
  by_cases hlt : v + costOf (register s k).known cur < costOf (register s k).known k
  · have hi := improved_of_relax P V start goal cur (register s k) k
      (v + costOf (register s k).known cur) h1 hk1 hlt
    have hrel : relax P goal cur s (k, v) =
        (if indexOf (improve P goal cur (register s k) k
            (v + costOf (register s k).known cur)).known k = -1 then
          heap.Push (improve P goal cur (register s k) k (v + costOf (register s k).known cur)) k
        else heap.Fix (improve P goal cur (register s k) k (v + costOf (register s k).known cur))
          (indexOf (improve P goal cur (register s k) k
            (v + costOf (register s k).known cur)).known k).toNat) := by
      unfold relax
      simp only [if_pos hlt]
    rw [hrel, relaxSummary_of_lt cur σ (k, v) (by simp only; rw [← hccur, ← hck]; exact hlt)]
    refine ⟨?_, ?_, ?_⟩
    · intro l
      rw [vcost_improved hi hk1 l, vcost_register, hm.1 l, hccur]
    · intro l
      rw [hi.pred, predecessor_register]
      simp only [mapSet]
      by_cases hl : l = k
      · simp [hl]
      · simp [hl, hm.2.1 l]
    · intro l
      rw [hi.mem l, openset_register, hm.2.2 l]
      by_cases hl : l = k
      · simp [hl]
      · simp [hl]
  · have hrel : relax P goal cur s (k, v) = register s k := by
      unfold relax
      simp only [if_neg hlt]
    rw [hrel, relaxSummary_of_not cur σ (k, v) (by simp only; rw [← hccur, ← hck]; exact hlt)]
    refine ⟨fun l => by rw [vcost_register, hm.1 l], fun l => by rw [predecessor_register, hm.2.1 l],
      fun l => by rw [openset_register, hm.2.2 l]⟩

theorem fold_matches {P : Interface} {V : Finset Int} {start goal : Int}
    (hfg : FiniteGraph P V) (hnn : NonNegative P V) (cur : Int) (L : List (Int × Int))
    (hL : ∀ kv ∈ L, kv ∈ (P.Adjacent cur).1) (s : Search) (σ : Summary)
    (h : WF P V start goal s) (hcur : IsKnown s.known cur) (hm : Matches s σ) :
    Matches (L.foldl (relax P goal cur) s) (L.foldl (relaxSummary cur) σ) := by
  induction L generalizing s σ with
  | nil => exact hm
  | cons e L ih =>
    have he := hL e (List.mem_cons_self e L)
    have h1 := relax_spec hfg hnn h cur hcur e he
    rw [List.foldl_cons, List.foldl_cons]
    exact ih (fun kv hkv => hL kv (List.mem_cons_of_mem e hkv)) _ _ h1.1
      (h1.2.1.knownMono cur hcur) (relax_matches hfg h cur hcur e he hm)

/-- One expansion changes the summary as `expandSummary` says, whatever the order
in which the neighbour map is enumerated. -/
theorem expand_matches {P : Interface} {V : Finset Int} {start goal : Int} {s : Search}
    {σ : Summary} {ord : Nat → List (Int × Int) → List (Int × Int)} (hord : Enumeration ord)
    (hfg : FiniteGraph P V) (hnn : NonNegative P V) (huk : UniqueKeys P V)
    (h : WF P V start goal s) (hpos : 0 < s.openset.length) (hm : Matches s σ) :
    Matches (expand ord P goal s) (expandSummary P (heap.Pop s).2 σ) := by
  have hp := pop_spec h hpos { (heap.Pop s).1 with pops := (heap.Pop s).1.pops ++ [(heap.Pop s).2] }
    rfl rfl rfl
  have hpp := hp.2.1
  have hcV : (heap.Pop s).2 ∈ V := hp.1.knownIn _ hp.2.2.1
  have hm0 : Matches { (heap.Pop s).1 with pops := (heap.Pop s).1.pops ++ [(heap.Pop s).2] }
      (popSummary (heap.Pop s).2 σ) := by
    refine ⟨?_, ?_, ?_⟩
    · intro l
      have : vcost { (heap.Pop s).1 with pops := (heap.Pop s).1.pops ++ [(heap.Pop s).2] } l =
          vcost s l := by
        unfold vcost
        simp only
        by_cases hl : IsKnown s.known l
        · rw [if_pos hl, if_pos ((hpp.known l).2 hl), hpp.cost l]
        · rw [if_neg hl, if_neg (fun h' => hl ((hpp.known l).1 h'))]
      rw [this]
      exact hm.1 l
    · intro l
      simp only [popSummary]
      rw [hpp.pred]
      exact hm.2.1 l
    · intro l
      simp only [popSummary]
      rw [hpp.mem l, hm.2.2 l]
      by_cases hl : l = (heap.Pop s).2
      · simp [hl]
      · simp [hl]
  have hf := fold_matches hfg hnn (heap.Pop s).2 (ord s.pops.length (P.Adjacent (heap.Pop s).2).1)
    (fun kv hkv => (hord _ _).mem_iff.1 hkv) _ _ hp.1 hp.2.2.1 hm0
  rw [foldSummary_perm (heap.Pop s).2 (P.Adjacent (heap.Pop s).2).1 _ (hord _ _)
    (huk _ hcV) (hnn _ hcV)] at hf
  exact hf

theorem start_matches (P : Interface) (start goal : Int) :
    Matches (Astar.start P start goal) (initSummary start) := by
  have hK := start_known P start goal
  refine ⟨?_, ?_, ?_⟩
  · intro l
    unfold vcost initSummary
    simp only
    by_cases hl : l = start
    · rw [if_pos ((hK l).2 hl), if_pos hl, hl, start_eq]
      simp only
      rw [costOf_setIndex, costOf_mapSet_self]
    · rw [if_neg (fun h' => hl ((hK l).1 h')), if_neg hl]
  · intro l
    rw [start_eq]; rfl
  · intro l
    rw [start_eq]
    simp [initSummary]

/-- The result of the loop of `Find` is one of the `outcomes` computed from the
summary, whatever the enumeration order. -/
theorem loop_mem_outcomes {P : Interface} {start goal : Int} {vs : List Int}
    {ord : Nat → List (Int × Int) → List (Int × Int)} (hord : Enumeration ord)
    (hfg : FiniteGraph P vs.toFinset) (hnn : NonNegative P vs.toFinset)
    (huk : UniqueKeys P vs.toFinset) (rfuel fuel : Nat) :
    ∀ (s : Search) (σ : Summary), WF P vs.toFinset start goal s → Settled P goal s →
      Matches s σ → loop ord P goal rfuel fuel s ∈ outcomes P goal vs rfuel fuel σ := by
  induction fuel with
  | zero => intro s σ _ _ _; simp [loop, outcomes]
  | succ n ih =>
    intro s σ h hs hm
    simp only [loop, outcomes]
    by_cases hl : 0 < minheap.Len s
    · have hpos : 0 < s.openset.length := hl
      have hpop := heapPop_spec s h.idx hpos
      have hmin := (heapPop_heapOrd s h.idx hpos h.heap).2
      have hcur : (heap.Pop s).2 ∈ s.openset := List.getElem?_mem hpop.2.2
      have hvs : ∀ a ∈ s.openset, a ∈ vs ∧ σ.inOpen a = true := fun a ha =>
        ⟨List.mem_toFinset.1 (h.knownIn a (mem_known_of_idx h.idx ha)), (hm.2.2 a).1 ha⟩
      have hne : ¬ (vs.filter fun l => σ.inOpen l) = [] := by
        intro he
        rw [List.filter_eq_nil_iff] at he
        exact he _ (hvs _ hcur).1 (hvs _ hcur).2
      have hcand : (heap.Pop s).2 ∈ candidates P goal vs σ := by
        unfold candidates
        rw [List.mem_filter, List.mem_filter, List.all_eq_true]
        refine ⟨hvs _ hcur, ?_⟩
        intro a ha
        rw [List.mem_filter] at ha
        have hao : a ∈ s.openset := (hm.2.2 a).2 ha.2
        have := hmin a hao
        rw [h.fgh _ hcur, h.fgh a hao, ← vcost_of_known (mem_known_of_idx h.idx hcur),
          ← vcost_of_known (mem_known_of_idx h.idx hao), hm.1, hm.1] at this
        exact decide_eq_true this
      rw [if_pos hl, if_neg hne, List.mem_flatMap]
      refine ⟨(heap.Pop s).2, hcand, ?_⟩
      by_cases hg : (heap.Pop s).2 = goal
      · rw [if_pos hg, if_pos hg, hpop.1.pred]
        have : s.predecessor = σ.pred := funext hm.2.1
        rw [this]
        exact List.mem_singleton_self _
      · rw [if_neg hg, if_neg hg]
        have he := expand_spec hord hfg hnn h hs hpos hg
        exact ih _ _ he.1 he.2.1 (expand_matches hord hfg hnn huk h hpos hm)
    · have he : (vs.filter fun l => σ.inOpen l) = [] := by
        rw [List.filter_eq_nil_iff]
        intro a _ ha
        have : a ∈ s.openset := (hm.2.2 a).2 ha
        unfold minheap.Len at hl
        have hnil : s.openset = [] := List.length_eq_zero.1 (by omega)
        rw [hnil] at this
        exact absurd this (List.not_mem_nil a)
      rw [if_neg hl, if_pos he]
      exact List.mem_singleton_self _

/-- The result of `Find` on a finite graph with non-negative costs is one of the
`outcomes` computed from the summary of the first state, whatever the enumeration
order. -/
theorem Find_mem_outcomes {P : Interface} {start goal : Int} {vs : List Int}
    {ord : Nat → List (Int × Int) → List (Int × Int)} (hord : Enumeration ord)
    (hfg : FiniteGraph P vs.toFinset) (hnn : NonNegative P vs.toFinset)
    (huk : UniqueKeys P vs.toFinset) (hst : start ∈ vs) (fuel : Nat) :
    Find ord fuel P start goal ∈ outcomes P goal vs fuel fuel (initSummary start) := by
  obtain ⟨hw, hs⟩ := start_spec P vs.toFinset start goal (List.mem_toFinset.2 hst)
  exact loop_mem_outcomes hord hfg hnn huk fuel fuel _ _ hw hs (start_matches P start goal)


/-! ### The scenarios of the tests on the 4x4 grid -/

theorem reversed_enumeration : Enumeration reversed := fun _ l => List.reverse_perm l

/-- C9: on the 4x4 eight-neighbour grid whose cells all have the value 0 (as in the
test) or 1 (as in the spec), with the Manhattan distance as `Estimate`,
`Find(grid, 0, 15)` returns `[0, 5, 10, 15]` whatever the order in which each
neighbour map is enumerated. -/
theorem Find_grid_diagonal (ord : Nat → List (Int × Int) → List (Int × Int))
    (hord : Enumeration ord) (fuel : Nat) (hf : 4 ≤ fuel) :
    Find ord fuel (newSquare 4).problem 0 15 = some [0, 5, 10, 15] ∧
      Find ord fuel (uniform 1).problem 0 15 = some [0, 5, 10, 15] := by
  have h0 := @Find_mem_outcomes (newSquare 4).problem 0 15 cells ord hord (by decide) (by decide)
    (by decide) (by decide) 4
  have h1 := @Find_mem_outcomes (uniform 1).problem 0 15 cells ord hord (by decide) (by decide)
    (by decide) (by decide) 4
  have e0 : outcomes (newSquare 4).problem 15 cells 4 4 (initSummary 0) =
      [some [0, 5, 10, 15]] := by decide
  have e1 : outcomes (uniform 1).problem 15 cells 4 4 (initSummary 0) =
      [some [0, 5, 10, 15]] := by decide
  rw [e0, List.mem_singleton] at h0
  rw [e1, List.mem_singleton] at h1
  exact ⟨Find_mono ord _ 0 15 4 fuel _ hf h0, Find_mono ord _ 0 15 4 fuel _ hf h1⟩

/-- Witness for C9 with the entries of every map enumerated in reverse order. -/
theorem Find_grid_diagonal_witness :
    Enumeration reversed ∧ 4 ≤ 4 ∧
      Find reversed 4 (newSquare 4).problem 0 15 = some [0, 5, 10, 15] ∧
      Find reversed 4 (uniform 1).problem 0 15 = some [0, 5, 10, 15] :=
  ⟨reversed_enumeration, le_refl 4, Find_grid_diagonal reversed reversed_enumeration 4 (le_refl 4)⟩

/-- On the 4x4 eight-neighbour grid with equal cell values (0 or 1), Manhattan
`Estimate` and cell 10 given the value `math.MaxFloat64`, `Find(grid, 0, 15)` returns
`[0, 5, 6, 11, 15]` or `[0, 5, 9, 14, 15]`, depending on the order in which the
neighbour maps are enumerated: the first when every map is enumerated in the order
in which `square.Adjacent` inserts its entries, the second when every map is
enumerated in the reverse order. -/
theorem Find_grid_blocked (ord : Nat → List (Int × Int) → List (Int × Int))
    (hord : Enumeration ord) (fuel : Nat) (hf : 5 ≤ fuel) :
    (Find ord fuel ((newSquare 4).put 10 MaxFloat64).problem 0 15 = some [0, 5, 6, 11, 15] ∨
      Find ord fuel ((newSquare 4).put 10 MaxFloat64).problem 0 15 = some [0, 5, 9, 14, 15]) ∧
    (Find ord fuel ((uniform 1).put 10 MaxFloat64).problem 0 15 = some [0, 5, 6, 11, 15] ∨
      Find ord fuel ((uniform 1).put 10 MaxFloat64).problem 0 15 = some [0, 5, 9, 14, 15]) ∧
    Find inOrder fuel ((newSquare 4).put 10 MaxFloat64).problem 0 15 = some [0, 5, 6, 11, 15] ∧
    Find inOrder fuel ((uniform 1).put 10 MaxFloat64).problem 0 15 = some [0, 5, 6, 11, 15] ∧
    Find reversed fuel ((newSquare 4).put 10 MaxFloat64).problem 0 15 = some [0, 5, 9, 14, 15] ∧
    Find reversed fuel ((uniform 1).put 10 MaxFloat64).problem 0 15 = some [0, 5, 9, 14, 15] := by
  have h0 := @Find_mem_outcomes ((newSquare 4).put 10 MaxFloat64).problem 0 15 cells ord hord
    (by decide) (by decide) (by decide) (by decide) 5
  have h1 := @Find_mem_outcomes ((uniform 1).put 10 MaxFloat64).problem 0 15 cells ord hord
    (by decide) (by decide) (by decide) (by decide) 5
  have e0 : outcomes ((newSquare 4).put 10 MaxFloat64).problem 15 cells 5 5 (initSummary 0) =
      [some [0, 5, 6, 11, 15], some [0, 5, 9, 14, 15]] := by decide
  have e1 : outcomes ((uniform 1).put 10 MaxFloat64).problem 15 cells 5 5 (initSummary 0) =
      [some [0, 5, 6, 11, 15], some [0, 5, 9, 14, 15]] := by decide
  rw [e0] at h0
  rw [e1] at h1
  simp only [List.mem_cons, List.mem_singleton, List.not_mem_nil, or_false] at h0 h1
  refine ⟨?_, ?_, ?_, ?_, ?_, ?_⟩
  · rcases h0 with h | h
    · exact Or.inl (Find_mono ord _ 0 15 5 fuel _ hf h)
    · exact Or.inr (Find_mono ord _ 0 15 5 fuel _ hf h)
  · rcases h1 with h | h
    · exact Or.inl (Find_mono ord _ 0 15 5 fuel _ hf h)
    · exact Or.inr (Find_mono ord _ 0 15 5 fuel _ hf h)
  · exact Find_mono inOrder _ 0 15 5 fuel _ hf (by decide)
  · exact Find_mono inOrder _ 0 15 5 fuel _ hf (by decide)
  · exact Find_mono reversed _ 0 15 5 fuel _ hf (by decide)
  · exact Find_mono reversed _ 0 15 5 fuel _ hf (by decide)

set_option maxRecDepth 100000 in
set_option exponentiation.threshold 2000 in
/-- C10, the code on a failing enumeration order.  On the grid with cell 10 blocked,
when every neighbour map is enumerated in the reverse of the order in which
`square.Adjacent` inserts its entries, after the cells 0 and 5 are popped the cells
9 and 6 are in the heap with the same least estimate 3, the cell 9 at the root; it
is popped next and `Find(grid, 0, 15)` returns `[0, 5, 9, 14, 15]`, not the route
`[0, 5, 6, 11, 15]` that the test asserts, both with the cell value 0 and with the
cell value 1, with exact and with `float64` arithmetic.  With every map enumerated
in insertion order the cell 6 is popped first and the result is `[0, 5, 6, 11, 15]`. -/
theorem Find_grid_blocked_order_dependent :
    Enumeration reversed ∧
      (headState reversed ((newSquare 4).put 10 MaxFloat64).problem 0 15 2).pops = [0, 5] ∧
      (headState reversed ((newSquare 4).put 10 MaxFloat64).problem 0 15 2).openset =
        [9, 6, 2, 4, 8, 1] ∧
      (headState reversed ((newSquare 4).put 10 MaxFloat64).problem 0 15 2).openset.map
        (estimateOf (headState reversed ((newSquare 4).put 10 MaxFloat64).problem 0 15 2).known) =
        [3, 3, 4, 5, 4, 5] ∧
      (heap.Pop (headState reversed ((newSquare 4).put 10 MaxFloat64).problem 0 15 2)).2 = 9 ∧
      Find reversed 100 ((newSquare 4).put 10 MaxFloat64).problem 0 15 =
        some [0, 5, 9, 14, 15] ∧
      Find reversed 100 ((uniform 1).put 10 MaxFloat64).problem 0 15 =
        some [0, 5, 9, 14, 15] ∧
      Find64 reversed 100 ((newSquare 4).put 10 MaxFloat64).problem 0 15 =
        some [0, 5, 9, 14, 15] ∧
      Find64 reversed 100 ((uniform 1).put 10 MaxFloat64).problem 0 15 =
        some [0, 5, 9, 14, 15] ∧
      Find inOrder 100 ((newSquare 4).put 10 MaxFloat64).problem 0 15 =
        some [0, 5, 6, 11, 15] := by
  refine ⟨reversed_enumeration, by decide, by decide, by decide, by decide, by decide,
    by decide, by decide, by decide, by decide⟩


/-! ### The invariant `Basic`, which holds on every problem -/

theorem register_known (s : Search) (k l : Int) (hl : IsKnown (register s k).known l) :
    (IsKnown s.known l ∧ (register s k).known l = s.known l) ∨
      (l = k ∧ ¬ IsKnown s.known k ∧ costOf (register s k).known k = MaxFloat64 ∧
        indexOf (register s k).known k = -1 ∧ estimateOf (register s k).known k = 0) := by
  by_cases hl' : IsKnown s.known l
  · exact Or.inl ⟨hl', known_register_of_known s k l hl'⟩
  · have hlk : l = k := by
      rcases (isKnown_register s k l).1 hl with h1 | h1
      · exact absurd h1 hl'
      · exact h1
    rw [hlk] at hl'
    refine Or.inr ⟨hlk, hl', (register_new s k hl').1, (register_new s k hl').2, ?_⟩
    rcases register_cases s k with ⟨hk', _⟩ | ⟨_, h⟩
    · exact absurd hk' hl'
    · rw [h]; exact estimateOf_mapSet_self _ _ _

theorem idxInv_register {s : Search} (h : IdxInv s) (k : Int) : IdxInv (register s k) := by
  have ho := openset_register s k
  have hi := indexOf_register_of_known s k
  refine ⟨?_, ?_, ?_⟩
  · intro i j l hi' hj'
    rw [ho] at hi' hj'
    exact h.inj i j l hi' hj'
  · intro i l hi'
    rw [ho] at hi'
    have := h.back i l hi'
    exact ⟨(isKnown_register s k l).2 (Or.inl this.1), by rw [hi l this.1]; exact this.2⟩
  · intro l hl hm
    rw [ho] at hm
    rcases register_known s k l hl with ⟨h1, _⟩ | ⟨h1, _, _, h4, _⟩
    · rw [hi l h1]; exact h.closed l h1 hm
    · rw [h1]; exact h4

theorem heapOrd_register {s : Search} (hidx : IdxInv s) (h : HeapOrd s s.openset.length)
    (k : Int) : HeapOrd (register s k) (register s k).openset.length := by
  have ho := openset_register s k
  have he := estimateOf_register_of_known s k
  rw [ho]
  intro x hx hxn
  have e1 : ∀ y, y < s.openset.length → est (Astar.register s k) y = est s y := by
    intro y hy
    unfold est
    rw [ho, List.getD_eq_getElem _ _ hy]
    exact he _ (mem_known_of_idx hidx (List.getElem_mem _))
  rw [e1 x hxn, e1 _ (by omega)]
  exact h x hx hxn

/-- The lookup `register` keeps the invariant `Basic`. -/
theorem basic_register {P : Interface} {start goal : Int} {s : Search}
    (h : Basic P start goal s) (k : Int) : Basic P start goal (register s k) := by
  have ho := openset_register s k
  have hp := predecessor_register s k
  have hc := costOf_register_of_known s k
  have he := estimateOf_register_of_known s k
  have hmem : ∀ l, l ∈ s.openset → IsKnown s.known l := fun l hl => mem_known_of_idx h.idx hl
  refine ⟨idxInv_register h.idx k, heapOrd_register h.idx h.heap k, ?_, ?_, ?_, ?_, ?_, ?_⟩
  · intro l hl
    rcases register_known s k l hl with ⟨h1, _⟩ | ⟨h1, _, h3, _, _⟩
    · rw [hc l h1]; exact h.costLe l h1
    · rw [h1, h3]
  · intro l hl hlt
    rcases register_known s k l hl with ⟨h1, _⟩ | ⟨h1, _, h3, _, _⟩
    · rw [hc l h1] at hlt
      rw [he l h1, hc l h1]
      exact h.fgh l h1 hlt
    · rw [h1, h3] at hlt
      exact absurd hlt (lt_irrefl _)
  · intro l hl heq
    rcases register_known s k l hl with ⟨h1, _⟩ | ⟨h1, _, _, _, h5⟩
    · rw [hc l h1] at heq
      rw [he l h1]
      exact h.unrelaxed l h1 heq
    · rw [h1]; exact h5
  · intro l hl
    rw [ho] at hl
    rw [hc l (hmem l hl)]
    exact h.openLt l hl
  · intro a u hpa
    rw [hp] at hpa
    have := h.predLt a u hpa
    exact ⟨(isKnown_register s k a).2 (Or.inl this.1), by rw [hc a this.1]; exact this.2⟩
  · intro a ha hlt
    rw [hp]
    rcases register_known s k a ha with ⟨h1, _⟩ | ⟨h1, _, h3, _, _⟩
    · rw [hc a h1] at hlt
      exact h.hasPred a h1 hlt
    · rw [h1, h3] at hlt
      exact absurd hlt (lt_irrefl _)

/-- A relaxation that lowers a cost keeps the invariant `Basic`. -/
theorem basic_improved {P : Interface} {start goal : Int} {s t : Search} {k cur c : Int}
    (h : Basic P start goal s) (hk : IsKnown s.known k) (hc : c < costOf s.known k)
    (hi : Improved s t k cur c (c + P.Estimate k goal)) : Basic P start goal t := by
  have hkle := h.costLe k hk
  refine ⟨hi.idx, hi.heap, ?_, ?_, ?_, ?_, ?_, ?_⟩
  · intro l hl
    rw [hi.cost l]
    by_cases hlk : l = k
    · rw [if_pos hlk]; omega
    · rw [if_neg hlk]; exact h.costLe l ((hi.known l).1 hl)
  · intro l hl hlt
    rw [hi.cost l] at hlt ⊢
    rw [hi.est l]
    by_cases hlk : l = k
    · rw [if_pos hlk, if_pos hlk, hlk]
    · rw [if_neg hlk] at hlt ⊢
      rw [if_neg hlk]
      exact h.fgh l ((hi.known l).1 hl) hlt
  · intro l hl heq
    rw [hi.cost l] at heq
    rw [hi.est l]
    by_cases hlk : l = k
    · rw [if_pos hlk] at heq; omega
    · rw [if_neg hlk] at heq ⊢
      exact h.unrelaxed l ((hi.known l).1 hl) heq
  · intro l hl
    rw [hi.cost l]
    by_cases hlk : l = k
    · rw [if_pos hlk]; omega
    · rw [if_neg hlk]
      rcases (hi.mem l).1 hl with h1 | h1
      · exact h.openLt l h1
      · exact absurd h1 hlk
  · intro a u hpa
    rw [hi.pred] at hpa
    rw [hi.cost a]
    by_cases hak : a = k
    · rw [if_pos hak, hak]
      exact ⟨(hi.known k).2 hk, by omega⟩
    · rw [if_neg hak]
      have hpa' : s.predecessor a = some u := by simpa [mapSet, hak] using hpa
      have := h.predLt a u hpa'
      exact ⟨(hi.known a).2 this.1, this.2⟩
  · intro a ha hlt
    rw [hi.pred]
    by_cases hak : a = k
    · right; simp [mapSet, hak]
    · rw [hi.cost a, if_neg hak] at hlt
      rcases h.hasPred a ((hi.known a).1 ha) hlt with h1 | h1
      · left; exact h1
      · right; simpa [mapSet, hak] using h1

theorem relax_eq (P : Interface) (goal cur : Int) (s : Search) (kv : Int × Int) :
    relax P goal cur s kv =
      if kv.2 + costOf (register s kv.1).known cur < costOf (register s kv.1).known kv.1 then
        (if indexOf (relaxArg P goal cur s kv).known kv.1 = -1 then
          heap.Push (relaxArg P goal cur s kv) kv.1
        else heap.Fix (relaxArg P goal cur s kv)
          (indexOf (relaxArg P goal cur s kv).known kv.1).toNat)
      else register s kv.1 := rfl

/-- The state on which `heap.Push` or `heap.Fix` is called is the state of the
lookup with the point of the entry improved. -/
theorem improved_relaxArg {P : Interface} {start goal : Int} {s : Search}
    (h : Basic P start goal s) (cur : Int) (kv : Int × Int)
    (hlt : kv.2 + costOf (register s kv.1).known cur < costOf (register s kv.1).known kv.1) :
    Improved (register s kv.1) (relax P goal cur s kv) kv.1 cur
      (kv.2 + costOf (register s kv.1).known cur)
      (kv.2 + costOf (register s kv.1).known cur + P.Estimate kv.1 goal) := by
  have h1 := basic_register h kv.1
  have hk1 : IsKnown (register s kv.1).known kv.1 := (isKnown_register s kv.1 kv.1).2 (Or.inr rfl)
  have hi := improved_of_improve P goal cur (register s kv.1) kv.1
    (kv.2 + costOf (register s kv.1).known cur) h1.idx h1.heap
    (fun hin => h1.fgh kv.1 hk1 (h1.openLt kv.1 hin)) hk1 hlt
  rw [relax_eq, if_pos hlt]
  exact hi

/-- One round of the `range` loop keeps the invariant `Basic`, whatever the entry. -/
theorem basic_relax {P : Interface} {start goal : Int} {s : Search}
    (h : Basic P start goal s) (cur : Int) (kv : Int × Int) :
    Basic P start goal (relax P goal cur s kv) := by
  have h1 := basic_register h kv.1
  have hk1 : IsKnown (register s kv.1).known kv.1 := (isKnown_register s kv.1 kv.1).2 (Or.inr rfl)
  by_cases hlt : kv.2 + costOf (register s kv.1).known cur < costOf (register s kv.1).known kv.1
  · exact basic_improved h1 hk1 hlt (improved_relaxArg h cur kv hlt)
  · rw [relax_eq, if_neg hlt]
    exact h1

theorem basic_fold {P : Interface} {start goal : Int} (cur : Int) (L : List (Int × Int)) :
    ∀ s : Search, Basic P start goal s → Basic P start goal (L.foldl (relax P goal cur) s) := by
  induction L with
  | nil => intro s h; exact h
  | cons e L ih =>
    intro s h
    rw [List.foldl_cons]
    exact ih _ (basic_relax h cur e)

/-- The state after `heap.Pop` satisfies the invariant `Basic`. -/
theorem basic_pop {P : Interface} {start goal : Int} {s : Search}
    (h : Basic P start goal s) (hpos : 0 < s.openset.length) (t : Search)
    (ho : t.openset = (heap.Pop s).1.openset) (hk : t.known = (heap.Pop s).1.known)
    (hp : t.predecessor = (heap.Pop s).1.predecessor) : Basic P start goal t := by
  have hpop := heapPop_spec s h.idx hpos
  have hord := heapPop_heapOrd s h.idx hpos h.heap
  have hpp := hpop.1
  have hK : ∀ l, IsKnown t.known l ↔ IsKnown s.known l := by
    intro l; rw [hk]; exact hpp.known l
  have hC : ∀ l, costOf t.known l = costOf s.known l := by
    intro l; rw [hk]; exact hpp.cost l
  have hE : ∀ l, estimateOf t.known l = estimateOf s.known l := by
    intro l; rw [hk]; exact hpp.est l
  have hM : ∀ l, l ∈ t.openset → l ∈ s.openset := by
    intro l hl; rw [ho] at hl; exact ((hpp.mem l).1 hl).1
  have hP : t.predecessor = s.predecessor := hp.trans hpp.pred
  have hlen : t.openset.length + 1 = s.openset.length := by rw [ho]; exact hpp.len
  refine ⟨idxInv_congr hpop.2.1 ho hk, ?_, ?_, ?_, ?_, ?_, ?_, ?_⟩
  · have : t.openset.length = s.openset.length - 1 := by omega
    rw [this]
    exact heapOrd_congr hord.1 ho hk
  · intro l hl; rw [hC]; exact h.costLe l ((hK l).1 hl)
  · intro l hl hlt
    rw [hC] at hlt
    rw [hE, hC]
    exact h.fgh l ((hK l).1 hl) hlt
  · intro l hl heq
    rw [hC] at heq
    rw [hE]
    exact h.unrelaxed l ((hK l).1 hl) heq
  · intro l hl; rw [hC]; exact h.openLt l (hM l hl)
  · intro a u hpa
    rw [hP] at hpa
    have := h.predLt a u hpa
    exact ⟨(hK a).2 this.1, by rw [hC]; exact this.2⟩
  · intro a ha hlt
    rw [hP]
    rw [hC] at hlt
    exact h.hasPred a ((hK a).1 ha) hlt

/-- The state in which `Find` enters its loop satisfies the invariant `Basic`. -/
theorem basic_start (P : Interface) (st goal : Int) :
    Basic P st goal (Astar.start P st goal) := by
  have hw := (start_spec P {st} st goal (Finset.mem_singleton_self st)).1
  have hK := start_known P st goal
  have hO : (Astar.start P st goal).openset = [st] := by rw [start_eq]
  have hin : st ∈ (Astar.start P st goal).openset := by rw [hO]; exact List.mem_singleton_self st
  refine ⟨hw.idx, hw.heap, hw.costLe, ?_, ?_, hw.openLt, ?_, hw.hasPred⟩
  · intro l hl _
    rw [(hK l).1 hl]
    exact hw.fgh st hin
  · intro l hl heq
    rw [(hK l).1 hl, hw.startCost] at heq
    have := MaxFloat64_pos
    omega
  · intro k u hpa
    obtain ⟨_, _, h3, h4, _⟩ := hw.predInv k u hpa
    exact ⟨h3, h4⟩

theorem headState_succ (ord : Nat → List (Int × Int) → List (Int × Int)) (P : Interface)
    (start goal : Int) (m : Nat) :
    headState ord P start goal (m + 1) = expand ord P goal (headState ord P start goal m) := by
  unfold headState
  rw [Function.iterate_succ_apply']

theorem expand_eq_midState (ord : Nat → List (Int × Int) → List (Int × Int)) (P : Interface)
    (goal : Int) (s : Search) :
    expand ord P goal s =
      midState ord P goal s (ord s.pops.length (P.Adjacent (heap.Pop s).2).1).length := by
  unfold midState
  rw [List.take_length]
  rfl

theorem runs_pos {ord : Nat → List (Int × Int) → List (Int × Int)} {P : Interface}
    {start goal : Int} {m : Nat} (h : Runs ord P start goal (m + 1)) :
    0 < (headState ord P start goal m).openset.length ∧
      (heap.Pop (headState ord P start goal m)).2 ≠ goal := by
  have := h m (Nat.lt_succ_self m)
  unfold Halts at this
  rw [not_or] at this
  exact ⟨by omega, this.2⟩

theorem runs_of_succ {ord : Nat → List (Int × Int) → List (Int × Int)} {P : Interface}
    {start goal : Int} {m : Nat} (h : Runs ord P start goal (m + 1)) :
    Runs ord P start goal m :=
  fun j hj => h j (Nat.lt_succ_of_lt hj)

/-- Inside an iteration, after the pop and any number of rounds of the `range`
loop, the invariant `Basic` holds. -/
theorem basic_midState {P : Interface} {start goal : Int} {s : Search}
    (ord : Nat → List (Int × Int) → List (Int × Int)) (h : Basic P start goal s)
    (hpos : 0 < s.openset.length) (i : Nat) : Basic P start goal (midState ord P goal s i) :=
  basic_fold _ _ _ (basic_pop h hpos (popState s) rfl rfl rfl)

/-- At the head of every iteration that `Find` reaches, the invariant `Basic` holds. -/
theorem basic_headState (ord : Nat → List (Int × Int) → List (Int × Int)) (P : Interface)
    (start goal : Int) :
    ∀ m, Runs ord P start goal m → Basic P start goal (headState ord P start goal m) := by
  intro m
  induction m with
  | zero => intro _; exact basic_start P start goal
  | succ m ih =>
    intro hr
    rw [headState_succ, expand_eq_midState]
    exact basic_midState ord (ih (runs_of_succ hr)) (runs_pos hr).1 _


/-! ### The heap order, the back-pointers and `f = g + h` in every state of `Find` -/

theorem idxInv_relaxArg {s : Search} (h : IdxInv s) (P : Interface) (goal cur : Int)
    (kv : Int × Int) : IdxInv (relaxArg P goal cur s kv) := by
  have h1 := idxInv_register h kv.1
  have hkn : (relaxArg P goal cur s kv).known =
      setCost (register s kv.1).known kv.1 (kv.2 + costOf (register s kv.1).known cur)
        (kv.2 + costOf (register s kv.1).known cur + P.Estimate kv.1 goal) := rfl
  have ho : (relaxArg P goal cur s kv).openset = (register s kv.1).openset := rfl
  refine ⟨?_, ?_, ?_⟩
  · intro i j l hi hj; rw [ho] at hi hj; exact h1.inj i j l hi hj
  · intro i l hi
    rw [ho] at hi
    rw [hkn, isKnown_setCost, indexOf_setCost]
    exact h1.back i l hi
  · intro l hl hm
    rw [ho] at hm
    rw [hkn, isKnown_setCost] at hl
    rw [hkn, indexOf_setCost]
    exact h1.closed l hl hm

theorem root_le_of_heapOrd {s : Search} (h : HeapOrd s s.openset.length) :
    ∀ a ∈ s.openset, estimateOf s.known (s.openset.getD 0 0) ≤ estimateOf s.known a := by
  intro a ha
  obtain ⟨x, hx⟩ := List.mem_iff_getElem?.1 ha
  have hxl : x < s.openset.length := by
    by_contra hc
    rw [List.getElem?_eq_none (by omega)] at hx
    exact Option.noConfusion hx
  have := heapOrd_root_le h x hxl
  unfold est at this
  rw [getD_of_getElem? hx] at this
  exact this

/-- C14: back-pointer invariant. In every state that `Find` reaches, on any problem
and with any enumeration order — at the head of each iteration, after the
`heap.Pop` of the iteration and after each round of the `range` loop — the point in
slot `i` of the open heap has `index = i`, a known point outside the heap has
`index = -1`, and no point is in two slots. Hence in a round that finds a lower
cost for the key of an entry `kv`, on the state `relaxArg` on which `heap.Push` or
`heap.Fix` is then called: if the `index` is -1 (`heap.Push`) the point is not in
the heap; otherwise (`heap.Fix`) the `index` is a slot of the heap, that slot holds
the point, and the estimate of the point has just been lowered. -/
theorem backpointer_invariant (ord : Nat → List (Int × Int) → List (Int × Int))
    (P : Interface) (start goal : Int) (m : Nat) (s : Search)
    (hs : s = headState ord P start goal m) (hrun : Runs ord P start goal m) :
    IdxInv s ∧
      (0 < s.openset.length →
        IdxInv (heap.Pop s).1 ∧
        ∀ i, IdxInv (midState ord P goal s i) ∧
          ∀ kv : Int × Int,
            kv.2 + costOf (register (midState ord P goal s i) kv.1).known (heap.Pop s).2 <
              costOf (register (midState ord P goal s i) kv.1).known kv.1 →
            (indexOf (relaxArg P goal (heap.Pop s).2 (midState ord P goal s i) kv).known kv.1 = -1 →
              kv.1 ∉ (relaxArg P goal (heap.Pop s).2 (midState ord P goal s i) kv).openset) ∧
            (indexOf (relaxArg P goal (heap.Pop s).2 (midState ord P goal s i) kv).known kv.1 ≠ -1 →
              (indexOf (relaxArg P goal (heap.Pop s).2 (midState ord P goal s i) kv).known
                  kv.1).toNat <
                (relaxArg P goal (heap.Pop s).2 (midState ord P goal s i) kv).openset.length ∧
              (relaxArg P goal (heap.Pop s).2 (midState ord P goal s i) kv).openset[
                (indexOf (relaxArg P goal (heap.Pop s).2 (midState ord P goal s i) kv).known
                  kv.1).toNat]? = some kv.1 ∧
              estimateOf (relaxArg P goal (heap.Pop s).2 (midState ord P goal s i) kv).known kv.1 <
                estimateOf (midState ord P goal s i).known kv.1)) := by
  have hb : Basic P start goal s := by rw [hs]; exact basic_headState ord P start goal m hrun
  refine ⟨hb.idx, fun hpos => ⟨(basic_pop hb hpos (heap.Pop s).1 rfl rfl rfl).idx, fun i => ?_⟩⟩
  have ht := basic_midState ord hb hpos i
  refine ⟨ht.idx, fun kv hlt => ?_⟩
  generalize midState ord P goal s i = t at ht hlt ⊢
  generalize (heap.Pop s).2 = cur at hlt ⊢
  have h1 := basic_register ht kv.1
  have hk1 : IsKnown (register t kv.1).known kv.1 := (isKnown_register t kv.1 kv.1).2 (Or.inr rfl)
  have hidx := idxInv_relaxArg ht.idx P goal cur kv
  have hkn : (relaxArg P goal cur t kv).known =
      setCost (register t kv.1).known kv.1 (kv.2 + costOf (register t kv.1).known cur)
        (kv.2 + costOf (register t kv.1).known cur + P.Estimate kv.1 goal) := rfl
  have ho : (relaxArg P goal cur t kv).openset = t.openset :=
    (show (relaxArg P goal cur t kv).openset = (register t kv.1).openset from rfl).trans
      (openset_register t kv.1)
  have hk2 : IsKnown (relaxArg P goal cur t kv).known kv.1 := by
    rw [hkn, isKnown_setCost]; exact hk1
  constructor
  · intro hneg hm
    obtain ⟨x, hx⟩ := List.mem_iff_getElem?.1 hm
    have := (hidx.back x kv.1 hx).2
    omega
  · intro hne
    have hin : kv.1 ∈ (relaxArg P goal cur t kv).openset := by
      by_contra hm
      exact hne (hidx.closed kv.1 hk2 hm)
    obtain ⟨x, hx⟩ := List.mem_iff_getElem?.1 hin
    have hxl : x < (relaxArg P goal cur t kv).openset.length := by
      by_contra hc
      rw [List.getElem?_eq_none (by omega)] at hx
      exact Option.noConfusion hx
    have hix : (indexOf (relaxArg P goal cur t kv).known kv.1).toNat = x := by
      rw [(hidx.back x kv.1 hx).2]; simp
    rw [hix]
    refine ⟨hxl, hx, ?_⟩
    rw [ho] at hin
    have hkt : IsKnown t.known kv.1 := mem_known_of_idx ht.idx hin
    rw [hkn, estimateOf_setCost_self _ _ _ _ hk1, ht.fgh kv.1 hkt (ht.openLt kv.1 hin)]
    rw [costOf_register_of_known t kv.1 kv.1 hkt] at hlt
    omega

/-- Witness for C14 on the graph `diamond`, from 0 to 3, after two iterations. -/
theorem backpointer_invariant_witness :
    Runs inOrder diamond 0 3 2 ∧ IdxInv (headState inOrder diamond 0 3 2) :=
  ⟨by decide, (backpointer_invariant inOrder diamond 0 3 2 _ rfl (by decide)).1⟩

/-- C15 (amended): in every state that `Find` reaches, on any problem and with any
enumeration order — at the head of an iteration or inside it, after the pop and any
number of rounds of the `range` loop — every point of the registry has either a
cost below `math.MaxFloat64`, and then `estimate = cost + Estimate(label, goal)`
and it is the start or has a predecessor entry (it was relaxed), or the cost
`math.MaxFloat64` it was created with, and then its estimate is 0 and it has no
predecessor entry. Every point of the open set is of the first kind. -/
theorem registry_estimate (ord : Nat → List (Int × Int) → List (Int × Int)) (P : Interface)
    (start goal : Int) (m : Nat) (s t : Search) (hs : s = headState ord P start goal m)
    (hrun : Runs ord P start goal m)
    (ht : t = s ∨ (0 < s.openset.length ∧ ∃ i, t = midState ord P goal s i)) :
    (∀ l : Int, IsKnown t.known l →
      (costOf t.known l < MaxFloat64 ∧
        estimateOf t.known l = costOf t.known l + P.Estimate l goal ∧
        (l = start ∨ (t.predecessor l).isSome = true)) ∨
      (costOf t.known l = MaxFloat64 ∧ estimateOf t.known l = 0 ∧ t.predecessor l = none)) ∧
      ∀ l ∈ t.openset, IsKnown t.known l ∧ costOf t.known l < MaxFloat64 ∧
        estimateOf t.known l = costOf t.known l + P.Estimate l goal := by
  have hb : Basic P start goal s := by rw [hs]; exact basic_headState ord P start goal m hrun
  have hbt : Basic P start goal t := by
    rcases ht with h1 | ⟨hpos, i, h1⟩
    · rw [h1]; exact hb
    · rw [h1]; exact basic_midState ord hb hpos i
  constructor
  · intro l hl
    rcases lt_or_eq_of_le (hbt.costLe l hl) with h1 | h1
    · exact Or.inl ⟨h1, hbt.fgh l hl h1, hbt.hasPred l hl h1⟩
    · refine Or.inr ⟨h1, hbt.unrelaxed l hl h1, ?_⟩
      cases hp : t.predecessor l with
      | none => rfl
      | some u =>
        have := (hbt.predLt l u hp).2
        omega
  · intro l hl
    have hk := mem_known_of_idx hbt.idx hl
    exact ⟨hk, hbt.openLt l hl, hbt.fgh l hk (hbt.openLt l hl)⟩

/-- Witness for C15 (amended) on the graph `wall`, from 0 to 1, after one
iteration: the point 1, created and not relaxed, is of the second kind. -/
theorem registry_estimate_witness :
    Runs inOrder wall 0 1 1 ∧
      ((∀ l : Int, IsKnown (headState inOrder wall 0 1 1).known l →
        (costOf (headState inOrder wall 0 1 1).known l < MaxFloat64 ∧
          estimateOf (headState inOrder wall 0 1 1).known l =
            costOf (headState inOrder wall 0 1 1).known l + wall.Estimate l 1 ∧
          (l = 0 ∨ ((headState inOrder wall 0 1 1).predecessor l).isSome = true)) ∨
        (costOf (headState inOrder wall 0 1 1).known l = MaxFloat64 ∧
          estimateOf (headState inOrder wall 0 1 1).known l = 0 ∧
          (headState inOrder wall 0 1 1).predecessor l = none)) ∧
        ∀ l ∈ (headState inOrder wall 0 1 1).openset,
          IsKnown (headState inOrder wall 0 1 1).known l ∧
          costOf (headState inOrder wall 0 1 1).known l < MaxFloat64 ∧
          estimateOf (headState inOrder wall 0 1 1).known l =
            costOf (headState inOrder wall 0 1 1).known l + wall.Estimate l 1) :=
  ⟨by decide, registry_estimate inOrder wall 0 1 1 _ _ rfl (by decide) (Or.inl rfl)⟩

/-- Counterexample to C15 as stated: on the graph `wall` (one edge `0 → 1` of cost
`math.MaxFloat64`, heuristic 0), from 0 to 1, after the first iteration of `Find`
the registry holds the point 1, created on first sight and not relaxed, with cost
`math.MaxFloat64` and estimate 0, which is not `cost + Estimate(1, goal)`. -/
theorem estimate_unset_on_creation :
    Runs inOrder wall 0 1 1 ∧ IsKnown (headState inOrder wall 0 1 1).known 1 ∧
      costOf (headState inOrder wall 0 1 1).known 1 = MaxFloat64 ∧
      estimateOf (headState inOrder wall 0 1 1).known 1 = 0 ∧
      estimateOf (headState inOrder wall 0 1 1).known 1 ≠
        costOf (headState inOrder wall 0 1 1).known 1 + wall.Estimate 1 1 := by
  decide


/-! ### The predecessor map is acyclic on every graph with non-negative costs -/

theorem tree_register {P : Interface} {start goal : Int} {s : Search}
    (hb : Basic P start goal s) (h : Tree start s) (k : Int) : Tree start (register s k) := by
  have hc := costOf_register_of_known s k
  refine ⟨(isKnown_register s k start).2 (Or.inl h.startKnown), ?_, ?_, ?_, ?_⟩
  · rw [hc _ h.startKnown]; exact h.startCost
  · intro l hl
    rcases register_known s k l hl with ⟨h1, _⟩ | ⟨h1, _, h3, _, _⟩
    · rw [hc l h1]; exact h.costNonneg l h1
    · rw [h1, h3]; exact le_of_lt MaxFloat64_pos
  · intro a u hp
    rw [predecessor_register] at hp
    obtain ⟨h1, h2, h3⟩ := h.predMono a u hp
    have ha := (hb.predLt a u hp).1
    exact ⟨h1, (isKnown_register s k u).2 (Or.inl h2), by rw [hc u h2, hc a ha]; exact h3⟩
  · rw [predecessor_register]; exact h.acyclic

theorem tree_improved {start : Int} {s t : Search} {k cur v e : Int} (h : Tree start s)
    (hv : 0 ≤ v) (hcur : IsKnown s.known cur)
    (hlt : v + costOf s.known cur < costOf s.known k)
    (hi : Improved s t k cur (v + costOf s.known cur) e) : Tree start t := by
  have hcn := h.costNonneg cur hcur
  have hcurk : cur ≠ k := by
    intro e; rw [e] at hlt; omega
  have hks : k ≠ start := by
    intro e
    rw [e, h.startCost] at hlt
    omega
  have hcle : ∀ l, costOf t.known l ≤ costOf s.known l := by
    intro l
    rw [hi.cost l]
    by_cases hl : l = k
    · rw [if_pos hl, hl]; omega
    · rw [if_neg hl]
  refine ⟨(hi.known start).2 h.startKnown, ?_, ?_, ?_, ?_⟩
  · rw [hi.cost start, if_neg (Ne.symm hks)]; exact h.startCost
  · intro l hl
    rw [hi.cost l]
    by_cases hlk : l = k
    · rw [if_pos hlk]; omega
    · rw [if_neg hlk]; exact h.costNonneg l ((hi.known l).1 hl)
  · intro a u hp
    rw [hi.pred] at hp
    by_cases hak : a = k
    · have hu : u = cur := by
        simp only [mapSet, hak, if_true] at hp
        exact (Option.some.inj hp).symm
      rw [hak, hu]
      refine ⟨hks, (hi.known cur).2 hcur, ?_⟩
      rw [hi.cost k, if_pos rfl, hi.cost cur, if_neg hcurk]
      omega
    · have hp' : s.predecessor a = some u := by simpa [mapSet, hak] using hp
      obtain ⟨h1, h2, h3⟩ := h.predMono a u hp'
      refine ⟨h1, (hi.known u).2 h2, ?_⟩
      have := hcle u
      rw [hi.cost a, if_neg hak]
      omega
  · rw [hi.pred]
    exact acc_mapSet s.predecessor (costOf s.known) k cur
      (fun x u hp => (h.predMono x u hp).2.2) (by omega) h.acyclic

/-- One round of the `range` loop over an entry of non-negative cost keeps the
invariant `Tree`. -/
theorem tree_relax {P : Interface} {start goal : Int} {s : Search}
    (hb : Basic P start goal s) (h : Tree start s) (cur : Int) (hcur : IsKnown s.known cur)
    (kv : Int × Int) (hv : 0 ≤ kv.2) :
    Tree start (relax P goal cur s kv) ∧ IsKnown (relax P goal cur s kv).known cur := by
  have h1 := tree_register hb h kv.1
  have hcur1 : IsKnown (register s kv.1).known cur := (isKnown_register s kv.1 cur).2 (Or.inl hcur)
  by_cases hlt : kv.2 + costOf (register s kv.1).known cur < costOf (register s kv.1).known kv.1
  · have hi := improved_relaxArg hb cur kv hlt
    exact ⟨tree_improved h1 hv hcur1 hlt hi, (hi.known cur).2 hcur1⟩
  · rw [relax_eq, if_neg hlt]
    exact ⟨h1, hcur1⟩

theorem tree_fold {P : Interface} {start goal : Int} (cur : Int) (L : List (Int × Int))
    (hL : ∀ kv ∈ L, 0 ≤ kv.2) :
    ∀ s : Search, Basic P start goal s → Tree start s → IsKnown s.known cur →
      Tree start (L.foldl (relax P goal cur) s) := by
  induction L with
  | nil => intro s _ h _; exact h
  | cons e L ih =>
    intro s hb h hcur
    rw [List.foldl_cons]
    have := tree_relax hb h cur hcur e (hL e (List.mem_cons_self e L))
    exact ih (fun kv hkv => hL kv (List.mem_cons_of_mem e hkv)) _ (basic_relax hb cur e)
      this.1 this.2

theorem tree_pop {P : Interface} {start goal : Int} {s : Search} (hb : Basic P start goal s)
    (h : Tree start s) (hpos : 0 < s.openset.length) (t : Search)
    (hk : t.known = (heap.Pop s).1.known) (hp : t.predecessor = (heap.Pop s).1.predecessor) :
    Tree start t ∧ IsKnown t.known (heap.Pop s).2 := by
  have hpp := (heapPop_spec s hb.idx hpos).1
  have hK : ∀ l, IsKnown t.known l ↔ IsKnown s.known l := by
    intro l; rw [hk]; exact hpp.known l
  have hC : ∀ l, costOf t.known l = costOf s.known l := by
    intro l; rw [hk]; exact hpp.cost l
  have hP : t.predecessor = s.predecessor := hp.trans hpp.pred
  refine ⟨⟨(hK start).2 h.startKnown, by rw [hC]; exact h.startCost, ?_, ?_, ?_⟩,
    (hK _).2 (mem_known_of_idx hb.idx hpp.was)⟩
  · intro l hl; rw [hC]; exact h.costNonneg l ((hK l).1 hl)
  · intro a u hpa
    rw [hP] at hpa
    obtain ⟨h1, h2, h3⟩ := h.predMono a u hpa
    exact ⟨h1, (hK u).2 h2, by rw [hC, hC]; exact h3⟩
  · rw [hP]; exact h.acyclic

theorem tree_start (P : Interface) (st goal : Int) : Tree st (Astar.start P st goal) := by
  have hw := (start_spec P {st} st goal (Finset.mem_singleton_self st)).1
  refine ⟨hw.startKnown, hw.startCost, hw.costNonneg, ?_, hw.acyclic⟩
  intro k u hp
  rw [start_eq] at hp
  exact Option.noConfusion hp

/-- Inside an iteration, after the pop and any number of rounds of the `range`
loop, the invariant `Tree` holds. -/
theorem tree_midState {P : Interface} {start goal : Int} {s : Search}
    {ord : Nat → List (Int × Int) → List (Int × Int)} (hnn : AllNonNegative P)
    (hord : Enumeration ord) (hb : Basic P start goal s) (h : Tree start s)
    (hpos : 0 < s.openset.length) (i : Nat) : Tree start (midState ord P goal s i) := by
  have hp := tree_pop hb h hpos (popState s) rfl rfl
  refine tree_fold (heap.Pop s).2 _ ?_ (popState s) (basic_pop hb hpos (popState s) rfl rfl rfl)
    hp.1 hp.2
  intro kv hkv
  exact hnn (heap.Pop s).2 kv ((hord _ _).mem_iff.1 (List.mem_of_mem_take hkv))

/-- At the head of every iteration that `Find` reaches, the invariant `Tree` holds. -/
theorem tree_headState {P : Interface} {ord : Nat → List (Int × Int) → List (Int × Int)}
    (hnn : AllNonNegative P) (hord : Enumeration ord) (start goal : Int) :
    ∀ m, Runs ord P start goal m → Tree start (headState ord P start goal m) := by
  intro m
  induction m with
  | zero => intro _; exact tree_start P start goal
  | succ m ih =>
    intro hr
    rw [headState_succ, expand_eq_midState]
    exact tree_midState hnn hord (basic_headState ord P start goal m (runs_of_succ hr))
      (ih (runs_of_succ hr)) (runs_pos hr).1 _

theorem follow_succ (pred : Int → Option Int) (n : Nat) :
    ∀ k, follow pred (n + 1) k = (follow pred n k).bind pred := by
  induction n with
  | zero =>
    intro k
    simp [follow]
  | succ n ih =>
    intro k
    show (pred k).bind (follow pred (n + 1)) = ((pred k).bind (follow pred n)).bind pred
    cases hp : pred k with
    | none => rfl
    | some a => exact ih a

/-- Following the entries of an acyclic map from a label never comes back to it. -/
theorem follow_ne_of_acc (pred : Int → Option Int) (k : Int)
    (hacc : Acc (fun a b => pred b = some a) k) :
    ∀ n, 0 < n → follow pred n k ≠ some k := by
  induction hacc with
  | intro k _ ih =>
    intro n hn hf
    obtain ⟨n', rfl⟩ : ∃ n', n = n' + 1 := ⟨n - 1, by omega⟩
    have hf' : (pred k).bind (follow pred n') = some k := hf
    cases hp : pred k with
    | none => rw [hp] at hf'; exact Option.noConfusion hf'
    | some a =>
      rw [hp] at hf'
      have hfa : follow pred n' a = some k := hf'
      apply ih a hp (n' + 1) (Nat.succ_pos n')
      rw [follow_succ, hfa]
      exact hp

theorem diamond_allNonNegative : AllNonNegative diamond := by
  intro a e he
  unfold diamond at he
  simp only at he
  split_ifs at he <;> simp at he
  · rcases he with rfl | rfl <;> decide
  · rw [he]; decide
  · rw [he]; decide

/-- C16: for every problem whose edge costs are non-negative (finite or not) and
every heuristic, with any enumeration order, in every state that `Find` reaches — at
the head of an iteration or inside it — the start label has no predecessor entry,
following one or more predecessor entries from any label never comes back to that
label (the map is acyclic), and so the reconstruction loop of `route` returns from
any label. -/
theorem predecessor_acyclic {P : Interface}
    {ord : Nat → List (Int × Int) → List (Int × Int)} (hnn : AllNonNegative P)
    (hord : Enumeration ord) (start goal : Int) (m : Nat) (s t : Search)
    (hs : s = headState ord P start goal m) (hrun : Runs ord P start goal m)
    (ht : t = s ∨ (0 < s.openset.length ∧ ∃ i, t = midState ord P goal s i)) :
    t.predecessor start = none ∧
      (∀ k n, 0 < n → follow t.predecessor n k ≠ some k) ∧
      (∀ k, Acc (fun a b => t.predecessor b = some a) k) ∧
      ∀ x, ∃ (N : Nat) (r : List Int), ∀ fuel, N ≤ fuel → route fuel x t.predecessor = some r := by
  have hb : Basic P start goal s := by rw [hs]; exact basic_headState ord P start goal m hrun
  have htr : Tree start s := by rw [hs]; exact tree_headState hnn hord start goal m hrun
  have htt : Tree start t := by
    rcases ht with h1 | ⟨hpos, i, h1⟩
    · rw [h1]; exact htr
    · rw [h1]; exact tree_midState hnn hord hb htr hpos i
  refine ⟨?_, fun k n hn => follow_ne_of_acc _ k (htt.acyclic k) n hn, htt.acyclic, ?_⟩
  · cases hp : t.predecessor start with
    | none => rfl
    | some u => exact absurd rfl (htt.predMono start u hp).1
  · intro x
    obtain ⟨N, r, h1, _⟩ := route_spec t.predecessor x (htt.acyclic x)
    exact ⟨N, r, h1⟩

/-- Witness for C16 on the graph `diamond`, from 0 to 3, after two iterations. -/
theorem predecessor_acyclic_witness :
    AllNonNegative diamond ∧ Enumeration inOrder ∧ Runs inOrder diamond 0 3 2 ∧
      (headState inOrder diamond 0 3 2).predecessor 0 = none ∧
      (∀ k n, 0 < n → follow (headState inOrder diamond 0 3 2).predecessor n k ≠ some k) ∧
      (∀ k, Acc (fun a b => (headState inOrder diamond 0 3 2).predecessor b = some a) k) ∧
      ∀ x, ∃ (N : Nat) (r : List Int), ∀ fuel, N ≤ fuel →
        route fuel x (headState inOrder diamond 0 3 2).predecessor = some r :=
  ⟨diamond_allNonNegative, inOrder_enumeration, by decide,
    predecessor_acyclic diamond_allNonNegative inOrder_enumeration 0 3 2 _ _ rfl (by decide)
      (Or.inl rfl)⟩


/-! ### Route reconstruction -/

theorem chain_follow (pred : Int → Option Int) (c : List Int) :
    ∀ x, List.Chain' (fun b a => pred b = some a) (x :: c) →
      ∀ i, i < (x :: c).length → (x :: c)[i]? = follow pred i x := by
  induction c with
  | nil =>
    intro x _ i hi
    have : i = 0 := by simpa using hi
    rw [this]; rfl
  | cons y c ih =>
    intro x h i hi
    rw [List.chain'_cons] at h
    cases i with
    | zero => rfl
    | succ i =>
      have e1 : (x :: y :: c)[i + 1]? = (y :: c)[i]? := List.getElem?_cons_succ
      have e2 : follow pred (i + 1) x = (pred x).bind (follow pred i) := rfl
      rw [e1, e2, h.1]
      exact ih y h.2 i (by simpa using hi)

/-- C17: for every goal label and every predecessor map whose chain from the goal
is finite, `route(goal, predecessor)` returns (with enough fuel for its loop) a
non-empty sequence whose last element is the goal, whose first element has no
entry in the map, in which every element is the predecessor entry of the one that
follows it, and which read backwards is the chain `goal, predecessor[goal],
predecessor[predecessor[goal]], ...`; with an empty predecessor map it returns
`[goal]`. -/
theorem route_reconstruction (pred : Int → Option Int) (goal : Int)
    (hacc : Acc (fun a b => pred b = some a) goal) :
    (∃ (r : List Int) (N : Nat),
      (∀ fuel, N ≤ fuel → route fuel goal pred = some r) ∧ r ≠ [] ∧
      r.getLast? = some goal ∧ (∃ z, r.head? = some z ∧ pred z = none) ∧
      (∀ (i : Nat) (a b : Int), r[i]? = some a → r[i + 1]? = some b → pred b = some a) ∧
      ∀ i, i < r.length → r.reverse[i]? = follow pred i goal) ∧
    ∀ fuel, route fuel goal (fun _ => none) = some [goal] := by
  constructor
  · obtain ⟨N, r, h1, h2, h3, h4, z, h5, h6⟩ := route_spec pred goal hacc
    refine ⟨r, N, h1, h2, h3, ⟨z, h5, h6⟩, chain_getElem r h4, ?_⟩
    have hrev : List.Chain' (fun b a => pred b = some a) r.reverse := by
      rw [List.chain'_reverse]
      exact h4
    have hhead : r.reverse.head? = some goal := by rw [List.head?_reverse]; exact h3
    cases hr : r.reverse with
    | nil => rw [hr] at hhead; exact Option.noConfusion hhead
    | cons x c =>
      rw [hr] at hrev hhead
      have hx : x = goal := by simpa using hhead
      rw [hx] at hrev ⊢
      intro i hi
      have hl : r.length = (goal :: c).length := by rw [← hx, ← hr, List.length_reverse]
      exact chain_follow pred c goal hrev i (by rw [← hl]; exact hi)
  · intro fuel
    cases fuel <;> rfl

/-- Witness for C17 on the predecessor map that `Find` has built on the graph
`diamond` after three iterations from 0 towards 3: the route of 3 is `[0, 1, 2, 3]`. -/
theorem route_reconstruction_witness :
    Acc (fun a b => (headState inOrder diamond 0 3 3).predecessor b = some a) 3 ∧
    (∃ (r : List Int) (N : Nat),
      (∀ fuel, N ≤ fuel → route fuel 3 (headState inOrder diamond 0 3 3).predecessor = some r) ∧
      r ≠ [] ∧ r.getLast? = some 3 ∧
      (∃ z, r.head? = some z ∧ (headState inOrder diamond 0 3 3).predecessor z = none) ∧
      (∀ (i : Nat) (a b : Int), r[i]? = some a → r[i + 1]? = some b →
        (headState inOrder diamond 0 3 3).predecessor b = some a) ∧
      ∀ i, i < r.length →
        r.reverse[i]? = follow (headState inOrder diamond 0 3 3).predecessor i 3) ∧
    (∀ fuel, route fuel 3 (fun _ => none) = some [3]) ∧
    route 3 3 (headState inOrder diamond 0 3 3).predecessor = some [0, 1, 2, 3] :=
  ⟨(tree_headState diamond_allNonNegative inOrder_enumeration 0 3 3 (by decide)).acyclic 3,
    (route_reconstruction (headState inOrder diamond 0 3 3).predecessor 3
      ((tree_headState diamond_allNonNegative inOrder_enumeration 0 3 3 (by decide)).acyclic 3)).1,
    (route_reconstruction (headState inOrder diamond 0 3 3).predecessor 3
      ((tree_headState diamond_allNonNegative inOrder_enumeration 0 3 3 (by decide)).acyclic 3)).2,
    by decide⟩

/-! ### Re-expansion -/

/-- C18: there is no closed set. On the graph `reopen` (finite, non-negative edge
costs, a heuristic that is not consistent), from 0 to 3, `Find` pops the label 2
twice: after two iterations 2 has been popped with the cost 4 and is out of the open
set; the third iteration pops 1, finds the strictly lower cost 2 for the label 2 and
pushes it again; the fourth iteration pops 2 a second time. `Find` then returns
`[0, 1, 2, 3]`. -/
theorem Find_pops_twice :
    FiniteGraph reopen {0, 1, 2, 3} ∧ NonNegative reopen {0, 1, 2, 3} ∧
      Enumeration inOrder ∧ Runs inOrder reopen 0 3 4 ∧
      (headState inOrder reopen 0 3 2).pops = [0, 2] ∧
      2 ∉ (headState inOrder reopen 0 3 2).openset ∧
      costOf (headState inOrder reopen 0 3 2).known 2 = 4 ∧
      (heap.Pop (headState inOrder reopen 0 3 2)).2 = 1 ∧
      2 ∈ (headState inOrder reopen 0 3 3).openset ∧
      costOf (headState inOrder reopen 0 3 3).known 2 = 2 ∧
      (headState inOrder reopen 0 3 4).pops = [0, 2, 1, 2] ∧
      (headState inOrder reopen 0 3 4).pops.count 2 = 2 ∧
      ∀ fuel, 5 ≤ fuel → Find inOrder fuel reopen 0 3 = some [0, 1, 2, 3] := by
  refine ⟨by decide, by decide, inOrder_enumeration, by decide, by decide, by decide, by decide,
    by decide, by decide, by decide, by decide, by decide, ?_⟩
  intro fuel hf
  exact Find_mono inOrder reopen 0 3 5 fuel _ hf (by decide)

/-! ### With exact arithmetic, optimality needs admissibility only -/

/-- With an admissible heuristic that is non-negative at the goal, every route
that `Find` returns is a path of least summed edge cost. -/
theorem optimal_of_admissible {P : Interface} {V : Finset Int} {start goal : Int}
    {ord : Nat → List (Int × Int) → List (Int × Int)} (hord : Enumeration ord)
    (hfg : FiniteGraph P V) (hnn : NonNegative P V) (huk : UniqueKeys P V)
    (hadm : Admissible P V goal) (hg : 0 ≤ P.Estimate goal goal) (hst : start ∈ V)
    (fuel : Nat) (r : List Int) (hF : Find ord fuel P start goal = some r) (hr : r ≠ []) :
    PathFromTo P start goal r ∧
      ∀ q, PathFromTo P start goal q → pathCost P r ≤ pathCost P q := by
  obtain ⟨m, r0, N, hw, hs, _, _, _, hF0, hres⟩ := @Find_spec P V start goal ord hord hfg hnn hst
  have hrr : r = r0 := Find_unique ord P start goal fuel N r r0 hF (hF0 N (le_refl N))
  generalize (expand ord P goal)^[m] (Astar.start P start goal) = f at hw hs hres
  have hsc := hw.startCost
  rcases hres with ⟨_, h0⟩ | ⟨hgo, hmin, _, hh, hl, hch⟩
  · rw [hrr] at hr; exact absurd h0 hr
  · rw [hrr]
    refine ⟨⟨chain_isPath hw r0 hch, hh, hl⟩, ?_⟩
    intro q hq
    have hcost := chain_cost hw huk r0 start goal hh hl hch
    have hgl := hw.openLt goal hgo
    rcases path_frontier hfg hnn hw hs q start hq hw.startKnown with h1 | ⟨w, hw', q', hq', h1⟩
    · omega
    · have h2 := hmin w hw'
      rw [hw.fgh goal hgo, hw.fgh w hw'] at h2
      have h3 := hadm w (hw.knownIn w (mem_known_of_idx hw.idx hw')) q' hq'
      omega

theorem reopen_admissible : Admissible reopen {0, 1, 2, 3} 3 := by
  have hfg : FiniteGraph reopen {0, 1, 2, 3} := by decide
  have hnn : NonNegative reopen {0, 1, 2, 3} := by decide
  intro u hu p hp
  by_cases h1 : u = 1
  · subst h1
    have e : reopen.Estimate 1 3 = 10 := rfl
    rw [e]
    cases p with
    | nil => have := hp.2.1; simp at this
    | cons a p1 =>
      have ha : a = 1 := by simpa using hp.2.1
      subst ha
      cases p1 with
      | nil => have := hp.2.2; simp at this
      | cons b p2 =>
        obtain ⟨he, ht⟩ := path_tail hp
        have hb : b = 2 := by
          have : b ∈ ([2] : List Int) := he
          simpa using this
        subst hb
        cases p2 with
        | nil => have := ht.2.2; simp at this
        | cons c p3 =>
          obtain ⟨he2, ht2⟩ := path_tail ht
          have hc : c = 3 := by
            have : c ∈ ([3] : List Int) := he2
            simpa using this
          subst hc
          have hrest := pathCost_nonneg hfg hnn _ 3 3 (by decide) ht2
          have e1 : pathCost reopen (1 :: 2 :: 3 :: p3) = 1 + (10 + pathCost reopen (3 :: p3)) := rfl
          rw [e1]
          omega
  · have e : reopen.Estimate u 3 = 0 := by
      show (if u = 1 then (10 : Int) else 0) = 0
      rw [if_neg h1]
    rw [e]
    exact pathCost_nonneg hfg hnn p u 3 hu hp

/-- With exact arithmetic, inconsistency alone never costs optimality: there is no
finite graph with non-negative edge costs and heuristic that is non-negative, zero at
the goal, admissible and not consistent, with a start and a reachable goal, for which
`Find` with exact arithmetic returns a route whose summed edge cost is greater than
that of some path from the start to the goal. -/
theorem no_suboptimal_route_when_admissible :
    ¬ ∃ (P : Interface) (V : Finset Int) (ord : Nat → List (Int × Int) → List (Int × Int))
        (start goal : Int) (fuel : Nat) (r q : List Int),
      FiniteGraph P V ∧ NonNegative P V ∧ UniqueKeys P V ∧ Enumeration ord ∧ start ∈ V ∧
        (∀ u ∈ V, 0 ≤ P.Estimate u goal) ∧ P.Estimate goal goal = 0 ∧
        Admissible P V goal ∧ ¬ Consistent P V goal ∧
        Find ord fuel P start goal = some r ∧ r ≠ [] ∧
        PathFromTo P start goal q ∧ pathCost P q < pathCost P r := by
  rintro ⟨P, V, ord, start, goal, fuel, r, q, hfg, hnn, huk, hord, hst, _, h0, hadm, _, hF, hr,
    hq, hlt⟩
  have := (optimal_of_admissible hord hfg hnn huk hadm (le_of_eq h0.symm) hst fuel r hF hr).2 q hq
  omega


/-! ### The scenario of `TestGraphRoute` -/

/-- On the undirected graph with the edges 0-1, 1-2, 2-3, 1-4 and 4-3, all of cost 1,
and `Estimate` constantly 1, `Find(g, 0, 3)` returns `[0, 1, 2, 3]` or `[0, 1, 4, 3]`,
depending on the order in which the neighbour maps are enumerated: the first when
every map is enumerated in the order in which `graph.edge` inserted its entries, the
second when every map is enumerated in the reverse order. -/
theorem Find_network (ord : Nat → List (Int × Int) → List (Int × Int))
    (hord : Enumeration ord) (fuel : Nat) (hf : 5 ≤ fuel) :
    (Find ord fuel network.problem 0 3 = some [0, 1, 2, 3] ∨
      Find ord fuel network.problem 0 3 = some [0, 1, 4, 3]) ∧
    Find inOrder fuel network.problem 0 3 = some [0, 1, 2, 3] ∧
    Find reversed fuel network.problem 0 3 = some [0, 1, 4, 3] := by
  have h0 := @Find_mem_outcomes network.problem 0 3 vertices ord hord (by decide) (by decide)
    (by decide) (by decide) 5
  have e0 : outcomes network.problem 3 vertices 5 5 (initSummary 0) =
      [some [0, 1, 2, 3], some [0, 1, 4, 3]] := by decide
  rw [e0] at h0
  simp only [List.mem_cons, List.mem_singleton, List.not_mem_nil, or_false] at h0
  refine ⟨?_, ?_, ?_⟩
  · rcases h0 with h | h
    · exact Or.inl (Find_mono ord _ 0 3 5 fuel _ hf h)
    · exact Or.inr (Find_mono ord _ 0 3 5 fuel _ hf h)
  · exact Find_mono inOrder _ 0 3 5 fuel _ hf (by decide)
  · exact Find_mono reversed _ 0 3 5 fuel _ hf (by decide)

set_option maxRecDepth 100000 in
/-- C11, the code on a failing enumeration order.  On the graph of `TestGraphRoute`,
when every neighbour map is enumerated in the reverse of the order in which
`graph.edge` inserted its entries, after the vertices 0 and 1 are popped the vertices
4 and 2 are in the heap with the same estimate 3, the vertex 4 at the root; it is
popped next, sets `predecessor[3] = 4`, and `Find(g, 0, 3)` returns `[0, 1, 4, 3]`,
not the route `[0, 1, 2, 3]` that the test asserts, with exact and with `float64`
arithmetic.  With every map enumerated in insertion order the result is
`[0, 1, 2, 3]`. -/
theorem Find_network_order_dependent :
    Enumeration reversed ∧
      network.adjacency = [(0, [(1, 1)]), (1, [(0, 1), (2, 1), (4, 1)]),
        (2, [(1, 1), (3, 1)]), (3, [(2, 1), (4, 1)]), (4, [(1, 1), (3, 1)])] ∧
      (headState reversed network.problem 0 3 2).pops = [0, 1] ∧
      (headState reversed network.problem 0 3 2).openset = [4, 2] ∧
      (headState reversed network.problem 0 3 2).openset.map
        (estimateOf (headState reversed network.problem 0 3 2).known) = [3, 3] ∧
      (headState reversed network.problem 0 3 3).pops = [0, 1, 4] ∧
      Find reversed 100 network.problem 0 3 = some [0, 1, 4, 3] ∧
      Find64 reversed 100 network.problem 0 3 = some [0, 1, 4, 3] ∧
      Find inOrder 100 network.problem 0 3 = some [0, 1, 2, 3] := by
  refine ⟨reversed_enumeration, by decide, by decide, by decide, by decide, by decide,
    by decide, by decide, by decide⟩

/-- C12: on the graph of C11 with the edge 1-2 of cost 5, and on the graph of C11
with the edge 2-3 of cost 5, the other edges of cost 1, `Find(g, 0, 3)` returns
`[0, 1, 4, 3]` whatever the order in which each neighbour map is enumerated. On the
second graph, with every map enumerated in insertion order, the label 3 is first
reached through 2 at the cost 7 (after three iterations it is in the open set with
predecessor 2), and the fourth iteration, which pops 4, lowers its cost to 3 in
place: the predecessor entry becomes 4 and the point stays in the heap. -/
theorem Find_network_costly (ord : Nat → List (Int × Int) → List (Int × Int))
    (hord : Enumeration ord) (fuel : Nat) (hf : 5 ≤ fuel) :
    Find ord fuel networkBranch.problem 0 3 = some [0, 1, 4, 3] ∧
    Find ord fuel networkGoal.problem 0 3 = some [0, 1, 4, 3] ∧
    (Runs inOrder networkGoal.problem 0 3 4 ∧
      (headState inOrder networkGoal.problem 0 3 3).pops = [0, 1, 2] ∧
      (headState inOrder networkGoal.problem 0 3 3).openset = [4, 3] ∧
      (headState inOrder networkGoal.problem 0 3 3).predecessor 3 = some 2 ∧
      costOf (headState inOrder networkGoal.problem 0 3 3).known 3 = 7 ∧
      (heap.Pop (headState inOrder networkGoal.problem 0 3 3)).2 = 4 ∧
      indexOf (midState inOrder networkGoal.problem 3
        (headState inOrder networkGoal.problem 0 3 3) 1).known 3 = 0 ∧
      (headState inOrder networkGoal.problem 0 3 4).openset = [3] ∧
      (headState inOrder networkGoal.problem 0 3 4).predecessor 3 = some 4 ∧
      costOf (headState inOrder networkGoal.problem 0 3 4).known 3 = 3 ∧
      Find inOrder fuel networkGoal.problem 0 3 = some [0, 1, 4, 3]) := by
  have h0 := @Find_mem_outcomes networkBranch.problem 0 3 vertices ord hord (by decide)
    (by decide) (by decide) (by decide) 5
  have h1 := @Find_mem_outcomes networkGoal.problem 0 3 vertices ord hord (by decide)
    (by decide) (by decide) (by decide) 5
  have e0 : outcomes networkBranch.problem 3 vertices 5 5 (initSummary 0) =
      [some [0, 1, 4, 3]] := by decide
  have e1 : outcomes networkGoal.problem 3 vertices 5 5 (initSummary 0) =
      [some [0, 1, 4, 3], some [0, 1, 4, 3]] := by decide
  rw [e0] at h0
  rw [e1] at h1
  simp only [List.mem_cons, List.mem_singleton, List.not_mem_nil, or_false, or_self] at h0 h1
  refine ⟨Find_mono ord _ 0 3 5 fuel _ hf h0, Find_mono ord _ 0 3 5 fuel _ hf h1,
    by decide, by decide, by decide, by decide, by decide, by decide, by decide, by decide,
    by decide, by decide, Find_mono inOrder _ 0 3 5 fuel _ hf (by decide)⟩

/-- Witness for C12 with the entries of every map enumerated in reverse order. -/
theorem Find_network_costly_witness :
    Enumeration reversed ∧ 5 ≤ 5 ∧
    Find reversed 5 networkBranch.problem 0 3 = some [0, 1, 4, 3] ∧
    Find reversed 5 networkGoal.problem 0 3 = some [0, 1, 4, 3] :=
  ⟨reversed_enumeration, le_refl 5,
    (Find_network_costly reversed reversed_enumeration 5 (le_refl 5)).1,
    (Find_network_costly reversed reversed_enumeration 5 (le_refl 5)).2.1⟩


/-! ### The adjacency of the demo grid -/

theorem mem_keys_mapPut (m : List (Int × Int)) (k v x : Int) :
    x ∈ (mapPut m k v).map Prod.fst ↔ (x ∈ m.map Prod.fst ∨ x = k) := by
  unfold mapPut
  split
  · rename_i h
    have hk : k ∈ m.map Prod.fst := by
      cases hl : m.lookup k with
      | none => rw [hl] at h; simp at h
      | some c => exact List.mem_map.2 ⟨(k, c), lookup_mem m k c hl, rfl⟩
    have hmap : (m.map fun e => if e.1 = k then (k, v) else e).map Prod.fst = m.map Prod.fst := by
      rw [List.map_map]
      apply List.map_congr_left
      intro e _
      by_cases he : e.1 = k
      · simp [he]
      · simp [he]
    rw [hmap]
    constructor
    · exact Or.inl
    · rintro (h1 | h1)
      · exact h1
      · rw [h1]; exact hk
  · simp [List.map_append]

theorem foldl_invariant {α β : Type} (Q : α → Prop) (f : α → β → α)
    (hf : ∀ a b, Q a → Q (f a b)) : ∀ (L : List β) (a : α), Q a → Q (L.foldl f a) := by
  intro L
  induction L with
  | nil => intro a h; exact h
  | cons b L ih => intro a h; exact ih _ (hf a b h)

theorem cell_mono (s : demo.Search) (rx x : Int) (adj : List (Int × Int)) (cx : Int)
    (h : x ∈ adj.map Prod.fst) : x ∈ (s.cell rx adj cx).map Prod.fst := by
  unfold demo.Search.cell
  split
  · exact h
  · split
    · exact h
    · exact (mem_keys_mapPut _ _ _ _).2 (Or.inl h)

theorem row_mono (s : demo.Search) (c x : Int) (adj : List (Int × Int)) (rx : Int)
    (h : x ∈ adj.map Prod.fst) : x ∈ (s.row c adj rx).map Prod.fst := by
  unfold demo.Search.row
  split
  · exact h
  · exact foldl_invariant (fun a => x ∈ a.map Prod.fst) _ (fun a b => cell_mono s rx x a b) _ _ h

theorem cell_no_origin (s : demo.Search) (hs : 1 ≤ s.display.side) (rx : Int) (hrx : 0 ≤ rx)
    (adj : List (Int × Int)) (cx : Int) (h : (0 : Int) ∉ adj.map Prod.fst) :
    (0 : Int) ∉ (s.cell rx adj cx).map Prod.fst := by
  unfold demo.Search.cell
  split
  · exact h
  · rename_i hcx
    split
    · exact h
    · rename_i hne
      rw [mem_keys_mapPut]
      rintro (h1 | h1)
      · exact h h1
      · unfold demo.Display.columnRowToIndex at h1
        have hcx0 : 0 ≤ cx := by omega
        have hprod : 0 ≤ rx * s.display.side := Int.mul_nonneg hrx (by omega)
        have hc0 : cx = 0 := by omega
        have hp0 : rx * s.display.side = 0 := by omega
        have hr0 : rx = 0 := by
          rcases Int.mul_eq_zero.1 hp0 with e | e
          · exact e
          · omega
        exact hne ⟨hr0, hc0⟩

theorem row_no_origin (s : demo.Search) (hs : 1 ≤ s.display.side) (c : Int)
    (adj : List (Int × Int)) (rx : Int) (h : (0 : Int) ∉ adj.map Prod.fst) :
    (0 : Int) ∉ (s.row c adj rx).map Prod.fst := by
  unfold demo.Search.row
  split
  · exact h
  · rename_i hrx
    exact foldl_invariant (fun a => (0 : Int) ∉ a.map Prod.fst) _
      (fun a b => cell_no_origin s hs rx (by omega) a b) _ _ h

/-- On every demo grid, the map that `Search.adjacent(i)` returns for a cell `i`
other than the cell 0 has `i` itself among its keys, and never has the key 0. -/
theorem adjacent_self_mem (side i : Int) (hs : 1 ≤ side) (hi : 0 < i) (hlt : i < side * side) :
    i ∈ (demo.Search.adjacent ⟨⟨side⟩⟩ i).map Prod.fst ∧
      (0 : Int) ∉ (demo.Search.adjacent ⟨⟨side⟩⟩ i).map Prod.fst := by
  constructor
  · have hdecomp : side * Int.tdiv i side + Int.tmod i side = i := Int.tdiv_add_tmod i side
    have hc0 : 0 ≤ Int.tmod i side := Int.tmod_nonneg side (le_of_lt hi)
    have hc1 : Int.tmod i side < side := Int.tmod_lt_of_pos i (by omega)
    have hr0 : 0 ≤ Int.tdiv i side := Int.tdiv_nonneg (le_of_lt hi) (by omega)
    have hr1 : Int.tdiv i side < side := by
      by_contra hge
      have : side * side ≤ side * Int.tdiv i side :=
        Int.mul_le_mul_of_nonneg_left (by omega) (by omega)
      omega
    have hnot : ¬ (Int.tdiv i side = 0 ∧ Int.tmod i side = 0) := by
      rintro ⟨e1, e2⟩
      rw [e1, e2] at hdecomp
      simp at hdecomp
      omega
    unfold demo.Search.adjacent demo.Display.indexToColumnRow
    simp only [List.foldl_cons, List.foldl_nil]
    apply row_mono
    generalize demo.Search.row ⟨⟨side⟩⟩ (Int.tmod i side) [] (Int.tdiv i side - 1) = A
    unfold demo.Search.row
    rw [if_neg (by simp only [ge_iff_le]; omega)]
    simp only [List.foldl_cons, List.foldl_nil]
    apply cell_mono
    generalize demo.Search.cell ⟨⟨side⟩⟩ (Int.tdiv i side) A (Int.tmod i side - 1) = B
    unfold demo.Search.cell
    rw [if_neg (by simp only [ge_iff_le]; omega), if_neg hnot, mem_keys_mapPut]
    right
    unfold demo.Display.columnRowToIndex
    rw [Int.mul_comm]
    exact hdecomp.symm
  · unfold demo.Search.adjacent
    refine foldl_invariant (fun a : List (Int × Int) => (0 : Int) ∉ a.map Prod.fst) _
      (fun a b => row_no_origin ⟨⟨side⟩⟩ hs _ a b) _ [] ?_
    simp

/-- C20, the code at failing inputs: on the 3x3 demo grid `Search.adjacent(4)` has
the keys 1 to 8, with the cell 4 itself and without the cell 0, where
`square.Adjacent(4)` of the test grid has the eight cells other than 4; on the 4x4
demo grid `Search.adjacent(5)` has the cell 5 and lacks the cell 0, and
`Search.adjacent(10)` has nine keys, the cell 10 among them. Only for the cell 0
are the keys those of the test grid. -/
theorem adjacent_keeps_self :
    (demo.Search.adjacent ⟨⟨3⟩⟩ 4).map Prod.fst = [1, 2, 3, 4, 5, 6, 7, 8] ∧
      ((newSquare 3).Adjacent 4).map Prod.fst = [0, 1, 2, 3, 5, 6, 7, 8] ∧
      (demo.Search.adjacent ⟨⟨4⟩⟩ 5).map Prod.fst = [1, 2, 4, 5, 6, 8, 9, 10] ∧
      ((newSquare 4).Adjacent 5).map Prod.fst = [0, 1, 2, 4, 6, 8, 9, 10] ∧
      (demo.Search.adjacent ⟨⟨4⟩⟩ 10).map Prod.fst = [5, 6, 7, 9, 10, 11, 13, 14, 15] ∧
      ((newSquare 4).Adjacent 10).map Prod.fst = [5, 6, 7, 9, 11, 13, 14, 15] ∧
      (demo.Search.adjacent ⟨⟨4⟩⟩ 0).map Prod.fst = [1, 4, 5] ∧
      ((newSquare 4).Adjacent 0).map Prod.fst = [1, 4, 5] := by
  decide


/-! ### `Find` only follows edges of cost below `math.MaxFloat64` -/

theorem passable_step {P : Interface} {a b c : Int} {p : List Int}
    (h : PassableFromTo P a b p) (he : IsPassable P b c) : PassableFromTo P a c (p ++ [c]) := by
  obtain ⟨hp, hh, hl⟩ := h
  refine ⟨?_, ?_, ?_⟩
  · rw [List.chain'_append]
    refine ⟨hp, List.chain'_singleton c, ?_⟩
    intro x hx y hy
    rw [hl] at hx
    simp only [List.head?_cons, Option.mem_def, Option.some.injEq] at hx hy
    rw [← hx, ← hy]
    exact he
  · cases p with
    | nil => simp at hh
    | cons x xs => simpa using hh
  · simp

/-- A set of labels that holds the start, not the goal, and is closed under the
edges of cost below `math.MaxFloat64` separates the start from the goal. -/
theorem no_passable_of_closed (P : Interface) (S : Finset Int) (start goal : Int)
    (hs : start ∈ S) (hg : goal ∉ S)
    (hcl : ∀ a ∈ S, ∀ e ∈ (P.Adjacent a).1, e.2 < MaxFloat64 → e.1 ∈ S) :
    ¬ ∃ p, PassableFromTo P start goal p := by
  have key : ∀ (p : List Int) (a : Int), a ∈ S → List.Chain' (IsPassable P) p →
      p.head? = some a → ∀ z, p.getLast? = some z → z ∈ S := by
    intro p
    induction p with
    | nil => intro a _ _ hh; simp at hh
    | cons x p ih =>
      intro a ha hc hh z hz
      have hxa : x = a := by simpa using hh
      subst hxa
      cases p with
      | nil =>
        have : x = z := by simpa using hz
        rw [← this]; exact ha
      | cons y rest =>
        rw [List.chain'_cons] at hc
        obtain ⟨e, he, he1, he2⟩ := hc.1
        have hy : y ∈ S := by rw [← he1]; exact hcl x ha e he he2
        exact ih y hy hc.2 rfl z (by rw [List.getLast?_cons_cons] at hz; exact hz)
  rintro ⟨p, hp, hh, hl⟩
  exact hg (key p start hs hp hh goal hl)

set_option maxRecDepth 100000 in
theorem barrier_impassable : ¬ ∃ p, PassableFromTo barrier.problem 0 15 p :=
  no_passable_of_closed barrier.problem (Finset.Icc 0 7) 0 15 (by decide) (by decide) (by decide)

set_option maxRecDepth 100000 in
set_option exponentiation.threshold 2000 in
/-- Counterexample to C3 as stated: the grid that the claim names as its witness is
not one in which the goal cannot be reached along the edges reported by `Adjacent`.
On the 4x4 grid with the third row blocked `square.Adjacent` reports the edges into
the blocked cells, with the cost `math.MaxFloat64`, so 0, 5, 10, 15 is a path along
reported edges; `Find` returns `nil` there all the same. -/
theorem barrier_goal_reachable :
    FiniteGraph barrier.problem (Finset.Icc 0 15) ∧
      NonNegative barrier.problem (Finset.Icc 0 15) ∧
      PathFromTo barrier.problem 0 15 [0, 5, 10, 15] ∧ Reachable barrier.problem 0 15 ∧
      (10, MaxFloat64) ∈ (barrier.problem.Adjacent 5).1 ∧
      Find inOrder 100 barrier.problem 0 15 = some [] ∧
      Find64 inOrder 100 barrier.problem 0 15 = some [] := by
  refine ⟨by decide, by decide, by decide, ⟨[0, 5, 10, 15], by decide⟩, by decide, by decide,
    by decide⟩


/-! ### Where `float64` arithmetic is exact -/

theorem F64_small_lt_inf : (9007199254740992 : Int) < F64.inf := by decide

theorem F64_max_lt_inf : MaxFloat64 < F64.inf := by decide

theorem F64_excess_zero (a : Nat) (h : a < 2 ^ 53) : F64.excess a a = 0 := by
  cases a with
  | zero => rfl
  | succ n =>
    show (if n + 1 < 2 ^ 53 then 0 else F64.excess n ((n + 1) / 2) + 1) = 0
    rw [if_pos h]

theorem F64_roundNat_exact (a : Nat) (h : a < 2 ^ 53) : F64.roundNat a = a := by
  unfold F64.roundNat
  simp [F64_excess_zero a h]

/-- A whole number below `2^53` in magnitude is a `float64`: rounding keeps it. -/
theorem F64_round_exact (x : Int) (h1 : -9007199254740992 < x) (h2 : x < 9007199254740992) :
    F64.round x = x := by
  have hp : (2 : Nat) ^ 53 = 9007199254740992 := by norm_num
  have hn : x.natAbs < 2 ^ 53 := by rw [hp]; omega
  have hinf := F64_small_lt_inf
  unfold F64.round
  simp only [F64_roundNat_exact _ hn]
  have hlt : ¬ F64.inf ≤ (x.natAbs : Int) := by omega
  rw [if_neg hlt]
  split <;> omega

theorem F64_isNaN_false (a : Int) (h1 : -F64.inf ≤ a) (h2 : a ≤ F64.inf) :
    F64.isNaN a = false := by
  unfold F64.isNaN
  simp only [Bool.or_eq_false_iff, decide_eq_false_iff_not]
  constructor <;> omega

/-- The `float64` sum of two whole numbers below `2^53` in magnitude whose exact
sum is below `2^53` in magnitude is the exact sum. -/
theorem F64_add_exact (a b : Int) (ha1 : -9007199254740992 < a) (ha2 : a < 9007199254740992)
    (hb1 : -9007199254740992 < b) (hb2 : b < 9007199254740992)
    (h1 : -9007199254740992 < a + b) (h2 : a + b < 9007199254740992) :
    F64.add a b = a + b := by
  have hinf := F64_small_lt_inf
  unfold F64.add
  rw [F64_isNaN_false a (by omega) (by omega), F64_isNaN_false b (by omega) (by omega)]
  simp only [Bool.or_self, Bool.false_eq_true, if_false]
  rw [if_neg (by omega), if_neg (by omega), if_neg (by omega)]
  exact F64_round_exact _ h1 h2

/-- The `float64` comparison of two values that are not `NaN` is the comparison of
the numbers. -/
theorem F64_lt_exact (a b : Int) (ha1 : -F64.inf ≤ a) (ha2 : a ≤ F64.inf) (hb1 : -F64.inf ≤ b)
    (hb2 : b ≤ F64.inf) : F64.lt a b = decide (a < b) := by
  unfold F64.lt
  rw [F64_isNaN_false a ha1 ha2, F64_isNaN_false b hb1 hb2]
  simp

/-! ### The heap functions on `minheap.Less64` when no estimate is a `NaN` -/

theorem Less64_eq {s : Search} (h : NoNaN s) (i j : Nat) :
    minheap.Less64 s i j = minheap.Less s i j := by
  unfold minheap.Less64 minheap.Less F64.lt
  rw [h, h]
  simp

theorem noNaN_Swap {s : Search} (h : NoNaN s) (i j : Nat) : NoNaN (minheap.Swap s i j) := by
  intro l
  rw [estimateOf_Swap]
  exact h l

theorem upLoop64_eq (fuel : Nat) :
    ∀ (s : Search) (j : Nat), NoNaN s → heap.upLoop64 fuel s j = heap.upLoop fuel s j := by
  induction fuel with
  | zero => intro s j _; rfl
  | succ fuel ih =>
    intro s j h
    simp only [heap.upLoop64, heap.upLoop, Less64_eq h]
    split
    · rfl
    · exact ih _ _ (noNaN_Swap h _ _)

theorem noNaN_upLoop (fuel : Nat) :
    ∀ (s : Search) (j : Nat), NoNaN s → NoNaN (heap.upLoop fuel s j) := by
  induction fuel with
  | zero => intro s j h; exact h
  | succ fuel ih =>
    intro s j h
    simp only [heap.upLoop]
    split
    · exact h
    · exact ih _ _ (noNaN_Swap h _ _)

theorem child64_eq {s : Search} (h : NoNaN s) (i n : Nat) :
    heap.child64 s i n = heap.child s i n := by
  unfold heap.child64 heap.child
  rw [Less64_eq h]

theorem downLoop64_eq (fuel : Nat) :
    ∀ (s : Search) (i n : Nat), NoNaN s →
      heap.downLoop64 fuel s i n = heap.downLoop fuel s i n := by
  induction fuel with
  | zero => intro s i n _; rfl
  | succ fuel ih =>
    intro s i n h
    simp only [heap.downLoop64, heap.downLoop, Less64_eq h, child64_eq h]
    split
    · rfl
    · split
      · rfl
      · exact ih _ _ _ (noNaN_Swap h _ _)

theorem noNaN_downLoop (fuel : Nat) :
    ∀ (s : Search) (i n : Nat), NoNaN s → NoNaN (heap.downLoop fuel s i n).1 := by
  induction fuel with
  | zero => intro s i n h; exact h
  | succ fuel ih =>
    intro s i n h
    simp only [heap.downLoop]
    split
    · exact h
    · split
      · exact h
      · exact ih _ _ _ (noNaN_Swap h _ _)

theorem down64_eq {s : Search} (h : NoNaN s) (i n : Nat) :
    heap.down64 s i n = heap.down s i n := by
  unfold heap.down64 heap.down
  rw [downLoop64_eq n s i n h]

theorem noNaN_minheapPush {s : Search} (h : NoNaN s) (l : Int) : NoNaN (minheap.Push s l) := by
  intro x
  rw [known_minheapPush, estimateOf_setIndex]
  exact h x

theorem Push64_eq {s : Search} (h : NoNaN s) (l : Int) : heap.Push64 s l = heap.Push s l := by
  unfold heap.Push64 heap.Push heap.up64 heap.up
  exact upLoop64_eq _ _ _ (noNaN_minheapPush h l)

theorem Pop64_eq {s : Search} (h : NoNaN s) : heap.Pop64 s = heap.Pop s := by
  unfold heap.Pop64 heap.Pop
  simp only [down64_eq (noNaN_Swap h _ _)]

theorem Fix64_eq {s : Search} (h : NoNaN s) (i : Nat) : heap.Fix64 s i = heap.Fix s i := by
  unfold heap.Fix64 heap.Fix heap.up64 heap.up
  simp only [down64_eq h]
  split
  · rfl
  · exact upLoop64_eq _ _ _ (noNaN_downLoop _ _ _ _ h)

theorem start64_eq (P : Interface) (st goal : Int) :
    start64 P st goal = Astar.start P st goal := by
  rw [start_eq]
  simp [start64, heap.Init64, heap.Push64, heap.up64, heap.upLoop64, minheap.Push, minheap.Len]

/-! ### The values that `float64` sums and comparisons give -/

theorem F64_inf_pos : 0 < F64.inf := by decide

theorem F64_isNaN_iff (a : Int) : F64.isNaN a = false ↔ (-F64.inf ≤ a ∧ a ≤ F64.inf) := by
  unfold F64.isNaN
  simp only [Bool.or_eq_false_iff, decide_eq_false_iff_not]
  constructor <;> intro h <;> constructor <;> omega

theorem F64_round_range (x : Int) :
    -F64.inf ≤ F64.round x ∧ F64.round x ≤ F64.inf ∧ (0 ≤ x → 0 ≤ F64.round x) := by
  have hi := F64_inf_pos
  have hm : (0 : Int) ≤ (F64.roundNat x.natAbs : Nat) := Int.ofNat_nonneg _
  unfold F64.round
  simp only
  by_cases h1 : F64.inf ≤ ((F64.roundNat x.natAbs : Nat) : Int)
  · rw [if_pos h1]
    by_cases h2 : x < 0
    · rw [if_pos h2]; refine ⟨by omega, by omega, by omega⟩
    · rw [if_neg h2]; refine ⟨by omega, by omega, by omega⟩
  · rw [if_neg h1]
    by_cases h2 : x < 0
    · rw [if_pos h2]; refine ⟨by omega, by omega, by omega⟩
    · rw [if_neg h2]; refine ⟨by omega, by omega, by omega⟩

/-- The `float64` sum of two values that are not `NaN` is not a `NaN`, unless they
are the two infinities. -/
theorem F64_add_noNaN (a b : Int) (ha : F64.isNaN a = false) (hb : F64.isNaN b = false)
    (h1 : ¬ (a = F64.inf ∧ b = -F64.inf)) (h2 : ¬ (a = -F64.inf ∧ b = F64.inf)) :
    F64.isNaN (F64.add a b) = false := by
  have hi := F64_inf_pos
  have ha' := (F64_isNaN_iff a).1 ha
  have hb' := (F64_isNaN_iff b).1 hb
  unfold F64.add
  rw [ha, hb]
  simp only [Bool.or_self, Bool.false_eq_true, if_false]
  rw [F64_isNaN_iff]
  by_cases e1 : a = F64.inf
  · rw [if_pos e1, if_neg (fun e => h1 ⟨e1, e⟩)]
    omega
  · rw [if_neg e1]
    by_cases e2 : a = -F64.inf
    · rw [if_pos e2, if_neg (fun e => h2 ⟨e2, e⟩)]
      omega
    · rw [if_neg e2]
      by_cases e3 : b = F64.inf ∨ b = -F64.inf
      · rw [if_pos e3]; exact hb'
      · rw [if_neg e3]
        exact ⟨(F64_round_range _).1, (F64_round_range _).2.1⟩

theorem F64_add_nonneg (a b : Int) (ha0 : 0 ≤ a) (ha1 : a ≤ F64.inf) (hb0 : 0 ≤ b)
    (hb1 : b ≤ F64.inf) : 0 ≤ F64.add a b := by
  have hi := F64_inf_pos
  unfold F64.add
  rw [(F64_isNaN_iff a).2 ⟨by omega, ha1⟩, (F64_isNaN_iff b).2 ⟨by omega, hb1⟩]
  simp only [Bool.or_self, Bool.false_eq_true, if_false]
  by_cases e1 : a = F64.inf
  · rw [if_pos e1, if_neg (by omega)]
    omega
  · rw [if_neg e1, if_neg (by omega)]
    by_cases e3 : b = F64.inf ∨ b = -F64.inf
    · rw [if_pos e3]; exact hb0
    · rw [if_neg e3]
      exact (F64_round_range _).2.2 (by omega)

theorem F64_lt_true (a b : Int) (h : F64.lt a b = true) :
    F64.isNaN a = false ∧ F64.isNaN b = false ∧ a < b := by
  unfold F64.lt at h
  simp only [Bool.and_eq_true, Bool.not_eq_true', decide_eq_true_eq] at h
  exact ⟨h.1.1, h.1.2, h.2⟩

theorem F64_le_of (a b : Int) (ha : F64.isNaN a = false) (hb : F64.isNaN b = false)
    (h : a ≤ b) : F64.le a b = true := by
  unfold F64.le
  rw [ha, hb]
  simpa using h

/-! ### `float64` sums of a cost of `math.MaxFloat64` or more -/

theorem F64_excess_spec (fuel : Nat) : ∀ a : Nat, a < 2 ^ (53 + fuel) →
    a / 2 ^ (F64.excess fuel a) < 2 ^ 53 ∧
      (0 < F64.excess fuel a → 2 ^ 52 ≤ a / 2 ^ (F64.excess fuel a)) := by
  induction fuel with
  | zero =>
    intro a h
    have : F64.excess 0 a = 0 := rfl
    rw [this]
    simp only [pow_zero, Nat.div_one, lt_self_iff_false, false_implies, and_true]
    simpa using h
  | succ n ih =>
    intro a h
    by_cases hlt : a < 2 ^ 53
    · have : F64.excess (n + 1) a = 0 := by
        show (if a < 2 ^ 53 then 0 else F64.excess n (a / 2) + 1) = 0
        rw [if_pos hlt]
      rw [this]
      simp only [pow_zero, Nat.div_one, lt_self_iff_false, false_implies, and_true]
      exact hlt
    · have he : F64.excess (n + 1) a = F64.excess n (a / 2) + 1 := by
        show (if a < 2 ^ 53 then 0 else F64.excess n (a / 2) + 1) = _
        rw [if_neg hlt]
      have h2 : a / 2 < 2 ^ (53 + n) := by
        have : (2 : Nat) ^ (53 + (n + 1)) = 2 ^ (53 + n) * 2 := by
          rw [← Nat.add_assoc, pow_succ]
        rw [this] at h
        exact Nat.div_lt_of_lt_mul (by rw [Nat.mul_comm]; exact h)
      obtain ⟨i1, i2⟩ := ih (a / 2) h2
      have hd : a / 2 ^ (F64.excess n (a / 2) + 1) = a / 2 / 2 ^ (F64.excess n (a / 2)) := by
        rw [pow_succ, Nat.mul_comm, Nat.div_div_eq_div_mul]
      rw [he, hd]
      refine ⟨i1, fun _ => ?_⟩
      by_cases h0 : 0 < F64.excess n (a / 2)
      · exact i2 h0
      · have : F64.excess n (a / 2) = 0 := by omega
        rw [this]
        simp only [pow_zero, Nat.div_one]
        have : (2 : Nat) ^ 53 = 2 * 2 ^ 52 := by norm_num
        omega

set_option exponentiation.threshold 2000 in
theorem F64_roundNat_ge_max (a : Nat) (h : (2 ^ 53 - 1) * 2 ^ 971 ≤ a) :
    (2 ^ 53 - 1) * 2 ^ 971 ≤ F64.roundNat a := by
  have hlt : a < 2 ^ (53 + a) :=
    lt_of_lt_of_le (Nat.lt_two_pow a) (Nat.pow_le_pow_right (by norm_num) (by omega))
  obtain ⟨i1, i2⟩ := F64_excess_spec a a hlt
  unfold F64.roundNat
  simp only
  generalize F64.excess a a = e at i1 i2
  by_cases he : e = 0
  · rw [if_pos he]; exact h
  · rw [if_neg he]
    have hpos : 0 < 2 ^ e := Nat.pow_pos (by norm_num)
    have hq : (2 ^ 53 - 1) * 2 ^ 971 ≤ a / 2 ^ e * 2 ^ e := by
      rcases Nat.lt_trichotomy e 971 with h1 | h1 | h1
      · exfalso
        have h2 : a < 2 ^ e * (a / 2 ^ e + 1) := Nat.lt_mul_div_succ a hpos
        have h3 : 2 ^ e * (a / 2 ^ e + 1) ≤ 2 ^ 970 * 2 ^ 53 :=
          Nat.mul_le_mul (Nat.pow_le_pow_right (by norm_num) (by omega)) (by omega)
        have h4 : (2 : Nat) ^ 970 * 2 ^ 53 ≤ (2 ^ 53 - 1) * 2 ^ 971 := by norm_num
        omega
      · rw [h1]
        exact Nat.mul_le_mul_right _ ((Nat.le_div_iff_mul_le (Nat.pow_pos (by norm_num))).2 h)
      · have h2 : 2 ^ 52 ≤ a / 2 ^ e := i2 (by omega)
        have h3 : (2 : Nat) ^ 972 ≤ 2 ^ e := Nat.pow_le_pow_right (by norm_num) (by omega)
        have h4 : (2 ^ 53 - 1) * 2 ^ 971 ≤ (2 : Nat) ^ 52 * 2 ^ 972 := by norm_num
        exact le_trans h4 (Nat.mul_le_mul h2 h3)
    split
    · exact le_trans hq (Nat.mul_le_mul_right _ (Nat.le_succ _))
    · exact hq

set_option exponentiation.threshold 2000 in
theorem F64_round_ge_max (x : Int) (h : MaxFloat64 ≤ x) : MaxFloat64 ≤ F64.round x := by
  have hm : MaxFloat64 = (((2 ^ 53 - 1) * 2 ^ 971 : Nat) : Int) := by
    rw [MaxFloat64_eq.2]; norm_num
  have hx0 : 0 ≤ x := le_trans (le_of_lt MaxFloat64_pos) h
  have hxa : ((x.natAbs : Nat) : Int) = x := Int.natAbs_of_nonneg hx0
  have h1 : (2 ^ 53 - 1) * 2 ^ 971 ≤ x.natAbs := by
    have : (((2 ^ 53 - 1) * 2 ^ 971 : Nat) : Int) ≤ ((x.natAbs : Nat) : Int) := by
      rw [hxa, ← hm]; exact h
    exact_mod_cast this
  have h2 := F64_roundNat_ge_max x.natAbs h1
  have h3 : MaxFloat64 ≤ ((F64.roundNat x.natAbs : Nat) : Int) := by
    rw [hm]; exact_mod_cast h2
  have hmi := F64_max_lt_inf
  unfold F64.round
  simp only
  rw [if_neg (by omega)]
  split
  · omega
  · exact h3

/-- The `float64` sum of a cost of `math.MaxFloat64` or more and a cost from 0 up is
not below `math.MaxFloat64`. -/
theorem F64_add_ge_max (v g : Int) (hv : MaxFloat64 ≤ v) (hg0 : 0 ≤ g) (hg1 : g < F64.inf) :
    MaxFloat64 ≤ F64.add v g := by
  have hmi := F64_max_lt_inf
  have hmp := MaxFloat64_pos
  unfold F64.add
  by_cases hn : (F64.isNaN v || F64.isNaN g) = true
  · rw [if_pos hn]
    show MaxFloat64 ≤ F64.inf + 1
    omega
  · rw [if_neg hn]
    by_cases e1 : v = F64.inf
    · rw [if_pos e1, if_neg (by omega)]; omega
    · rw [if_neg e1, if_neg (by omega), if_neg (by omega)]
      exact F64_round_ge_max _ (by omega)

theorem F64_add_nan_left (v g : Int) (h : F64.isNaN (F64.add v g) = false) :
    F64.isNaN v = false := by
  by_contra hv
  have hv' : F64.isNaN v = true := by simpa using hv
  have : F64.add v g = F64.nan := by
    unfold F64.add
    rw [hv']
    simp
  rw [this] at h
  have : F64.isNaN F64.nan = true := by decide
  rw [this] at h
  exact Bool.noConfusion h


/-! ### On the domain `Exact` the program with `float64` arithmetic is the exact one -/

theorem relaxedCount_le_card (V : Finset Int) (s : Search) : relaxedCount V s ≤ V.card :=
  Finset.card_filter_le _ _

theorem relaxedCount_congr (V : Finset Int) (s t : Search)
    (hK : ∀ l, IsKnown t.known l ↔ IsKnown s.known l)
    (hC : ∀ l, IsKnown s.known l → costOf t.known l = costOf s.known l) :
    relaxedCount V t = relaxedCount V s := by
  unfold relaxedCount
  congr 1
  apply Finset.filter_congr
  intro l _
  constructor
  · rintro ⟨h1, h2⟩
    exact ⟨(hK l).1 h1, by rw [← hC l ((hK l).1 h1)]; exact h2⟩
  · rintro ⟨h1, h2⟩
    exact ⟨(hK l).2 h1, by rw [hC l h1]; exact h2⟩

theorem bounded_nonneg {V : Finset Int} {M H : Int} {s : Search} (hb : Bounded V M H s) :
    0 ≤ M * (V.card : Int) + H := by
  have := hb.est 0
  omega

theorem noNaN_of_bounded {V : Finset Int} {M H : Int} {s : Search} (hb : Bounded V M H s)
    (hB : M * (V.card : Int) + H < 9007199254740992) : NoNaN s := by
  intro l
  have := hb.est l
  have := F64_small_lt_inf
  exact F64_isNaN_false _ (by omega) (by omega)

theorem bounded_of_same {V : Finset Int} {M H : Int} {s t : Search} (hb : Bounded V M H s)
    (hK : ∀ l, IsKnown t.known l ↔ IsKnown s.known l)
    (hC : ∀ l, costOf t.known l = costOf s.known l)
    (hE : ∀ l, estimateOf t.known l = estimateOf s.known l) : Bounded V M H t := by
  have hr := relaxedCount_congr V s t hK (fun l _ => hC l)
  constructor
  · intro l hl hlt
    rw [hC] at hlt ⊢
    rw [hr]
    exact hb.cost l ((hK l).1 hl) hlt
  · intro l
    rw [hE]
    exact hb.est l

theorem bounded_register {V : Finset Int} {M H : Int} {s : Search} (hb : Bounded V M H s)
    (k : Int) : Bounded V M H (register s k) := by
  have hB := bounded_nonneg hb
  have hr : relaxedCount V (register s k) = relaxedCount V s := by
    unfold relaxedCount
    congr 1
    apply Finset.filter_congr
    intro l _
    constructor
    · rintro ⟨h1, h2⟩
      rcases register_known s k l h1 with ⟨a, _⟩ | ⟨a, _, c, _, _⟩
      · exact ⟨a, by rw [← costOf_register_of_known s k l a]; exact h2⟩
      · rw [a, c] at h2; exact absurd h2 (lt_irrefl _)
    · rintro ⟨h1, h2⟩
      exact ⟨(isKnown_register s k l).2 (Or.inl h1),
        by rw [costOf_register_of_known s k l h1]; exact h2⟩
  constructor
  · intro l hl hlt
    rw [hr]
    rcases register_known s k l hl with ⟨a, _⟩ | ⟨a, _, c, _, _⟩
    · rw [costOf_register_of_known s k l a] at hlt ⊢
      exact hb.cost l a hlt
    · rw [a, c] at hlt; exact absurd hlt (lt_irrefl _)
  · intro l
    by_cases hl : IsKnown (register s k).known l
    · rcases register_known s k l hl with ⟨a, _⟩ | ⟨a, _, _, _, e⟩
      · rw [estimateOf_register_of_known s k l a]; exact hb.est l
      · rw [a, e]; omega
    · have : estimateOf (register s k).known l = 0 := by
        unfold estimateOf
        unfold IsKnown at hl
        cases hx : (register s k).known l with
        | none => rfl
        | some p => rw [hx] at hl; simp at hl
      rw [this]; omega

theorem bounded_improved {V : Finset Int} {M H : Int} {s t : Search} {k cur v e : Int}
    (hb : Bounded V M H s) (hM : 0 ≤ M) (hkV : k ∈ V) (hk : IsKnown s.known k)
    (hcur : IsKnown s.known cur) (hcurlt : costOf s.known cur < MaxFloat64)
    (hc0 : 0 ≤ costOf s.known cur) (hv0 : 0 ≤ v) (hvM : v ≤ M)
    (hlt : v + costOf s.known cur < costOf s.known k) (hkle : costOf s.known k ≤ MaxFloat64)
    (he1 : v + costOf s.known cur - H ≤ e) (he2 : e ≤ v + costOf s.known cur + H)
    (hi : Improved s t k cur (v + costOf s.known cur) e) : Bounded V M H t := by
  have hB := bounded_nonneg hb
  have hsub : (V.filter fun l => IsKnown s.known l ∧ costOf s.known l < MaxFloat64) ⊆
      (V.filter fun l => IsKnown t.known l ∧ costOf t.known l < MaxFloat64) := by
    intro l hl
    rw [Finset.mem_filter] at hl ⊢
    refine ⟨hl.1, (hi.known l).2 hl.2.1, ?_⟩
    rw [hi.cost l]
    split
    · omega
    · exact hl.2.2
  have hkt : k ∈ (V.filter fun l => IsKnown t.known l ∧ costOf t.known l < MaxFloat64) := by
    rw [Finset.mem_filter]
    refine ⟨hkV, (hi.known k).2 hk, ?_⟩
    rw [hi.cost k, if_pos rfl]
    omega
  have hr : relaxedCount V s ≤ relaxedCount V t := Finset.card_le_card hsub
  have hr1 : ¬ costOf s.known k < MaxFloat64 → relaxedCount V s + 1 ≤ relaxedCount V t := by
    intro hn
    have hks : k ∉ (V.filter fun l => IsKnown s.known l ∧ costOf s.known l < MaxFloat64) := by
      rw [Finset.mem_filter]
      exact fun hh => hn hh.2.2
    have hins : insert k (V.filter fun l => IsKnown s.known l ∧ costOf s.known l < MaxFloat64) ⊆
        (V.filter fun l => IsKnown t.known l ∧ costOf t.known l < MaxFloat64) :=
      Finset.insert_subset hkt hsub
    have := Finset.card_le_card hins
    rw [Finset.card_insert_of_not_mem hks] at this
    exact this
  have hrc : (relaxedCount V t : Int) ≤ (V.card : Int) := by
    exact_mod_cast relaxedCount_le_card V t
  have hcurb := hb.cost cur hcur hcurlt
  have hmul : M * (relaxedCount V s : Int) ≤ M * (relaxedCount V t : Int) :=
    Int.mul_le_mul_of_nonneg_left (by exact_mod_cast hr) hM
  have hmulc : M * (relaxedCount V t : Int) ≤ M * (V.card : Int) :=
    Int.mul_le_mul_of_nonneg_left hrc hM
  have hkb : v + costOf s.known cur + M ≤ M * (relaxedCount V t : Int) := by
    by_cases hkl : costOf s.known k < MaxFloat64
    · have := hb.cost k hk hkl
      omega
    · have h1 : ((relaxedCount V s : Int) + 1) ≤ (relaxedCount V t : Int) := by
        exact_mod_cast hr1 hkl
      have h2 : M * ((relaxedCount V s : Int) + 1) ≤ M * (relaxedCount V t : Int) :=
        Int.mul_le_mul_of_nonneg_left h1 hM
      rw [Int.mul_add, Int.mul_one] at h2
      omega
  constructor
  · intro l hl hlt'
    rw [hi.cost l] at hlt' ⊢
    by_cases hlk : l = k
    · rw [if_pos hlk]; exact hkb
    · rw [if_neg hlk] at hlt' ⊢
      have := hb.cost l ((hi.known l).1 hl) hlt'
      omega
  · intro l
    rw [hi.est l]
    by_cases hlk : l = k
    · rw [if_pos hlk]
      constructor <;> omega
    · rw [if_neg hlk]; exact hb.est l

theorem relax64_unfold (P : Interface) (goal cur : Int) (s : Search) (kv : Int × Int) :
    relax64 P goal cur s kv =
      if F64.lt (F64.add kv.2 (costOf (register s kv.1).known cur))
          (costOf (register s kv.1).known kv.1) = true then
        (if indexOf (improve64 P goal cur (register s kv.1) kv.1
            (F64.add kv.2 (costOf (register s kv.1).known cur))).known kv.1 = -1 then
          heap.Push64 (improve64 P goal cur (register s kv.1) kv.1
            (F64.add kv.2 (costOf (register s kv.1).known cur))) kv.1
        else heap.Fix64 (improve64 P goal cur (register s kv.1) kv.1
            (F64.add kv.2 (costOf (register s kv.1).known cur)))
          (indexOf (improve64 P goal cur (register s kv.1) kv.1
            (F64.add kv.2 (costOf (register s kv.1).known cur))).known kv.1).toNat)
      else register s kv.1 := rfl

/-- On the domain `Exact`, one round of the `range` loop with `float64` arithmetic
is the round with exact arithmetic, and it keeps the bounds. -/
theorem relax64_eq {P : Interface} {V : Finset Int} {start goal : Int} {s : Search}
    {M H : Int} (hfg : FiniteGraph P V) (hnn : NonNegative P V) (hex : Exact P V goal M H)
    (h : WF P V start goal s) (hb : Bounded V M H s) (cur : Int)
    (hcur : IsKnown s.known cur) (hcurlt : costOf s.known cur < MaxFloat64)
    (kv : Int × Int) (hkv : kv ∈ (P.Adjacent cur).1) :
    relax64 P goal cur s kv = relax P goal cur s kv ∧
      Bounded V M H (relax P goal cur s kv) := by
  obtain ⟨hM, hEdge, hEst, hB⟩ := hex
  obtain ⟨k, v⟩ := kv
  have hcurV := h.knownIn cur hcur
  have hkV : k ∈ V := hfg cur hcurV (k, v) hkv
  have hv0 : 0 ≤ v := hnn cur hcurV (k, v) hkv
  have hhk := hEst k hkV
  have h1 := wf_register h k hkV (reachable_step (h.reach cur hcur)
    (List.mem_map.2 ⟨(k, v), hkv, rfl⟩))
  have hb1 := bounded_register hb k
  have hk1 : IsKnown (register s k).known k := (isKnown_register s k k).2 (Or.inr rfl)
  have hcur1 : IsKnown (register s k).known cur := (isKnown_register s k cur).2 (Or.inl hcur)
  have hccur : costOf (register s k).known cur = costOf s.known cur :=
    costOf_register_of_known s k cur hcur
  have hc0 := h.costNonneg cur hcur
  have hcurb := hb.cost cur hcur hcurlt
  have hrc : (relaxedCount V s : Int) ≤ (V.card : Int) := by
    exact_mod_cast relaxedCount_le_card V s
  have hmulc : M * (relaxedCount V s : Int) ≤ M * (V.card : Int) :=
    Int.mul_le_mul_of_nonneg_left hrc hM
  have hBn := bounded_nonneg hb
  have hH0 : 0 ≤ H := by omega
  have hk0 := h1.costNonneg k hk1
  have hkle := h1.costLe k hk1
  have hinf := F64_max_lt_inf
  have hsm := F64_small_lt_inf
  rcases hEdge cur hcurV (k, v) hkv with hvM | hvB
  swap
  · have hge := F64_add_ge_max v (costOf (register s k).known cur) hvB
      (by rw [hccur]; exact hc0) (by rw [hccur]; omega)
    have h64 : ¬ (F64.lt (F64.add v (costOf (register s k).known cur))
        (costOf (register s k).known k) = true) := by
      intro hlt
      have := (F64_lt_true _ _ hlt).2.2
      omega
    have hexact : ¬ (v + costOf (register s k).known cur < costOf (register s k).known k) := by
      rw [hccur]; simp only at hvB; omega
    rw [relax64_unfold, relax_eq]
    simp only
    rw [if_neg h64, if_neg hexact]
    exact ⟨rfl, hb1⟩
  simp only at hvM
  have hadd : F64.add v (costOf (register s k).known cur) =
      v + costOf (register s k).known cur := by
    rw [hccur]
    exact F64_add_exact _ _ (by omega) (by omega) (by omega) (by omega) (by omega) (by omega)
  have hltx : F64.lt (v + costOf (register s k).known cur) (costOf (register s k).known k) =
      decide (v + costOf (register s k).known cur < costOf (register s k).known k) := by
    rw [hccur]
    exact F64_lt_exact _ _ (by omega) (by omega) (by omega) (by omega)
  have himp : improve64 P goal cur (register s k) k (v + costOf (register s k).known cur) =
      improve P goal cur (register s k) k (v + costOf (register s k).known cur) := by
    unfold improve64 improve
    rw [hccur, F64_add_exact _ _ (by omega) (by omega) (by omega) (by omega) (by omega)
      (by omega)]
  rw [relax64_unfold, relax_eq]
  simp only [hadd, hltx, himp, decide_eq_true_eq]
  by_cases hlt : v + costOf (register s k).known cur < costOf (register s k).known k
  · have hi := improved_of_relax P V start goal cur (register s k) k
      (v + costOf (register s k).known cur) h1 hk1 hlt
    have hbt := bounded_improved hb1 hM hkV hk1 hcur1 (by rw [hccur]; exact hcurlt)
      (by rw [hccur]; exact hc0) hv0 hvM hlt hkle (by omega) (by omega) hi
    have hnan : NoNaN (improve P goal cur (register s k) k
        (v + costOf (register s k).known cur)) := by
      intro l
      have hkn : (improve P goal cur (register s k) k
          (v + costOf (register s k).known cur)).known =
          setCost (register s k).known k (v + costOf (register s k).known cur)
            (v + costOf (register s k).known cur + P.Estimate k goal) := rfl
      rw [hkn]
      by_cases hl : l = k
      · rw [hl, estimateOf_setCost_self _ _ _ _ hk1, hccur]
        exact F64_isNaN_false _ (by omega) (by omega)
      · rw [estimateOf_setCost_ne _ _ _ _ _ hl]
        have := hb1.est l
        exact F64_isNaN_false _ (by omega) (by omega)
    rw [if_pos hlt, if_pos hlt, Push64_eq hnan, Fix64_eq hnan]
    exact ⟨rfl, hbt⟩
  · rw [if_neg hlt, if_neg hlt]
    exact ⟨rfl, hb1⟩

theorem fold64_eq {P : Interface} {V : Finset Int} {start goal : Int} {M H : Int}
    (hfg : FiniteGraph P V) (hnn : NonNegative P V) (hex : Exact P V goal M H) (cur : Int)
    (L : List (Int × Int)) (hL : ∀ kv ∈ L, kv ∈ (P.Adjacent cur).1) :
    ∀ s : Search, WF P V start goal s → Bounded V M H s → IsKnown s.known cur →
      costOf s.known cur < MaxFloat64 →
      L.foldl (relax64 P goal cur) s = L.foldl (relax P goal cur) s ∧
        Bounded V M H (L.foldl (relax P goal cur) s) := by
  induction L with
  | nil => intro s _ hb _ _; exact ⟨rfl, hb⟩
  | cons e L ih =>
    intro s h hb hcur hlt
    have he := hL e (List.mem_cons_self e L)
    have h1 := relax64_eq hfg hnn hex h hb cur hcur hlt e he
    have h2 := relax_spec hfg hnn h cur hcur e he
    rw [List.foldl_cons, List.foldl_cons, h1.1]
    exact ih (fun kv hkv => hL kv (List.mem_cons_of_mem e hkv)) _ h2.1 h1.2
      (h2.2.1.knownMono cur hcur) (by rw [h2.2.1.costCur]; exact hlt)

/-- On the domain `Exact`, one iteration with `float64` arithmetic is the iteration
with exact arithmetic, and it keeps the bounds. -/
theorem expand64_eq {P : Interface} {V : Finset Int} {start goal : Int} {s : Search}
    {M H : Int} {ord : Nat → List (Int × Int) → List (Int × Int)} (hord : Enumeration ord)
    (hfg : FiniteGraph P V) (hnn : NonNegative P V) (hex : Exact P V goal M H)
    (h : WF P V start goal s) (hb : Bounded V M H s) (hpos : 0 < s.openset.length) :
    expand64 ord P goal s = expand ord P goal s ∧ Bounded V M H (expand ord P goal s) := by
  have hnan := noNaN_of_bounded hb hex.2.2.2
  have hp := pop_spec h hpos (popState s) rfl rfl rfl
  have hpp := hp.2.1
  have hbp : Bounded V M H (popState s) :=
    bounded_of_same hb hpp.known hpp.cost hpp.est
  have hcl : costOf (popState s).known (heap.Pop s).2 < MaxFloat64 := by
    have : costOf (popState s).known (heap.Pop s).2 = costOf s.known (heap.Pop s).2 :=
      hpp.cost _
    rw [this]
    exact h.openLt _ hpp.was
  have hf := fold64_eq hfg hnn hex (heap.Pop s).2
    (ord s.pops.length (P.Adjacent (heap.Pop s).2).1)
    (fun kv hkv => (hord _ _).mem_iff.1 hkv) (popState s) hp.1 hbp hp.2.2.1 hcl
  have e1 : expand64 ord P goal s =
      (ord s.pops.length (P.Adjacent (heap.Pop64 s).2).1).foldl
        (relax64 P goal (heap.Pop64 s).2)
        { (heap.Pop64 s).1 with pops := (heap.Pop64 s).1.pops ++ [(heap.Pop64 s).2] } := rfl
  have e2 : expand ord P goal s =
      (ord s.pops.length (P.Adjacent (heap.Pop s).2).1).foldl
        (relax P goal (heap.Pop s).2) (popState s) := rfl
  rw [e1, e2, Pop64_eq hnan]
  exact hf

theorem loop64_eq {P : Interface} {V : Finset Int} {start goal : Int} {M H : Int}
    {ord : Nat → List (Int × Int) → List (Int × Int)} (hord : Enumeration ord)
    (hfg : FiniteGraph P V) (hnn : NonNegative P V) (hex : Exact P V goal M H) (rfuel : Nat) :
    ∀ (fuel : Nat) (s : Search), WF P V start goal s → Settled P goal s → Bounded V M H s →
      loop64 ord P goal rfuel fuel s = loop ord P goal rfuel fuel s := by
  intro fuel
  induction fuel with
  | zero => intro s _ _ _; rfl
  | succ fuel ih =>
    intro s h hs hb
    have hnan := noNaN_of_bounded hb hex.2.2.2
    simp only [loop64, loop, Pop64_eq hnan]
    by_cases hl : 0 < minheap.Len s
    · rw [if_pos hl, if_pos hl]
      by_cases hg : (heap.Pop s).2 = goal
      · rw [if_pos hg, if_pos hg]
      · rw [if_neg hg, if_neg hg]
        have hx := expand64_eq hord hfg hnn hex h hb hl
        have he := expand_spec hord hfg hnn h hs hl hg
        rw [hx.1]
        exact ih _ he.1 he.2.1 hx.2
    · rw [if_neg hl, if_neg hl]

theorem bounded_start {P : Interface} {V : Finset Int} {goal : Int} {M H : Int}
    (hex : Exact P V goal M H) (st : Int) (hst : st ∈ V) :
    Bounded V M H (Astar.start P st goal) := by
  obtain ⟨hM, _, hEst, hB⟩ := hex
  have hw := (start_spec P V st goal hst).1
  have hK := start_known P st goal
  have hh := hEst st hst
  have hcard : (0 : Int) ≤ M * (V.card : Int) := Int.mul_nonneg hM (by exact_mod_cast Nat.zero_le _)
  constructor
  · intro l hl hlt
    have hmem : l ∈ V.filter fun l => IsKnown (Astar.start P st goal).known l ∧
        costOf (Astar.start P st goal).known l < MaxFloat64 := by
      rw [Finset.mem_filter]
      exact ⟨hw.knownIn l hl, hl, hlt⟩
    have hpos : 0 < relaxedCount V (Astar.start P st goal) := Finset.card_pos.2 ⟨l, hmem⟩
    have h1 : (1 : Int) ≤ (relaxedCount V (Astar.start P st goal) : Int) := by
      exact_mod_cast hpos
    have h2 : M * 1 ≤ M * (relaxedCount V (Astar.start P st goal) : Int) :=
      Int.mul_le_mul_of_nonneg_left h1 hM
    rw [(hK l).1 hl, hw.startCost]
    omega
  · intro l
    by_cases hl : l = st
    · have : estimateOf (Astar.start P st goal).known st = P.Estimate st goal := by
        rw [start_eq]; simp only; rw [estimateOf_setIndex, estimateOf_mapSet_self]
      rw [hl, this]
      omega
    · have : estimateOf (Astar.start P st goal).known l = 0 := by
        rw [start_eq]; simp only
        rw [estimateOf_setIndex, estimateOf_mapSet_ne _ _ _ _ hl]
        rfl
      rw [this]
      omega

/-- On the domain `Exact` (finite graph, non-negative whole-number costs at most `M`
or at least `math.MaxFloat64`, estimates within `H` of 0, `M * |V| + H < 2^53`) `Find` with `float64` arithmetic
returns what `Find` with exact arithmetic returns. -/
theorem Find64_eq_Find {P : Interface} {V : Finset Int} {start goal : Int} {M H : Int}
    {ord : Nat → List (Int × Int) → List (Int × Int)} (hord : Enumeration ord)
    (hfg : FiniteGraph P V) (hnn : NonNegative P V) (hex : Exact P V goal M H)
    (hst : start ∈ V) (fuel : Nat) :
    Find64 ord fuel P start goal = Find ord fuel P start goal := by
  unfold Find64 Find
  rw [start64_eq]
  obtain ⟨hw, hs⟩ := start_spec P V start goal hst
  exact loop64_eq hord hfg hnn hex fuel fuel _ hw hs (bounded_start hex start hst)


/-! ### `Find` with `float64` arithmetic: fuel, and the results on the domain `Exact` -/

theorem loop64_mono (ord : Nat → List (Int × Int) → List (Int × Int)) (P : Interface)
    (goal : Int) (rfuel rfuel' : Nat) (hr : rfuel ≤ rfuel') (fuel : Nat) :
    ∀ (s : Search) (r : List Int) (fuel' : Nat), fuel ≤ fuel' →
      loop64 ord P goal rfuel fuel s = some r → loop64 ord P goal rfuel' fuel' s = some r := by
  induction fuel with
  | zero => intro s r fuel' _ h; simp [loop64] at h
  | succ n ih =>
    intro s r fuel' hf h
    obtain ⟨f, rfl⟩ : ∃ f, fuel' = f + 1 := ⟨fuel' - 1, by omega⟩
    simp only [loop64] at h ⊢
    by_cases hl : 0 < minheap.Len s
    · rw [if_pos hl] at h ⊢
      by_cases hg : (heap.Pop64 s).2 = goal
      · rw [if_pos hg] at h ⊢
        exact route_mono _ _ _ _ _ hr h
      · rw [if_neg hg] at h ⊢
        exact ih _ r f (by omega) h
    · rw [if_neg hl] at h ⊢
      exact h

/-- A result of `Find` with `float64` arithmetic is the same with any larger fuel. -/
theorem Find64_mono (ord : Nat → List (Int × Int) → List (Int × Int)) (P : Interface)
    (start goal : Int) (fuel fuel' : Nat) (r : List Int) (hf : fuel ≤ fuel')
    (h : Find64 ord fuel P start goal = some r) : Find64 ord fuel' P start goal = some r :=
  loop64_mono ord P goal fuel fuel' hf fuel _ r fuel' hf h

theorem iterate_bounded {P : Interface} {V : Finset Int} {start goal : Int} {M H : Int}
    {ord : Nat → List (Int × Int) → List (Int × Int)} (hord : Enumeration ord)
    (hfg : FiniteGraph P V) (hnn : NonNegative P V) (hex : Exact P V goal M H)
    (hst : start ∈ V) :
    ∀ m, (∀ j, j < m → ¬ Halts goal ((expand ord P goal)^[j] (Astar.start P start goal))) →
      WF P V start goal ((expand ord P goal)^[m] (Astar.start P start goal)) ∧
      Settled P goal ((expand ord P goal)^[m] (Astar.start P start goal)) ∧
      Bounded V M H ((expand ord P goal)^[m] (Astar.start P start goal)) := by
  intro m
  induction m with
  | zero =>
    intro _
    obtain ⟨hw, hs⟩ := start_spec P V start goal hst
    exact ⟨hw, hs, bounded_start hex start hst⟩
  | succ m ih =>
    intro hrun
    obtain ⟨hw, hs, hb⟩ := ih (fun j hj => hrun j (Nat.lt_succ_of_lt hj))
    have hH := hrun m (Nat.lt_succ_self m)
    unfold Halts at hH
    rw [not_or] at hH
    have hpos : 0 < ((expand ord P goal)^[m] (Astar.start P start goal)).openset.length := by
      omega
    have he := expand_spec hord hfg hnn hw hs hpos hH.2
    have hx := expand64_eq hord hfg hnn hex hw hb hpos
    rw [Function.iterate_succ_apply']
    exact ⟨he.1, he.2.1, hx.2⟩

theorem small_lt_MaxFloat64 : (9007199254740992 : Int) < MaxFloat64 := by decide

/-- On the domain `Exact`, when the open set has run empty no known point of cost
below `math.MaxFloat64` has a path to the goal along edges of cost below
`math.MaxFloat64`. -/
theorem closed_no_path {P : Interface} {V : Finset Int} {start goal : Int} {f : Search}
    {M H : Int} (hex : Exact P V goal M H) (h : WF P V start goal f) (hs : Settled P goal f)
    (hb : Bounded V M H f) (ho : f.openset = []) (q : List Int) :
    ∀ u, PassableFromTo P u goal q → IsKnown f.known u → costOf f.known u < MaxFloat64 →
      False := by
  obtain ⟨hM, hEdge, hEst, hB⟩ := hex
  have hBn := bounded_nonneg hb
  have hsm := small_lt_MaxFloat64
  have hH0 : 0 ≤ H := by
    have := hEst start (h.knownIn start h.startKnown)
    omega
  have hrc : (relaxedCount V f : Int) ≤ (V.card : Int) := by
    exact_mod_cast relaxedCount_le_card V f
  have hmulc : M * (relaxedCount V f : Int) ≤ M * (V.card : Int) :=
    Int.mul_le_mul_of_nonneg_left hrc hM
  induction q with
  | nil => intro u hq _ _; have := hq.2.1; simp at this
  | cons a q ih =>
    intro u hq hu hlt
    have hau : a = u := by
      have := hq.2.1; simp at this; exact this
    subst hau
    have hopen : a ∉ f.openset := by rw [ho]; exact List.not_mem_nil a
    have hset := hs a hu hopen hlt
    cases q with
    | nil =>
      have : a = goal := by
        have := hq.2.2; simp at this; exact this
      exact hset.1 this
    | cons b rest =>
      obtain ⟨hc, _, hl⟩ := hq
      rw [List.chain'_cons] at hc
      obtain ⟨e, hent, he1, he2⟩ := hc.1
      have ht : PassableFromTo P b goal (b :: rest) :=
        ⟨hc.2, rfl, by rw [List.getLast?_cons_cons] at hl; exact hl⟩
      have hbk := hset.2 e hent
      have hcM : e.2 ≤ M := by
        rcases hEdge a (h.knownIn a hu) e hent with h1 | h1
        · exact h1
        · omega
      have hab := hb.cost a hu hlt
      rw [he1] at hbk
      exact ih b ht hbk.1 (by omega)

/-- On the domain `Exact`, a result of `Find` for a goal that can be reached from
the start along edges of cost below `math.MaxFloat64` is not `nil`. -/
theorem nonnil_of_reachable {P : Interface} {V : Finset Int} {start goal : Int} {M H : Int}
    {ord : Nat → List (Int × Int) → List (Int × Int)} (hord : Enumeration ord)
    (hfg : FiniteGraph P V) (hnn : NonNegative P V) (hex : Exact P V goal M H)
    (hst : start ∈ V) (hreach : ∃ p, PassableFromTo P start goal p) (fuel : Nat)
    (r : List Int) (hF : Find ord fuel P start goal = some r) : r ≠ [] := by
  obtain ⟨m, r0, N, hw, hs, _, hrun, _, hF0, hres⟩ :=
    @Find_spec P V start goal ord hord hfg hnn hst
  have hrr : r = r0 := Find_unique ord P start goal fuel N r r0 hF (hF0 N (le_refl N))
  have hb := (iterate_bounded hord hfg hnn hex hst m hrun).2.2
  rcases hres with ⟨ho, _⟩ | ⟨_, _, hne, _⟩
  · obtain ⟨q, hq⟩ := hreach
    have hsc := hw.startCost
    have := MaxFloat64_pos
    exact absurd (closed_no_path hex hw hs hb ho q start hq hw.startKnown (by omega)) id
  · rw [hrr]; exact hne

/-- With a consistent heuristic, every route that `Find` returns (in exact
arithmetic) is a path of least summed edge cost. -/
theorem optimal_of_consistent {P : Interface} {V : Finset Int} {start goal : Int}
    {ord : Nat → List (Int × Int) → List (Int × Int)} (hord : Enumeration ord)
    (hfg : FiniteGraph P V) (hnn : NonNegative P V) (huk : UniqueKeys P V)
    (hcons : Consistent P V goal) (hst : start ∈ V)
    (fuel : Nat) (r : List Int) (hF : Find ord fuel P start goal = some r) (hr : r ≠ []) :
    PathFromTo P start goal r ∧
      ∀ q, PathFromTo P start goal q → pathCost P r ≤ pathCost P q := by
  obtain ⟨m, r0, N, hw, hs, _, _, _, hF0, hres⟩ := @Find_spec P V start goal ord hord hfg hnn hst
  have hrr : r = r0 := Find_unique ord P start goal fuel N r r0 hF (hF0 N (le_refl N))
  generalize (expand ord P goal)^[m] (Astar.start P start goal) = f at hw hs hres
  have hsc := hw.startCost
  rcases hres with ⟨_, h0⟩ | ⟨hgo, hmin, _, hh, hl, hch⟩
  · rw [hrr] at hr; exact absurd h0 hr
  · rw [hrr]
    refine ⟨⟨chain_isPath hw r0 hch, hh, hl⟩, ?_⟩
    intro q hq
    have hcost := chain_cost hw huk r0 start goal hh hl hch
    have hgl := hw.openLt goal hgo
    rcases path_frontier hfg hnn hw hs q start hq hw.startKnown with h1 | ⟨w, hw', q', hq', h1⟩
    · omega
    · have h2 := hmin w hw'
      rw [hw.fgh goal hgo, hw.fgh w hw'] at h2
      have h3 := consistent_path hfg hcons q' w (hw.knownIn w (mem_known_of_idx hw.idx hw')) hq'
      omega

/-- C1 (amended): for every finite graph whose edge costs are whole numbers, each
between 0 and `M` or at least `math.MaxFloat64` (a blocked edge), every consistent
heuristic whose values are whole numbers between `-H` and `H`, with
`M * |V| + H < 2^53` (the domain `Exact`, on which every `float64` sum that `Find`
keeps is exact), and every start and goal with the goal reachable from the start
along edges that are not blocked, `Find` with `float64` arithmetic returns, with any
enumeration order and given enough fuel, a path from start to goal whose summed edge
cost is at most that of every path from start to goal.  Admissibility is not
needed. -/
theorem Find64_optimal {P : Interface} {V : Finset Int} {start goal : Int} {M H : Int}
    {ord : Nat → List (Int × Int) → List (Int × Int)} (hord : Enumeration ord)
    (hfg : FiniteGraph P V) (hnn : NonNegative P V) (huk : UniqueKeys P V)
    (hex : Exact P V goal M H) (hcons : Consistent P V goal) (hst : start ∈ V)
    (hreach : ∃ p, PassableFromTo P start goal p) :
    ∃ r, (∃ N, ∀ fuel, N ≤ fuel → Find64 ord fuel P start goal = some r) ∧
      PathFromTo P start goal r ∧
      ∀ q, PathFromTo P start goal q → pathCost P r ≤ pathCost P q := by
  obtain ⟨m, r, N, _, _, _, _, _, hF, _⟩ := @Find_spec P V start goal ord hord hfg hnn hst
  have hne := nonnil_of_reachable hord hfg hnn hex hst hreach N r (hF N (le_refl N))
  refine ⟨r, ⟨N, fun fuel hf => ?_⟩,
    optimal_of_consistent hord hfg hnn huk hcons hst N r (hF N (le_refl N)) hne⟩
  rw [Find64_eq_Find hord hfg hnn hex hst]
  exact hF fuel hf

set_option maxRecDepth 100000 in
set_option exponentiation.threshold 2000 in
/-- Witness for C1 (amended) on the graph `detour` (edges `0 → 1` and `1 → 3` of
cost 1, `0 → 2` of cost 1, `2 → 3` of cost 4, and the blocked edge `0 → 3` of cost
`math.MaxFloat64`; heuristic 0), from 0 to 3, with `M = 4` and `H = 0`: the route is
`[0, 1, 3]`. -/
theorem Find64_optimal_witness :
    Enumeration reversed ∧ FiniteGraph detour {0, 1, 2, 3} ∧ NonNegative detour {0, 1, 2, 3} ∧
      UniqueKeys detour {0, 1, 2, 3} ∧ Exact detour {0, 1, 2, 3} 3 4 0 ∧
      Consistent detour {0, 1, 2, 3} 3 ∧ PassableFromTo detour 0 3 [0, 2, 3] ∧
      (3, MaxFloat64) ∈ (detour.Adjacent 0).1 ∧
      Find64 reversed 4 detour 0 3 = some [0, 1, 3] ∧
      ∃ r, (∃ N, ∀ fuel, N ≤ fuel → Find64 reversed fuel detour 0 3 = some r) ∧
        PathFromTo detour 0 3 r ∧
        ∀ q, PathFromTo detour 0 3 q → pathCost detour r ≤ pathCost detour q :=
  ⟨reversed_enumeration, by decide, by decide, by decide, by decide, by decide, by decide,
    by decide, by decide,
    Find64_optimal (V := {0, 1, 2, 3}) (M := 4) (H := 0) reversed_enumeration (by decide)
      (by decide) (by decide) (by decide) (by decide) (by decide) ⟨[0, 2, 3], by decide⟩⟩


/-! ### Where rounding and `math.MaxFloat64` make `Find` miss the least cost -/

theorem rounding_admissible : Admissible rounding {0, 1, 2} 2 := by
  intro u hu p hp
  exact pathCost_nonneg (V := {0, 1, 2}) (by decide) (by decide) p u 2 hu hp

set_option maxRecDepth 100000 in
set_option exponentiation.threshold 2000 in
/-- Counterexample to C1 as stated, from rounding: on the graph `rounding` (edges
`0 → 1` of cost 3, `0 → 2` of cost `2^53 + 4`, `1 → 2` of cost `2^53`; heuristic 0,
which is admissible and consistent) the goal 2 is reachable from 0, the path 0, 1, 2
costs `2^53 + 3`, and `Find` returns `[0, 2]`, of cost `2^53 + 4`: the `float64` sum
`2^53 + 3` is `2^53 + 4`, which is not below the cost that the point 2 already has.
And from `math.MaxFloat64`: on the graph `wall` (one edge `0 → 1` of that cost) the
goal 1 is reachable from 0 and `Find` returns `nil`. -/
theorem Find64_rounding_suboptimal :
    FiniteGraph rounding {0, 1, 2} ∧ NonNegative rounding {0, 1, 2} ∧
      UniqueKeys rounding {0, 1, 2} ∧ Consistent rounding {0, 1, 2} 2 ∧
      Admissible rounding {0, 1, 2} 2 ∧ PathFromTo rounding 0 2 [0, 1, 2] ∧
      pathCost rounding [0, 1, 2] = 9007199254740995 ∧
      F64.add 9007199254740992 3 = 9007199254740996 ∧
      (∀ fuel, 3 ≤ fuel → Find64 inOrder fuel rounding 0 2 = some [0, 2]) ∧
      (∀ fuel, 3 ≤ fuel → Find64 reversed fuel rounding 0 2 = some [0, 2]) ∧
      pathCost rounding [0, 2] = 9007199254740996 ∧
      FiniteGraph wall {0, 1} ∧ NonNegative wall {0, 1} ∧ Consistent wall {0, 1} 1 ∧
      PathFromTo wall 0 1 [0, 1] ∧
      ∀ fuel, 2 ≤ fuel → Find64 inOrder fuel wall 0 1 = some [] := by
  refine ⟨by decide, by decide, by decide, by decide, rounding_admissible, by decide,
    by decide, by decide, ?_, ?_, by decide, by decide, by decide, by decide, by decide, ?_⟩
  · intro fuel hf
    exact Find64_mono inOrder rounding 0 2 3 fuel _ hf (by decide)
  · intro fuel hf
    exact Find64_mono reversed rounding 0 2 3 fuel _ hf (by decide)
  · intro fuel hf
    exact Find64_mono inOrder wall 0 1 2 fuel _ hf (by decide)

/-- C4 (amended): for every finite graph whose edge costs are whole numbers, each
between 0 and `M` or at least `math.MaxFloat64` (a blocked edge), every heuristic
whose values are whole numbers between `-H` and `H`, with `M * |V| + H < 2^53` (the
domain `Exact`), with any enumeration order: if `Find` with `float64` arithmetic
returns `nil` then there is no path from start to goal along edges that are not
blocked; and whenever the goal is reachable from the start along such edges, `Find`
returns a non-empty route. -/
theorem Find64_complete {P : Interface} {V : Finset Int} {start goal : Int} {M H : Int}
    {ord : Nat → List (Int × Int) → List (Int × Int)} (hord : Enumeration ord)
    (hfg : FiniteGraph P V) (hnn : NonNegative P V) (hex : Exact P V goal M H)
    (hst : start ∈ V) :
    (∀ fuel, Find64 ord fuel P start goal = some [] → ¬ ∃ p, PassableFromTo P start goal p) ∧
    ((∃ p, PassableFromTo P start goal p) →
      ∃ r, r ≠ [] ∧ ∃ N, ∀ fuel, N ≤ fuel → Find64 ord fuel P start goal = some r) := by
  constructor
  · intro fuel hF hreach
    rw [Find64_eq_Find hord hfg hnn hex hst] at hF
    exact nonnil_of_reachable hord hfg hnn hex hst hreach fuel [] hF rfl
  · intro hreach
    obtain ⟨m, r, N, _, _, _, _, _, hF, _⟩ := @Find_spec P V start goal ord hord hfg hnn hst
    refine ⟨r, nonnil_of_reachable hord hfg hnn hex hst hreach N r (hF N (le_refl N)), N, ?_⟩
    intro fuel hf
    rw [Find64_eq_Find hord hfg hnn hex hst]
    exact hF fuel hf

set_option maxRecDepth 100000 in
set_option exponentiation.threshold 2000 in
/-- Witness for C4 (amended) on the test's 4x4 grid with cell value 1 and the cell 10
blocked, from 0 to 15, with `M = 1` and `H = 6`, every map enumerated in reverse
order: 0, 5, 6, 11, 15 is a path along edges that are not blocked, and `Find` returns
the non-empty route `[0, 5, 9, 14, 15]`. -/
theorem Find64_complete_witness :
    Enumeration reversed ∧ FiniteGraph ((uniform 1).put 10 MaxFloat64).problem (Finset.Icc 0 15) ∧
      NonNegative ((uniform 1).put 10 MaxFloat64).problem (Finset.Icc 0 15) ∧
      Exact ((uniform 1).put 10 MaxFloat64).problem (Finset.Icc 0 15) 15 1 6 ∧
      (10, MaxFloat64) ∈ (((uniform 1).put 10 MaxFloat64).problem.Adjacent 5).1 ∧
      PassableFromTo ((uniform 1).put 10 MaxFloat64).problem 0 15 [0, 5, 6, 11, 15] ∧
      Find64 reversed 5 ((uniform 1).put 10 MaxFloat64).problem 0 15 = some [0, 5, 9, 14, 15] ∧
      ((∀ fuel, Find64 reversed fuel ((uniform 1).put 10 MaxFloat64).problem 0 15 = some [] →
          ¬ ∃ p, PassableFromTo ((uniform 1).put 10 MaxFloat64).problem 0 15 p) ∧
      ((∃ p, PassableFromTo ((uniform 1).put 10 MaxFloat64).problem 0 15 p) →
        ∃ r, r ≠ [] ∧ ∃ N, ∀ fuel, N ≤ fuel →
          Find64 reversed fuel ((uniform 1).put 10 MaxFloat64).problem 0 15 = some r)) :=
  ⟨reversed_enumeration, by decide, by decide, by decide, by decide, by decide, by decide,
    Find64_complete (V := Finset.Icc 0 15) (M := 1) (H := 6) reversed_enumeration (by decide)
      (by decide) (by decide) (by decide)⟩

set_option maxRecDepth 100000 in
set_option exponentiation.threshold 2000 in
/-- Counterexample to C4 as stated.  On the test's 4x4 grid with the third row
blocked (non-negative edge costs) 0, 5, 10, 15 is a path along the edges reported by
`Adjacent`, and `Find` returns `nil`, as the test itself asserts.  On the graph
`overflowing` the path 0, 1, 2 has a summed edge cost below `math.MaxFloat64`, the
`float64` sum of its two costs is `math.MaxFloat64`, which is not below the cost the
point 2 is created with, and `Find` returns `nil`. -/
theorem Find64_nil_despite_path :
    FiniteGraph barrier.problem (Finset.Icc 0 15) ∧
      NonNegative barrier.problem (Finset.Icc 0 15) ∧
      PathFromTo barrier.problem 0 15 [0, 5, 10, 15] ∧
      Find64 inOrder 100 barrier.problem 0 15 = some [] ∧
      FiniteGraph overflowing {0, 1, 2} ∧ NonNegative overflowing {0, 1, 2} ∧
      PathFromTo overflowing 0 2 [0, 1, 2] ∧ pathCost overflowing [0, 1, 2] < MaxFloat64 ∧
      F64.add (edgeCost overflowing 1 2) (edgeCost overflowing 0 1) = MaxFloat64 ∧
      ∀ fuel, 3 ≤ fuel → Find64 inOrder fuel overflowing 0 2 = some [] := by
  refine ⟨by decide, by decide, by decide, by decide, by decide, by decide, by decide,
    by decide, by decide, ?_⟩
  intro fuel hf
  exact Find64_mono inOrder overflowing 0 2 3 fuel _ hf (by decide)

/-! ### An admissible heuristic that is not consistent, and a route above the least cost -/

theorem roundingInconsistent_admissible : Admissible roundingInconsistent {0, 1, 2} 2 := by
  have hfg : FiniteGraph roundingInconsistent {0, 1, 2} := by decide
  have hnn : NonNegative roundingInconsistent {0, 1, 2} := by decide
  intro u hu p hp
  by_cases h0 : u = 0
  · subst h0
    have e : roundingInconsistent.Estimate 0 2 = 5 := rfl
    rw [e]
    cases p with
    | nil => have := hp.2.1; simp at this
    | cons a p1 =>
      have ha : a = 0 := by simpa using hp.2.1
      subst ha
      cases p1 with
      | nil => have := hp.2.2; simp at this
      | cons b p2 =>
        obtain ⟨he, ht⟩ := path_tail hp
        have hb : b = 1 ∨ b = 2 := by
          have : b ∈ ([1, 2] : List Int) := he
          simpa using this
        have hrest := pathCost_nonneg hfg hnn _ b 2 (by rcases hb with rfl | rfl <;> decide) ht
        rw [pathCost_cons_cons]
        rcases hb with rfl | rfl
        · have e1 : edgeCost roundingInconsistent 0 1 = 3 := by decide
          rw [e1]
          cases p2 with
          | nil => have := ht.2.2; simp at this
          | cons c p3 =>
            obtain ⟨he2, ht2⟩ := path_tail ht
            have hc : c = 2 := by
              have : c ∈ ([2] : List Int) := he2
              simpa using this
            subst hc
            have hrest2 := pathCost_nonneg hfg hnn _ 2 2 (by decide) ht2
            rw [pathCost_cons_cons]
            have e2 : edgeCost roundingInconsistent 1 2 = 9007199254740992 := by decide
            rw [e2]
            omega
        · have e1 : edgeCost roundingInconsistent 0 2 = 9007199254740996 := by decide
          rw [e1]
          omega
  · have e : roundingInconsistent.Estimate u 2 = 0 := by
      show (if u = 0 then (5 : Int) else 0) = 0
      rw [if_neg h0]
    rw [e]
    exact pathCost_nonneg hfg hnn p u 2 hu hp

set_option maxRecDepth 100000 in
set_option exponentiation.threshold 2000 in
/-- C19: there is a finite graph with non-negative edge costs and a heuristic that is
admissible (non-negative, zero at the goal, never above the cost of a path to the
goal) and not consistent, with a start and a reachable goal, for which `Find` returns
a route whose summed edge cost is greater than the least path cost.  On the graph
`roundingInconsistent` (edges `0 → 1` of cost 3, `0 → 2` of cost `2^53 + 4`, `1 → 2`
of cost `2^53`; heuristic 5 at 0 and 0 elsewhere, with `5 > 3 + 0` on the edge
`0 → 1`), from 0 to 2, `Find` returns `[0, 2]` of cost `2^53 + 4`, with the maps
enumerated in either order, and the path 0, 1, 2 costs `2^53 + 3`. -/
theorem Find64_suboptimal_inconsistent :
    FiniteGraph roundingInconsistent {0, 1, 2} ∧ NonNegative roundingInconsistent {0, 1, 2} ∧
      UniqueKeys roundingInconsistent {0, 1, 2} ∧
      (∀ u ∈ ({0, 1, 2} : Finset Int), 0 ≤ roundingInconsistent.Estimate u 2) ∧
      roundingInconsistent.Estimate 2 2 = 0 ∧
      Admissible roundingInconsistent {0, 1, 2} 2 ∧
      ¬ Consistent roundingInconsistent {0, 1, 2} 2 ∧
      PathFromTo roundingInconsistent 0 2 [0, 1, 2] ∧
      (∀ fuel, 3 ≤ fuel → Find64 inOrder fuel roundingInconsistent 0 2 = some [0, 2]) ∧
      (∀ fuel, 3 ≤ fuel → Find64 reversed fuel roundingInconsistent 0 2 = some [0, 2]) ∧
      PathFromTo roundingInconsistent 0 2 [0, 2] ∧
      pathCost roundingInconsistent [0, 1, 2] < pathCost roundingInconsistent [0, 2] := by
  refine ⟨by decide, by decide, by decide, by decide, by decide,
    roundingInconsistent_admissible, by decide, by decide, ?_, ?_, by decide, by decide⟩
  · intro fuel hf
    exact Find64_mono inOrder roundingInconsistent 0 2 3 fuel _ hf (by decide)
  · intro fuel hf
    exact Find64_mono reversed roundingInconsistent 0 2 3 fuel _ hf (by decide)

/-! ### A `NaN` estimate breaks the heap order -/

set_option maxRecDepth 100000 in
set_option exponentiation.threshold 2000 in
/-- Counterexample to C13 as stated: on the problem `nanEstimate`, whose `Estimate`
returns a `NaN` for the label 1, the first iteration of `Find` (from 0, towards 9)
does not return and leaves the heap `[1, 2, 3]` with the estimates `NaN`, 6 and 4.
The estimate of the root is not `<=` the estimate of either child, and the next
`heap.Pop` returns the point 1, whose estimate is not `<=` that of the points 3 and
2 left in the open set. -/
theorem heap_order_fails_with_NaN :
    0 < minheap.Len (start64 nanEstimate 0 9) ∧
      (heap.Pop64 (start64 nanEstimate 0 9)).2 ≠ 9 ∧
      (expand64 inOrder nanEstimate 9 (start64 nanEstimate 0 9)).openset = [1, 2, 3] ∧
      (expand64 inOrder nanEstimate 9 (start64 nanEstimate 0 9)).openset.map
        (estimateOf (expand64 inOrder nanEstimate 9 (start64 nanEstimate 0 9)).known) =
        [F64.nan, 6, 4] ∧
      F64.isNaN F64.nan = true ∧
      F64.le (estimateOf (expand64 inOrder nanEstimate 9 (start64 nanEstimate 0 9)).known 1)
        (estimateOf (expand64 inOrder nanEstimate 9 (start64 nanEstimate 0 9)).known 2) =
        false ∧
      F64.le (estimateOf (expand64 inOrder nanEstimate 9 (start64 nanEstimate 0 9)).known 1)
        (estimateOf (expand64 inOrder nanEstimate 9 (start64 nanEstimate 0 9)).known 3) =
        false ∧
      (heap.Pop64 (expand64 inOrder nanEstimate 9 (start64 nanEstimate 0 9))).2 = 1 ∧
      (heap.Pop64 (expand64 inOrder nanEstimate 9 (start64 nanEstimate 0 9))).1.openset =
        [3, 2] := by
  decide


/-! ### `heap.Fix` after any change of an estimate -/

theorem upInv_of_heapOrd {s : Search} {n : Nat} (h : HeapOrd s n) (j : Nat) : UpInv s n j := by
  constructor
  · intro x hx hxn _
    exact h x hx hxn
  · intro x hx hxn hp hj
    have h1 := h x hx hxn
    have h2 := h j hj (by omega)
    rw [hp] at h1
    omega

/-- When the estimate in slot `i` was raised in a heap, `heap.Fix` restores the heap
order (`down` does the work, and `up` then finds nothing to move). -/
theorem heapFix_heapOrd_raised (s : Search) (i : Nat) (hi : i < s.openset.length)
    (hidx : IdxInv s) (h : DownInv s s.openset.length i) :
    HeapOrd (heap.Fix s i) s.openset.length := by
  have hd : HeapOrd (heap.down s i (minheap.Len s)).1 s.openset.length :=
    downLoop_heapOrd s.openset.length s i s.openset.length (by omega) (le_refl _) hi h
  have hs := down_spec s i (minheap.Len s) (le_refl _) hi hidx
  unfold heap.Fix
  simp only
  split
  · exact hd
  · have hlen : (heap.down s i (minheap.Len s)).1.openset.length = s.openset.length := hs.1.len
    have := upLoop_heapOrd (i + 1) (heap.down s i (minheap.Len s)).1 i (by omega)
      (by rw [hlen]; exact hi) (by rw [hlen]; exact upInv_of_heapOrd hd i)
    rw [hlen] at this
    exact this

/-- The assignments of a relaxation with any new estimate `e`, followed by
`heap.Push` or `heap.Fix`, on a state with back-pointers and heap order. -/
theorem improved_of_setCost (s u : Search) (k cur c e : Int) (hidx : IdxInv s)
    (hheap : HeapOrd s s.openset.length) (hk : IsKnown s.known k)
    (ho2 : u.openset = s.openset) (hkn2 : u.known = setCost s.known k c e)
    (hp2 : u.predecessor = mapSet s.predecessor k cur) (hpops2 : u.pops = s.pops) :
    Improved s
      (if indexOf u.known k = -1 then heap.Push u k
      else heap.Fix u (indexOf u.known k).toNat)
      k cur c e := by
  have hK : ∀ l, IsKnown u.known l ↔ IsKnown s.known l := by
    intro l; rw [hkn2, isKnown_setCost]
  have hI : ∀ l, indexOf u.known l = indexOf s.known l := by
    intro l; rw [hkn2, indexOf_setCost]
  have hC : ∀ l, costOf u.known l = if l = k then c else costOf s.known l := by
    intro l
    rw [hkn2]
    by_cases hl : l = k
    · rw [if_pos hl, hl]; exact costOf_setCost_self _ _ _ _ hk
    · rw [if_neg hl]; exact costOf_setCost_ne _ _ _ _ _ hl
  have hE : ∀ l, estimateOf u.known l = if l = k then e else estimateOf s.known l := by
    intro l
    rw [hkn2]
    by_cases hl : l = k
    · rw [if_pos hl, hl]; exact estimateOf_setCost_self _ _ _ _ hk
    · rw [if_neg hl]; exact estimateOf_setCost_ne _ _ _ _ _ hl
  have hidx2 : IdxInv u := by
    refine ⟨?_, ?_, ?_⟩
    · intro i j l hi hj; rw [ho2] at hi hj; exact hidx.inj i j l hi hj
    · intro i l hi
      rw [ho2] at hi
      rw [hK, hI]
      exact hidx.back i l hi
    · intro l hl hm
      rw [ho2] at hm
      rw [hK] at hl
      rw [hI]
      exact hidx.closed l hl hm
  by_cases hneg : indexOf u.known k = -1
  · rw [if_pos hneg]
    have hnot : k ∉ s.openset := by
      intro hm
      obtain ⟨x, hx⟩ := List.mem_iff_getElem?.1 hm
      have := (hidx.back x k hx).2
      rw [hI] at hneg
      rw [hneg] at this
      omega
    have hp := heapPush_spec u k hidx2 ((hK k).2 hk) (by rw [ho2]; exact hnot)
    have hord2 : HeapOrd u u.openset.length := by
      rw [ho2]
      intro x hx hxn
      have e1 : ∀ y, y < s.openset.length → est u y = est s y := by
        intro y hy
        unfold est
        rw [ho2, hE, if_neg]
        intro e'
        rw [List.getD_eq_getElem _ _ hy] at e'
        exact hnot (e' ▸ List.getElem_mem _)
      rw [e1 x hxn, e1 _ (by omega)]
      exact hheap x hx hxn
    have hh := heapPush_heapOrd u k hord2
    refine ⟨fun l => (hp.1.known l).trans (hK l), fun l => (hp.1.cost l).trans (hC l),
      fun l => (hp.1.est l).trans (hE l), hp.1.pred.trans hp2, hp.1.pops.trans hpops2, ?_, ?_,
      hp.2, ?_⟩
    · intro l; rw [hp.1.mem l, ho2]
    · right; exact ⟨hnot, by rw [hp.1.len, ho2]⟩
    · rw [hp.1.len]; exact hh
  · rw [if_neg hneg]
    have hin : k ∈ s.openset := by
      by_contra hm
      exact hneg (by rw [hI]; exact hidx.closed k hk hm)
    obtain ⟨x, hx⟩ := List.mem_iff_getElem?.1 hin
    have hxl : x < s.openset.length := by
      by_contra hcon
      rw [List.getElem?_eq_none (by omega)] at hx
      exact Option.noConfusion hx
    have hix : (indexOf u.known k).toNat = x := by
      rw [hI, (hidx.back x k hx).2]; simp
    rw [hix]
    have hf := heapFix_spec u x hidx2 (by rw [ho2]; exact hxl)
    have e1 : ∀ y, y < s.openset.length → est u y = if y = x then e else est s y := by
      intro y hy
      unfold est
      rw [ho2, hE]
      have hy' : s.openset[y]? = some (s.openset.getD y 0) := by
        rw [List.getD_eq_getElem _ _ hy]; exact List.getElem?_eq_getElem hy
      by_cases hyx : y = x
      · rw [if_pos hyx, if_pos]
        rw [hyx, getD_of_getElem? hx]
      · rw [if_neg hyx, if_neg]
        intro e'
        rw [e'] at hy'
        exact hyx (hidx.inj y x k hy' hx)
    have hh : HeapOrd (heap.Fix u x) u.openset.length := by
      by_cases hlow : e ≤ est s x
      · have hup : UpInv u u.openset.length x := by
          rw [ho2]
          constructor
          · intro y hy hyn hyx
            rw [e1 y hyn, e1 _ (show (y - 1) / 2 < s.openset.length by omega), if_neg hyx]
            have := hheap y hy hyn
            by_cases hp : (y - 1) / 2 = x
            · rw [if_pos hp]; rw [hp] at this; omega
            · rw [if_neg hp]; exact this
          · intro y hy hyn hyp hx0
            rw [e1 y hyn, e1 _ (show (x - 1) / 2 < s.openset.length by omega),
              if_neg (show y ≠ x by omega), if_neg (show (x - 1) / 2 ≠ x by omega)]
            have h1 := hheap y hy hyn
            have h2 := hheap x hx0 hxl
            rw [hyp] at h1
            omega
        exact heapFix_heapOrd u x (by rw [ho2]; exact hxl) hup
      · have hdn : DownInv u u.openset.length x := by
          rw [ho2]
          constructor
          · intro y hy hyn hyp
            rw [e1 y hyn, e1 _ (show (y - 1) / 2 < s.openset.length by omega), if_neg hyp]
            have := hheap y hy hyn
            by_cases hyx : y = x
            · rw [if_pos hyx, hyx]; rw [hyx] at this; omega
            · rw [if_neg hyx]; exact this
          · intro y hy hyn hyp hx0
            rw [e1 y hyn, e1 _ (show (x - 1) / 2 < s.openset.length by omega),
              if_neg (show y ≠ x by omega), if_neg (show (x - 1) / 2 ≠ x by omega)]
            have h1 := hheap y hy hyn
            have h2 := hheap x hx0 hxl
            rw [hyp] at h1
            omega
        exact heapFix_heapOrd_raised u x (by rw [ho2]; exact hxl) hidx2 hdn
    refine ⟨fun l => (hf.1.known l).trans (hK l), fun l => (hf.1.cost l).trans (hC l),
      fun l => (hf.1.est l).trans (hE l), hf.1.pred.trans hp2, hf.1.pops.trans hpops2, ?_, ?_,
      hf.2, ?_⟩
    · intro l
      rw [hf.1.mem l, ho2]
      constructor
      · exact Or.inl
      · rintro (h1 | h1)
        · exact h1
        · rw [h1]; exact hin
    · left; exact ⟨hin, by rw [hf.1.len, ho2]⟩
    · rw [hf.1.len]; exact hh


/-! ### The heap order of `Find` with `float64` arithmetic -/

theorem register_fields (s : Search) (k l : Int) :
    (estimateOf (register s k).known l = estimateOf s.known l ∧
      costOf (register s k).known l = costOf s.known l) ∨
    (l = k ∧ estimateOf (register s k).known l = 0 ∧
      costOf (register s k).known l = MaxFloat64) := by
  rcases register_cases s k with ⟨_, h⟩ | ⟨_, h⟩
  · rw [h]; exact Or.inl ⟨rfl, rfl⟩
  · rw [h]
    by_cases hl : l = k
    · right
      rw [hl]
      exact ⟨rfl, estimateOf_mapSet_self _ _ _, costOf_mapSet_self _ _ _⟩
    · left
      exact ⟨estimateOf_mapSet_ne _ _ _ _ hl, costOf_mapSet_ne _ _ _ _ hl⟩

theorem basic64_register {P : Interface} {S : Set Int} {goal : Int} {s : Search}
    (h : Basic64 P S goal s) (k : Int) (hk : k ∈ S) : Basic64 P S goal (register s k) := by
  have hi := F64_inf_pos
  refine ⟨idxInv_register h.idx k, heapOrd_register h.idx h.heap k, ?_, ?_, ?_⟩
  · intro l
    rcases register_fields s k l with ⟨e, _⟩ | ⟨_, e, _⟩
    · rw [e]; exact h.nonan l
    · rw [e]; exact (F64_isNaN_iff 0).2 ⟨by omega, by omega⟩
  · intro l hl
    rcases (isKnown_register s k l).1 hl with h1 | h1
    · exact h.knownIn l h1
    · rw [h1]; exact hk
  · rcases h.cost with hA | hB
    · exact Or.inl hA
    · right
      intro l
      rcases register_fields s k l with ⟨_, e⟩ | ⟨_, _, e⟩
      · rw [e]; exact hB l
      · rw [e]; exact ⟨le_of_lt MaxFloat64_pos, F64_max_lt_inf⟩

/-- One round of the `range` loop with `float64` arithmetic keeps the invariant
`Basic64`. -/
theorem basic64_relax {P : Interface} {S : Set Int} {goal : Int} {s : Search}
    (hP : NaNFree P S goal) (h : Basic64 P S goal s) (cur : Int) (kv : Int × Int)
    (hkS : kv.1 ∈ S)
    (hkv : (∀ u ∈ S, -F64.inf < P.Estimate u goal ∧ P.Estimate u goal < F64.inf) ∨
      (0 ≤ kv.2 ∧ kv.2 ≤ F64.inf)) :
    Basic64 P S goal (relax64 P goal cur s kv) := by
  have hi := F64_inf_pos
  have h1 := basic64_register h kv.1 hkS
  have hk1 : IsKnown (register s kv.1).known kv.1 := (isKnown_register s kv.1 kv.1).2 (Or.inr rfl)
  rw [relax64_unfold]
  by_cases hlt : F64.lt (F64.add kv.2 (costOf (register s kv.1).known cur))
      (costOf (register s kv.1).known kv.1) = true
  · rw [if_pos hlt]
    obtain ⟨hc1, hc2, hc3⟩ := F64_lt_true _ _ hlt
    generalize hc : F64.add kv.2 (costOf (register s kv.1).known cur) = c at hlt hc1 hc3
    have hcB : (∀ l : Int, 0 ≤ costOf (register s kv.1).known l ∧
        costOf (register s kv.1).known l < F64.inf) → 0 ≤ kv.2 ∧ kv.2 ≤ F64.inf →
        0 ≤ c ∧ c < F64.inf := by
      intro hB hv
      have hcur := hB cur
      have hk := hB kv.1
      have := F64_add_nonneg kv.2 (costOf (register s kv.1).known cur) hv.1 hv.2 hcur.1
        (by omega)
      rw [hc] at this
      exact ⟨this, by omega⟩
    have hcase : (∀ u ∈ S, -F64.inf < P.Estimate u goal ∧ P.Estimate u goal < F64.inf) ∨
        (0 ≤ c ∧ c < F64.inf) := by
      rcases h1.cost with hA | hB
      · exact Or.inl hA
      · rcases hkv with hA | hv
        · exact Or.inl hA
        · exact Or.inr (hcB hB hv)
    have he : F64.isNaN (F64.add c (P.Estimate kv.1 goal)) = false := by
      apply F64_add_noNaN c _ hc1 (hP.2.1 kv.1 hkS)
      · rintro ⟨e1, e2⟩
        rcases hcase with hA | hB
        · have := hA kv.1 hkS; omega
        · omega
      · rintro ⟨e1, e2⟩
        rcases hcase with hA | hB
        · have := hA kv.1 hkS; omega
        · omega
    have hE : ∀ l, estimateOf (improve64 P goal cur (register s kv.1) kv.1 c).known l =
        if l = kv.1 then F64.add c (P.Estimate kv.1 goal)
        else estimateOf (register s kv.1).known l := by
      intro l
      have hkn : (improve64 P goal cur (register s kv.1) kv.1 c).known =
          setCost (register s kv.1).known kv.1 c (F64.add c (P.Estimate kv.1 goal)) := rfl
      rw [hkn]
      by_cases hl : l = kv.1
      · rw [if_pos hl, hl]; exact estimateOf_setCost_self _ _ _ _ hk1
      · rw [if_neg hl]; exact estimateOf_setCost_ne _ _ _ _ _ hl
    have hnan : NoNaN (improve64 P goal cur (register s kv.1) kv.1 c) := by
      intro l
      rw [hE]
      split
      · exact he
      · exact h1.nonan l
    rw [Push64_eq hnan, Fix64_eq hnan]
    have himp := improved_of_setCost (register s kv.1)
      (improve64 P goal cur (register s kv.1) kv.1 c) kv.1 cur c
      (F64.add c (P.Estimate kv.1 goal)) h1.idx h1.heap hk1 rfl rfl rfl rfl
    refine ⟨himp.idx, himp.heap, ?_, ?_, ?_⟩
    · intro l
      rw [himp.est l]
      split
      · exact he
      · exact h1.nonan l
    · intro l hl
      exact h1.knownIn l ((himp.known l).1 hl)
    · rcases h1.cost with hA | hB
      · exact Or.inl hA
      · rcases hkv with hA | hv
        · exact Or.inl hA
        · right
          intro l
          rw [himp.cost l]
          split
          · exact hcB hB hv
          · exact hB l
  · rw [if_neg hlt]
    exact h1

theorem basic64_fold {P : Interface} {S : Set Int} {goal : Int} (hP : NaNFree P S goal)
    (cur : Int) (L : List (Int × Int)) (hS : ∀ kv ∈ L, kv.1 ∈ S)
    (hL : (∀ u ∈ S, -F64.inf < P.Estimate u goal ∧ P.Estimate u goal < F64.inf) ∨
      ∀ kv ∈ L, 0 ≤ kv.2 ∧ kv.2 ≤ F64.inf) :
    ∀ s : Search, Basic64 P S goal s →
      Basic64 P S goal (L.foldl (relax64 P goal cur) s) := by
  induction L with
  | nil => intro s h; exact h
  | cons e L ih =>
    intro s h
    rw [List.foldl_cons]
    refine ih (fun kv hkv => hS kv (List.mem_cons_of_mem e hkv)) ?_ _
      (basic64_relax hP h cur e (hS e (List.mem_cons_self e L)) ?_)
    · rcases hL with hA | hB
      · exact Or.inl hA
      · exact Or.inr (fun kv hkv => hB kv (List.mem_cons_of_mem e hkv))
    · rcases hL with hA | hB
      · exact Or.inl hA
      · exact Or.inr (hB e (List.mem_cons_self e L))

theorem basic64_pop {P : Interface} {S : Set Int} {goal : Int} {s : Search}
    (h : Basic64 P S goal s) (hpos : 0 < s.openset.length) (t : Search)
    (ho : t.openset = (heap.Pop64 s).1.openset) (hk : t.known = (heap.Pop64 s).1.known) :
    Basic64 P S goal t ∧ (heap.Pop64 s).2 ∈ S := by
  rw [Pop64_eq h.nonan] at ho hk ⊢
  have hpop := heapPop_spec s h.idx hpos
  have hord := heapPop_heapOrd s h.idx hpos h.heap
  have hpp := hpop.1
  have hlen : t.openset.length + 1 = s.openset.length := by rw [ho]; exact hpp.len
  refine ⟨⟨idxInv_congr hpop.2.1 ho hk, ?_, ?_, ?_, ?_⟩,
    h.knownIn _ (mem_known_of_idx h.idx hpp.was)⟩
  · have : t.openset.length = s.openset.length - 1 := by omega
    rw [this]
    exact heapOrd_congr hord.1 ho hk
  · intro l
    rw [hk, hpp.est]
    exact h.nonan l
  · intro l hl
    rw [hk, hpp.known] at hl
    exact h.knownIn l hl
  · rcases h.cost with hA | hB
    · exact Or.inl hA
    · right
      intro l
      rw [hk, hpp.cost]
      exact hB l

theorem basic64_start (P : Interface) (S : Set Int) (st goal : Int) (hst : st ∈ S)
    (hP : NaNFree P S goal) : Basic64 P S goal (start64 P st goal) := by
  have hi := F64_inf_pos
  rw [start64_eq]
  have hw := (start_spec P {st} st goal (Finset.mem_singleton_self st)).1
  refine ⟨hw.idx, hw.heap, ?_, ?_, ?_⟩
  · intro l
    by_cases hl : l = st
    · have : estimateOf (Astar.start P st goal).known st = P.Estimate st goal := by
        rw [start_eq]; simp only; rw [estimateOf_setIndex, estimateOf_mapSet_self]
      rw [hl, this]
      exact hP.2.1 st hst
    · have : estimateOf (Astar.start P st goal).known l = 0 := by
        rw [start_eq]; simp only
        rw [estimateOf_setIndex, estimateOf_mapSet_ne _ _ _ _ hl]
        rfl
      rw [this]
      exact (F64_isNaN_iff 0).2 ⟨by omega, by omega⟩
  · intro l hl
    rw [(start_known P st goal l).1 hl]
    exact hst
  · right
    intro l
    by_cases hl : l = st
    · rw [hl, hw.startCost]; omega
    · have : costOf (Astar.start P st goal).known l = 0 := by
        rw [start_eq]; simp only
        rw [costOf_setIndex, costOf_mapSet_ne _ _ _ _ hl]
        rfl
      rw [this]; omega

theorem headState64_succ (ord : Nat → List (Int × Int) → List (Int × Int)) (P : Interface)
    (start goal : Int) (m : Nat) :
    headState64 ord P start goal (m + 1) =
      expand64 ord P goal (headState64 ord P start goal m) := by
  unfold headState64
  rw [Function.iterate_succ_apply']

theorem expand64_eq_midState64 (ord : Nat → List (Int × Int) → List (Int × Int))
    (P : Interface) (goal : Int) (s : Search) :
    expand64 ord P goal s =
      midState64 ord P goal s (ord s.pops.length (P.Adjacent (heap.Pop64 s).2).1).length := by
  unfold midState64
  rw [List.take_length]
  rfl

theorem runs64_pos {ord : Nat → List (Int × Int) → List (Int × Int)} {P : Interface}
    {start goal : Int} {m : Nat} (h : Runs64 ord P start goal (m + 1)) :
    0 < (headState64 ord P start goal m).openset.length := by
  have := h m (Nat.lt_succ_self m)
  unfold Halts64 at this
  rw [not_or] at this
  omega

theorem runs64_of_succ {ord : Nat → List (Int × Int) → List (Int × Int)} {P : Interface}
    {start goal : Int} {m : Nat} (h : Runs64 ord P start goal (m + 1)) :
    Runs64 ord P start goal m :=
  fun j hj => h j (Nat.lt_succ_of_lt hj)

/-- Inside an iteration of `Find` with `float64` arithmetic, after the pop and any
number of rounds of the `range` loop, the invariant `Basic64` holds. -/
theorem basic64_midState {P : Interface} {S : Set Int} {goal : Int} {s : Search}
    {ord : Nat → List (Int × Int) → List (Int × Int)} (hord : Enumeration ord)
    (hP : NaNFree P S goal) (h : Basic64 P S goal s) (hpos : 0 < s.openset.length) (i : Nat) :
    Basic64 P S goal (midState64 ord P goal s i) := by
  have hp := basic64_pop h hpos (popState64 s) rfl rfl
  have hsub : ∀ kv ∈ (ord s.pops.length (P.Adjacent (heap.Pop64 s).2).1).take i,
      kv ∈ (P.Adjacent (heap.Pop64 s).2).1 :=
    fun kv hkv => ((hord _ _).subset) (List.mem_of_mem_take hkv)
  refine basic64_fold hP _ _ (fun kv hkv => hP.1 _ hp.2 kv (hsub kv hkv)) ?_ _ hp.1
  rcases hP.2.2 with hA | hB
  · exact Or.inl hA
  · exact Or.inr (fun kv hkv => hB _ hp.2 kv (hsub kv hkv))

/-- At the head of every iteration that `Find` with `float64` arithmetic reaches, the
invariant `Basic64` holds. -/
theorem basic64_headState {ord : Nat → List (Int × Int) → List (Int × Int)}
    (hord : Enumeration ord) {P : Interface} {S : Set Int} {start goal : Int}
    (hst : start ∈ S) (hP : NaNFree P S goal) :
    ∀ m, Runs64 ord P start goal m →
      Basic64 P S goal (headState64 ord P start goal m) := by
  intro m
  induction m with
  | zero => intro _; exact basic64_start P S start goal hst hP
  | succ m ih =>
    intro hr
    rw [headState64_succ, expand64_eq_midState64]
    exact basic64_midState hord hP (ih (runs64_of_succ hr)) (runs64_pos hr) _

theorem heapOrd64_of {s : Search} {n : Nat} (h : HeapOrd s n) (hn : NoNaN s) :
    HeapOrd64 s n :=
  fun x hx hxn => F64_le_of _ _ (hn _) (hn _) (h x hx hxn)

theorem root_le64_of {s : Search} (h : HeapOrd s s.openset.length) (hn : NoNaN s) :
    ∀ a ∈ s.openset,
      F64.le (estimateOf s.known (s.openset.getD 0 0)) (estimateOf s.known a) = true := by
  intro a ha
  obtain ⟨x, hx⟩ := List.mem_iff_getElem?.1 ha
  have hxl : x < s.openset.length := by
    by_contra hc
    rw [List.getElem?_eq_none (by omega)] at hx
    exact Option.noConfusion hx
  have := heapOrd_root_le h x hxl
  unfold est at this
  rw [getD_of_getElem? hx] at this
  exact F64_le_of _ _ (hn _) (hn _) this

/-- A finite graph whose `Estimate` returns finite values on its vertices is
`NaNFree` on them. -/
theorem nanFree_of_finite {P : Interface} {V : Finset Int} {goal : Int}
    (hfg : FiniteGraph P V)
    (hv : ∀ u ∈ V, -F64.inf < P.Estimate u goal ∧ P.Estimate u goal < F64.inf) :
    NaNFree P (V : Set Int) goal := by
  refine ⟨fun a ha e he => Finset.mem_coe.2 (hfg a (Finset.mem_coe.1 ha) e he), ?_, Or.inl ?_⟩
  · intro u hu
    have := hv u (Finset.mem_coe.1 hu)
    exact (F64_isNaN_iff _).2 ⟨by omega, by omega⟩
  · intro u hu
    exact hv u (Finset.mem_coe.1 hu)

/-- C13 (amended): heap invariant of `Find` with `float64` sums and comparisons, on a
set `S` of labels that holds `start` and is closed under `Adjacent` (all labels, or
the vertices of a finite graph), provided that on `S` `Estimate` never returns a
`NaN` and either `Estimate` returns no infinity or every edge cost is at least 0
(`+Inf` allowed, a `NaN` not).  Then in every state that `Find` reaches, with any
enumeration order — at the head of each iteration (so after the first `heap.Push`),
after the `heap.Pop` of the iteration, and after each round of the `range` loop (so
after each completed `heap.Push` and `heap.Fix`) — every slot `x ≥ 1` of the open
set has an estimate at least that of its parent slot `(x - 1) / 2` in the `float64`
comparison `<=`, so the root has the least estimate; and the point that `heap.Pop`
returns has an estimate no greater than that of any point left in the open set. -/
theorem heap_invariant64 (ord : Nat → List (Int × Int) → List (Int × Int))
    (hord : Enumeration ord) (P : Interface) (S : Set Int) (start goal : Int)
    (hst : start ∈ S) (hP : NaNFree P S goal)
    (m : Nat) (s : Search) (hs : s = headState64 ord P start goal m)
    (hrun : Runs64 ord P start goal m) :
    HeapOrd64 s s.openset.length ∧
      (∀ a ∈ s.openset,
        F64.le (estimateOf s.known (s.openset.getD 0 0)) (estimateOf s.known a) = true) ∧
      (0 < s.openset.length →
        HeapOrd64 (heap.Pop64 s).1 (heap.Pop64 s).1.openset.length ∧
        (∀ a ∈ (heap.Pop64 s).1.openset,
          F64.le (estimateOf (heap.Pop64 s).1.known (heap.Pop64 s).2)
            (estimateOf (heap.Pop64 s).1.known a) = true) ∧
        ∀ i, HeapOrd64 (midState64 ord P goal s i) (midState64 ord P goal s i).openset.length ∧
          ∀ a ∈ (midState64 ord P goal s i).openset,
            F64.le
              (estimateOf (midState64 ord P goal s i).known
                ((midState64 ord P goal s i).openset.getD 0 0))
              (estimateOf (midState64 ord P goal s i).known a) = true) := by
  have hb : Basic64 P S goal s := by rw [hs]; exact basic64_headState hord hst hP m hrun
  refine ⟨heapOrd64_of hb.heap hb.nonan, root_le64_of hb.heap hb.nonan,
    fun hpos => ⟨?_, ?_, ?_⟩⟩
  · have := (basic64_pop hb hpos (heap.Pop64 s).1 rfl rfl).1
    exact heapOrd64_of this.heap this.nonan
  · intro a ha
    have hn := (basic64_pop hb hpos (heap.Pop64 s).1 rfl rfl).1.nonan
    refine F64_le_of _ _ (hn _) (hn _) ?_
    rw [Pop64_eq hb.nonan] at ha ⊢
    have hpp := (heapPop_spec s hb.idx hpos).1
    rw [hpp.est, hpp.est]
    exact (heapPop_heapOrd s hb.idx hpos hb.heap).2 a ((hpp.mem a).1 ha).1
  · intro i
    have := basic64_midState hord hP hb hpos i
    exact ⟨heapOrd64_of this.heap this.nonan, root_le64_of this.heap this.nonan⟩

set_option maxRecDepth 100000 in
set_option exponentiation.threshold 2000 in
/-- Witness for C13 (amended) on the 4x4 grid of the test with cell value 1, from 0 to
15, after two iterations of `Find` with `float64` arithmetic: the heap holds seven
points, with the estimates 4, 6, 5, 6, 6, 6, 5 in slot order. -/
theorem heap_invariant64_witness :
    Enumeration inOrder ∧ FiniteGraph (uniform 1).problem (Finset.Icc 0 15) ∧
      (∀ u ∈ Finset.Icc (0 : Int) 15, -F64.inf < (uniform 1).problem.Estimate u 15 ∧
        (uniform 1).problem.Estimate u 15 < F64.inf) ∧
      Runs64 inOrder (uniform 1).problem 0 15 2 ∧
      (headState64 inOrder (uniform 1).problem 0 15 2).openset = [10, 1, 6, 4, 8, 2, 9] ∧
      (headState64 inOrder (uniform 1).problem 0 15 2).openset.map
        (estimateOf (headState64 inOrder (uniform 1).problem 0 15 2).known) =
        [4, 6, 5, 6, 6, 6, 5] ∧
      HeapOrd64 (headState64 inOrder (uniform 1).problem 0 15 2)
        (headState64 inOrder (uniform 1).problem 0 15 2).openset.length ∧
      (∀ a ∈ (headState64 inOrder (uniform 1).problem 0 15 2).openset,
        F64.le
          (estimateOf (headState64 inOrder (uniform 1).problem 0 15 2).known
            ((headState64 inOrder (uniform 1).problem 0 15 2).openset.getD 0 0))
          (estimateOf (headState64 inOrder (uniform 1).problem 0 15 2).known a) = true) :=
  ⟨inOrder_enumeration, by decide, by decide, by decide, by decide, by decide,
    (heap_invariant64 inOrder inOrder_enumeration (uniform 1).problem
      (Finset.Icc (0 : Int) 15 : Finset Int) 0 15 (Finset.mem_coe.2 (by decide))
      (nanFree_of_finite (by decide) (by decide)) 2 _ rfl (by decide)).1,
    (heap_invariant64 inOrder inOrder_enumeration (uniform 1).problem
      (Finset.Icc (0 : Int) 15 : Finset Int) 0 15 (Finset.mem_coe.2 (by decide))
      (nanFree_of_finite (by decide) (by decide)) 2 _ rfl (by decide)).2.1⟩


/-! ### The heap operations on `minheap.Less64` keep the points and the back-pointers -/

theorem upLoop64_spec (fuel : Nat) (s : Search) (j : Nat) (hj : j < s.openset.length)
    (h : IdxInv s) :
    SameData s (heap.upLoop64 fuel s j) ∧ IdxInv (heap.upLoop64 fuel s j) := by
  induction fuel generalizing s j with
  | zero => exact ⟨sameData_refl s, h⟩
  | succ n ih =>
    by_cases hc : (j - 1) / 2 = j ∨ ¬ minheap.Less64 s j ((j - 1) / 2)
    · simp only [heap.upLoop64, if_pos hc]
      exact ⟨sameData_refl s, h⟩
    · simp only [heap.upLoop64, if_neg hc]
      have hi : (j - 1) / 2 < s.openset.length := lt_of_le_of_lt (parent_le j) hj
      have hs := sameData_Swap s ((j - 1) / 2) j hi hj
      have := ih (minheap.Swap s ((j - 1) / 2) j) ((j - 1) / 2) (by rw [hs.len]; exact hi)
        (idxInv_Swap h _ _ hi hj)
      exact ⟨sameData_trans hs this.1, this.2⟩

theorem child64_lt (s : Search) (i n : Nat) (h : ¬ n ≤ 2 * i + 1) :
    heap.child64 s i n < n := by
  unfold heap.child64
  split
  · rename_i hc; exact hc.1
  · omega

theorem downLoop64_spec (fuel : Nat) (s : Search) (i n : Nat) (hn : n ≤ s.openset.length)
    (hi : i < s.openset.length) (h : IdxInv s) :
    SameData s (heap.downLoop64 fuel s i n).1 ∧ IdxInv (heap.downLoop64 fuel s i n).1 := by
  induction fuel generalizing s i with
  | zero => exact ⟨sameData_refl s, h⟩
  | succ m ih =>
    by_cases h1 : n ≤ 2 * i + 1
    · simp only [heap.downLoop64, if_pos h1]
      exact ⟨sameData_refl s, h⟩
    · by_cases h2 : ¬ minheap.Less64 s (heap.child64 s i n) i
      · simp only [heap.downLoop64, if_neg h1, if_pos h2]
        exact ⟨sameData_refl s, h⟩
      · simp only [heap.downLoop64, if_neg h1, if_neg h2]
        have hj : heap.child64 s i n < s.openset.length :=
          lt_of_lt_of_le (child64_lt s i n h1) hn
        have hs := sameData_Swap s i _ hi hj
        have := ih (minheap.Swap s i _) _ (by rw [hs.len]; exact hn) (by rw [hs.len]; exact hj)
          (idxInv_Swap h _ _ hi hj)
        exact ⟨sameData_trans hs this.1, this.2⟩

/-- The function `heap.Push` on `minheap.Less64`, on a known point outside the open
set, whatever the estimates are. -/
theorem heapPush64_spec (s : Search) (l : Int) (h : IdxInv s) (hk : IsKnown s.known l)
    (hl : l ∉ s.openset) : Pushed s (heap.Push64 s l) l ∧ IdxInv (heap.Push64 s l) := by
  have hp := pushed_minheapPush s l
  have hi := idxInv_minheapPush h l hk hl
  have hu := upLoop64_spec (minheap.Len (minheap.Push s l) - 1 + 1) (minheap.Push s l)
    (minheap.Len (minheap.Push s l) - 1) (by unfold minheap.Len; rw [hp.len]; omega) hi
  exact ⟨pushed_trans hp hu.1, hu.2⟩

/-- The function `heap.Pop` on `minheap.Less64`, on a non-empty open set, whatever
the estimates are: a point of the open set leaves it. -/
theorem heapPop64_spec (s : Search) (h : IdxInv s) (hpos : 0 < s.openset.length) :
    Popped s (heap.Pop64 s).1 (heap.Pop64 s).2 ∧ IdxInv (heap.Pop64 s).1 := by
  have hn : s.openset.length - 1 < s.openset.length := by omega
  have hsw := sameData_Swap s 0 (s.openset.length - 1) hpos hn
  have hisw := idxInv_Swap h 0 (s.openset.length - 1) hpos hn
  have hlen := length_Swap s 0 (s.openset.length - 1)
  have hd := downLoop64_spec (s.openset.length - 1) (minheap.Swap s 0 (s.openset.length - 1)) 0
    (s.openset.length - 1) (by rw [hlen]; omega) (by rw [hlen]; exact hpos) hisw
  have hp := minheapPop_spec _ hd.2 (by rw [hd.1.len, hlen]; exact hpos)
  exact ⟨popped_of_sameData (sameData_trans hsw hd.1) hp.1, hp.2.1⟩

/-- The function `heap.Fix` on `minheap.Less64`, at a slot of the open set, whatever
the estimates are. -/
theorem heapFix64_spec (s : Search) (i : Nat) (h : IdxInv s) (hi : i < s.openset.length) :
    SameData s (heap.Fix64 s i) ∧ IdxInv (heap.Fix64 s i) := by
  have hd := downLoop64_spec (minheap.Len s) s i (minheap.Len s) (le_refl _) hi h
  unfold heap.Fix64 heap.down64
  simp only
  split
  · exact hd
  · have hu := upLoop64_spec (i + 1) (heap.downLoop64 (minheap.Len s) s i (minheap.Len s)).1 i
      (by rw [hd.1.len]; exact hi) hd.2
    exact ⟨sameData_trans hd.1 hu.1, hu.2⟩

/-! ### `Find` with `float64` arithmetic only follows edges of cost below `math.MaxFloat64` -/

theorem lite_vcost_nonneg {P : Interface} {V : Finset Int} {start : Int} {s : Search}
    (h : Lite P V start s) (l : Int) : 0 ≤ vcost s l := by
  unfold vcost
  split
  · rename_i hl; exact h.costNonneg l hl
  · exact le_of_lt MaxFloat64_pos

theorem lite_potential_nonneg {P : Interface} {V : Finset Int} {start : Int} {s : Search}
    (h : Lite P V start s) : (s.openset.length : Int) ≤ potential V s := by
  unfold potential
  have : 0 ≤ ∑ l in V, vcost s l := Finset.sum_nonneg (fun l _ => lite_vcost_nonneg h l)
  omega

theorem lite_register {P : Interface} {V : Finset Int} {start : Int} {s : Search}
    (h : Lite P V start s) (k : Int) (hk : k ∈ V) : Lite P V start (register s k) := by
  have hmp := MaxFloat64_pos
  have hcost : ∀ l, IsKnown (register s k).known l →
      (IsKnown s.known l ∧ costOf (register s k).known l = costOf s.known l) ∨
        costOf (register s k).known l = MaxFloat64 := by
    intro l hl
    by_cases hs : IsKnown s.known l
    · exact Or.inl ⟨hs, costOf_register_of_known s k l hs⟩
    · right
      rcases (isKnown_register s k l).1 hl with h1 | h1
      · exact absurd h1 hs
      · rw [h1]; rw [h1] at hs; exact (register_new s k hs).1
  refine ⟨idxInv_register h.idx k, ?_, ?_, ?_, ?_, ?_⟩
  · intro l hl
    rcases (isKnown_register s k l).1 hl with h1 | h1
    · exact h.knownIn l h1
    · rw [h1]; exact hk
  · intro l hl
    rcases hcost l hl with ⟨h1, e⟩ | e
    · rw [e]; exact h.costNonneg l h1
    · rw [e]; omega
  · intro l hl
    rcases hcost l hl with ⟨h1, e⟩ | e
    · rw [e]; exact h.costLe l h1
    · rw [e]
  · intro l hl
    rw [openset_register] at hl
    rw [costOf_register_of_known s k l (mem_known_of_idx h.idx hl)]
    exact h.openLt l hl
  · intro l hl hlt
    rcases hcost l hl with ⟨h1, e⟩ | e
    · rw [e] at hlt; exact h.passable l h1 hlt
    · rw [e] at hlt; exact absurd hlt (lt_irrefl _)

/-- The assignments of a relaxation followed by `heap.Push` or `heap.Fix` on
`minheap.Less64`, whatever the estimates are: the point `k` gets the cost `c`, and
the open set gains at most `k`. -/
theorem lowered64 (s u : Search) (k c e : Int) (hidx : IdxInv s) (hk : IsKnown s.known k)
    (ho2 : u.openset = s.openset) (hkn2 : u.known = setCost s.known k c e) :
    IdxInv (if indexOf u.known k = -1 then heap.Push64 u k
        else heap.Fix64 u (indexOf u.known k).toNat) ∧
      (∀ l, IsKnown (if indexOf u.known k = -1 then heap.Push64 u k
        else heap.Fix64 u (indexOf u.known k).toNat).known l ↔ IsKnown s.known l) ∧
      (∀ l, costOf (if indexOf u.known k = -1 then heap.Push64 u k
        else heap.Fix64 u (indexOf u.known k).toNat).known l =
          if l = k then c else costOf s.known l) ∧
      (∀ l ∈ (if indexOf u.known k = -1 then heap.Push64 u k
        else heap.Fix64 u (indexOf u.known k).toNat).openset, l ∈ s.openset ∨ l = k) ∧
      (if indexOf u.known k = -1 then heap.Push64 u k
        else heap.Fix64 u (indexOf u.known k).toNat).openset.length ≤
          s.openset.length + 1 := by
  have hK : ∀ l, IsKnown u.known l ↔ IsKnown s.known l := by
    intro l; rw [hkn2, isKnown_setCost]
  have hI : ∀ l, indexOf u.known l = indexOf s.known l := by
    intro l; rw [hkn2, indexOf_setCost]
  have hC : ∀ l, costOf u.known l = if l = k then c else costOf s.known l := by
    intro l
    rw [hkn2]
    by_cases hl : l = k
    · rw [if_pos hl, hl]; exact costOf_setCost_self _ _ _ _ hk
    · rw [if_neg hl]; exact costOf_setCost_ne _ _ _ _ _ hl
  have hidx2 : IdxInv u := by
    refine ⟨?_, ?_, ?_⟩
    · intro i j l hi hj; rw [ho2] at hi hj; exact hidx.inj i j l hi hj
    · intro i l hi
      rw [ho2] at hi
      rw [hK, hI]
      exact hidx.back i l hi
    · intro l hl hm
      rw [ho2] at hm
      rw [hK] at hl
      rw [hI]
      exact hidx.closed l hl hm
  by_cases hneg : indexOf u.known k = -1
  · simp only [if_pos hneg]
    have hnot : k ∉ s.openset := by
      intro hm
      obtain ⟨x, hx⟩ := List.mem_iff_getElem?.1 hm
      have := (hidx.back x k hx).2
      rw [hI] at hneg
      rw [hneg] at this
      omega
    have hp := heapPush64_spec u k hidx2 ((hK k).2 hk) (by rw [ho2]; exact hnot)
    refine ⟨hp.2, fun l => (hp.1.known l).trans (hK l), fun l => (hp.1.cost l).trans (hC l),
      ?_, ?_⟩
    · intro l hl
      rw [hp.1.mem l, ho2] at hl
      exact hl
    · rw [hp.1.len, ho2]
  · simp only [if_neg hneg]
    have hin : k ∈ s.openset := by
      by_contra hm
      exact hneg (by rw [hI]; exact hidx.closed k hk hm)
    obtain ⟨x, hx⟩ := List.mem_iff_getElem?.1 hin
    have hxl : x < s.openset.length := by
      by_contra hcon
      rw [List.getElem?_eq_none (by omega)] at hx
      exact Option.noConfusion hx
    have hix : (indexOf u.known k).toNat = x := by
      rw [hI, (hidx.back x k hx).2]; simp
    rw [hix]
    have hf := heapFix64_spec u x hidx2 (by rw [ho2]; exact hxl)
    refine ⟨hf.2, fun l => (hf.1.known l).trans (hK l), fun l => (hf.1.cost l).trans (hC l),
      ?_, ?_⟩
    · intro l hl
      rw [hf.1.mem l, ho2] at hl
      exact Or.inl hl
    · rw [hf.1.len, ho2]; omega

theorem potential_lowered {V : Finset Int} {s t : Search} {k c : Int}
    (hknown : ∀ l, IsKnown t.known l ↔ IsKnown s.known l)
    (hcost : ∀ l, costOf t.known l = if l = k then c else costOf s.known l)
    (hlen : t.openset.length ≤ s.openset.length + 1)
    (hk : IsKnown s.known k) (hkV : k ∈ V) (hc : c < costOf s.known k) :
    potential V t ≤ potential V s := by
  have hvk : vcost s k = costOf s.known k := by unfold vcost; rw [if_pos hk]
  have hv : ∀ l, vcost t l = if l = k then c else vcost s l := by
    intro l
    unfold vcost
    by_cases hl : IsKnown s.known l
    · rw [if_pos ((hknown l).2 hl), hcost l, if_pos hl]
    · have hlk : l ≠ k := fun e' => hl (e' ▸ hk)
      rw [if_neg (fun h' => hl ((hknown l).1 h')), if_neg hl, if_neg hlk]
  have hsum : (∑ l in V, vcost t l) < ∑ l in V, vcost s l := by
    apply Finset.sum_lt_sum
    · intro l _
      rw [hv l]
      by_cases hl : l = k
      · rw [if_pos hl, hl, hvk]; omega
      · rw [if_neg hl]
    · exact ⟨k, hkV, by rw [hv k, if_pos rfl, hvk]; exact hc⟩
  unfold potential
  have : (t.openset.length : Int) ≤ s.openset.length + 1 := by exact_mod_cast hlen
  omega

/-- One round of the `range` loop with `float64` arithmetic, whatever `Estimate`
returns: the invariant `Lite` is kept, the point being expanded keeps a cost below
`math.MaxFloat64`, and the measure does not grow. -/
theorem lite_relax64 {P : Interface} {V : Finset Int} {start goal : Int} {s : Search}
    (hfg : FiniteGraph P V) (hnn : NonNegative P V) (h : Lite P V start s) (cur : Int)
    (hcur : IsKnown s.known cur) (hcurlt : costOf s.known cur < MaxFloat64)
    (kv : Int × Int) (hkv : kv ∈ (P.Adjacent cur).1) :
    Lite P V start (relax64 P goal cur s kv) ∧
      IsKnown (relax64 P goal cur s kv).known cur ∧
      costOf (relax64 P goal cur s kv).known cur < MaxFloat64 ∧
      potential V (relax64 P goal cur s kv) ≤ potential V s := by
  have hmi := F64_max_lt_inf
  have hcurV := h.knownIn cur hcur
  have hkV : kv.1 ∈ V := hfg cur hcurV kv hkv
  have hv0 : 0 ≤ kv.2 := hnn cur hcurV kv hkv
  have h1 := lite_register h kv.1 hkV
  have hk1 : IsKnown (register s kv.1).known kv.1 := (isKnown_register s kv.1 kv.1).2 (Or.inr rfl)
  have hcur1 : IsKnown (register s kv.1).known cur := (isKnown_register s kv.1 cur).2 (Or.inl hcur)
  have hcc : costOf (register s kv.1).known cur = costOf s.known cur :=
    costOf_register_of_known s kv.1 cur hcur
  have hpot1 : potential V (register s kv.1) = potential V s :=
    potential_congr V s (register s kv.1) (fun l => vcost_register s kv.1 l)
      (by rw [openset_register])
  rw [relax64_unfold]
  by_cases hlt : F64.lt (F64.add kv.2 (costOf (register s kv.1).known cur))
      (costOf (register s kv.1).known kv.1) = true
  · rw [if_pos hlt]
    obtain ⟨hc1, _, hc3⟩ := F64_lt_true _ _ hlt
    have hg0 := h1.costNonneg cur hcur1
    have hk1le := h1.costLe kv.1 hk1
    have hvlt : kv.2 < MaxFloat64 := by
      by_contra hcon
      have := F64_add_ge_max kv.2 (costOf (register s kv.1).known cur) (by omega) hg0
        (by rw [hcc]; omega)
      omega
    have hc0 : 0 ≤ F64.add kv.2 (costOf (register s kv.1).known cur) :=
      F64_add_nonneg _ _ hv0 (by omega) hg0 (by rw [hcc]; omega)
    generalize hc : F64.add kv.2 (costOf (register s kv.1).known cur) = c at hlt hc1 hc3 hc0
    obtain ⟨l1, l2, l3, l4, l5⟩ := lowered64 (register s kv.1)
      (improve64 P goal cur (register s kv.1) kv.1 c) kv.1 c
      (F64.add c (P.Estimate kv.1 goal)) h1.idx hk1 rfl rfl
    generalize (if indexOf (improve64 P goal cur (register s kv.1) kv.1 c).known kv.1 = -1 then
        heap.Push64 (improve64 P goal cur (register s kv.1) kv.1 c) kv.1
      else heap.Fix64 (improve64 P goal cur (register s kv.1) kv.1 c)
        (indexOf (improve64 P goal cur (register s kv.1) kv.1 c).known kv.1).toNat) = t
      at l1 l2 l3 l4 l5
    have hcur_path := h.passable cur hcur hcurlt
    refine ⟨⟨l1, ?_, ?_, ?_, ?_, ?_⟩, (l2 cur).2 hcur1, ?_, ?_⟩
    · intro l hl; exact h1.knownIn l ((l2 l).1 hl)
    · intro l hl
      rw [l3 l]
      split
      · exact hc0
      · exact h1.costNonneg l ((l2 l).1 hl)
    · intro l hl
      rw [l3 l]
      split
      · omega
      · exact h1.costLe l ((l2 l).1 hl)
    · intro l hl
      rw [l3 l]
      split
      · omega
      · rename_i hne
        rcases l4 l hl with h2 | h2
        · exact h1.openLt l h2
        · exact absurd h2 hne
    · intro l hl hlt'
      rw [l3 l] at hlt'
      by_cases hlk : l = kv.1
      · obtain ⟨p, hp⟩ := hcur_path
        rw [hlk]
        exact ⟨p ++ [kv.1], passable_step hp ⟨kv, hkv, rfl, hvlt⟩⟩
      · rw [if_neg hlk] at hlt'
        exact h1.passable l ((l2 l).1 hl) hlt'
    · rw [l3 cur]
      split
      · omega
      · rw [hcc]; exact hcurlt
    · rw [← hpot1]
      exact potential_lowered l2 l3 l5 hk1 hkV hc3
  · rw [if_neg hlt]
    exact ⟨h1, hcur1, by rw [hcc]; exact hcurlt, le_of_eq hpot1⟩

theorem lite_fold64 {P : Interface} {V : Finset Int} {start goal : Int}
    (hfg : FiniteGraph P V) (hnn : NonNegative P V) (cur : Int) (L : List (Int × Int))
    (hL : ∀ kv ∈ L, kv ∈ (P.Adjacent cur).1) :
    ∀ s : Search, Lite P V start s → IsKnown s.known cur → costOf s.known cur < MaxFloat64 →
      Lite P V start (L.foldl (relax64 P goal cur) s) ∧
        potential V (L.foldl (relax64 P goal cur) s) ≤ potential V s := by
  induction L with
  | nil => intro s h _ _; exact ⟨h, le_refl _⟩
  | cons e L ih =>
    intro s h hcur hlt
    rw [List.foldl_cons]
    obtain ⟨r1, r2, r3, r4⟩ := @lite_relax64 P V start goal s hfg hnn h cur hcur hlt e
      (hL e (List.mem_cons_self e L))
    obtain ⟨q1, q2⟩ := ih (fun kv hkv => hL kv (List.mem_cons_of_mem e hkv)) _ r1 r2 r3
    exact ⟨q1, le_trans q2 r4⟩

theorem lite_pop64 {P : Interface} {V : Finset Int} {start : Int} {s : Search}
    (h : Lite P V start s) (hpos : 0 < s.openset.length) (t : Search)
    (ho : t.openset = (heap.Pop64 s).1.openset) (hk : t.known = (heap.Pop64 s).1.known) :
    Lite P V start t ∧ (heap.Pop64 s).2 ∈ s.openset ∧ IsKnown t.known (heap.Pop64 s).2 ∧
      costOf t.known (heap.Pop64 s).2 < MaxFloat64 ∧ potential V t + 1 = potential V s := by
  obtain ⟨hpp, hidx⟩ := heapPop64_spec s h.idx hpos
  have hK : ∀ l, IsKnown t.known l ↔ IsKnown s.known l := fun l => by rw [hk]; exact hpp.known l
  have hC : ∀ l, costOf t.known l = costOf s.known l := fun l => by rw [hk]; exact hpp.cost l
  have hM : ∀ l, l ∈ t.openset → l ∈ s.openset := fun l hl => by
    rw [ho] at hl; exact ((hpp.mem l).1 hl).1
  refine ⟨⟨idxInv_congr hidx ho hk, ?_, ?_, ?_, ?_, ?_⟩, hpp.was,
    (hK _).2 (mem_known_of_idx h.idx hpp.was), by rw [hC]; exact h.openLt _ hpp.was, ?_⟩
  · intro l hl; exact h.knownIn l ((hK l).1 hl)
  · intro l hl; rw [hC]; exact h.costNonneg l ((hK l).1 hl)
  · intro l hl; rw [hC]; exact h.costLe l ((hK l).1 hl)
  · intro l hl; rw [hC]; exact h.openLt l (hM l hl)
  · intro l hl hlt; rw [hC] at hlt; exact h.passable l ((hK l).1 hl) hlt
  · have hv : ∀ l, vcost t l = vcost s l := by
      intro l
      unfold vcost
      by_cases hl : IsKnown s.known l
      · rw [if_pos hl, if_pos ((hK l).2 hl), hC]
      · rw [if_neg hl, if_neg (fun h' => hl ((hK l).1 h'))]
    have hlen : t.openset.length + 1 = s.openset.length := by rw [ho]; exact hpp.len
    have hsum : (∑ l in V, vcost t l) = ∑ l in V, vcost s l :=
      Finset.sum_congr rfl (fun l _ => hv l)
    unfold potential
    have : ((t.openset.length : Nat) : Int) + 1 = (s.openset.length : Nat) := by
      exact_mod_cast hlen
    omega

/-- One iteration of the loop of `Find` with `float64` arithmetic, whatever
`Estimate` returns: the invariant `Lite` is kept and the measure goes down. -/
theorem lite_expand64 {P : Interface} {V : Finset Int} {start goal : Int} {s : Search}
    {ord : Nat → List (Int × Int) → List (Int × Int)} (hord : Enumeration ord)
    (hfg : FiniteGraph P V) (hnn : NonNegative P V) (h : Lite P V start s)
    (hpos : 0 < s.openset.length) :
    Lite P V start (expand64 ord P goal s) ∧
      potential V (expand64 ord P goal s) < potential V s := by
  obtain ⟨p1, _, p3, p4, p5⟩ := lite_pop64 h hpos
    { (heap.Pop64 s).1 with pops := (heap.Pop64 s).1.pops ++ [(heap.Pop64 s).2] } rfl rfl
  obtain ⟨q1, q2⟩ := @lite_fold64 P V start goal hfg hnn (heap.Pop64 s).2
    (ord s.pops.length (P.Adjacent (heap.Pop64 s).2).1)
    (fun kv hkv => (hord _ _).subset hkv) _ p1 p3 p4
  refine ⟨q1, ?_⟩
  have : potential V (expand64 ord P goal s) ≤
      potential V { (heap.Pop64 s).1 with pops := (heap.Pop64 s).1.pops ++ [(heap.Pop64 s).2] } :=
    q2
  omega

theorem lite_start (P : Interface) (V : Finset Int) (st goal : Int) (hst : st ∈ V) :
    Lite P V st (start64 P st goal) := by
  rw [start64_eq]
  have hw := (start_spec P V st goal hst).1
  refine ⟨hw.idx, hw.knownIn, hw.costNonneg, hw.costLe, hw.openLt, ?_⟩
  intro l hl _
  rw [(start_known P st goal l).1 hl]
  exact ⟨[st], List.chain'_singleton st, rfl, rfl⟩

theorem loop64_nil {P : Interface} {V : Finset Int} {start goal : Int}
    {ord : Nat → List (Int × Int) → List (Int × Int)} (hord : Enumeration ord)
    (hfg : FiniteGraph P V) (hnn : NonNegative P V)
    (hno : ¬ ∃ p, PassableFromTo P start goal p) :
    ∀ (n : Nat) (s : Search), Lite P V start s → potential V s ≤ n →
      ∀ rfuel fuel, n < fuel → loop64 ord P goal rfuel fuel s = some [] := by
  intro n
  induction n with
  | zero =>
    intro s h hp rfuel fuel hf
    obtain ⟨f, rfl⟩ : ∃ f, fuel = f + 1 := ⟨fuel - 1, by omega⟩
    have hlen := lite_potential_nonneg h
    have h0 : ¬ 0 < minheap.Len s := by
      unfold minheap.Len
      intro hc
      have : (1 : Int) ≤ (s.openset.length : Nat) := by exact_mod_cast hc
      omega
    simp only [loop64, if_neg h0]
  | succ n ih =>
    intro s h hp rfuel fuel hf
    obtain ⟨f, rfl⟩ : ∃ f, fuel = f + 1 := ⟨fuel - 1, by omega⟩
    by_cases h0 : 0 < minheap.Len s
    · have hpos : 0 < s.openset.length := h0
      have hne : (heap.Pop64 s).2 ≠ goal := by
        intro hg
        obtain ⟨_, p2, _, _, _⟩ := lite_pop64 h hpos (heap.Pop64 s).1 rfl rfl
        rw [hg] at p2
        exact hno (h.passable goal (mem_known_of_idx h.idx p2) (h.openLt goal p2))
      simp only [loop64, if_pos h0, if_neg hne]
      obtain ⟨e1, e2⟩ := @lite_expand64 P V start goal s ord hord hfg hnn h hpos
      exact ih _ e1 (by omega) rfuel f (by omega)
    · simp only [loop64, if_neg h0]

/-- C3 (amended): for every finite graph with non-negative edge costs, every
heuristic (whatever `Estimate` returns, a `NaN` or an infinity included) and any
enumeration order, if the goal cannot be reached from the start along edges of cost
below `math.MaxFloat64` (in particular if it cannot be reached along the edges
reported by `Adjacent` at all), then `Find`, with `float64` sums and comparisons,
returns `nil`. -/
theorem Find64_impassable {P : Interface} {V : Finset Int} {start goal : Int}
    {ord : Nat → List (Int × Int) → List (Int × Int)} (hord : Enumeration ord)
    (hfg : FiniteGraph P V) (hnn : NonNegative P V) (hst : start ∈ V)
    (hno : ¬ ∃ p, PassableFromTo P start goal p) :
    ∃ N, ∀ fuel, N ≤ fuel → Find64 ord fuel P start goal = some [] := by
  refine ⟨(potential V (start64 P start goal)).toNat + 1, fun fuel hf => ?_⟩
  unfold Find64
  exact loop64_nil hord hfg hnn hno (potential V (start64 P start goal)).toNat _
    (lite_start P V start goal hst) (by omega) fuel fuel (by omega)

set_option maxRecDepth 100000 in
set_option exponentiation.threshold 2000 in
/-- Witness for C3 (amended): the test's 4x4 grid whose third row is blocked, from 0
to 15, with every map enumerated in reverse order.  The eight cells of the first two
rows are popped, the open set runs empty and `Find` returns `nil`. -/
theorem Find64_impassable_witness :
    Enumeration reversed ∧ FiniteGraph barrier.problem (Finset.Icc 0 15) ∧
      NonNegative barrier.problem (Finset.Icc 0 15) ∧
      (¬ ∃ p, PassableFromTo barrier.problem 0 15 p) ∧
      Runs64 reversed barrier.problem 0 15 8 ∧
      (headState64 reversed barrier.problem 0 15 8).pops = [0, 5, 6, 7, 3, 2, 1, 4] ∧
      (headState64 reversed barrier.problem 0 15 8).openset = [] ∧
      Find64 reversed 9 barrier.problem 0 15 = some [] ∧
      ∃ N, ∀ fuel, N ≤ fuel → Find64 reversed fuel barrier.problem 0 15 = some [] :=
  ⟨reversed_enumeration, by decide, by decide, barrier_impassable, by decide, by decide,
    by decide, by decide,
    Find64_impassable (V := Finset.Icc 0 15) reversed_enumeration (by decide) (by decide)
      (by decide) barrier_impassable⟩

end Astar
